import Mathlib

/-!
# SLR numerical core: likelihood engine, bound-constrained optimizer, Brent minimizer

A shallow embedding of `src/like.c`, `src/optimize_new.c` and `src/brent.c`.

Conventions of the embedding.

* A C `double` is an element of a linearly ordered field `K` (exact arithmetic:
  no rounding, no overflow, no NaN).  Every definition is computable and can be
  run at `K = ℚ`; statements about `exp` and `log` are made at `K = ℝ`.
* `log` and `sqrt` of `<math.h>` are parameters of the functions that call them.
* A C array is an index function `Nat → K`; only the indices below the array
  length are meaningful.  The per-pattern buffers `plik` and `mid` of a node are
  written `plik a b` for the C entry `plik[a * nbase + b]`.
* A C `for (i = 0; i < n; i++)` loop is `forLoop n body init`.
* A failed `assert` is the `Except` error of the function.  A `while` loop whose
  number of iterations is not bounded by its text takes an iteration budget
  `fuel`; using it up is an error of its own, distinct from a failed `assert`.
* Functions of the repository that are called but are not among the sources are
  parameters, or are modelled from the specification where the doc comment says so.
-/

namespace SLR

/-! ## Loops -/

/-- The C loop `for (i = 0; i < n; i++) s = body(i, s);` started in state `s`. -/
def forLoop {σ : Type} (n : Nat) (body : Nat → σ → σ) (s : σ) : σ :=
  match n with
  | 0 => s
  | k + 1 => body k (forLoop k body s)

/-- The C loop `for (i = 0; i < n; i++) s = body(i, s);` whose body may fail an assertion. -/
def forLoopE {ε σ : Type} (n : Nat) (body : Nat → σ → Except ε σ) (s : σ) : Except ε σ :=
  match n with
  | 0 => .ok s
  | k + 1 =>
    match forLoopE k body s with
    | .error e => .error e
    | .ok t => body k t

/-! ## like.c -/

/-- The constant `INT_MAX` of `<limits.h>` (32-bit `int`). -/
def INT_MAX : Int := 2147483647

/-- The constant `EVERY` of like.c: a node rescales when its count exceeds it. -/
def EVERY : Int := 20

/-- The constant `SCALE` of like.c: rescaling is compiled in when it is 1. -/
def SCALE : Nat := 1

/-- The fields of `MODEL` (model.h) that like.c reads.  `gapChar` is the value of
`GapChar(model->seqtype)`. -/
structure MODEL (K : Type) where
  nbase : Nat
  n_unique_pts : Nat
  exact_obs : Int
  gapChar : Nat
  pi : Nat → K
  pt_freq : Nat → K
  n_pts : Nat
  index : Nat → Int

mutual
/-- A `NODE` of the tree (tree.h) seen from its parent: a leaf with its observed
states `seq` (and its own vector `plik`, used when observations are not exact),
or an internal node with its children.  `mat` is the transition matrix that
`GetP(model, node->blength[br], node->mat)` stores for the branch to the parent,
row-major: `mat[b * nbase + k]`. -/
inductive NODE (K : Type) where
  | leaf (mat : Nat → K) (seq : Nat → Nat) (plik : Nat → Nat → K) : NODE K
  | internal (mat : Nat → K) (kids : KIDS K) : NODE K
/-- The children `CHILD(node, 0), CHILD(node, 1), ...` of a node other than its parent,
in branch order. -/
inductive KIDS (K : Type) where
  | nil : KIDS K
  | cons (child : NODE K) (rest : KIDS K) : KIDS K
end

/-- The children of a node as a list. -/
def KIDS.toList {K : Type} : KIDS K → List (NODE K)
  | .nil => []
  | .cons c ks => c :: KIDS.toList ks

/-- The buffers of a node that `CalcLike_Sub` accumulates into: `plik`,
`scalefactor` and the count `scale`. -/
structure BUF (K : Type) where
  plik : Nat → Nat → K
  scalefactor : Nat → K
  scale : Int

/-- What one call `CalcLike_Sub(node, parent, ...)` with `parent != NULL` leaves:
the node's own buffers, the node's `mid`, and the parent's updated buffers. -/
structure SUBRESULT (K : Type) where
  own : BUF K
  mid : Nat → Nat → K
  parent : BUF K

section like

variable {K : Type} [LinearOrderedField K]

/-- Modelled from the spec: `Matrix_MatrixT_Mult(A, nr1, nc1, B, nr2, nc2, C)` of
matrix.c, which is not among the sources: the product of `A` with the transpose
of `B`, `C[a][b] = sum over k of A[a][k] * B[b][k]` (the child's partial-likelihood
vector propagated through its transition matrix). -/
def Matrix_MatrixT_Mult (A : Nat → Nat → K) (nc1 : Nat) (B : Nat → K) (nc2 : Nat) :
    Nat → Nat → K :=
  fun a b => ∑ k in Finset.range nc1, A a k * B (b * nc2 + k)

/-- The loop of like.c lines 155-160: the maximum of 0 and the entries of pattern `a`. -/
def rowMax (nbase : Nat) (plik : Nat → Nat → K) (a : Nat) : K :=
  forLoop nbase (fun b max => if plik a b > max then plik a b else max) 0

/-- The buffers of an internal node after `memset(scalefactor, 0)`, `scale = 0`
and setting the likelihood array to ones (like.c lines 71-72, 132-135). -/
def BUF.ones : BUF K :=
  { plik := fun _ _ => 1, scalefactor := fun _ => 0, scale := 0 }

/-- The rescaling block of like.c lines 153-167, applied when
`1 == SCALE && node->scale > EVERY`. -/
def rescaleNode (scaleFlag : Nat) (log : K → K) (m : MODEL K) (own : BUF K) : BUF K :=
  if scaleFlag = 1 ∧ own.scale > EVERY then
    { plik := fun a b => own.plik a b / rowMax m.nbase own.plik a,
      scalefactor := fun a => own.scalefactor a + log (rowMax m.nbase own.plik a),
      scale := 0 }
  else own

mutual
/-- The function `CalcLike_Sub` of like.c (lines 64-183) called with a non-NULL
parent whose buffers are `parent`.  `scaleFlag` is the value of the macro `SCALE`. -/
def CalcLike_Sub (scaleFlag : Nat) (log : K → K) (m : MODEL K) :
    NODE K → BUF K → SUBRESULT K
  | .leaf mat seq lplik, parent =>
    if m.exact_obs = 1 then
      { own := { plik := lplik, scalefactor := fun _ => 0, scale := 0 },
        mid := fun a b => if seq a ≠ m.gapChar then mat (seq a + b * m.nbase) else 1,
        parent :=
          { plik := fun a b =>
              if seq a ≠ m.gapChar then parent.plik a b * mat (seq a + b * m.nbase)
              else parent.plik a b,
            scalefactor := parent.scalefactor,
            scale := parent.scale + 1 } }
    else
      { own := { plik := lplik, scalefactor := fun _ => 0, scale := 0 },
        mid := fun a _ => forLoop m.nbase (fun c r => r + lplik a c * mat c) 0,
        parent :=
          { plik := fun a b =>
              parent.plik a b * forLoop m.nbase (fun c r => r + lplik a c * mat c) 0,
            scalefactor := parent.scalefactor,
            scale := parent.scale + 1 } }
  | .internal mat kids, parent =>
    let own := rescaleNode scaleFlag log m (CalcLike_kids scaleFlag log m kids BUF.ones)
    let mid := Matrix_MatrixT_Mult own.plik m.nbase mat m.nbase
    { own := own,
      mid := mid,
      parent :=
        { plik := fun a b => parent.plik a b * mid a b,
          scalefactor := fun a => parent.scalefactor a + own.scalefactor a,
          scale := parent.scale + (own.scale + 1) } }
/-- The loop of like.c lines 139-143: `CalcLike_Sub` on every child in turn, each
call updating the buffers `node` of the node whose children they are. -/
def CalcLike_kids (scaleFlag : Nat) (log : K → K) (m : MODEL K) :
    KIDS K → BUF K → BUF K
  | .nil, node => node
  | .cons c ks, node =>
    CalcLike_kids scaleFlag log m ks (CalcLike_Sub scaleFlag log m c node).parent
end

/-- The call `CalcLike_Sub(tree->tree, NULL, tree, model)` on the root, an internal
node given by its children `tree`: the root's buffers on return (like.c line 150). -/
def CalcLike_root (scaleFlag : Nat) (log : K → K) (m : MODEL K) (tree : KIDS K) : BUF K :=
  CalcLike_kids scaleFlag log m tree BUF.ones

/-- The two tests of like.c lines 213-218 on one entry of the root vector; every
value of `K` is finite, so only the sign test can fire. -/
def clampEntry (v : K) : K := if v < 0 then 0 else v

/-- The function `LikeVectorSub` of like.c (lines 202-224): the vector `p` and the
root's buffers on return. -/
def LikeVectorSub (scaleFlag : Nat) (log : K → K) (m : MODEL K) (tree : KIDS K) :
    (Nat → K) × BUF K :=
  let root := CalcLike_root scaleFlag log m tree
  let plik := fun a b => clampEntry (root.plik a b)
  (fun a => forLoop m.nbase (fun b acc => acc + plik a b * m.pi b) 0,
   { root with plik := plik })

mutual
/-- Pattern `a` has a strictly positive maximum at every node of the subtree where
`CalcLike_Sub` applies a rescale. -/
def rescalePositive (scaleFlag : Nat) (log : K → K) (m : MODEL K) (a : Nat) : NODE K → Bool
  | .leaf _ _ _ => true
  | .internal _ kids =>
    rescalePositive_kids scaleFlag log m a kids &&
      (if scaleFlag = 1 ∧ (CalcLike_kids scaleFlag log m kids BUF.ones).scale > EVERY then
        decide (0 < rowMax m.nbase (CalcLike_kids scaleFlag log m kids BUF.ones).plik a)
      else true)
/-- The same for every child in a list of children. -/
def rescalePositive_kids (scaleFlag : Nat) (log : K → K) (m : MODEL K) (a : Nat) :
    KIDS K → Bool
  | .nil => true
  | .cons c ks =>
    rescalePositive scaleFlag log m a c && rescalePositive_kids scaleFlag log m a ks
end

/-- The propagated entry of a child as the data model describes it: the entry
`mat[s + b * nbase]` for a leaf observed in state `s`, 1 for a leaf holding the gap
character, and `sum over k of mat[b * nbase + k] * plik_c[a][k]` for an internal child
whose forward vector is `plik_c`. -/
def propagated (scaleFlag : Nat) (log : K → K) (m : MODEL K) (a b : Nat) : NODE K → K
  | .leaf mat seq _ => if seq a ≠ m.gapChar then mat (seq a + b * m.nbase) else 1
  | .internal mat kids =>
    ∑ k in Finset.range m.nbase,
      mat (b * m.nbase + k) *
        (CalcLike_Sub scaleFlag log m (.internal mat kids) BUF.ones).own.plik a k

/-- The function `Like` of like.c (lines 226-245).  `index a` is a C `int`; the
entry of `pi` read for a negative index is `pi[-index[a] - 1]`. -/
def Like (log : K → K) (scale like freq : Nat → K) (usize : Nat) (pi : Nat → K)
    (nsize : Nat) (index : Nat → Int) : K :=
  let result := forLoop usize
    (fun a result => (result + freq a * log (like a)) + freq a * scale a) 0
  forLoop nsize
    (fun a result =>
      if index a < 0 ∧ index a ≠ -INT_MAX then
        result + log (pi (-index a - 1).toNat)
      else result) result

end like

/-! ### like.c: the backward pass -/

/-- What the forward pass leaves at a node for `Backwards` to read: `mid`, `scalefactor`
and the count `scale`. -/
structure FWD (K : Type) where
  mid : Nat → Nat → K
  scalefactor : Nat → K
  scale : Int

/-- What `Backwards` writes at a node: `back`, `bscalefactor` and the count `bscale`. -/
structure BACK (K : Type) where
  back : Nat → Nat → K
  bscalefactor : Nat → K
  bscale : Int

/-- The child `CHILD(node, i)` in the list of children, if there is one. -/
def kidAt {K : Type} : KIDS K → Nat → Option (NODE K)
  | .nil, _ => none
  | .cons c _, 0 => some c
  | .cons _ ks, i + 1 => kidAt ks i

/-- The number of children. -/
def KIDS.length {K : Type} : KIDS K → Nat
  | .nil => 0
  | .cons _ ks => KIDS.length ks + 1

/-- The node reached from a node with children `kids` by the path of child numbers. -/
def nodeAt {K : Type} : KIDS K → List Nat → Option (NODE K)
  | _, [] => none
  | kids, i :: rest =>
    match kidAt kids i with
    | none => none
    | some v =>
      if rest.isEmpty then some v
      else
        match v with
        | .leaf _ _ _ => none
        | .internal _ ks => nodeAt ks rest

section like_backwards
variable {K : Type} [LinearOrderedField K]

/-- The values that the forward pass `CalcLike_Sub` leaves at child `j` of a node with
children `kids` (all zero when there is no such child). -/
def fwdAt (scaleFlag : Nat) (log : K → K) (m : MODEL K) (kids : KIDS K) (j : Nat) : FWD K :=
  match kidAt kids j with
  | none => { mid := fun _ _ => 0, scalefactor := fun _ => 0, scale := 0 }
  | some c =>
    { mid := (CalcLike_Sub scaleFlag log m c BUF.ones).mid
      scalefactor := (CalcLike_Sub scaleFlag log m c BUF.ones).own.scalefactor
      scale := (CalcLike_Sub scaleFlag log m c BUF.ones).own.scale }

/-- The start of `Backwards(node, parent, ...)` for a node below the root (like.c lines
595-603 and 618-624): all ones and zero counts when the parent is the root (`none`),
and otherwise the parent's `back` propagated through the parent's matrix `mat` by
`Matrix_MatrixT_Mult`, with the parent's `bscalefactor` and `bscale`. -/
def backStart (m : MODEL K) : Option (BACK K × (Nat → K)) → BACK K
  | none => { back := fun _ _ => 1, bscalefactor := fun _ => 0, bscale := 0 }
  | some (pb, mat) =>
    { back := Matrix_MatrixT_Mult pb.back m.nbase mat m.nbase
      bscalefactor := pb.bscalefactor
      bscale := pb.bscale }

/-- The loops of like.c lines 604-616 and 625-637 over the parent's children `bnode`
other than the node itself (child number `self`): `back` is multiplied by
`bnode->mid`, and `bnode->scalefactor`, `bnode->scale` are added.  The children of the
root are its branches from 0; the children of another node are its branches from 1,
branch 0 being its own parent. -/
def siblingLoop (nsib : Nat) (sibs : Nat → FWD K) (self : Nat) (init : BACK K) : BACK K :=
  forLoop nsib (fun j acc =>
    if j ≠ self then
      { back := fun a b => acc.back a b * (sibs j).mid a b
        bscalefactor := fun a => acc.bscalefactor a + (sibs j).scalefactor a
        bscale := acc.bscale + (sibs j).scale }
    else acc) init

/-- The rescaling block of like.c lines 642-655, applied when
`1 == SCALE && node->bscale > EVERY`. -/
def rescaleBack (scaleFlag : Nat) (log : K → K) (m : MODEL K) (b : BACK K) : BACK K :=
  if scaleFlag = 1 ∧ b.bscale > EVERY then
    { back := fun a j => b.back a j / rowMax m.nbase b.back a
      bscalefactor := fun a => b.bscalefactor a + log (rowMax m.nbase b.back a)
      bscale := 0 }
  else b

/-- What `Backwards(node, parent, ...)` writes at `node`, child number `self` of a
parent with children `kids` (like.c lines 592-655); `above` is `none` when the parent
is the root and otherwise the parent's `back` data with the parent's matrix. -/
def Backwards_node (scaleFlag : Nat) (log : K → K) (m : MODEL K)
    (above : Option (BACK K × (Nat → K))) (kids : KIDS K) (self : Nat) : BACK K :=
  let acc := siblingLoop (KIDS.length kids) (fwdAt scaleFlag log m kids) self (backStart m above)
  rescaleBack scaleFlag log m { acc with bscale := acc.bscale + 1 }

/-- The traversal `Backwards` of like.c (lines 586-669) below a node with children
`kids`: what it has written, when it returns, at the node reached by the path of
child numbers (`none` when there is no such node).  Each call writes the node's data
from the parent's, which is final by then, and then descends. -/
def Backwards (scaleFlag : Nat) (log : K → K) (m : MODEL K) :
    KIDS K → Option (BACK K × (Nat → K)) → List Nat → Option (BACK K)
  | _, _, [] => none
  | kids, above, i :: rest =>
    match kidAt kids i with
    | none => none
    | some v =>
      if rest.isEmpty then some (Backwards_node scaleFlag log m above kids i)
      else
        match v with
        | .leaf _ _ _ => none
        | .internal mat ks =>
          Backwards scaleFlag log m ks
            (some (Backwards_node scaleFlag log m above kids i, mat)) rest

end like_backwards

/-! ## optimize_new.c -/

/-- The error flag `HESSIAN_NONPD` of optimize_new.c. -/
def HESSIAN_NONPD : Nat := 1

/-- The error flag `PARAM_BOUND` of optimize_new.c. -/
def PARAM_BOUND : Nat := 2

/-- The error flag `NEWTON` of optimize_new.c. -/
def NEWTON : Nat := 4

/-- The error flag `TRUNC_BOUND` of optimize_new.c. -/
def TRUNC_BOUND : Nat := 8

/-- The error flag `INVALID_STEP` of optimize_new.c. -/
def INVALID_STEP : Nat := 16

/-- The error flag `BAD_STEP` of optimize_new.c. -/
def BAD_STEP : Nat := 32

/-- The error flag `REARRANGED` of optimize_new.c. -/
def REARRANGED : Nat := 64

/-- The error flag `DOG_LEG` of optimize_new.c. -/
def DOG_LEG : Nat := 128

/-- The macro `RESTART` of optimize_new.c. -/
def RESTART : Nat := 1

/-- The local `max_restart` of `Optimize` (optimize_new.c line 142). -/
def max_restart : Int := 20

/-- The local `max_step` of `Optimize` (optimize_new.c line 141); the function assigns
it and never reads it. -/
def max_step : Nat := 100

/-- The first pass of `MakeErrString` (optimize_new.c lines 216-231): the count `nerr`
that sizes the buffer (`nerr + 1` characters).  `errn` is the `int` as its bit pattern,
`&&&` the bitwise and. -/
def MakeErrString_count (errn : Nat) : Nat :=
  let nerr := 0
  let nerr := if errn &&& HESSIAN_NONPD = HESSIAN_NONPD then nerr + 1 else nerr
  let nerr := if errn &&& PARAM_BOUND = PARAM_BOUND then nerr + 1 else nerr
  let nerr := if errn &&& NEWTON = NEWTON then nerr + 1 else nerr
  let nerr := if errn &&& TRUNC_BOUND = TRUNC_BOUND then nerr + 1 else nerr
  let nerr := if errn &&& INVALID_STEP = INVALID_STEP then nerr + 1 else nerr
  let nerr := if errn &&& BAD_STEP = BAD_STEP then nerr + 1 else nerr
  let nerr := if errn &&& REARRANGED = REARRANGED then nerr + 1 else nerr
  if errn &&& DOG_LEG = DOG_LEG then nerr + 1 else nerr

/-- The function `MakeErrString` of optimize_new.c (lines 205-257): the characters
written by its second pass (lines 237-253), in order, before the terminating NUL. -/
def MakeErrString (errn : Nat) : List Char :=
  let string : List Char := []
  let string := if errn &&& HESSIAN_NONPD = HESSIAN_NONPD then string ++ ['-'] else string
  let string := if errn &&& PARAM_BOUND = PARAM_BOUND then string ++ ['B'] else string
  let string := if errn &&& NEWTON = NEWTON then string ++ ['N'] else string
  let string := if errn &&& TRUNC_BOUND = TRUNC_BOUND then string ++ ['T'] else string
  let string := if errn &&& INVALID_STEP = INVALID_STEP then string ++ ['V'] else string
  let string := if errn &&& BAD_STEP = BAD_STEP then string ++ ['W'] else string
  let string := if errn &&& REARRANGED = REARRANGED then string ++ ['R'] else string
  if errn &&& DOG_LEG = DOG_LEG then string ++ ['D'] else string

/-- The ways a function of optimize_new.c can fail to return: the `assert`s on its
arguments at entry, the `assert(fact > 0.)` inside the loop of `TrimAtBoundaries`,
the `assert` at the exit of `TrimAtBoundaries`, or the iteration budget given to the
embedding was used up inside the `do ... while` loop of `TakeStep`. -/
inductive OptError where
  | entry : OptError
  | factPositive : OptError
  | exit : OptError
  | fuel : OptError
  deriving DecidableEq

/-- The structure `OPTOBJ` of optimize_new.c.  `direct` is `opt->space[0 .. n)`, the
search direction (the rest of `space` is scratch memory that is written before it
is read); `scale` is `((struct scaleinfo *) opt->state)->scale`.  The callbacks `f`,
`df` are in `OPTENV`. -/
structure OPTOBJ (K : Type) where
  x : Nat → K
  xn : Nat → K
  dx : Nat → K
  dxn : Nat → K
  H : Nat → K
  direct : Nat → K
  lb : Nat → K
  ub : Nat → K
  scale : Nat → K
  fc : K
  fn : K
  onbound : Nat → Bool
  n : Nat
  neval : Nat
  trust : K

/-- What `linemin_backtrack` leaves: its return value, the point `xn` and `*neval`. -/
structure LINEMIN (K : Type) where
  value : K
  xn : Nat → K
  neval : Nat

/-- The functions that optimize_new.c calls and that are not among the sources, as
parameters: the caller's objective `f` and gradient `df` (in original units, as
`fWrap` and `dfWrap` call them), `sqrt` of `<math.h>`, `InvertMatrix` of matrix.h and
`linemin_backtrack` of linemin.h, called as
`linemin_backtrack(f, n, xn, space, direct, state, lo, hi, tol, flag, &neval)`. -/
structure OPTENV (K : Type) where
  f : (Nat → K) → K
  df : (Nat → K) → Nat → K
  sqrt : K → K
  InvertMatrix : (Nat → K) → Nat → Nat → K
  linemin_backtrack : ((Nat → K) → K) → Nat → (Nat → K) → (Nat → K) → K → K → K → Int →
    Nat → LINEMIN K

/-- The state of the loop of `UpdateActiveSet`. -/
structure ACTIVESET (K : Type) where
  direct : Nat → K
  InvHess : Nat → K
  onbound : Nat → Bool
  nremoved : Nat
  errn : Nat

/-- The arrays that `Rescale` updates in place. -/
structure RESCALED (K : Type) where
  x : Nat → K
  dx : Nat → K
  H : Nat → K
  scale : Nat → K

/-- The state of `TakeStep` at its label `optexit`, with the points `evals` that
`TakeStep` itself has passed to the caller's objective (in original units, latest
first). -/
structure CANDIDATE (K : Type) where
  opt : OPTOBJ K
  newbound : Nat
  errn : Nat
  evals : List (Nat → K)

/-- The local variables of `Optimize` that its loops update, with the globals `step`
and `errn`, and a counter the C code does not hold: `passes`, the number of bodies of
the outer loop run so far.  `step` only grows, from 0. -/
structure OPTRUN (K : Type) where
  opt : OPTOBJ K
  fo : K
  fn : K
  md : K
  fact : K
  newbound : Nat
  errn : Nat
  errstring : List Char
  step : Nat
  restarts : Int
  passes : Nat

/-- What `Optimize` leaves: the caller's array `x`, `*fx`, whether the message
`Didn't converge after ... restarts` is printed, and the variables at the end (`none`
when `NewOpt` returned NULL). -/
structure OPTOUT (K : Type) where
  x : Nat → K
  fx : K
  reported : Bool
  run : Option (OPTRUN K)

/-- What `TakeStep` leaves: its return value, the optimizer object, `*factor`,
`*newbound`, the global `errn` and the points passed to the objective. -/
structure STEPRESULT (K : Type) where
  ret : K
  opt : OPTOBJ K
  factor : K
  newbound : Nat
  errn : Nat
  evals : List (Nat → K)

section optimize

variable {K : Type} [LinearOrderedField K]

/-- The constant `MAX_TRUST` of optimize_new.c. -/
def MAX_TRUST : K := 10

/-- The constant `MIN_TRUST` of optimize_new.c. -/
def MIN_TRUST : K := 1 / 10 ^ 4

/-- The constant `MINSCALE` of optimize_new.c. -/
def MINSCALE : K := 1 / 1000

/-- The constant `MAXSCALE` of optimize_new.c. -/
def MAXSCALE : K := 1000

/-- The constant `BOUND_TOL` of optimize_new.c. -/
def BOUND_TOL : K := 1 / 10 ^ 5

/-- The constant `DBL_EPSILON` of `<float.h>`. -/
def DBL_EPSILON : K := 1 / 2 ^ 52

/-- The constant `DBL_MAX` of `<float.h>`. -/
def DBL_MAX : K := 2 ^ 1024 - 2 ^ 971

/-- The loop `for (i = 0; i < n; i++) dst[i] = src[i];`. -/
def copyN (n : Nat) (src dst : Nat → K) : Nat → K :=
  fun i => if i < n then src i else dst i

/-- The loop `for (i = 0; i < n; i++) assert(check(i));` with the error `e`. -/
def assertAll (n : Nat) (check : Nat → Bool) (e : OptError) : Except OptError Unit :=
  forLoopE n (fun i _ => if check i then .ok () else .error e) ()

/-- The function `fWrap` of optimize_new.c (lines 759-778): the caller's objective at
`sx[i] = x[i] * scale[i]`. -/
def fWrap (env : OPTENV K) (scale : Nat → K) (x : Nat → K) : K :=
  env.f (fun i => x i * scale i)

/-- The function `dfWrap` of optimize_new.c (lines 780-803). -/
def dfWrap (env : OPTENV K) (scale : Nat → K) (n : Nat) (x grad : Nat → K) : Nat → K :=
  fun i => if i < n then env.df (fun j => x j * scale j) i * scale i else grad i

/-- Modelled from the spec: `scale_vector(direct, n, factor)` of utility.h, which is
not among the sources: it scales the direction so that its Euclidean norm does not
exceed the trust radius, multiplying every component by `factor`. -/
def scale_vector (direct : Nat → K) (n : Nat) (factor : K) : Nat → K :=
  fun i => if i < n then direct i * factor else direct i

/-- Modelled from the spec: `MakeMatrixIdentity(H, n)` of matrix.h, which is not among
the sources: it resets the `n` by `n` matrix to the identity. -/
def MakeMatrixIdentity (H : Nat → K) (n : Nat) : Nat → K :=
  fun k => if k < n * n then (if k / n = k % n then 1 else 0) else H k

/-- The function `GetNewtonStep` of optimize_new.c (lines 611-635): the new `direct`
and the returned norm. -/
def GetNewtonStep (sqrt : K → K) (direct InvHess grad : Nat → K) (n : Nat)
    (onbound : Nat → Bool) : Except OptError ((Nat → K) × K) :=
  if ¬ 0 < n then .error .entry
  else
    let r := forLoop n (fun i (st : (Nat → K) × K) =>
      let d0 := forLoop n
        (fun j acc => if onbound j = false then acc - InvHess (i * n + j) * grad j else acc) 0
      let d := if onbound i = true then 0 else d0
      (Function.update st.1 i d, st.2 + d * d)) (direct, 0)
    .ok (r.1, sqrt r.2)

/-- The function `UpdateActiveSet` of optimize_new.c (lines 536-587): the updated
`direct`, `InvHess`, `onbound`, the returned `nremoved` and the global `errn`; the
caller adds `nremoved` to `*newbound`.  Its `finite` assertions hold for every
element of `K`. -/
def UpdateActiveSet (InvertMatrix : (Nat → K) → Nat → Nat → K) (x direct scale InvHess lb
    ub : Nat → K) (onbound : Nat → Bool) (n : Nat) (errn : Nat) :
    Except OptError (ACTIVESET K) :=
  if ¬ 0 < n then .error .entry
  else
    .ok (forLoop n (fun i (st : ACTIVESET K) =>
      if (x i * scale i - lb i < BOUND_TOL ∧ st.direct i ≤ 0)
          ∨ (ub i - x i * scale i < BOUND_TOL ∧ st.direct i ≥ 0) then
        let st1 : ACTIVESET K :=
          if st.onbound i = false then
            let diag := st.InvHess (i * n + i)
            let H1 := InvertMatrix st.InvHess n
            let H2 := forLoop n
              (fun j H => Function.update (Function.update H (i * n + j) 0) (j * n + i) 0) H1
            let H3 := Function.update H2 (i * n + i) |diag|
            { st with
              nremoved := st.nremoved + 1
              errn := st.errn ||| PARAM_BOUND
              InvHess := InvertMatrix H3 n }
          else st
        { st1 with
          onbound := Function.update st1.onbound i true
          direct := Function.update st1.direct i 0 }
      else { st with onbound := Function.update st.onbound i false })
      { direct := direct, InvHess := InvHess, onbound := onbound, nremoved := 0, errn := errn })

/-- The modification of the inverse Hessian in `UpdateActiveSet` for a parameter `i` that is
newly on its boundary (optimize_new.c lines 569-576): invert, zero row `i` and column
`i`, store `fabs(diag)` on the diagonal, invert again. -/
def UpdateActiveSet_modify (InvertMatrix : (Nat → K) → Nat → Nat → K) (InvHess : Nat → K)
    (n i : Nat) : Nat → K :=
  let diag := InvHess (i * n + i)
  let H1 := InvertMatrix InvHess n
  let H2 := forLoop n
    (fun j H => Function.update (Function.update H (i * n + j) 0) (j * n + i) 0) H1
  let H3 := Function.update H2 (i * n + i) |diag|
  InvertMatrix H3 n

/-- The main loop of `TrimAtBoundaries` (optimize_new.c lines 507-521): the pair
`(maxfact, maxerr)`. -/
def trimLoop (x direct scale : Nat → K) (n : Nat) (lb ub : Nat → K) (onbound : Nat → Bool) :
    Except OptError (K × K) :=
  forLoopE n (fun i (st : K × K) =>
    if onbound i = false ∧ |direct i| > DBL_EPSILON then
      let bound := (if direct i > 0 then ub i else lb i) / scale i
      let fact := (bound - x i) / direct i
      let epserr := (|bound| + |x i|) / |direct i|
      if ¬ fact > 0 then .error .factPositive
      else if fact < st.1 then .ok (fact, epserr)
      else .ok st
    else .ok st) (DBL_MAX, 0)

/-- The function `TrimAtBoundaries` of optimize_new.c (lines 484-533).  Its `finite`
assertion holds for every element of `K`. -/
def TrimAtBoundaries (x direct scale : Nat → K) (n : Nat) (lb ub : Nat → K)
    (onbound : Nat → Bool) : Except OptError K :=
  if ¬ 0 < n then .error .entry
  else
    match assertAll n (fun i =>
        decide (((onbound i = false ∧ x i * scale i > lb i ∧ x i * scale i < ub i)
            ∨ onbound i = true)
          ∧ (onbound i = false ∨ direct i = 0))) .entry with
    | .error e => .error e
    | .ok _ =>
      match trimLoop x direct scale n lb ub onbound with
      | .error e => .error e
      | .ok st =>
        let maxfact := st.1 - (st.2 + st.1) * DBL_EPSILON
        match assertAll n (fun i =>
            decide (onbound i = true
              ∨ ((x i + maxfact * direct i) * scale i - lb i ≥ 0
                ∧ (x i + maxfact * direct i) * scale i - ub i ≤ 0))) .exit with
        | .error e => .error e
        | .ok _ => .ok maxfact

/-- The function `ScaledStep` of optimize_new.c (lines 637-654): the new `xn`. -/
def ScaledStep (factor : K) (x xn direct : Nat → K) (onbound : Nat → Bool) (n : Nat) :
    Except OptError (Nat → K) :=
  if ¬ 0 < n then .error .entry
  else
    match assertAll n (fun i => decide (¬ onbound i = true ∨ direct i = 0)) .entry with
    | .error e => .error e
    | .ok _ => .ok (fun i => if i < n then x i + direct i * factor else xn i)

/-- The factor `scalefact` of `Rescale` (optimize_new.c lines 836-838) for the
diagonal entry `h`: its square root clamped to `[MINSCALE, MAXSCALE]`. -/
def scalefactOf (sqrt : K → K) (h : K) : K :=
  let s0 := sqrt h
  let s1 := if s0 > MINSCALE then s0 else MINSCALE
  if s1 < MAXSCALE then s1 else MAXSCALE

/-- The body of the loop of `Rescale` for the index `i` (optimize_new.c lines 836-845). -/
def rescaleStep (sqrt : K → K) (n : Nat) (i : Nat) (st : RESCALED K) : RESCALED K :=
  let scalefact := scalefactOf sqrt (st.H (i * n + i))
  { x := Function.update st.x i (st.x i / scalefact)
    dx := Function.update st.dx i (st.dx i * scalefact)
    H := forLoop n (fun j H =>
      let H1 := Function.update H (i * n + j) (H (i * n + j) / scalefact)
      Function.update H1 (j * n + i) (H1 (j * n + i) / scalefact)) st.H
    scale := Function.update st.scale i (st.scale i * scalefact) }

/-- The function `Rescale` of optimize_new.c (lines 822-847). -/
def Rescale (sqrt : K → K) (x dx H : Nat → K) (n : Nat) (scale : Nat → K) :
    Except OptError (RESCALED K) :=
  if ¬ 0 < n then .error .entry
  else .ok (forLoop n (rescaleStep sqrt n) { x := x, dx := dx, H := H, scale := scale })

/-- The function `UpdateH_BFGS` of optimize_new.c (lines 657-728): the updated `xn`,
`dxn`, `H`, `scale` (as the fields `x`, `dx`, `H`, `scale`) and the global `errn`.  The
scratch arrays are `d[i] = xn[i] - x[i]` and `g[i] = dxn[i] - dx[i]`, read only at the
inactive indices where they are written. -/
def UpdateH_BFGS (sqrt : K → K) (H x xn dx dxn scale : Nat → K) (n : Nat)
    (onbound : Nat → Bool) (errn : Nat) : Except OptError (RESCALED K × Nat) :=
  let d := fun i => xn i - x i
  let g := fun i => dxn i - dx i
  let gd := forLoop n (fun i gd => if onbound i = false then gd + g i * d i else gd) 0
  if gd ≤ 1 / 10 ^ 5 then
    .ok ({ x := xn, dx := dxn, H := MakeMatrixIdentity H n, scale := scale },
      errn ||| HESSIAN_NONPD)
  else
    let Hg := fun i =>
      if onbound i = false then
        forLoop n (fun j acc => if onbound j = false then acc + H (i * n + j) * g j else acc) 0
      else 0
    let gHg := forLoop n (fun i acc => if onbound i = false then acc + g i * Hg i else acc) 0
    let f := 1 + gHg / gd
    let H1 := forLoop n (fun i H =>
      if onbound i = false then
        forLoop (i + 1) (fun j H =>
          if onbound j = false then
            Function.update H (i * n + j)
              (H (i * n + j) + (f * d i * d j - d i * Hg j - Hg i * d j) / gd)
          else H) H
      else H) H
    let H2 := forLoop n (fun i H =>
      forLoop i (fun j H => Function.update H (j * n + i) (H (i * n + j))) H) H1
    match Rescale sqrt xn dxn H2 n scale with
    | .error e => .error e
    | .ok r => .ok (r, errn)

/-- The sum `gd` of `UpdateH_BFGS` (optimize_new.c lines 673-680). -/
def UpdateH_BFGS_gd (x xn dx dxn : Nat → K) (n : Nat) (onbound : Nat → Bool) : K :=
  forLoop n (fun i gd =>
    if onbound i = false then gd + (dxn i - dx i) * (xn i - x i) else gd) 0

/-- The entry `Hg[i]` of the scratch array of `UpdateH_BFGS` (optimize_new.c lines
688-696). -/
def UpdateH_BFGS_Hg (H dx dxn : Nat → K) (n : Nat) (onbound : Nat → Bool) (i : Nat) : K :=
  if onbound i = false then
    forLoop n (fun j acc =>
      if onbound j = false then acc + H (i * n + j) * (dxn j - dx j) else acc) 0
  else 0

/-- The sum `gHg` of `UpdateH_BFGS` (optimize_new.c lines 687-699). -/
def UpdateH_BFGS_gHg (H dx dxn : Nat → K) (n : Nat) (onbound : Nat → Bool) : K :=
  forLoop n (fun i acc =>
    if onbound i = false then acc + (dxn i - dx i) * UpdateH_BFGS_Hg H dx dxn n onbound i
    else acc) 0

/-- The term that `UpdateH_BFGS` adds to `H[i * n + j]` (optimize_new.c lines 705-712),
with `f = 1 + gHg / gd`. -/
def UpdateH_BFGS_term (H x xn dx dxn : Nat → K) (n : Nat) (onbound : Nat → Bool)
    (i j : Nat) : K :=
  ((1 + UpdateH_BFGS_gHg H dx dxn n onbound / UpdateH_BFGS_gd x xn dx dxn n onbound)
      * (xn i - x i) * (xn j - x j)
    - (xn i - x i) * UpdateH_BFGS_Hg H dx dxn n onbound j
    - UpdateH_BFGS_Hg H dx dxn n onbound i * (xn j - x j))
    / UpdateH_BFGS_gd x xn dx dxn n onbound

/-- The matrix that `UpdateH_BFGS` holds when it calls `Rescale` (optimize_new.c lines
683-722, reached when `gd > 1e-5`): the rank-2 correction of the lower triangle over the
parameters not flagged active, then the copy of the lower triangle to the upper one. -/
def UpdateH_BFGS_corrected (H x xn dx dxn : Nat → K) (n : Nat) (onbound : Nat → Bool) :
    Nat → K :=
  forLoop n (fun i H1 =>
    forLoop i (fun j H1 => Function.update H1 (j * n + i) (H1 (i * n + j))) H1)
    (forLoop n (fun i H1 =>
      if onbound i = false then
        forLoop (i + 1) (fun j H1 =>
          if onbound j = false then
            Function.update H1 (i * n + j)
              (H1 (i * n + j) + UpdateH_BFGS_term H x xn dx dxn n onbound i j)
          else H1) H1
      else H1) H)

/-- The loop `do { norm = GetNewtonStep(...); } while (UpdateActiveSet(...));` of
`TakeStep` (optimize_new.c lines 370-374), run for at most `fuel` iterations: the
final active-set state, `*newbound` and `norm`. -/
def activeSetLoop (env : OPTENV K) (x dx scale lb ub : Nat → K) (n : Nat) :
    Nat → ACTIVESET K → Nat → Except OptError (ACTIVESET K × Nat × K)
  | 0, _, _ => .error .fuel
  | fuel + 1, st, newbound =>
    match GetNewtonStep env.sqrt st.direct st.InvHess dx n st.onbound with
    | .error e => .error e
    | .ok (direct, norm) =>
      match UpdateActiveSet env.InvertMatrix x direct scale st.InvHess lb ub st.onbound n
          st.errn with
      | .error e => .error e
      | .ok st1 =>
        if st1.nremoved ≠ 0 then
          activeSetLoop env x dx scale lb ub n fuel st1 (newbound + st1.nremoved)
        else .ok (st1, newbound + st1.nremoved, norm)

/-- The line search of `TakeStep` (optimize_new.c lines 414-422 and 428-435): `xn` is
reset to `x`, `linemin_backtrack` is run on `[0, hi]` and the trust radius is halved. -/
def lineSearchStep (env : OPTENV K) (opt : OPTOBJ K) (hi : K) : OPTOBJ K :=
  let r := env.linemin_backtrack (fWrap env opt.scale) opt.n (copyN opt.n opt.x opt.xn)
    opt.direct 0 hi (1 / 10 ^ 5) 0 opt.neval
  { opt with
    xn := r.xn
    fn := r.value
    neval := r.neval
    trust := if opt.trust / 2 < MIN_TRUST then MIN_TRUST else opt.trust / 2 }

/-- The branch `maxfactor <= 1.0` of `TakeStep` (optimize_new.c lines 389-422). -/
def boundaryStep (env : OPTENV K) (opt : OPTOBJ K) (maxfactor : K) :
    Except OptError (OPTOBJ K × List (Nat → K)) :=
  match ScaledStep maxfactor opt.x opt.xn opt.direct opt.onbound opt.n with
  | .error e => .error e
  | .ok xb =>
    let fbound := fWrap env opt.scale xb
    if fbound ≤ opt.fc then
      match ScaledStep (maxfactor * (1 - BOUND_TOL)) opt.x xb opt.direct opt.onbound opt.n with
      | .error e => .error e
      | .ok xnear =>
        let fnearbound := fWrap env opt.scale xnear
        if fnearbound > fbound then
          match ScaledStep maxfactor opt.x xnear opt.direct opt.onbound opt.n with
          | .error e => .error e
          | .ok xb2 =>
            .ok ({ opt with xn := xb2, fn := fbound, neval := opt.neval + 2 },
              [fun i => xnear i * opt.scale i, fun i => xb i * opt.scale i])
        else
          .ok (lineSearchStep env { opt with xn := xnear, neval := opt.neval + 2 } maxfactor,
            [fun i => xnear i * opt.scale i, fun i => xb i * opt.scale i])
    else
      .ok (lineSearchStep env { opt with xn := xb, neval := opt.neval + 1 } maxfactor,
        [fun i => xb i * opt.scale i])

/-- The branch `maxfactor > 1.0` of `TakeStep` (optimize_new.c lines 423-440). -/
def newtonStep (env : OPTENV K) (opt : OPTOBJ K) : Except OptError (OPTOBJ K × List (Nat → K)) :=
  match ScaledStep 1 opt.x opt.xn opt.direct opt.onbound opt.n with
  | .error e => .error e
  | .ok xf =>
    let fn := fWrap env opt.scale xf
    if opt.fc < fn then
      .ok (lineSearchStep env { opt with xn := xf, fn := fn, neval := opt.neval + 1 } 1,
        [fun i => xf i * opt.scale i])
    else
      .ok ({ opt with
              xn := xf
              fn := fn
              neval := opt.neval + 1
              trust := if 2 * opt.trust ≥ MAX_TRUST then MAX_TRUST else 2 * opt.trust },
        [fun i => xf i * opt.scale i])

/-- The part of `TakeStep` before its label `optexit` (optimize_new.c lines 366-440). -/
def TakeStep_candidate (env : OPTENV K) (fuel : Nat) (opt : OPTOBJ K) (errn : Nat) :
    Except OptError (CANDIDATE K) :=
  match activeSetLoop env opt.x opt.dx opt.scale opt.lb opt.ub opt.n fuel
      { direct := opt.direct, InvHess := opt.H, onbound := opt.onbound, nremoved := 0,
        errn := errn } 0 with
  | .error e => .error e
  | .ok (st, newbound, norm) =>
    let direct :=
      if norm > opt.trust then scale_vector st.direct opt.n (opt.trust / norm) else st.direct
    let opt1 : OPTOBJ K :=
      { opt with direct := direct, H := st.InvHess, onbound := st.onbound }
    match TrimAtBoundaries opt1.x opt1.direct opt1.scale opt1.n opt1.lb opt1.ub
        opt1.onbound with
    | .error e => .error e
    | .ok maxfactor =>
      match (if maxfactor ≤ 1 then boundaryStep env opt1 maxfactor else newtonStep env opt1) with
      | .error e => .error e
      | .ok (opt2, evals) =>
        .ok { opt := opt2, newbound := newbound, errn := st.errn, evals := evals }

/-- The branch `opt->fn > opt->fc` of `TakeStep` (optimize_new.c lines 444-459): the
step failed, `xn`, `dxn`, `fn` are reset and the norm of the gradient over the
parameters not flagged active is returned. -/
def failedStep (env : OPTENV K) (c : CANDIDATE K) : STEPRESULT K :=
  let opt := c.opt
  let xn := copyN opt.n opt.x opt.xn
  let dxn := copyN opt.n opt.dx opt.dxn
  let norm := forLoop opt.n
    (fun i norm => if opt.onbound i = false then norm + dxn i * dxn i else norm) 0
  { ret := env.sqrt norm
    opt := { opt with xn := xn, dxn := dxn, fn := opt.fc }
    factor := 1, newbound := c.newbound, errn := c.errn, evals := c.evals }

/-- The part of `TakeStep` from its label `optexit` (optimize_new.c lines 442-482). -/
def TakeStep_exit (env : OPTENV K) (c : CANDIDATE K) : Except OptError (STEPRESULT K) :=
  let opt := c.opt
  if opt.fn > opt.fc then .ok (failedStep env c)
  else
    let dxn := dfWrap env opt.scale opt.n opt.xn opt.dxn
    let direct := fun i => if i < opt.n then -dxn i else opt.direct i
    match UpdateActiveSet env.InvertMatrix opt.xn direct opt.scale opt.H opt.lb opt.ub
        opt.onbound opt.n c.errn with
    | .error e => .error e
    | .ok st =>
      match UpdateH_BFGS env.sqrt st.InvHess opt.x opt.xn opt.dx dxn opt.scale opt.n
          st.onbound st.errn with
      | .error e => .error e
      | .ok (r, errn) =>
        let x := copyN opt.n r.x opt.x
        let dx := copyN opt.n r.dx opt.dx
        let norm := forLoop opt.n
          (fun i norm => if st.onbound i = false then norm + dx i * dx i else norm) 0
        .ok { ret := env.sqrt norm
              opt := { opt with
                        x := x, xn := r.x, dx := dx, dxn := r.dx, H := r.H
                        direct := st.direct, scale := r.scale, fc := opt.fn
                        onbound := st.onbound }
              factor := 1, newbound := c.newbound + st.nremoved, errn := errn
              evals := c.evals }

/-- The function `TakeStep` of optimize_new.c (lines 357-482).  `errn` is the global
error code on entry; `fuel` bounds the iterations of the active-set loop; the C
function does not use its argument `tol`. -/
def TakeStep (env : OPTENV K) (fuel : Nat) (opt : OPTOBJ K) (_tol : K) (errn : Nat) :
    Except OptError (STEPRESULT K) :=
  match TakeStep_candidate env fuel opt errn with
  | .error e => .error e
  | .ok c => TakeStep_exit env c

/-- The function `calcerr` of optimize_new.c (lines 115-118).  Its first statement is
`return x-y;`; the statement after it, `return 2.*(x-y)/(fabs(x)+fabs(y));`, is never
reached. -/
def calcerr (x y : K) : K := x - y

/-- The local `tol` of `Optimize` (optimize_new.c line 140). -/
def Optimize_tol : K := 3 / 10 ^ 8

/-- The function `NewOpt` of optimize_new.c (lines 261-292) when every `malloc`
succeeds: `mem` is the object with the arrays as `malloc` leaves them; NULL is `none`. -/
def NewOpt (mem : OPTOBJ K) (n : Nat) : Option (OPTOBJ K) :=
  if n < 1 then none else some { mem with n := n, neval := 0, trust := 1 / 10 }

/-- The function `InitializeOpt` of optimize_new.c (lines 316-355); it also sets the
global `step` to 0.  `bd` holds the lower bounds in `bd[0 .. n)` and the upper bounds
in `bd[n .. 2n)`. -/
def InitializeOpt (env : OPTENV K) (opt : OPTOBJ K) (x : Nat → K) (n : Nat) (fx : K)
    (bd : Nat → K) : OPTOBJ K :=
  let x1 := copyN n x opt.x
  let lb := fun i => if i < n then bd i else opt.lb i
  let ub := fun i => if i < n then bd (n + i) else opt.ub i
  let scale := fun i => if i < n then 1 else opt.scale i
  let dx := dfWrap env scale n x1 opt.dx
  let onbound := fun i =>
    if i < n then decide ((x1 i ≤ lb i ∧ dx i ≥ 0) ∨ (x1 i ≥ ub i ∧ dx i ≤ 0))
    else opt.onbound i
  { opt with x := x1, lb := lb, ub := ub, scale := scale, dx := dx, onbound := onbound, fc := fx }

/-- The function `InitializeH` of optimize_new.c (lines 732-737); the global `reset`
it sets is read nowhere. -/
def InitializeH (opt : OPTOBJ K) : OPTOBJ K :=
  { opt with H := MakeMatrixIdentity opt.H opt.n }

/-- The function `SteepestDescentStep` of optimize_new.c (lines 589-604): the returned
value and the optimizer object. -/
def SteepestDescentStep (env : OPTENV K) (opt : OPTOBJ K) : Except OptError (K × OPTOBJ K) :=
  let xn := copyN opt.n opt.x opt.xn
  let direct := fun i =>
    if i < opt.n then (if opt.onbound i = true then 0 else -opt.dx i) else opt.direct i
  match TrimAtBoundaries opt.x direct opt.scale opt.n opt.lb opt.ub opt.onbound with
  | .error e => .error e
  | .ok maxfactor =>
    let r := env.linemin_backtrack (fWrap env opt.scale) opt.n xn direct 0 maxfactor
      (1 / 10 ^ 12) 0 opt.neval
    .ok (r.value, { opt with xn := r.xn, direct := direct, neval := r.neval })

/-- The body of the inner `do ... while` loop of `Optimize` (optimize_new.c lines
158-179).  `fuel` bounds the active-set loop of `TakeStep`; the output controlled by
`noisy` is left out. -/
def Optimize_step (env : OPTENV K) (fuel : Nat) (st : OPTRUN K) : Except OptError (OPTRUN K) :=
  match TakeStep env fuel st.opt Optimize_tol 0 with
  | .error e => .error e
  | .ok r =>
    let st1 : OPTRUN K :=
      { st with
        fn := st.opt.fc, opt := r.opt, md := r.ret, fact := r.factor, newbound := r.newbound
        errn := r.errn, errstring := MakeErrString r.errn, step := st.step + 1 }
    if calcerr st1.fn st1.opt.fc ≤ Optimize_tol then
      match SteepestDescentStep env st1.opt with
      | .error e => .error e
      | .ok (fnew, o) =>
        let x := copyN o.n o.xn o.x
        let dx := dfWrap env o.scale o.n x o.dx
        let direct := fun i => if i < o.n then -dx i else o.direct i
        match UpdateActiveSet env.InvertMatrix x direct o.scale o.H o.lb o.ub o.onbound o.n
            st1.errn with
        | .error e => .error e
        | .ok a =>
          .ok { st1 with
                opt := InitializeH
                  { o with
                    fc := fnew, x := x, dx := dx, direct := a.direct, H := a.InvHess
                    onbound := a.onbound }
                newbound := st1.newbound + a.nremoved
                errn := a.errn }
    else .ok st1

/-- The test of the inner loop of `Optimize` (optimize_new.c line 180). -/
def Optimize_stepAgain (st : OPTRUN K) : Prop :=
  calcerr st.fn st.opt.fc > Optimize_tol ∨ st.newbound ≠ 0

instance (st : OPTRUN K) : Decidable (Optimize_stepAgain st) := by
  unfold Optimize_stepAgain
  infer_instance

/-- The inner loop of `Optimize` run for at most `k` iterations: the variables, and
whether the loop is still running. -/
def Optimize_innerRun (env : OPTENV K) (fuel : Nat) :
    Nat → OPTRUN K → Except OptError (OPTRUN K × Bool)
  | 0, st => .ok (st, true)
  | k + 1, st =>
    match Optimize_step env fuel st with
    | .error e => .error e
    | .ok st1 =>
      if Optimize_stepAgain st1 then Optimize_innerRun env fuel k st1 else .ok (st1, false)

/-- The inner loop of `Optimize` (optimize_new.c lines 158-180) with the iteration
budget `inner`. -/
def Optimize_inner (env : OPTENV K) (fuel inner : Nat) (st : OPTRUN K) :
    Except OptError (OPTRUN K) :=
  match Optimize_innerRun env fuel inner st with
  | .error e => .error e
  | .ok (_, true) => .error .fuel
  | .ok (st1, false) => .ok st1

/-- The body of the outer loop of `Optimize` (optimize_new.c lines 155-185). -/
def Optimize_restart (env : OPTENV K) (fuel inner : Nat) (st : OPTRUN K) :
    Except OptError (OPTRUN K) :=
  match Optimize_inner env fuel inner
      { st with fo := st.opt.fc, opt := InitializeH st.opt, fact := 1 } with
  | .error e => .error e
  | .ok st1 => .ok { st1 with restarts := st1.restarts + 1, passes := st1.passes + 1 }

/-- The test of the outer loop of `Optimize` (optimize_new.c line 186). -/
def Optimize_restartAgain (st : OPTRUN K) : Prop :=
  st.restarts < max_restart ∧ calcerr st.opt.fc st.fo > Optimize_tol ∧ RESTART ≠ 0

instance (st : OPTRUN K) : Decidable (Optimize_restartAgain st) := by
  unfold Optimize_restartAgain
  infer_instance

/-- The outer loop of `Optimize` (optimize_new.c lines 154-186) with the iteration
budget `outer`. -/
def Optimize_outer (env : OPTENV K) (fuel inner : Nat) :
    Nat → OPTRUN K → Except OptError (OPTRUN K)
  | 0, _ => .error .fuel
  | k + 1, st =>
    match Optimize_restart env fuel inner st with
    | .error e => .error e
    | .ok st1 =>
      if Optimize_restartAgain st1 then Optimize_outer env fuel inner k st1 else .ok st1

/-- The variables of `Optimize` when its outer loop is first reached (optimize_new.c
lines 133-145).  The locals `fo`, `fn`, `md`, `fact` are written before they are read;
they start as 0 here. -/
def Optimize_start (opt : OPTOBJ K) : OPTRUN K :=
  { opt := opt, fo := 0, fn := 0, md := 0, fact := 0, newbound := 1, errn := 0,
    errstring := [], step := 0, restarts := -1, passes := 0 }

/-- The end of `Optimize` (optimize_new.c lines 190-199): the non-convergence message
and the results copied back in original units. -/
def Optimize_finish (x : Nat → K) (n : Nat) (st : OPTRUN K) : OPTOUT K :=
  { x := fun i => if i < n then st.opt.x i * st.opt.scale i else x i
    fx := st.opt.fc
    reported := decide (st.restarts = max_restart)
    run := some { st with
      opt := { st.opt with
        dx := fun i => if i < n then st.opt.dx i * st.opt.scale i else st.opt.dx i } } }

/-- The function `Optimize` of optimize_new.c (lines 121-199).  `mem` is the optimizer
object as `NewOpt` allocates it; `fuel`, `inner`, `outer` bound the iterations of the
active-set loop of `TakeStep` and of the inner and outer loops; `fx` is `*fx` on
entry. -/
def Optimize (env : OPTENV K) (mem : OPTOBJ K) (fuel inner outer : Nat) (x : Nat → K)
    (n : Nat) (fx : K) (bd : Nat → K) : Except OptError (OPTOUT K) :=
  match NewOpt mem n with
  | none => .ok { x := x, fx := fx, reported := false, run := none }
  | some opt0 =>
    match Optimize_outer env fuel inner outer
        (Optimize_start (InitializeOpt env opt0 x n fx bd)) with
    | .error e => .error e
    | .ok st => .ok (Optimize_finish x n st)

/-- The statement `*newbound += nremoved;` that ends `UpdateActiveSet` (optimize_new.c
line 585), for the value `newbound` that `*newbound` holds at the call. -/
def newboundAfter (newbound : Nat) (r : ACTIVESET K) : Nat := newbound + r.nremoved

/-- The value of a call that returned. -/
def okValue {ε α : Type} (dflt : α) : Except ε α → α
  | .ok v => v
  | .error _ => dflt

/-- Whether a call returned. -/
def isOk {ε α : Type} : Except ε α → Bool
  | .ok _ => true
  | .error _ => false

/-- Every component of the point `p` (in original units) lies within its bounds. -/
def inBox (n : Nat) (lb ub p : Nat → K) : Prop :=
  ∀ i, i < n → lb i ≤ p i ∧ p i ≤ ub i

end optimize

/-! ## like.c: numerical derivatives -/

/-- The ways a function of like.c can fail to return: a failed `assert`. -/
inductive LikeError where
  | assertion : LikeError
  deriving DecidableEq

/-- The fields of `MODEL` and `TREE` that `GetParam` reads: whether
`Branches_Variable == model->has_branches`, `model->nparam`, `tree->n_br`, the branch
lengths `(tree->branches[i])->blength[0]` and the callback `model->GetParam(model, j)`. -/
structure PARAMS (K : Type) where
  branchesVariable : Bool
  nparam : Int
  n_br : Int
  blength : Nat → K
  modelParam : Int → K

section like_derivatives
variable {K : Type} [LinearOrderedField K]

/-- The constant `DBL_MIN` of `<float.h>`. -/
def DBL_MIN : K := 1 / 2 ^ 1022

/-- The function `GetParam` of like.c (lines 832-847). -/
def GetParam (ps : PARAMS K) (i : Int) : Except LikeError K :=
  if ¬ i > 0 then .error .assertion
  else if ps.branchesVariable = true ∧ i < ps.n_br then .ok (ps.blength i.toNat)
  else
    let offset := if ps.branchesVariable = true then ps.n_br else 0
    if ¬ (i - offset > 0 ∧ i - offset < ps.nparam) then .error .assertion
    else .ok (ps.modelParam (i - offset))

/-- The function `PartialDeriv` of like.c (lines 247-289).  `DELTA` is the macro of
that name; `likeAt n v` is the vector `p` and the root's `scalefactor` that
`UpdateParam(model, tree, v, n)` followed by `LikeVector(tree, model, p)` leave.
`scale1` and `scale2` are both the pointer `(tree->tree)->scalefactor`, so both
read the array left by the second call. -/
def PartialDeriv (ps : PARAMS K) (DELTA : K) (log : K → K)
    (likeAt : Int → K → (Nat → K) × (Nat → K)) (pt_freq : Nat → K) (n_unique_pts : Nat)
    (n : Int) : Except LikeError K :=
  match GetParam ps n with
  | .error e => .error e
  | .ok d =>
    let space := (likeAt n (d + DELTA)).1
    let second := likeAt n (if d > DELTA then d - DELTA else DBL_EPSILON)
    let p := second.1
    let scale1 := second.2
    let scale2 := second.2
    let r := forLoop n_unique_pts (fun i (st : Option K × K) =>
      match st.1 with
      | some _ => st
      | none =>
        if space i ≤ DBL_MIN then (some (-DBL_MAX), st.2)
        else if p i ≤ DBL_MIN then (some DBL_MAX, st.2)
        else (none, (st.2 + pt_freq i * log (space i / p i))
          + pt_freq i * (scale1 i - scale2 i))) (none, 0)
    match r.1 with
    | some v => .ok v
    | none =>
      if d > DELTA then .ok (r.2 / (2 * DELTA)) else .ok (r.2 / (DELTA + d - DBL_EPSILON))

/-- The function `GradLike` of like.c (lines 291-303): the array `grad`. -/
def GradLike (ps : PARAMS K) (DELTA : K) (log : K → K)
    (likeAt : Int → K → (Nat → K) × (Nat → K)) (pt_freq : Nat → K) (n_unique_pts : Nat)
    (grad : Nat → K) : Except LikeError (Nat → K) :=
  let nparam := if ps.branchesVariable = true then ps.nparam + ps.n_br else ps.nparam
  forLoopE nparam.toNat (fun i grad =>
    match PartialDeriv ps DELTA log likeAt pt_freq n_unique_pts (i : Int) with
    | .error e => .error e
    | .ok g => .ok (Function.update grad i g)) grad

end like_derivatives

/-! ## brent.c -/

/-- The local variables of `brentmin` at the head of its `while` loop, with two
counters that the C code does not hold: `iters`, the number of iterations run so
far, and `evals`, the points at which the loop has evaluated the objective (latest
first). -/
structure BrentState (K : Type) where
  lb : K
  x : K
  ub : K
  flb : K
  fx : K
  fub : K
  diff_old2 : K
  diff_old : K
  fractol : K
  iters : Nat
  evals : List K
  deriving DecidableEq

/-- The ways a call of `brentmin` can fail to return: a failed `assert`, or the
iteration budget given to the embedding was used up before the loop left. -/
inductive BrentError where
  | assertion : BrentError
  | fuel : BrentError
  deriving DecidableEq

/-- What `brentmin` returns: the returned `x`, the value stored in `*fxp` (when
`fxp` is not NULL) and the local variables at the `return`. -/
structure BrentResult (K : Type) where
  ret : K
  fxp : Option K
  final : BrentState K
  deriving DecidableEq

section brent

variable {K : Type} [LinearOrderedField K]

/-- The constant `GOLDENRATIO` of brent.c. -/
def GOLDENRATIO : K := 38196601125010515179541316563436 / 10 ^ 32

/-- Modelled from the spec: the macro `sign` of utility.h, which is not among the
sources; the nudge is made in the direction of travel, so it is 1 for a positive
argument and -1 for a negative one (its value at 0 is taken to be 1). -/
def sign (d : K) : K := if d < 0 then -1 else 1

/-- The function `parabolic_interpolate` of brent.c (lines 9-16).  When the
denominator `dfbc - dfba` is zero the C quotient is NaN or an infinity; that
non-finite result is `none`. -/
def parabolic_interpolate (a b c fa fb fc : K) : Option K :=
  let dba := b - a
  let dbc := b - c
  let dfba := dbc * (fb - fa)
  let dfbc := dba * (fb - fc)
  if dfbc - dfba = 0 then none
  else some (b - (1 / 2) * (dba * dfbc - dbc * dfba) / (dfbc - dfba))

/-- The golden-section step of brent.c line 48 with its `diff` (line 50). -/
def goldenStep (s : BrentState K) : K × K :=
  let x_new := s.x + GOLDENRATIO * (if 2 * s.x > s.lb + s.ub then s.lb - s.x else s.ub - s.x)
  (x_new, |x_new - s.x|)

/-- Lines 35-51 of brent.c: the trial point and `diff` before the nudge.  A
non-finite parabolic point (NaN, or an infinity, which lies outside `[lb, ub]`)
takes the golden-section branch. -/
def proposeStep (s : BrentState K) : K × K :=
  match parabolic_interpolate s.lb s.x s.ub s.flb s.fx s.fub with
  | none => goldenStep s
  | some x_new =>
    if s.diff_old < s.fractol ∨ |s.x - x_new| ≤ (1 / 2) * s.diff_old2
        ∨ x_new < s.lb ∨ x_new > s.ub then
      goldenStep s
    else (x_new, |s.x - x_new|)

/-- Lines 35-54 of brent.c: the point at which the iteration evaluates the
objective (after the nudge of line 54) and `diff`.  `sgn` is the macro `sign`. -/
def trialPoint (sgn : K → K) (s : BrentState K) : K × K :=
  let p := proposeStep s
  (if p.2 ≥ s.fractol then p.1 else s.x + s.fractol * sgn (p.1 - s.x), p.2)

/-- One iteration of the loop of `brentmin` (brent.c lines 33-74). -/
def brentStep (sgn : K → K) (f : K → K) (tol : K) (s : BrentState K) : BrentState K :=
  let x_new := (trialPoint sgn s).1
  let diff := (trialPoint sgn s).2
  let f_new := f x_new
  let t : BrentState K :=
    if f_new < s.fx then
      if x_new ≥ s.x then { s with lb := s.x, flb := s.fx, x := x_new, fx := f_new }
      else { s with ub := s.x, fub := s.fx, x := x_new, fx := f_new }
    else
      if x_new ≥ s.x then { s with ub := x_new, fub := f_new }
      else { s with lb := x_new, flb := f_new }
  { t with
    diff_old2 := s.diff_old
    diff_old := diff
    fractol := tol * |t.x| + DBL_EPSILON
    iters := s.iters + 1
    evals := x_new :: s.evals }

/-- The loop condition of `brentmin` (brent.c line 32). -/
def brentCond (s : BrentState K) : Prop :=
  |s.x - (1 / 2) * (s.ub + s.lb)| + (1 / 2) * (s.ub - s.lb) > 2 * s.fractol

instance (s : BrentState K) : Decidable (brentCond s) := by
  unfold brentCond
  infer_instance

/-- The loop of `brentmin` run for at most `fuel` iterations. -/
def brentRun (sgn : K → K) (f : K → K) (tol : K) : Nat → BrentState K → BrentState K
  | 0, s => s
  | fuel + 1, s => if brentCond s then brentRun sgn f tol fuel (brentStep sgn f tol s) else s

/-- The loop of `brentmin`: the state in which it leaves, if it does so within
`fuel` iterations. -/
def brentLoop (sgn : K → K) (f : K → K) (tol : K) (fuel : Nat) (s : BrentState K) :
    Option (BrentState K) :=
  if brentCond (brentRun sgn f tol fuel s) then none else some (brentRun sgn f tol fuel s)

/-- The local variables of `brentmin` when the loop is first reached (lines 23-31). -/
def brentInit (lb flb ub fub x fx tol : K) : BrentState K :=
  { lb := lb, x := x, ub := ub, flb := flb, fx := fx, fub := fub,
    diff_old2 := 0, diff_old := 0, fractol := tol * |x| + 3 / 10 ^ 8,
    iters := 0, evals := [] }

/-- The value of `(NULL != p) ? *p : fun(at, info)` (brent.c lines 23-25). -/
def valueOr (p : Option K) (f : K → K) (pt : K) : K :=
  match p with
  | some v => v
  | none => f pt

/-- Lines 78-79 of brent.c: store `fx` in `*fxp` when `fxp` is not NULL and return
`x`; `none` is a loop that did not leave within the iteration budget. -/
def brentReturn (fxp : Option K) : Option (BrentState K) → Except BrentError (BrentResult K)
  | none => .error .fuel
  | some s => .ok { ret := s.x, fxp := fxp.map (fun _ => s.fx), final := s }

/-- The function `brentmin` of brent.c (lines 19-80).  The pointers `flbp`, `fubp`,
`fxp` are `none` when NULL; `f` is `fun(., info)`; `sgn` is the macro `sign`. -/
def brentmin (sgn : K → K) (lb : K) (flbp : Option K) (ub : K) (fubp : Option K) (x : K)
    (fxp : Option K) (f : K → K) (tol : K) (fuel : Nat) : Except BrentError (BrentResult K) :=
  if ¬ (lb ≤ x ∧ x ≤ ub) then .error .assertion
  else
    let flb := valueOr flbp f lb
    let fub := valueOr fubp f ub
    let fx := valueOr fxp f x
    if ¬ (fx ≤ flb ∧ fx ≤ fub) then .error .assertion
    else
      brentReturn fxp (brentLoop sgn f tol fuel (brentInit lb flb ub fub x fx tol))

end brent

/-! ### brent.c in double arithmetic

The definitions above compute in an ordered field, without rounding.  The ones below are
the same lines of brent.c with the result of every arithmetic operation passed through a
rounding function `rnd`, as C does for the type `double`. -/

/-- The number of binary digits of `n` (0 for 0), found in at most `fuel` halvings. -/
def bitLength : Nat → Nat → Nat
  | 0, _ => 0
  | fuel + 1, n => if n = 0 then 0 else bitLength fuel (n / 2) + 1

/-- The binary exponent of a positive rational `a`: the integer `e` with
`2^e <= a < 2^(e+1)`. -/
def binaryExponent (a : ℚ) : Int :=
  let e0 : Int := (bitLength a.num.natAbs a.num.natAbs : Int) - (bitLength a.den a.den : Int)
  if a < (2 : ℚ) ^ e0 then e0 - 1 else e0

/-- The value a real result takes as a C `double` (IEEE 754 binary64): it is rounded to
53 significant binary digits, to the nearest such number and to the one with an even
last digit when two are equally near.  The range of the exponent is not bounded here:
there is no overflow and there are no subnormal numbers. -/
def roundDouble (q : ℚ) : ℚ :=
  if q = 0 then 0
  else
    let ulp : ℚ := (2 : ℚ) ^ (binaryExponent |q| - 52)
    let m : ℚ := |q| / ulp
    let f : Int := ⌊m⌋
    let n : Int :=
      if m - f < 1 / 2 then f
      else if m - f > 1 / 2 then f + 1
      else if f % 2 = 0 then f else f + 1
    (if q < 0 then -1 else 1) * (n : ℚ) * ulp

section brent_double

variable {K : Type} [LinearOrderedField K]

/-- The function `parabolic_interpolate` of brent.c (lines 9-16), every operation
rounded by `rnd`; a zero denominator gives a non-finite quotient, `none`. -/
def parabolic_interpolate_fl (rnd : K → K) (a b c fa fb fc : K) : Option K :=
  let dba := rnd (b - a)
  let dbc := rnd (b - c)
  let dfba := rnd (dbc * rnd (fb - fa))
  let dfbc := rnd (dba * rnd (fb - fc))
  if rnd (dfbc - dfba) = 0 then none
  else some (rnd (b - rnd (rnd ((1 / 2) * rnd (rnd (dba * dfbc) - rnd (dbc * dfba)))
    / rnd (dfbc - dfba))))

/-- The golden-section step of brent.c line 48 with its `diff` (line 50), every
operation rounded by `rnd`; the literal `GOLDENRATIO` is rounded too. -/
def goldenStep_fl (rnd : K → K) (s : BrentState K) : K × K :=
  let x_new := rnd (s.x + rnd (rnd GOLDENRATIO
    * (if rnd (2 * s.x) > rnd (s.lb + s.ub) then rnd (s.lb - s.x) else rnd (s.ub - s.x))))
  (x_new, |rnd (x_new - s.x)|)

/-- Lines 35-51 of brent.c, every operation rounded by `rnd`. -/
def proposeStep_fl (rnd : K → K) (s : BrentState K) : K × K :=
  match parabolic_interpolate_fl rnd s.lb s.x s.ub s.flb s.fx s.fub with
  | none => goldenStep_fl rnd s
  | some x_new =>
    if s.diff_old < s.fractol ∨ |rnd (s.x - x_new)| ≤ rnd ((1 / 2) * s.diff_old2)
        ∨ x_new < s.lb ∨ x_new > s.ub then
      goldenStep_fl rnd s
    else (x_new, |rnd (s.x - x_new)|)

/-- Lines 35-54 of brent.c, every operation rounded by `rnd`: the point at which the
iteration evaluates the objective, after the nudge `x + fractol * sign(x_new - x)` of
line 54, and `diff`. -/
def trialPoint_fl (rnd : K → K) (sgn : K → K) (s : BrentState K) : K × K :=
  let p := proposeStep_fl rnd s
  (if p.2 ≥ s.fractol then p.1 else rnd (s.x + rnd (s.fractol * sgn (rnd (p.1 - s.x)))), p.2)

/-- One iteration of the loop of `brentmin` (brent.c lines 33-74), every operation
rounded by `rnd`. -/
def brentStep_fl (rnd : K → K) (sgn : K → K) (f : K → K) (tol : K) (s : BrentState K) :
    BrentState K :=
  let x_new := (trialPoint_fl rnd sgn s).1
  let diff := (trialPoint_fl rnd sgn s).2
  let f_new := f x_new
  let t : BrentState K :=
    if f_new < s.fx then
      if x_new ≥ s.x then { s with lb := s.x, flb := s.fx, x := x_new, fx := f_new }
      else { s with ub := s.x, fub := s.fx, x := x_new, fx := f_new }
    else
      if x_new ≥ s.x then { s with ub := x_new, fub := f_new }
      else { s with lb := x_new, flb := f_new }
  { t with
    diff_old2 := s.diff_old
    diff_old := diff
    fractol := rnd (rnd (tol * |t.x|) + DBL_EPSILON)
    iters := s.iters + 1
    evals := x_new :: s.evals }

/-- The loop condition of `brentmin` (brent.c line 32), every operation rounded by
`rnd`. -/
def brentCond_fl (rnd : K → K) (s : BrentState K) : Prop :=
  rnd (|rnd (s.x - rnd ((1 / 2) * rnd (s.ub + s.lb)))| + rnd ((1 / 2) * rnd (s.ub - s.lb)))
    > rnd (2 * s.fractol)

instance (rnd : K → K) (s : BrentState K) : Decidable (brentCond_fl rnd s) := by
  unfold brentCond_fl
  infer_instance

/-- The loop of `brentmin` in rounded arithmetic, run for at most `fuel` iterations. -/
def brentRun_fl (rnd : K → K) (sgn : K → K) (f : K → K) (tol : K) :
    Nat → BrentState K → BrentState K
  | 0, s => s
  | fuel + 1, s =>
    if brentCond_fl rnd s then brentRun_fl rnd sgn f tol fuel (brentStep_fl rnd sgn f tol s)
    else s

/-- The loop of `brentmin` in rounded arithmetic: the state in which it leaves, if it
does so within `fuel` iterations. -/
def brentLoop_fl (rnd : K → K) (sgn : K → K) (f : K → K) (tol : K) (fuel : Nat)
    (s : BrentState K) : Option (BrentState K) :=
  if brentCond_fl rnd (brentRun_fl rnd sgn f tol fuel s) then none
  else some (brentRun_fl rnd sgn f tol fuel s)

/-- The local variables of `brentmin` when the loop is first reached (lines 23-31),
in rounded arithmetic; the literal `3e-8` is rounded too. -/
def brentInit_fl (rnd : K → K) (lb flb ub fub x fx tol : K) : BrentState K :=
  { lb := lb, x := x, ub := ub, flb := flb, fx := fx, fub := fub,
    diff_old2 := 0, diff_old := 0, fractol := rnd (rnd (tol * |x|) + rnd (3 / 10 ^ 8)),
    iters := 0, evals := [] }

/-- The function `brentmin` of brent.c (lines 19-80) in rounded arithmetic.  The
arguments and the values of the objective are taken to be doubles already. -/
def brentmin_fl (rnd : K → K) (sgn : K → K) (lb : K) (flbp : Option K) (ub : K)
    (fubp : Option K) (x : K) (fxp : Option K) (f : K → K) (tol : K) (fuel : Nat) :
    Except BrentError (BrentResult K) :=
  if ¬ (lb ≤ x ∧ x ≤ ub) then .error .assertion
  else
    let flb := valueOr flbp f lb
    let fub := valueOr fubp f ub
    let fx := valueOr fxp f x
    if ¬ (fx ≤ flb ∧ fx ≤ fub) then .error .assertion
    else
      brentReturn fxp
        (brentLoop_fl rnd sgn f tol fuel (brentInit_fl rnd lb flb ub fub x fx tol))

end brent_double

/-! ## slr.c -/

/-- The constant `GRIDSIZE` of slr.c. -/
def GRIDSIZE : Nat := 50

/-- The ways a function of slr.c can fail to return: a failed `assert`. -/
inductive SlrError where
  | assertion : SlrError
  deriving DecidableEq

/-- The bracket that the site loop of `CalculateSelection` hands to `linemin_1d`:
`bd[0]`, `x[0]` and `bd[1]`. -/
structure BRACKET (K : Type) where
  lower : K
  interior : K
  upper : K

/-- The values the site loop of `CalculateSelection` holds for one column before it
records them: the locals `fn`, `fm`, `omegam`, `lb`, `ub` and `type`. -/
structure SITEVALS (K : Type) where
  fn : K
  fm : K
  omegam : K
  lb : K
  ub : K
  type : Int

/-- The arrays of `struct selectioninfo` that the site loop fills. -/
structure SELINFO (K : Type) where
  llike_neu : Nat → K
  llike_max : Nat → K
  omega_max : Nat → K
  lbound : Nat → K
  ubound : Nat → K
  type : Nat → Int

/-- The functions and constants that the site loop of `CalculateSelection` uses and
that are not among the sources, as parameters, over a type `W` of the states of the
tree, the model and the one-site data set that they update: `log` and `HUGE_VAL` of
`<math.h>`, `model->pi`, `load` for `CopySiteToDataSet` followed by
`add_data_to_tree`, `linemin_1d(CalcLike_Single, x, info, lo, hi, tol, &neval)` called
as `linemin_1d w x lo hi tol`, `param1` for `model->param[1]`, `IsConserved`,
`IsSiteSynonymous`, and `find_root w target lo hi tol` for `Set_CalcLike_Wrapper`
with the target followed by `find_root(lo, hi, CalcLike_Wrapper, ...)`. -/
structure SELENV (K W : Type) where
  log : K → K
  pi : Nat → K
  HUGE_VAL : K
  load : W → Nat → W
  linemin_1d : W → K → K → K → K → K × W
  param1 : W → K
  IsConserved : Nat → Bool
  IsSiteSynonymous : Nat → Bool
  find_root : W → K → K → K → K → K × W

/-- The variables of the site loop of `CalculateSelection`, with two lists that the C
code does not hold: `solved`, the columns for which `linemin_1d` was called, and
`brackets`, the brackets handed to it (latest first). -/
structure SELSTATE (K W : Type) where
  selinfo : SELINFO K
  done_usite : Nat → Int
  world : W
  solved : List Nat
  brackets : List (BRACKET K)

section slr

variable {K : Type} [LinearOrderedField K]

/-- The constant `OMEGAMAX` of slr.c. -/
def OMEGAMAX : K := 50

/-- The constant `OMEGAEXPCONST` of slr.c. -/
def OMEGAEXPCONST : K := 1 / 2

/-- The function `FindBestX` of slr.c (lines 402-418).  `site` and `n` are C `int`s; the
state of the loop is the pair `(min, bestidx)`. -/
def FindBestX (grid : Nat → K) (site n : Int) : Except SlrError Nat :=
  if ¬ site ≥ 0 then .error .assertion
  else if ¬ n ≥ 0 then .error .assertion
  else
    .ok (forLoop n.toNat (fun a (st : K × Nat) =>
      if grid (site.toNat * n.toNat + a) < st.1 then (grid (site.toNat * n.toNat + a), a)
      else st) (DBL_MAX, 0)).2

/-- The function `create_grid` of slr.c (lines 1178-1192): the vector of length `len`
(0 beyond its end).  `expm1` is the function of `<math.h>`. -/
def create_grid (expm1 : K → K) (len : Nat) (positive : Bool) : Except SlrError (Nat → K) :=
  if ¬ len > 1 then .error .assertion
  else
    let expconst :=
      if ¬ positive = true then OMEGAMAX / expm1 (OMEGAEXPCONST * ((len - 1 : Nat) : K))
      else (OMEGAMAX - 1) / expm1 (OMEGAEXPCONST * ((len - 1 : Nat) : K))
    .ok (fun i =>
      if i < len then
        expconst * expm1 (OMEGAEXPCONST * (i : K)) + (if positive = true then 1 else 0)
      else 0)

/-- Lines 707-710 of slr.c: the bracket seeded from the grid index `start`;
`(double)positive` is 1 or 0. -/
def seedBracket (omega_grid : Nat → K) (positive : Bool) (start : Nat) : BRACKET K :=
  { lower := if start > 0 then omega_grid (start - 1) else (if positive = true then 1 else 0)
    upper := if start < GRIDSIZE - 1 then omega_grid (start + 1) else 99
    interior := omega_grid start }

/-- The general case of the site loop of `CalculateSelection` (slr.c lines 699-754):
the pattern of column `site` has not been solved yet. -/
def solveSite {W : Type} (env : SELENV K W) (index : Nat → Int) (positive : Bool) (ldiff : K)
    (omega_grid likelihood_grid likelihood_neutral : Nat → K) (site : Nat)
    (st : SELSTATE K W) : Except SlrError (SITEVALS K × SELSTATE K W) :=
  match FindBestX likelihood_grid (index site) (GRIDSIZE : Int) with
  | .error e => .error e
  | .ok start =>
    let usite := (index site).toNat
    let b := seedBracket omega_grid positive start
    let m := env.linemin_1d (env.load st.world site) b.interior b.lower b.upper (1 / 10 ^ 5)
    let fm := m.1
    let omegam := env.param1 m.2
    let lo : K × W :=
      if ldiff ≠ 0 then
        if likelihood_grid (usite * GRIDSIZE) - fm ≤ ldiff / 2 then
          ((if positive = true then 1 else 0), m.2)
        else
          env.find_root m.2 (fm + ldiff / 2) (if positive = true then 1 else 0) omegam
            (1 / 10 ^ 3)
      else (0, m.2)
    let hi : K × W :=
      if ldiff ≠ 0 then
        if likelihood_grid (usite * GRIDSIZE + GRIDSIZE - 1) - fm ≤ ldiff / 2 then (99, lo.2)
        else env.find_root lo.2 (fm + ldiff / 2) omegam 99 (1 / 10 ^ 3)
      else (env.HUGE_VAL, lo.2)
    if ¬ index site ≥ 0 then .error .assertion
    else
      .ok ({ fn := likelihood_neutral usite, fm := fm, omegam := omegam, lb := lo.1,
             ub := hi.1,
             type := if env.IsConserved site = true then 4
               else if env.IsSiteSynonymous site = true then 2 else 3 },
           { st with
             done_usite := Function.update st.done_usite usite (site : Int)
             world := hi.2
             solved := site :: st.solved
             brackets := b :: st.brackets })

/-- The four cases of the site loop of `CalculateSelection` (slr.c lines 673-754): a
column of gaps, a column present in one sequence only, a pattern already solved, and
the general case. -/
def siteValues {W : Type} (env : SELENV K W) (index : Nat → Int) (positive : Bool) (ldiff : K)
    (omega_grid likelihood_grid likelihood_neutral : Nat → K) (site : Nat)
    (st : SELSTATE K W) : Except SlrError (SITEVALS K × SELSTATE K W) :=
  if index site = -INT_MAX then
    .ok ({ fn := 0, fm := 0, omegam := 1, lb := 0, ub := env.HUGE_VAL, type := 0 }, st)
  else if index site < 0 then
    .ok ({ fn := -env.log (env.pi (-index site - 1).toNat),
           fm := -env.log (env.pi (-index site - 1).toNat), omegam := 1, lb := 0,
           ub := env.HUGE_VAL, type := 1 }, st)
  else if st.done_usite (index site).toNat ≠ -1 then
    let usite := (st.done_usite (index site).toNat).toNat
    .ok ({ fn := st.selinfo.llike_neu usite, fm := st.selinfo.llike_max usite,
           omegam := st.selinfo.omega_max usite,
           lb := if ldiff ≠ 0 then st.selinfo.lbound usite else 0,
           ub := if ldiff ≠ 0 then st.selinfo.ubound usite else env.HUGE_VAL,
           type := st.selinfo.type usite }, st)
  else solveSite env index positive ldiff omega_grid likelihood_grid likelihood_neutral site st

/-- Lines 756-763 of slr.c: the values of column `site` are recorded; the bounds only
when support is requested (`ldiff` is not 0). -/
def recordSite {W : Type} (ldiff : K) (site : Nat) (v : SITEVALS K) (st : SELSTATE K W) :
    SELSTATE K W :=
  { st with
    selinfo :=
      { llike_neu := Function.update st.selinfo.llike_neu site v.fn
        llike_max := Function.update st.selinfo.llike_max site v.fm
        omega_max := Function.update st.selinfo.omega_max site v.omegam
        lbound := if ldiff ≠ 0 then Function.update st.selinfo.lbound site v.lb
          else st.selinfo.lbound
        ubound := if ldiff ≠ 0 then Function.update st.selinfo.ubound site v.ub
          else st.selinfo.ubound
        type := Function.update st.selinfo.type site v.type } }

/-- The loop over the columns of `CalculateSelection` (slr.c lines 657-766) for a
data set with `n_pts` columns, `n_unique_pts` patterns and the compressed index
`index`.  `omega_grid` is the grid of `create_grid`, `likelihood_grid` and
`likelihood_neutral` are the tables filled before the loop, `junk` is the memory
behind the end of `done_usite`, `w` the state of the tree and model at the loop. -/
def CalculateSelection_sites {W : Type} (env : SELENV K W) (index : Nat → Int)
    (n_pts n_unique_pts : Nat) (junk : Nat → Int) (positive : Bool) (ldiff : K)
    (omega_grid likelihood_grid likelihood_neutral : Nat → K) (w : W) :
    Except SlrError (SELSTATE K W) :=
  forLoopE n_pts (fun site st =>
    match siteValues env index positive ldiff omega_grid likelihood_grid likelihood_neutral
        site st with
    | .error e => .error e
    | .ok (v, st1) => .ok (recordSite ldiff site v st1))
    { selinfo :=
        { llike_neu := fun _ => 0, llike_max := fun _ => 0, omega_max := fun _ => 0,
          lbound := fun _ => 0, ubound := fun _ => 0, type := fun _ => 0 }
      done_usite := fun i => if i < n_unique_pts then -1 else junk i
      world := w
      solved := []
      brackets := [] }

end slr

/-! ### slr.c: the parameter vector of `main` and `OptimizeTree` -/

/-- The values of `enum model_branches` (model.h) that slr.c compares `branopt` with. -/
inductive model_branches where
  | Branches_Fixed : model_branches
  | Branches_Variable : model_branches
  | Branches_Proportional : model_branches
  deriving DecidableEq

section slr_main
variable {K : Type} [LinearOrderedField K]

/-- The count `nparam` of slr.c lines 291-295: the number of entries `main` allocates for
`x`. -/
def main_nparam (branopt : model_branches) (nbr : Nat) : Nat :=
  let nparam := 2
  let nparam := if branopt = .Branches_Variable then nparam + nbr else nparam
  if branopt = .Branches_Proportional then nparam + 1 else nparam

/-- The index `offset` of slr.c lines 298-308 at which `main` stores kappa, with omega
next to it, and from which it reads both back after `OptimizeTree` (lines 320-321). -/
def main_offset (branopt : model_branches) (nbr : Nat) : Nat :=
  if branopt = .Branches_Variable then 0 + nbr
  else if branopt = .Branches_Proportional then 0 + 1
  else 0

/-- The array `x` that `main` passes to `OptimizeTree` (slr.c lines 296-311), as the list
of its `nparam` entries: `calloc` gives zeros, the branch lengths or the factor 1 are
stored at the front, then `kappa0` and `omega0` (the values of the two conditional
expressions of lines 310-311) at `offset` and `offset + 1`. -/
def main_x (branopt : model_branches) (nbr : Nat) (blength : Nat → K) (kappa0 omega0 : K) :
    List K :=
  let x := List.replicate (main_nparam branopt nbr) (0 : K)
  let x :=
    if branopt = .Branches_Variable then
      forLoop nbr (fun bran x => x.set bran (blength bran)) x
    else if branopt = .Branches_Proportional then x.set 0 1
    else x
  (x.set (main_offset branopt nbr + 0) kappa0).set (main_offset branopt nbr + 1) omega0

/-- The two reads `x[nbr + 0]`, `x[nbr + 1]` of `OptimizeTree` (slr.c lines 489-492), which
give the initial kappa and omega of the model; `none` when a read falls outside the
entries of `x`. -/
def OptimizeTree_initial (x : List K) (nbr : Nat) : Option (K × K) :=
  match x.get? (nbr + 0), x.get? (nbr + 1) with
  | some kappa, some omega => some (kappa, omega)
  | _, _ => none

end slr_main

/-! ### Predicates used in the statements and proofs -/

/-- The buffers `u` of the pass without rescaling are those of the pass with
rescaling, `s`, multiplied by the exponential of the accumulated scale factor. -/
def scaledBy (a : Nat) (s u : BUF ℝ) : Prop :=
  ∀ b, u.plik a b = s.plik a b * Real.exp (s.scalefactor a)

section predicates

variable {K : Type} [LinearOrderedField K]

/-- The tolerance of the loop test in terms of the current `x`: the absolute term is
`3e-8` before the first iteration and `DBL_EPSILON` afterwards. -/
def fractolInv (tol : K) (s : BrentState K) : Prop :=
  s.fractol = tol * |s.x| + (if s.iters = 0 then 3 / 10 ^ 8 else DBL_EPSILON)

/-- The points `x + t * direct` with `t` between 0 and `m`. -/
def onSegment (n : Nat) (x direct : Nat → K) (m : K) (y : Nat → K) : Prop :=
  ∃ t, min 0 m ≤ t ∧ t ≤ max 0 m ∧ ∀ i, i < n → y i = x i + direct i * t

/-- What `TrimAtBoundaries` has checked when it returns `m`, for a feasible `x`. -/
def trimmed (n : Nat) (x direct scale lb ub : Nat → K) (onbound : Nat → Bool) (m : K) : Prop :=
  inBox n lb ub (fun i => x i * scale i) ∧
  (∀ i, i < n → onbound i = true → direct i = 0) ∧
  (∀ i, i < n → onbound i = false →
    lb i ≤ (x i + m * direct i) * scale i ∧ (x i + m * direct i) * scale i ≤ ub i)

/-- The line search moves along `direct` by a factor inside the interval it was
given (between `lo` and `hi`). -/
def lineSearchInside (env : OPTENV K) : Prop :=
  ∀ (fw : (Nat → K) → K) (n : Nat) (xn d : Nat → K) (lo hi tol : K) (flag : Int) (ne : Nat),
    ∃ t, min lo hi ≤ t ∧ t ≤ max lo hi ∧
      ∀ i, i < n → (env.linemin_backtrack fw n xn d lo hi tol flag ne).xn i = xn i + t * d i

/-- The fields of the optimizer object that the part of `TakeStep` after the
active-set loop leaves alone. -/
def sameProblem (a b : OPTOBJ K) : Prop :=
  a.x = b.x ∧ a.dx = b.dx ∧ a.fc = b.fc ∧ a.lb = b.lb ∧ a.ub = b.ub ∧ a.scale = b.scale ∧
    a.n = b.n ∧ a.onbound = b.onbound

/-- The stored best value `fx` of a state of `brentmin`, against the three initial
values `fl0`, `fx0`, `fu0` (at `lb`, `x0`, `ub`) and the values of the objective `f`
at the trial points: it is below the values stored for both bracket ends, below the
three initial values and the value at every trial point, and it is either the initial
`fx0` with `x` still `x0`, or the value of `f` at a trial point that is now `x`. -/
def bestValueInv (f : K → K) (fl0 fx0 fu0 x0 : K) (s : BrentState K) : Prop :=
  s.fx ≤ s.flb ∧ s.fx ≤ s.fub ∧ s.fx ≤ fl0 ∧ s.fx ≤ fx0 ∧ s.fx ≤ fu0 ∧
  (∀ p, p ∈ s.evals → s.fx ≤ f p) ∧
  ((s.fx = fx0 ∧ s.x = x0) ∨ (s.x ∈ s.evals ∧ s.fx = f s.x))

/-- A state of `brentmin` on the constant objective `c` with interior point `x0`: a
bracket around `x0`, every stored value equal to `c`, and a positive tolerance. -/
def flatInv (c x0 : K) (s : BrentState K) : Prop :=
  s.lb ≤ x0 ∧ x0 ≤ s.ub ∧ s.x = x0 ∧ s.flb = c ∧ s.fx = c ∧ s.fub = c ∧ 0 < s.fractol

/-- The character that `MakeErrString` writes for the flag with bit number `b`. -/
def flagChar : Nat → Char
  | 0 => '-'
  | 1 => 'B'
  | 2 => 'N'
  | 3 => 'T'
  | 4 => 'V'
  | 5 => 'W'
  | 6 => 'R'
  | _ => 'D'

/-- The bit numbers below 8 that are set in `errn`, in increasing order. -/
def setFlags (errn : Nat) : List Nat := (List.range 8).filter (fun b => errn.testBit b)

/-- The error code read back from a diagnostic string: the sum of the flags whose
character occurs in it. -/
def decodeErrString (s : List Char) : Nat :=
  (if '-' ∈ s then 1 else 0) + (if 'B' ∈ s then 2 else 0) + (if 'N' ∈ s then 4 else 0)
    + (if 'T' ∈ s then 8 else 0) + (if 'V' ∈ s then 16 else 0) + (if 'W' ∈ s then 32 else 0)
    + (if 'R' ∈ s then 64 else 0) + (if 'D' ∈ s then 128 else 0)

/-- The test of `UpdateActiveSet` for parameter `i` (optimize_new.c lines 561-562) on
the values `x`, `direct`, `scale`, `lb`, `ub`. -/
def atBound (x direct scale lb ub : Nat → K) (i : Nat) : Prop :=
  (x i * scale i - lb i < BOUND_TOL ∧ direct i ≤ 0)
    ∨ (ub i - x i * scale i < BOUND_TOL ∧ direct i ≥ 0)

/-- The state of the loop of `UpdateActiveSet` after `k` iterations, against the
arrays `direct` and `onbound` at the call: the parameters below `k` are flagged by
the test on the values at the call, with `direct` zeroed where flagged; the others
are untouched; `nremoved` counts the parameters below `k` that changed from inactive
to active. -/
def activeSetInv (x direct scale lb ub : Nat → K) (onbound : Nat → Bool) (k : Nat)
    (st : ACTIVESET K) : Prop :=
  (∀ i, i < k → ((st.onbound i = true ↔ atBound x direct scale lb ub i) ∧
    st.direct i = if st.onbound i = true then 0 else direct i)) ∧
  (∀ i, k ≤ i → st.onbound i = onbound i ∧ st.direct i = direct i) ∧
  st.nremoved
    = ((Finset.range k).filter (fun i => onbound i = false ∧ st.onbound i = true)).card

/-- The component `i` of the Newton direction: 0 for an active parameter, and minus the
sum over the inactive `j` of `InvHess[i * n + j] * grad[j]` for an inactive one. -/
def newtonComponent (InvHess grad : Nat → K) (n : Nat) (onbound : Nat → Bool) (i : Nat) : K :=
  if onbound i = true then 0
  else -(∑ j in (Finset.range n).filter (fun j => onbound j = false), InvHess (i * n + j) * grad j)

/-- The curvature `gd` over the inactive parameters: the sum of
`(dxn[i] - dx[i]) * (xn[i] - x[i])`. -/
def curvature (x xn dx dxn : Nat → K) (n : Nat) (onbound : Nat → Bool) : K :=
  ∑ i in (Finset.range n).filter (fun i => onbound i = false), (dxn i - dx i) * (xn i - x i)

end predicates

/-- The state `(min, bestidx)` of the loop of `FindBestX` after `k` entries of the row `g`. -/
def bestInv {K : Type} [LinearOrderedField K] (g : Nat → K) (k : Nat) (st : K × Nat) : Prop :=
  (∀ a, a < k → st.1 ≤ g a) ∧
  ((st = (DBL_MAX, 0) ∧ ∀ a, a < k → DBL_MAX ≤ g a) ∨
    (st.2 < k ∧ st.1 = g st.2 ∧ st.1 < DBL_MAX ∧ ∀ a, a < st.2 → st.1 < g a))

/-- The values recorded for column `t` are those recorded for column `s` (the bounds
when support is requested). -/
def sameRecord {K : Type} [LinearOrderedField K] (ldiff : K) (sel : SELINFO K) (s t : Nat) :
    Prop :=
  sel.llike_neu t = sel.llike_neu s ∧ sel.llike_max t = sel.llike_max s ∧
  sel.omega_max t = sel.omega_max s ∧ sel.type t = sel.type s ∧
  (ldiff ≠ 0 → sel.lbound t = sel.lbound s ∧ sel.ubound t = sel.ubound s)

/-- The values `v` are those recorded for column `s` (the bounds when support is
requested). -/
def holdsRecord {K : Type} [LinearOrderedField K] (ldiff : K) (sel : SELINFO K) (s : Nat)
    (v : SITEVALS K) : Prop :=
  v.fn = sel.llike_neu s ∧ v.fm = sel.llike_max s ∧ v.omegam = sel.omega_max s ∧
  v.type = sel.type s ∧ (ldiff ≠ 0 → v.lb = sel.lbound s ∧ v.ub = sel.ubound s)

/-- Column `t` is the first column with its pattern index, which is not negative. -/
def firstColumn (index : Nat → Int) (t : Nat) : Prop :=
  0 ≤ index t ∧ ∀ r, r < t → index r ≠ index t

/-- The state of the site loop of `CalculateSelection` after `k` columns. -/
def sitesInv {K W : Type} [LinearOrderedField K] (index : Nat → Int) (n_unique_pts : Nat)
    (ldiff : K) (k : Nat) (st : SELSTATE K W) : Prop :=
  (∀ s t, s < k → t < k → index s = index t → 0 ≤ index t → sameRecord ldiff st.selinfo s t) ∧
  (∀ i : Nat, i < n_unique_pts →
    (st.done_usite i = -1 ∧ ∀ s, s < k → index s ≠ (i : Int)) ∨
    (∃ s0, s0 < k ∧ st.done_usite i = (s0 : Int) ∧ index s0 = (i : Int))) ∧
  (∀ t, t ∈ st.solved ↔ t < k ∧ firstColumn index t) ∧
  st.solved.Nodup

/-- A square root that returns a non-negative value whose square is not below its
argument, as the exact square root does. -/
def sqrtNotBelow {K : Type} [LinearOrderedField K] (sqrt : K → K) : Prop :=
  ∀ v, 0 ≤ v → 0 ≤ sqrt v ∧ v ≤ sqrt v * sqrt v

/-- The matrix stored row-major in `H` is symmetric. -/
def symmetricMat {K : Type} (n : Nat) (H : Nat → K) : Prop :=
  ∀ a b, a < n → b < n → H (a * n + b) = H (b * n + a)

section matrix_predicates
variable {K : Type} [LinearOrderedField K]

/-- The dot product of the first `n` entries of two arrays. -/
def dotN (n : Nat) (u v : Nat → K) : K := ∑ a in Finset.range n, u a * v a

/-- The entry `a` of the product of the `n` by `n` matrix stored row-major in `H` with the
vector `v`. -/
def matVec (n : Nat) (H v : Nat → K) (a : Nat) : K :=
  ∑ b in Finset.range n, H (a * n + b) * v b

/-- The quadratic form `v^T H v` of the `n` by `n` matrix stored row-major in `H`. -/
def quadForm (n : Nat) (H v : Nat → K) : K :=
  ∑ a in Finset.range n, ∑ b in Finset.range n, v a * H (a * n + b) * v b

/-- The matrix stored row-major in `H` is positive definite: `v^T H v > 0` for every
vector with a non-zero entry among the first `n`. -/
def posDefMat (n : Nat) (H : Nat → K) : Prop :=
  ∀ v : Nat → K, (∃ a, a < n ∧ v a ≠ 0) → 0 < quadForm n H v

/-- The BFGS update of an inverse Hessian `H` for the step `d` and the change of gradient
`g`, as the formula of the method: the entry `(a, b)` of
`H + (1 + g.Hg / g.d) * d d^T / g.d - (d (Hg)^T + (Hg) d^T) / g.d`. -/
def bfgsFormula (n : Nat) (H d g : Nat → K) (a b : Nat) : K :=
  H (a * n + b)
    + ((1 + dotN n g (matVec n H g) / dotN n g d) * d a * d b
        - d a * matVec n H g b - matVec n H g a * d b) / dotN n g d

end matrix_predicates

section inverse_predicates
variable {K : Type} [LinearOrderedField K]

/-- The matrix stored in `B` is an inverse of the one stored in `A`: the product `A B` is
the identity. -/
def isInverse (n : Nat) (A B : Nat → K) : Prop :=
  ∀ a b, a < n → b < n →
    ∑ c in Finset.range n, A (a * n + c) * B (c * n + b) = if a = b then 1 else 0

/-- The function `InvertMatrix` is exact for `n` by `n` matrices: whenever its argument
has an inverse, it returns that inverse. -/
def exactInversion (InvertMatrix : (Nat → K) → Nat → Nat → K) (n : Nat) : Prop :=
  ∀ A B, isInverse n A B → ∀ a b, a < n → b < n → InvertMatrix A n (a * n + b) = B (a * n + b)

/-- The `n` by `n` matrix stored row-major in `H`. -/
def toMatrix (n : Nat) (H : Nat → K) : Matrix (Fin n) (Fin n) K :=
  fun a b => H (a.val * n + b.val)

/-- The state of the loop of `UpdateActiveSet` after `k` iterations of a call in which
`i` is the only parameter that becomes active: the flags are as `activeSetInv` says, and
the inverse Hessian is modified once the loop has passed `i`. -/
def modifyInv (InvertMatrix : (Nat → K) → Nat → Nat → K) (x direct scale InvHess lb
    ub : Nat → K) (onbound : Nat → Bool) (n i k : Nat) (st : ACTIVESET K) : Prop :=
  activeSetInv x direct scale lb ub onbound k st ∧
  st.InvHess = if i < k then UpdateActiveSet_modify InvertMatrix InvHess n i else InvHess

end inverse_predicates

/-- The state `s` with the two counters that the C code does not hold set back. -/
def resetCounters {K : Type} (s : BrentState K) : BrentState K :=
  { s with iters := 0, evals := [] }

/-! ### Concrete trees -/

/-- The children list holding the nodes of a list, in order. -/
def KIDS.ofList {K : Type} : List (NODE K) → KIDS K
  | [] => .nil
  | c :: cs => .cons c (KIDS.ofList cs)

section like_inputs

variable {K : Type} [LinearOrderedField K]

/-- A one-state model with one pattern and exact observations. -/
def rescaleModel : MODEL K :=
  { nbase := 1, n_unique_pts := 1, exact_obs := 1, gapChar := 5, pi := fun _ => 1,
    pt_freq := fun _ => 1, n_pts := 1, index := fun _ => 0 }

/-- A leaf observed in state 0 whose transition matrix has the single entry 1/2. -/
def rescaleLeaf : NODE K := .leaf (fun _ => 1 / 2) (fun _ => 0) (fun _ _ => 0)

/-- A root with two children: an internal node with 21 leaves (its count 21 exceeds
`EVERY`, so it is rescaled) and a leaf. -/
def rescaleTree : KIDS K :=
  .cons (.internal (fun _ => 1) (KIDS.ofList (List.replicate 21 rescaleLeaf)))
    (.cons rescaleLeaf .nil)

/-- A two-state model with one pattern, exact observations and gap character 2. -/
def starModel : MODEL K :=
  { nbase := 2, n_unique_pts := 1, exact_obs := 1, gapChar := 2, pi := fun _ => 1 / 2,
    pt_freq := fun _ => 1, n_pts := 1, index := fun _ => 0 }

/-- The symmetric two-state transition matrix with diagonal 3/4, row-major. -/
def starP : Nat → K := fun j => if j = 0 ∨ j = 3 then 3 / 4 else 1 / 4

/-- A star tree: a root with three leaves observed in states 0, 0 and 1. -/
def starTree : KIDS K :=
  .cons (.leaf starP (fun _ => 0) (fun _ _ => 0))
    (.cons (.leaf starP (fun _ => 0) (fun _ _ => 0))
      (.cons (.leaf starP (fun _ => 1) (fun _ _ => 0)) .nil))

/-- A matrix for two states with a negative entry. -/
def signedP : Nat → K := fun j => if j = 0 then -1 else if j = 1 then 1 / 3 else 1 / 2

/-- A root with one leaf observed in state 0 whose matrix is `signedP`. -/
def signedTree : KIDS K := .cons (.leaf signedP (fun _ => 0) (fun _ _ => 0)) .nil

/-- A two-state model with one pattern whose leaves carry state distributions. -/
def softModel : MODEL K := { (starModel : MODEL K) with exact_obs := 0 }

/-- The transition matrix with the distinct entries 1, 2, 3, 4, row-major. -/
def countP : Nat → K := fun j => (j : K) + 1

/-- The one-hot vector at state 1. -/
def hotOne : Nat → Nat → K := fun _ c => if c = 1 then 1 else 0

/-- The two leaves below the internal node of `nestedTree`, observed in states 0 and 1. -/
def nestedKids : KIDS K :=
  .cons (.leaf starP (fun _ => 0) (fun _ _ => 0))
    (.cons (.leaf starP (fun _ => 1) (fun _ _ => 0)) .nil)

/-- A root with two children: an internal node with the two leaves `nestedKids`, and a
leaf observed in state 1. -/
def nestedTree : KIDS K :=
  .cons (.internal starP nestedKids) (.cons (.leaf starP (fun _ => 1) (fun _ _ => 0)) .nil)

end like_inputs

/-- A model with two parameters and no variable branches. -/
def twoParams : PARAMS ℚ :=
  { branchesVariable := false, nparam := 2, n_br := 0, blength := fun _ => 1,
    modelParam := fun _ => 1 }

/-! ### Concrete brackets -/

/-- The tolerance `1e-5` used for the concrete runs of `brentmin`. -/
def nudgeTol : ℚ := 1 / 10 ^ 5

/-- An interior point `1e-16` next to the lower end 0 of the bracket `[0, 1]`. -/
def nudgeX : ℚ := 1 / 10 ^ 16

/-- A parabola whose minimum `nudgeX / 2` lies in `[0, 1]`; its values at 0 and at
`nudgeX` are equal. -/
def nudgeParabola : ℚ → ℚ := fun t => (t - nudgeX / 2) ^ 2

/-- A step objective: -1 left of 0, 0 on `[0, nudgeX]`, 1 right of `nudgeX`. -/
def nudgeStepFn : ℚ → ℚ := fun t => if t < 0 then -1 else if t ≤ nudgeX then 0 else 1

/-- The point `nudgeX - (nudgeTol * nudgeX + DBL_EPSILON)`, which is negative. -/
def nudgedPoint : ℚ := nudgeX - (nudgeTol * nudgeX + DBL_EPSILON)

/-- The golden-section point of the first iteration from `nudgeX` in `[0, 1]`. -/
def nudgeGolden : ℚ := nudgeX + GOLDENRATIO * (1 - nudgeX)

/-- The local variables with which `brentmin` returns on `nudgeStepFn`. -/
def nudgeFinal : BrentState ℚ :=
  { lb := 0, x := nudgedPoint, ub := nudgeX, flb := 0, fx := -1, fub := 0,
    diff_old2 := nudgeGolden - nudgeX, diff_old := nudgeX / 2,
    fractol := nudgeTol * (-nudgedPoint) + DBL_EPSILON,
    iters := 2, evals := [nudgedPoint, nudgeGolden] }

/-- What `brentmin` returns on the step objective when the caller supplies the value
0 at `nudgeX` through `fxp`. -/
def nudgeSupplied : BrentResult ℚ :=
  { ret := nudgedPoint, fxp := some (-1), final := nudgeFinal }

/-- The objective `(t - 2)^2`. -/
def squareFn : ℚ → ℚ := fun t => (t - 2) ^ 2

/-- The local variables of `brentmin` at the head of its loop for `squareFn` on the
bracket `[0, 5]` with interior point 1 and `tol = 1e-5`. -/
def squareInit : BrentState ℚ :=
  brentInit 0 (squareFn 0) 5 (squareFn 5) 1 (squareFn 1) nudgeTol

/-- The golden-section point of the first iteration from 1 in `[0, 5]`. -/
def squareGolden : ℚ := 1 + GOLDENRATIO * 4

/-- The second iteration of `brentmin` on `nudgeParabola` from the bracket `[0, 1]` with
interior point `nudgeX`: the state after the first (golden-section) iteration. -/
def nudgeSecond : BrentState ℚ :=
  brentStep sign nudgeParabola nudgeTol
    (brentInit 0 (nudgeParabola 0) 1 (nudgeParabola 1) nudgeX (nudgeParabola nudgeX) nudgeTol)

/-- The variables of `brentmin` in which the loop stays for the constant objective 0
around `x = 1024` in double arithmetic: the upper end has reached `x`, the lower end is
the double next below `x`, and `fractol` is `DBL_EPSILON`. -/
def stuckState : BrentState ℚ :=
  { lb := 1024 - 1 / 2 ^ 43, x := 1024, ub := 1024, flb := 0, fx := 0, fub := 0,
    diff_old2 := 0, diff_old := 0, fractol := 1 / 2 ^ 52, iters := 0, evals := [] }

/-- The variables of `brentmin` at the head of the loop for the bracket `[0, 2048]`
with interior point 1024, `tol = 0` and the constant objective 0, in double
arithmetic. -/
def wideInit : BrentState ℚ := brentInit_fl roundDouble 0 0 2048 0 1024 0 0

/-! ### Concrete optimizer inputs -/

deriving instance DecidableEq for Except

/-- The point of the concrete call of `TrimAtBoundaries`: `x[0] = 1/2`. -/
def tinyX : Nat → ℚ := fun _ => 1 / 2

/-- A direction `1e-16` that is not zero and not above `DBL_EPSILON`. -/
def tinyDirect : Nat → ℚ := fun _ => 1 / 10 ^ 16

/-- The unit scale. -/
def unitScale : Nat → ℚ := fun _ => 1

/-- The lower bounds 0. -/
def zeroLb : Nat → ℚ := fun _ => 0

/-- The upper bounds 1. -/
def oneUb : Nat → ℚ := fun _ => 1

/-- No parameter is flagged active. -/
def noneActive : Nat → Bool := fun _ => false

/-- A rational stand-in for `sqrt`: exact at 0, 1, 4 and 6084, and the Heron step
`(v + 1) / 2` elsewhere. -/
def sqrtStandIn : ℚ → ℚ := fun v =>
  if v = 0 then 0 else if v = 1 then 1 else if v = 4 then 2 else if v = 6084 then 78
  else (v + 1) / 2

/-- An optimizer environment for one parameter: the objective `100 * (p - 49/100)^2` with
its gradient, the inverse of a 1 by 1 matrix, and a line search that returns the
far end `hi` of the interval it is given. -/
def quadEnv : OPTENV ℚ :=
  { f := fun p => 100 * (p 0 - 49 / 100) ^ 2
    df := fun p i => if i = 0 then 200 * (p 0 - 49 / 100) else 0
    sqrt := sqrtStandIn
    InvertMatrix := fun H _ k => if k = 0 then 1 / H 0 else H k
    linemin_backtrack := fun fw _ xn d _ hi _ _ ne =>
      { value := fw (fun i => xn i + hi * d i), xn := fun i => xn i + hi * d i,
        neval := ne + 1 } }

/-- The optimizer object for one parameter at `x0` in `[0, 1]`, with unit scale, the
identity as inverse Hessian, trust radius 1/10, and `dx`, `fc` the gradient and value
of the objective of `quadEnv` at `x0`. -/
def quadOpt (x0 : ℚ) : OPTOBJ ℚ :=
  { x := fun _ => x0, xn := fun _ => 0, dx := fun _ => 200 * (x0 - 49 / 100),
    dxn := fun _ => 0, H := fun _ => 1, direct := fun _ => 0, lb := fun _ => 0,
    ub := fun _ => 1, scale := fun _ => 1, fc := 100 * (x0 - 49 / 100) ^ 2, fn := 0,
    onbound := fun _ => false, n := 1, neval := 0, trust := 1 / 10 }

/-- A placeholder candidate, the value of `okValue` for a call that did not return. -/
def noCandidate : CANDIDATE ℚ :=
  { opt := quadOpt 0, newbound := 0, errn := 0, evals := [] }

/-- A placeholder result, the value of `okValue` for a call that did not return. -/
def noResult : STEPRESULT ℚ :=
  { ret := 0, opt := quadOpt 0, factor := 0, newbound := 0, errn := 0, evals := [] }

/-- A placeholder for the arrays of `Rescale`, the value of `okValue` for a call that
did not return. -/
def noRescaled : RESCALED ℚ :=
  { x := fun _ => 0, dx := fun _ => 0, H := fun _ => 0, scale := fun _ => 0 }

/-- One parameter with inverse-Hessian entry 4, whose square root 2 is the factor
`Rescale` applies. -/
def fourH : Nat → ℚ := fun _ => 4

/-- An optimizer object as `malloc` may leave it: every array zero. -/
def zeroMem : OPTOBJ ℚ :=
  { x := fun _ => 0, xn := fun _ => 0, dx := fun _ => 0, dxn := fun _ => 0, H := fun _ => 0,
    direct := fun _ => 0, lb := fun _ => 0, ub := fun _ => 0, scale := fun _ => 0, fc := 0,
    fn := 0, onbound := fun _ => false, n := 0, neval := 0, trust := 0 }

/-- The object `NewOpt(1)` returns on `zeroMem`. -/
def oneMem : OPTOBJ ℚ := { zeroMem with n := 1, neval := 0, trust := 1 / 10 }

/-- A placeholder for the variables of `Optimize`, the value of `okValue` for a call
that did not return. -/
def noRun : OPTRUN ℚ := Optimize_start zeroMem

/-- The bound array `bd` for one parameter in `[0, 1]`. -/
def quadBd : Nat → ℚ := fun i => if i = 0 then 0 else 1

/-- The variables of `Optimize` at its outer loop for the objective of `quadEnv`, one
parameter starting at `1/2` in `[0, 1]`, with `*fx = 1/100` its value there. -/
def quadStart : OPTRUN ℚ :=
  Optimize_start (InitializeOpt quadEnv oneMem (fun _ => 1 / 2) 1 (1 / 100) quadBd)

/-- An optimizer environment for one parameter with the decreasing objective `-p`. -/
def climbEnv : OPTENV ℚ :=
  { quadEnv with
    f := fun p => -(p 0)
    df := fun _ i => if i = 0 then -1 else 0 }

/-- The bound array `bd` for one parameter in `[0, 1000]`. -/
def climbBd : Nat → ℚ := fun i => if i = 0 then 0 else 1000

/-- The variables of `Optimize` at the head of its inner loop in the first body of the
outer loop, for the objective `-p` from `x = 1` in `[0, 1000]` with `*fx = -1`. -/
def climbPass : OPTRUN ℚ :=
  { Optimize_start (InitializeOpt climbEnv oneMem (fun _ => 1) 1 (-1) climbBd) with
    fo := -1
    opt := InitializeH (InitializeOpt climbEnv oneMem (fun _ => 1) 1 (-1) climbBd)
    fact := 1 }

/-- The variables of `Optimize` at the head of its inner loop in the first body of the
outer loop, for the objective of `quadEnv` from `x = 1/2` in `[0, 1]`. -/
def quadPass : OPTRUN ℚ :=
  { quadStart with fo := 1 / 100, opt := InitializeH quadStart.opt, fact := 1 }

/-- An optimizer environment for one parameter with the objective `p^2`. -/
def parabolaEnv : OPTENV ℚ :=
  { quadEnv with
    f := fun p => p 0 ^ 2
    df := fun p i => if i = 0 then 2 * p 0 else 0 }

/-- A malformed bound array `bd` for one parameter: lower bound 1, upper bound 0. -/
def badBd : Nat → ℚ := fun i => if i = 0 then 1 else 0

/-- The optimizer object at the first call of `TakeStep` for the objective `p^2` from
`x = 2` with the malformed bounds `badBd`. -/
def badOpt : OPTOBJ ℚ :=
  InitializeH (InitializeOpt parabolaEnv oneMem (fun _ => 2) 1 4 badBd)

/-- A placeholder for the result of `Optimize`, the value of `okValue` for a call that
did not return. -/
def noOut : OPTOUT ℚ := { x := fun _ => 0, fx := 0, reported := false, run := none }

/-- A placeholder for the result of the active-set loop, the value of `okValue` for a
loop that did not return. -/
def noActiveSet : ACTIVESET ℚ × Nat × ℚ :=
  ({ direct := fun _ => 0, InvHess := fun _ => 0, onbound := fun _ => false, nremoved := 0,
     errn := 0 }, 0, 0)

/-- Two parameters, the first on its lower bound 0 and the second at `1/2`. -/
def edgeX : Nat → ℚ := fun i => if i = 0 then 0 else 1 / 2

/-- A direction that pushes the first parameter down and the second up. -/
def edgeDirect : Nat → ℚ := fun i => if i = 0 then -1 else 1

/-- The 2 by 2 identity matrix, row-major. -/
def twoIdentity : Nat → ℚ := fun k => if k = 0 ∨ k = 3 then 1 else 0

/-- The gradient `(2, 5)`. -/
def twoGrad : Nat → ℚ := fun i => if i = 0 then 2 else 5

/-- Only the second parameter is flagged active. -/
def secondActive : Nat → Bool := fun i => decide (i = 1)

/-- A placeholder for the result of `GetNewtonStep`, the value of `okValue` for a call
that did not return. -/
def noStep : (Nat → ℚ) × ℚ := (fun _ => 0, 0)

/-- A placeholder for the result of `UpdateH_BFGS`, the value of `okValue` for a call
that did not return. -/
def noUpdate : RESCALED ℚ × Nat := (noRescaled, 0)

/-- A pattern index for three columns: columns 0 and 2 share pattern 0. -/
def sharedIndex : Nat → Int := fun t => if t = 1 then 1 else 0

/-- A table of grid values whose row minimum is at grid index 3. -/
def bowlGrid : Nat → ℚ := fun k => (((k % 50 : Nat) : ℚ) - 3) ^ 2

/-- A stand-in environment for the site loop over a call counter: `linemin_1d` returns
the counter plus the interior point and advances the counter, so that a second
solve of the same pattern would give another value. -/
def countingEnv : SELENV ℚ Nat :=
  { log := fun _ => 0, pi := fun _ => 1, HUGE_VAL := 10 ^ 400, load := fun w _ => w,
    linemin_1d := fun w x _ _ _ => ((w : ℚ) + x, w + 1), param1 := fun w => (w : ℚ),
    IsConserved := fun _ => false, IsSiteSynonymous := fun _ => false,
    find_root := fun w _ lo _ _ => (lo, w + 1) }

/-- A placeholder for the variables of the site loop. -/
def noSites : SELSTATE ℚ Nat :=
  { selinfo :=
      { llike_neu := fun _ => 0, llike_max := fun _ => 0, omega_max := fun _ => 0,
        lbound := fun _ => 0, ubound := fun _ => 0, type := fun _ => 0 }
    done_usite := fun _ => 0, world := 0, solved := [], brackets := [] }

/-- The grid that `create_grid` gives for positive-only selection when the identity
stands in for `expm1`. -/
def linearGrid : Nat → ℚ := okValue (fun _ => 0) (create_grid (fun x => x) GRIDSIZE true)

/-- The symmetric matrix with rows `(4, 2)` and `(2, 1)`. -/
def fourTwoOne : Nat → ℚ := fun k => if k = 0 then 4 else if k = 3 then 1 else 2

/-- The step `d = (1, 0)` of the concrete call of `UpdateH_BFGS`, as the new point from the
old point 0. -/
def stepXn : Nat → ℚ := fun i => if i = 0 then 1 else 0

/-- The new gradient `(2, 1)` of the concrete call of `UpdateH_BFGS`, the old one being 0. -/
def stepDxn : Nat → ℚ := fun i => if i = 0 then 2 else 1

/-- The inverse of a 2 by 2 matrix by the formula with the determinant. -/
def invertTwo : (Nat → ℚ) → Nat → Nat → ℚ := fun H _ k =>
  if k = 0 then H 3 / (H 0 * H 3 - H 1 * H 2)
  else if k = 1 then -H 1 / (H 0 * H 3 - H 1 * H 2)
  else if k = 2 then -H 2 / (H 0 * H 3 - H 1 * H 2)
  else if k = 3 then H 0 / (H 0 * H 3 - H 1 * H 2)
  else H k

/-- The symmetric positive definite matrix with rows `(2, 1)` and `(1, 2)`. -/
def twoOneTwo : Nat → ℚ := fun k => if k = 0 ∨ k = 3 then 2 else 1

/-! ## Theorems -/

section like_theorems

variable {K : Type} [LinearOrderedField K]

theorem forLoop_add_eq_sum (g : Nat → K) (n : Nat) (init : K) :
    forLoop n (fun a acc => acc + g a) init = init + ∑ a in Finset.range n, g a := by
  induction n with
  | zero => simp [forLoop]
  | succ k ih => simp only [forLoop, ih, Finset.sum_range_succ]; ring

/-- C1: `Like` is the sum over unique patterns of `freq[a] * (log(like[a]) + scale[a])`
plus the sum over the columns whose index is a single-observation sentinel of
`log(pi[-index[a] - 1])`; the other columns add nothing. -/
theorem Like_eq_sum (log : K → K) (scale like freq : Nat → K) (usize : Nat) (pi : Nat → K)
    (nsize : Nat) (index : Nat → Int) :
    Like log scale like freq usize pi nsize index
      = (∑ a in Finset.range usize, freq a * (log (like a) + scale a))
        + ∑ a in Finset.range nsize,
            (if index a < 0 ∧ index a ≠ -INT_MAX then log (pi (-index a - 1).toNat) else 0) := by
  unfold Like
  have h1 : forLoop usize
      (fun a result => (result + freq a * log (like a)) + freq a * scale a) (0 : K)
      = 0 + ∑ a in Finset.range usize, freq a * (log (like a) + scale a) := by
    rw [← forLoop_add_eq_sum]
    congr 1
    funext a acc
    ring
  have h2 : ∀ init : K, forLoop nsize
      (fun a result =>
        if index a < 0 ∧ index a ≠ -INT_MAX then
          result + log (pi (-index a - 1).toNat)
        else result) init
      = init + ∑ a in Finset.range nsize,
            (if index a < 0 ∧ index a ≠ -INT_MAX then log (pi (-index a - 1).toNat) else 0) := by
    intro init
    rw [← forLoop_add_eq_sum]
    congr 1
    funext a acc
    split_ifs <;> simp
  simp only [h1, h2, zero_add]

theorem CalcLike_kids_plik (scaleFlag : Nat) (log : K → K) (m : MODEL K) (h : m.exact_obs = 1)
    (a b : Nat) : ∀ (kids : KIDS K) (node : BUF K),
    (CalcLike_kids scaleFlag log m kids node).plik a b
      = node.plik a b * ((KIDS.toList kids).map (propagated scaleFlag log m a b)).prod
  | .nil, node => by simp [CalcLike_kids, KIDS.toList]
  | .cons (.leaf mat seq lplik) ks, node => by
    rw [CalcLike_kids, CalcLike_kids_plik scaleFlag log m h a b ks]
    simp only [CalcLike_Sub, h, if_true, KIDS.toList, List.map_cons, List.prod_cons, propagated]
    split_ifs <;> ring
  | .cons (.internal mat kids) ks, node => by
    rw [CalcLike_kids, CalcLike_kids_plik scaleFlag log m h a b ks]
    simp only [CalcLike_Sub, KIDS.toList, List.map_cons, List.prod_cons, propagated,
      Matrix_MatrixT_Mult]
    rw [mul_assoc]
    congr 2
    apply Finset.sum_congr rfl
    intro k _
    ring

theorem CalcLike_kids_leaf_scalefactor (scaleFlag : Nat) (log : K → K) (m : MODEL K)
    (mat : Nat → K) (seq : Nat → Nat) (lplik : Nat → Nat → K) (node : BUF K) :
    (CalcLike_Sub scaleFlag log m (.leaf mat seq lplik) node).parent.scalefactor
      = node.scalefactor := by
  simp only [CalcLike_Sub]
  split_ifs <;> rfl

theorem clampEntry_of_nonneg {v : K} (h : 0 ≤ v) : clampEntry v = v := by
  unfold clampEntry
  rw [if_neg (not_lt.mpr h)]

/-- C3: with exact observations, the forward entry `plik[a][b]` of an internal node
that is not rescaled (and of the root) is the product over its children of the
child's propagated entry; and for a star tree of three observed leaves with
transition matrices `P1`, `P2`, `P3` (non-negative entries) `LikeVectorSub` returns
`p[a] = sum over b of pi[b] * P1[b][s1] * P2[b][s2] * P3[b][s3]` with root scale factor 0. -/
theorem CalcLike_Sub_product_and_star (scaleFlag : Nat) (log : K → K) (m : MODEL K)
    (h : m.exact_obs = 1) (a : Nat) :
    (∀ (mat : Nat → K) (kids : KIDS K) (parent : BUF K) (b : Nat),
      ¬ (scaleFlag = 1 ∧ (CalcLike_kids scaleFlag log m kids BUF.ones).scale > EVERY) →
      (CalcLike_Sub scaleFlag log m (.internal mat kids) parent).own.plik a b
        = ((KIDS.toList kids).map (propagated scaleFlag log m a b)).prod) ∧
    (∀ (kids : KIDS K) (b : Nat),
      (CalcLike_root scaleFlag log m kids).plik a b
        = ((KIDS.toList kids).map (propagated scaleFlag log m a b)).prod) ∧
    (∀ (P1 P2 P3 : Nat → K) (seq1 seq2 seq3 : Nat → Nat) (l1 l2 l3 : Nat → Nat → K),
      (∀ j, 0 ≤ P1 j) → (∀ j, 0 ≤ P2 j) → (∀ j, 0 ≤ P3 j) →
      seq1 a ≠ m.gapChar → seq2 a ≠ m.gapChar → seq3 a ≠ m.gapChar →
      (LikeVectorSub scaleFlag log m
          (.cons (.leaf P1 seq1 l1) (.cons (.leaf P2 seq2 l2)
            (.cons (.leaf P3 seq3 l3) .nil)))).1 a
        = ∑ b in Finset.range m.nbase,
            m.pi b * P1 (seq1 a + b * m.nbase) * P2 (seq2 a + b * m.nbase)
              * P3 (seq3 a + b * m.nbase) ∧
      (LikeVectorSub scaleFlag log m
          (.cons (.leaf P1 seq1 l1) (.cons (.leaf P2 seq2 l2)
            (.cons (.leaf P3 seq3 l3) .nil)))).2.scalefactor a = 0) := by
  refine ⟨?_, ?_, ?_⟩
  · intro mat kids parent b hno
    simp only [CalcLike_Sub, rescaleNode, if_neg hno]
    rw [CalcLike_kids_plik scaleFlag log m h a b kids]
    simp [BUF.ones]
  · intro kids b
    rw [CalcLike_root, CalcLike_kids_plik scaleFlag log m h a b kids]
    simp [BUF.ones]
  · intro P1 P2 P3 seq1 seq2 seq3 l1 l2 l3 h1 h2 h3 g1 g2 g3
    constructor
    · simp only [LikeVectorSub, CalcLike_root]
      rw [forLoop_add_eq_sum, zero_add]
      apply Finset.sum_congr rfl
      intro b _
      rw [CalcLike_kids_plik scaleFlag log m h a b]
      simp only [KIDS.toList, List.map_cons, List.map_nil, List.prod_cons, List.prod_nil,
        propagated, if_pos g1, if_pos g2, if_pos g3, BUF.ones]
      rw [clampEntry_of_nonneg]
      · ring
      · have := h1 (seq1 a + b * m.nbase)
        have := h2 (seq2 a + b * m.nbase)
        have := h3 (seq3 a + b * m.nbase)
        positivity
    · simp [LikeVectorSub, CalcLike_root, CalcLike_kids, CalcLike_kids_leaf_scalefactor,
        BUF.ones]

theorem starP_nonneg (j : Nat) : (0 : ℚ) ≤ starP j := by
  unfold starP
  split_ifs <;> norm_num

/-- Witness for C3: the two-state star tree with leaves observed in states 0, 0, 1. -/
theorem CalcLike_Sub_product_and_star_witness :
    (starModel : MODEL ℚ).exact_obs = 1 ∧
    ((LikeVectorSub SCALE (fun _ => 0) (starModel : MODEL ℚ) starTree).1 0
        = ∑ b in Finset.range 2,
            (1 / 2 : ℚ) * starP (0 + b * 2) * starP (0 + b * 2) * starP (1 + b * 2) ∧
      (LikeVectorSub SCALE (fun _ => 0) (starModel : MODEL ℚ) starTree).2.scalefactor 0 = 0) ∧
    (LikeVectorSub SCALE (fun _ => 0) (starModel : MODEL ℚ) starTree).1 0 = 3 / 32 :=
  ⟨rfl,
   (CalcLike_Sub_product_and_star SCALE (fun _ => 0) (starModel : MODEL ℚ) rfl 0).2.2
      starP starP starP (fun _ => 0) (fun _ => 0) (fun _ => 1)
      (fun _ _ => 0) (fun _ _ => 0) (fun _ _ => 0)
      starP_nonneg starP_nonneg starP_nonneg (by decide) (by decide) (by decide),
   by decide!⟩

end like_theorems

section rescaling

theorem scaledBy_ones (a : Nat) : scaledBy a (BUF.ones : BUF ℝ) BUF.ones := by
  intro b
  simp [BUF.ones]

theorem scaledBy_rescaleNode (m : MODEL ℝ) (a : Nat) (s u : BUF ℝ) (h : scaledBy a s u)
    (hpos : SCALE = 1 ∧ s.scale > EVERY → 0 < rowMax m.nbase s.plik a) :
    scaledBy a (rescaleNode SCALE Real.log m s) (rescaleNode 0 Real.log m u) := by
  intro b
  have hu : rescaleNode 0 Real.log m u = u := by
    simp [rescaleNode]
  rw [hu]
  unfold rescaleNode
  by_cases hc : SCALE = 1 ∧ s.scale > EVERY
  · have hp := hpos hc
    rw [if_pos hc]
    simp only
    rw [Real.exp_add, Real.exp_log hp, h b]
    field_simp
    ring
  · rw [if_neg hc]
    exact h b

mutual
theorem CalcLike_Sub_scaledBy (m : MODEL ℝ) (a : Nat) :
    ∀ (node : NODE ℝ) (ps pu : BUF ℝ),
      rescalePositive SCALE Real.log m a node = true → scaledBy a ps pu →
      scaledBy a (CalcLike_Sub SCALE Real.log m node ps).parent
        (CalcLike_Sub 0 Real.log m node pu).parent
  | .leaf mat seq lplik, ps, pu, _, h => by
    intro b
    by_cases he : m.exact_obs = 1
    · by_cases hg : seq a ≠ m.gapChar
      · simp only [CalcLike_Sub, if_pos he, if_pos hg, h b]
        ring
      · simp only [CalcLike_Sub, if_pos he, if_neg hg, h b]
    · simp only [CalcLike_Sub, if_neg he, h b]
      ring
  | .internal mat kids, ps, pu, hp, h => by
    intro b
    simp only [rescalePositive, Bool.and_eq_true] at hp
    have hk := CalcLike_kids_scaledBy m a kids BUF.ones BUF.ones hp.1 (scaledBy_ones a)
    have hr := scaledBy_rescaleNode m a _ _ hk (by
      intro hc
      have h2 := hp.2
      rw [if_pos hc] at h2
      exact of_decide_eq_true h2)
    simp only [CalcLike_Sub, Matrix_MatrixT_Mult]
    rw [h b, Real.exp_add, Finset.sum_congr rfl (fun k _ => by rw [hr k])]
    rw [Finset.mul_sum, Finset.mul_sum, Finset.sum_mul]
    apply Finset.sum_congr rfl
    intro k _
    ring
theorem CalcLike_kids_scaledBy (m : MODEL ℝ) (a : Nat) :
    ∀ (kids : KIDS ℝ) (ps pu : BUF ℝ),
      rescalePositive_kids SCALE Real.log m a kids = true → scaledBy a ps pu →
      scaledBy a (CalcLike_kids SCALE Real.log m kids ps)
        (CalcLike_kids 0 Real.log m kids pu)
  | .nil, ps, pu, _, h => by
    simpa [CalcLike_kids] using h
  | .cons c ks, ps, pu, hp, h => by
    simp only [rescalePositive_kids, Bool.and_eq_true] at hp
    simp only [CalcLike_kids]
    exact CalcLike_kids_scaledBy m a ks _ _ hp.2 (CalcLike_Sub_scaledBy m a c ps pu hp.1 h)
end

theorem clampEntry_mul_pos (v E : ℝ) (hE : 0 < E) : clampEntry (v * E) = clampEntry v * E := by
  unfold clampEntry
  by_cases hv : v < 0
  · rw [if_pos hv, if_pos (mul_neg_of_neg_of_pos hv hE), zero_mul]
  · rw [if_neg hv, if_neg (not_lt.mpr (mul_nonneg (not_lt.mp hv) hE.le))]

/-- C2: for every tree and every pattern `a` with a strictly positive maximum at every
node where a rescale is applied, `p[a] * exp(root scalefactor[a])` from `LikeVectorSub`
with rescaling (`SCALE = 1`, a non-root internal node rescales when its count exceeds
`EVERY = 20`) equals `p[a]` from the same pass with rescaling disabled. -/
theorem LikeVectorSub_rescaling_lossless (m : MODEL ℝ) (tree : KIDS ℝ) (a : Nat)
    (hpos : rescalePositive_kids SCALE Real.log m a tree = true) :
    (LikeVectorSub SCALE Real.log m tree).1 a
        * Real.exp ((LikeVectorSub SCALE Real.log m tree).2.scalefactor a)
      = (LikeVectorSub 0 Real.log m tree).1 a := by
  have h := CalcLike_kids_scaledBy m a tree BUF.ones BUF.ones hpos (scaledBy_ones a)
  simp only [LikeVectorSub, CalcLike_root]
  rw [forLoop_add_eq_sum, forLoop_add_eq_sum, zero_add, zero_add, Finset.sum_mul]
  apply Finset.sum_congr rfl
  intro b _
  rw [h b, clampEntry_mul_pos _ _ (Real.exp_pos _)]
  ring

/-- Witness for C2: a tree whose internal node has 21 leaves and is rescaled. -/
theorem LikeVectorSub_rescaling_lossless_witness :
    (CalcLike_kids SCALE Real.log (rescaleModel : MODEL ℝ)
        (KIDS.ofList (List.replicate 21 rescaleLeaf)) BUF.ones).scale > EVERY ∧
    rescalePositive_kids SCALE Real.log rescaleModel 0 (rescaleTree : KIDS ℝ) = true ∧
    (LikeVectorSub SCALE Real.log rescaleModel (rescaleTree : KIDS ℝ)).1 0
        * Real.exp ((LikeVectorSub SCALE Real.log rescaleModel
            (rescaleTree : KIDS ℝ)).2.scalefactor 0)
      = (LikeVectorSub 0 Real.log rescaleModel (rescaleTree : KIDS ℝ)).1 0 :=
  have h : rescalePositive_kids SCALE Real.log rescaleModel 0 (rescaleTree : KIDS ℝ) = true := by
    simp [rescaleTree, KIDS.ofList, List.replicate, rescalePositive_kids, rescalePositive,
      rescaleLeaf, CalcLike_kids, CalcLike_Sub, rescaleModel, BUF.ones, rowMax, forLoop,
      EVERY, SCALE]
  ⟨by simp [KIDS.ofList, List.replicate, rescaleLeaf, CalcLike_kids, CalcLike_Sub,
      rescaleModel, BUF.ones, EVERY],
   h, LikeVectorSub_rescaling_lossless rescaleModel rescaleTree 0 h⟩

end rescaling

section brent_theorems

variable {K : Type} [LinearOrderedField K]

theorem fractolInv_brentStep (sgn f : K → K) (tol : K) (s : BrentState K) :
    fractolInv tol (brentStep sgn f tol s) := by
  unfold fractolInv brentStep
  simp

theorem fractolInv_brentRun (sgn f : K → K) (tol : K) :
    ∀ (fuel : Nat) (s : BrentState K), fractolInv tol s →
      fractolInv tol (brentRun sgn f tol fuel s)
  | 0, s, h => by simpa [brentRun] using h
  | fuel + 1, s, h => by
    unfold brentRun
    split_ifs
    · exact fractolInv_brentRun sgn f tol fuel _ (fractolInv_brentStep sgn f tol s)
    · exact h

theorem brentLoop_some (sgn f : K → K) (tol : K) (fuel : Nat) (s t : BrentState K)
    (h : brentLoop sgn f tol fuel s = some t) :
    t = brentRun sgn f tol fuel s ∧ ¬ brentCond t := by
  unfold brentLoop at h
  split_ifs at h with hc
  simp only [Option.some.injEq] at h
  subst h
  exact ⟨rfl, hc⟩

theorem brentmin_of_valid (sgn : K → K) (lb : K) (flbp : Option K) (ub : K)
    (fubp : Option K) (x : K) (fxp : Option K) (f : K → K) (tol : K) (fuel : Nat)
    (h : (lb ≤ x ∧ x ≤ ub) ∧
        (valueOr fxp f x ≤ valueOr flbp f lb ∧ valueOr fxp f x ≤ valueOr fubp f ub)) :
    brentmin sgn lb flbp ub fubp x fxp f tol fuel
      = brentReturn fxp (brentLoop sgn f tol fuel
          (brentInit lb (valueOr flbp f lb) ub (valueOr fubp f ub) x (valueOr fxp f x) tol)) := by
  unfold brentmin
  simp only [h.1, h.2, not_true_eq_false, if_false, and_self]

theorem brentmin_of_invalid (sgn : K → K) (lb : K) (flbp : Option K) (ub : K)
    (fubp : Option K) (x : K) (fxp : Option K) (f : K → K) (tol : K) (fuel : Nat)
    (h : ¬ ((lb ≤ x ∧ x ≤ ub) ∧
        (valueOr fxp f x ≤ valueOr flbp f lb ∧ valueOr fxp f x ≤ valueOr fubp f ub))) :
    brentmin sgn lb flbp ub fubp x fxp f tol fuel = .error .assertion := by
  unfold brentmin
  by_cases h1 : lb ≤ x ∧ x ≤ ub
  · have h2 : ¬ (valueOr fxp f x ≤ valueOr flbp f lb ∧ valueOr fxp f x ≤ valueOr fubp f ub) :=
      fun h2 => h ⟨h1, h2⟩
    simp [h1, h2]
  · simp [h1]

theorem brentmin_ok (sgn : K → K) (lb : K) (flbp : Option K) (ub : K)
    (fubp : Option K) (x : K) (fxp : Option K) (f : K → K) (tol : K) (fuel : Nat)
    (r : BrentResult K) (h : brentmin sgn lb flbp ub fubp x fxp f tol fuel = .ok r) :
    ((lb ≤ x ∧ x ≤ ub) ∧
        (valueOr fxp f x ≤ valueOr flbp f lb ∧ valueOr fxp f x ≤ valueOr fubp f ub)) ∧
    brentLoop sgn f tol fuel
        (brentInit lb (valueOr flbp f lb) ub (valueOr fubp f ub) x (valueOr fxp f x) tol)
      = some r.final ∧
    r.ret = r.final.x ∧ r.fxp = fxp.map (fun _ => r.final.fx) := by
  by_cases hv : (lb ≤ x ∧ x ≤ ub) ∧
      (valueOr fxp f x ≤ valueOr flbp f lb ∧ valueOr fxp f x ≤ valueOr fubp f ub)
  · rw [brentmin_of_valid sgn lb flbp ub fubp x fxp f tol fuel hv] at h
    cases hl : brentLoop sgn f tol fuel
        (brentInit lb (valueOr flbp f lb) ub (valueOr fubp f ub) x (valueOr fxp f x) tol) with
    | none => rw [hl] at h; cases h
    | some s =>
      rw [hl] at h
      simp only [brentReturn, Except.ok.injEq] at h
      subst h
      exact ⟨hv, rfl, rfl, rfl⟩
  · rw [brentmin_of_invalid sgn lb flbp ub fubp x fxp f tol fuel hv] at h
    cases h

/-- C8: `brentmin` fails an assertion if and only if the input is not a valid bracket
(`lb <= x <= ub`, `f(x) <= f(lb)`, `f(x) <= f(ub)` for the supplied or evaluated
values); on a valid bracket no assertion fails and the loop is entered with the
caller's triple unchanged. -/
theorem brentmin_assertion_iff (sgn : K → K) (lb : K) (flbp : Option K) (ub : K)
    (fubp : Option K) (x : K) (fxp : Option K) (f : K → K) (tol : K) (fuel : Nat) :
    (brentmin sgn lb flbp ub fubp x fxp f tol fuel = .error .assertion
      ↔ ¬ ((lb ≤ x ∧ x ≤ ub) ∧
            (valueOr fxp f x ≤ valueOr flbp f lb ∧ valueOr fxp f x ≤ valueOr fubp f ub))) ∧
    ((lb ≤ x ∧ x ≤ ub) ∧
        (valueOr fxp f x ≤ valueOr flbp f lb ∧ valueOr fxp f x ≤ valueOr fubp f ub) →
      brentmin sgn lb flbp ub fubp x fxp f tol fuel
        = brentReturn fxp (brentLoop sgn f tol fuel
            (brentInit lb (valueOr flbp f lb) ub (valueOr fubp f ub) x (valueOr fxp f x) tol))) := by
  refine ⟨⟨?_, brentmin_of_invalid sgn lb flbp ub fubp x fxp f tol fuel⟩,
    brentmin_of_valid sgn lb flbp ub fubp x fxp f tol fuel⟩
  intro h hv
  rw [brentmin_of_valid sgn lb flbp ub fubp x fxp f tol fuel hv] at h
  cases hl : brentLoop sgn f tol fuel
      (brentInit lb (valueOr flbp f lb) ub (valueOr fubp f ub) x (valueOr fxp f x) tol) with
  | none => rw [hl] at h; cases h
  | some s => rw [hl] at h; cases h

/-- C9: whenever `brentmin` returns, its final bracket satisfies
`|x - (lb+ub)/2| + (ub-lb)/2 <= 2*(tol*|x| + e)` with `x` the returned point and `e`
equal to `3e-8` if no iteration ran and to `DBL_EPSILON` otherwise; so when
`lb <= x <= ub` both ends lie within `2*(tol*|x| + e)` of `x`. -/
theorem brentmin_final_bracket (sgn : K → K) (lb : K) (flbp : Option K) (ub : K)
    (fubp : Option K) (x : K) (fxp : Option K) (f : K → K) (tol : K) (fuel : Nat)
    (r : BrentResult K) (h : brentmin sgn lb flbp ub fubp x fxp f tol fuel = .ok r) :
    r.ret = r.final.x ∧
    |r.ret - (r.final.lb + r.final.ub) / 2| + (r.final.ub - r.final.lb) / 2
      ≤ 2 * (tol * |r.ret| + (if r.final.iters = 0 then 3 / 10 ^ 8 else DBL_EPSILON)) ∧
    (r.final.lb ≤ r.ret ∧ r.ret ≤ r.final.ub →
      r.ret - r.final.lb
          ≤ 2 * (tol * |r.ret| + (if r.final.iters = 0 then 3 / 10 ^ 8 else DBL_EPSILON)) ∧
      r.final.ub - r.ret
          ≤ 2 * (tol * |r.ret| + (if r.final.iters = 0 then 3 / 10 ^ 8 else DBL_EPSILON))) := by
  obtain ⟨_, hl, hret, _⟩ := brentmin_ok sgn lb flbp ub fubp x fxp f tol fuel r h
  rw [hret]
  generalize r.final = s at hl
  obtain ⟨hrun, hcond⟩ := brentLoop_some sgn f tol fuel _ _ hl
  have hinv : fractolInv tol s := by
    rw [hrun]
    apply fractolInv_brentRun
    simp [fractolInv, brentInit]
  unfold brentCond at hcond
  unfold fractolInv at hinv
  rw [hinv, not_lt] at hcond
  have hmain : |s.x - (s.lb + s.ub) / 2| + (s.ub - s.lb) / 2
      ≤ 2 * (tol * |s.x| + (if s.iters = 0 then 3 / 10 ^ 8 else DBL_EPSILON)) := by
    have e1 : (s.lb + s.ub) / 2 = 1 / 2 * (s.ub + s.lb) := by ring
    have e2 : (s.ub - s.lb) / 2 = 1 / 2 * (s.ub - s.lb) := by ring
    rw [e1, e2]
    exact hcond
  refine ⟨rfl, hmain, ?_⟩
  intro _
  have hab := le_abs_self (s.x - (s.lb + s.ub) / 2)
  have hab2 := neg_abs_le (s.x - (s.lb + s.ub) / 2)
  constructor <;> linarith

end brent_theorems

section brent_runs

theorem nudgeStepFn_run :
    brentmin sign 0 none 1 none nudgeX none nudgeStepFn nudgeTol 2
      = .ok { ret := nudgedPoint, fxp := none, final := nudgeFinal } := by
  have hv : ((0 : ℚ) ≤ nudgeX ∧ nudgeX ≤ 1) ∧
      (valueOr none nudgeStepFn nudgeX ≤ valueOr none nudgeStepFn 0 ∧
        valueOr none nudgeStepFn nudgeX ≤ valueOr none nudgeStepFn 1) := by decide!
  have hl : brentLoop sign nudgeStepFn nudgeTol 2
      (brentInit 0 (valueOr none nudgeStepFn 0) 1 (valueOr none nudgeStepFn 1) nudgeX
        (valueOr none nudgeStepFn nudgeX) nudgeTol) = some nudgeFinal := by decide!
  rw [brentmin_of_valid sign 0 none 1 none nudgeX none nudgeStepFn nudgeTol 2 hv, hl]
  rfl

/-- Witness for C8: the bracket `[0, 1]` with interior point `1e-16` is valid for the
step objective, and the run is the loop started on that triple. -/
theorem brentmin_assertion_iff_witness :
    ((0 : ℚ) ≤ nudgeX ∧ nudgeX ≤ 1) ∧
    (valueOr none nudgeStepFn nudgeX ≤ valueOr none nudgeStepFn 0 ∧
      valueOr none nudgeStepFn nudgeX ≤ valueOr none nudgeStepFn 1) ∧
    brentmin sign 0 none 1 none nudgeX none nudgeStepFn nudgeTol 2
      = brentReturn none (brentLoop sign nudgeStepFn nudgeTol 2
          (brentInit 0 (valueOr none nudgeStepFn 0) 1 (valueOr none nudgeStepFn 1) nudgeX
            (valueOr none nudgeStepFn nudgeX) nudgeTol)) :=
  have h : ((0 : ℚ) ≤ nudgeX ∧ nudgeX ≤ 1) ∧
      (valueOr none nudgeStepFn nudgeX ≤ valueOr none nudgeStepFn 0 ∧
        valueOr none nudgeStepFn nudgeX ≤ valueOr none nudgeStepFn 1) := by decide!
  ⟨h.1, h.2,
   (brentmin_assertion_iff sign 0 none 1 none nudgeX none nudgeStepFn nudgeTol 2).2 h⟩

/-- Witness for C9: a run of two iterations on the step objective. -/
theorem brentmin_final_bracket_witness :
    brentmin sign 0 none 1 none nudgeX none nudgeStepFn nudgeTol 2
      = .ok { ret := nudgedPoint, fxp := none, final := nudgeFinal } ∧
    |nudgedPoint - (nudgeFinal.lb + nudgeFinal.ub) / 2| + (nudgeFinal.ub - nudgeFinal.lb) / 2
      ≤ 2 * (nudgeTol * |nudgedPoint|
          + (if nudgeFinal.iters = 0 then 3 / 10 ^ 8 else DBL_EPSILON)) :=
  ⟨nudgeStepFn_run,
   (brentmin_final_bracket sign 0 none 1 none nudgeX none nudgeStepFn nudgeTol 2 _
      nudgeStepFn_run).2.1⟩

/-- C10 fails on the code: from the valid bracket `[0, 1]` with interior point `1e-16`
and `tol = 1e-5`, the second iteration accepts a parabolic point closer to `x` than
`fractol` and nudges it to `x - fractol < 0 = lb`.  On the parabola
`(t - x/2)^2` the objective is evaluated there; on the step objective that point is
also the one `brentmin` returns. -/
theorem brentmin_nudge_leaves_bracket :
    ((0 : ℚ) ≤ nudgeX ∧ nudgeX ≤ 1) ∧
    (nudgeParabola nudgeX ≤ nudgeParabola 0 ∧ nudgeParabola nudgeX ≤ nudgeParabola 1) ∧
    (brentRun sign nudgeParabola nudgeTol 2
        (brentInit 0 (nudgeParabola 0) 1 (nudgeParabola 1) nudgeX (nudgeParabola nudgeX)
          nudgeTol)).evals = [nudgedPoint, nudgeGolden] ∧
    (nudgeStepFn nudgeX ≤ nudgeStepFn 0 ∧ nudgeStepFn nudgeX ≤ nudgeStepFn 1) ∧
    brentmin sign 0 none 1 none nudgeX none nudgeStepFn nudgeTol 2
      = .ok { ret := nudgedPoint, fxp := none, final := nudgeFinal } ∧
    nudgedPoint < 0 :=
  ⟨by decide!, by decide!, by decide!, by decide!, nudgeStepFn_run, by decide!⟩

end brent_runs

section optimize_theorems

variable {K : Type} [LinearOrderedField K]

theorem forLoopE_const_ok {ε : Type} (n : Nat) (c : Nat → Except ε Unit) :
    forLoopE n (fun i _ => c i) () = .ok () ↔ ∀ i, i < n → c i = .ok () := by
  induction n with
  | zero => simp [forLoopE]
  | succ k ih =>
    simp only [forLoopE]
    constructor
    · intro h i hi
      cases hk : forLoopE k (fun i _ => c i) () with
      | error e => rw [hk] at h; cases h
      | ok u =>
        rw [hk] at h
        rcases Nat.lt_succ_iff_lt_or_eq.mp hi with h1 | h1
        · exact ih.mp hk i h1
        · rw [h1]; exact h
    · intro h
      have hk := ih.mpr (fun i hi => h i (Nat.lt_succ_of_lt hi))
      rw [hk]
      exact h k (Nat.lt_succ_self k)

theorem assertAll_ok (n : Nat) (check : Nat → Bool) (e : OptError) :
    assertAll n check e = .ok () ↔ ∀ i, i < n → check i = true := by
  unfold assertAll
  rw [forLoopE_const_ok]
  constructor
  · intro h i hi
    have := h i hi
    by_cases hc : check i = true
    · exact hc
    · simp [hc] at this
  · intro h i hi
    simp [h i hi]

theorem assertAll_cases (n : Nat) (check : Nat → Bool) (e : OptError) :
    assertAll n check e = .ok () ∨ assertAll n check e = .error e := by
  unfold assertAll
  induction n with
  | zero => left; rfl
  | succ k ih =>
    simp only [forLoopE]
    rcases ih with h | h
    · rw [h]
      by_cases hc : check k = true
      · left; simp [hc]
      · right; simp [hc]
    · rw [h]
      right; rfl

theorem TrimAtBoundaries_ok (x direct scale : Nat → K) (n : Nat) (lb ub : Nat → K)
    (onbound : Nat → Bool) (m : K)
    (h : TrimAtBoundaries x direct scale n lb ub onbound = .ok m) :
    0 < n ∧
    (∀ i, i < n → (onbound i = false → lb i < x i * scale i ∧ x i * scale i < ub i) ∧
      (onbound i = true → direct i = 0)) ∧
    (∀ i, i < n → onbound i = false →
      lb i ≤ (x i + m * direct i) * scale i ∧ (x i + m * direct i) * scale i ≤ ub i) := by
  unfold TrimAtBoundaries at h
  by_cases hn : 0 < n
  swap
  · simp [hn] at h
  simp only [hn, not_true_eq_false, if_false] at h
  rcases assertAll_cases n (fun i =>
        decide (((onbound i = false ∧ x i * scale i > lb i ∧ x i * scale i < ub i)
            ∨ onbound i = true)
          ∧ (onbound i = false ∨ direct i = 0))) .entry with h1 | h1
  swap
  · rw [h1] at h; cases h
  rw [h1] at h
  simp only at h
  cases h2 : trimLoop x direct scale n lb ub onbound with
  | error e => rw [h2] at h; cases h
  | ok st =>
    rw [h2] at h
    simp only at h
    rcases assertAll_cases n (fun i =>
          decide (onbound i = true
            ∨ ((x i + (st.1 - (st.2 + st.1) * DBL_EPSILON) * direct i) * scale i - lb i ≥ 0
              ∧ (x i + (st.1 - (st.2 + st.1) * DBL_EPSILON) * direct i) * scale i - ub i ≤ 0)))
          .exit with h3 | h3
    swap
    · rw [h3] at h; cases h
    rw [h3] at h
    simp only [Except.ok.injEq] at h
    rw [assertAll_ok] at h1 h3
    refine ⟨hn, ?_, ?_⟩
    · intro i hi
      have := h1 i hi
      simp only [decide_eq_true_eq] at this
      constructor
      · intro hb
        rcases this.1 with h4 | h4
        · exact ⟨h4.2.1, h4.2.2⟩
        · rw [hb] at h4; cases h4
      · intro hb
        rcases this.2 with h4 | h4
        · rw [hb] at h4; cases h4
        · exact h4
    · intro i hi hb
      have := h3 i hi
      simp only [decide_eq_true_eq] at this
      rw [h] at this
      rcases this with h4 | h4
      · rw [hb] at h4; cases h4
      · exact ⟨by linarith [h4.1], by linarith [h4.2]⟩

theorem ScaledStep_ok (factor : K) (x xn direct : Nat → K) (onbound : Nat → Bool) (n : Nat)
    (y : Nat → K) (h : ScaledStep factor x xn direct onbound n = .ok y) :
    y = fun i => if i < n then x i + direct i * factor else xn i := by
  unfold ScaledStep at h
  by_cases hn : 0 < n
  swap
  · simp [hn] at h
  simp only [hn, not_true_eq_false, if_false] at h
  rcases assertAll_cases n (fun i => decide (¬ onbound i = true ∨ direct i = 0)) .entry
    with h1 | h1
  · rw [h1] at h
    simp only [Except.ok.injEq] at h
    exact h.symm
  · rw [h1] at h; cases h

theorem between_box (lo hi xs u m t : K) (h0 : lo ≤ xs ∧ xs ≤ hi)
    (hm : lo ≤ xs + m * u ∧ xs + m * u ≤ hi) (ht : min 0 m ≤ t ∧ t ≤ max 0 m) :
    lo ≤ xs + t * u ∧ xs + t * u ≤ hi := by
  rcases le_total 0 m with h | h
  · rw [min_eq_left h, max_eq_right h] at ht
    rcases le_total 0 u with hu | hu
    · have h1 : 0 ≤ t * u := mul_nonneg ht.1 hu
      have h2 : t * u ≤ m * u := mul_le_mul_of_nonneg_right ht.2 hu
      constructor <;> linarith [h0.1, h0.2, hm.1, hm.2]
    · have h1 : t * u ≤ 0 := mul_nonpos_of_nonneg_of_nonpos ht.1 hu
      have h2 : m * u ≤ t * u := mul_le_mul_of_nonpos_right ht.2 hu
      constructor <;> linarith [h0.1, h0.2, hm.1, hm.2]
  · rw [min_eq_right h, max_eq_left h] at ht
    rcases le_total 0 u with hu | hu
    · have h1 : t * u ≤ 0 := mul_nonpos_of_nonpos_of_nonneg ht.2 hu
      have h2 : m * u ≤ t * u := mul_le_mul_of_nonneg_right ht.1 hu
      constructor <;> linarith [h0.1, h0.2, hm.1, hm.2]
    · have h1 : 0 ≤ t * u := mul_nonneg_of_nonpos_of_nonpos ht.2 hu
      have h2 : t * u ≤ m * u := mul_le_mul_of_nonpos_right ht.1 hu
      constructor <;> linarith [h0.1, h0.2, hm.1, hm.2]

theorem onSegment_inBox (n : Nat) (x direct scale lb ub : Nat → K) (onbound : Nat → Bool)
    (m : K) (y : Nat → K) (htr : trimmed n x direct scale lb ub onbound m)
    (hy : onSegment n x direct m y) : inBox n lb ub (fun i => y i * scale i) := by
  obtain ⟨hfeas, hact, hin⟩ := htr
  obtain ⟨t, ht1, ht2, hyt⟩ := hy
  intro i hi
  simp only
  rw [hyt i hi]
  cases hb : onbound i with
  | true =>
    rw [hact i hi hb]
    simpa using hfeas i hi
  | false =>
    have h0 := hfeas i hi
    have hm := hin i hi hb
    have e1 : (x i + m * direct i) * scale i = x i * scale i + m * (direct i * scale i) := by
      ring
    have e2 : (x i + direct i * t) * scale i = x i * scale i + t * (direct i * scale i) := by
      ring
    rw [e1] at hm
    rw [e2]
    exact between_box _ _ _ _ m t h0 hm ⟨ht1, ht2⟩

theorem onSegment_factor (n : Nat) (x xn direct : Nat → K) (m t : K)
    (h1 : min 0 m ≤ t) (h2 : t ≤ max 0 m) :
    onSegment n x direct m (fun i => if i < n then x i + direct i * t else xn i) :=
  ⟨t, h1, h2, fun i hi => by simp [hi]⟩

theorem lineSearchStep_sameProblem (env : OPTENV K) (opt : OPTOBJ K) (hi : K) :
    sameProblem (lineSearchStep env opt hi) opt := by
  simp [sameProblem, lineSearchStep]

theorem lineSearchStep_onSegment (env : OPTENV K) (hls : lineSearchInside env) (opt : OPTOBJ K)
    (hi m : K) (hhi : min 0 m ≤ min 0 hi ∧ max 0 hi ≤ max 0 m) :
    onSegment opt.n opt.x opt.direct m (lineSearchStep env opt hi).xn := by
  obtain ⟨t, ht1, ht2, ht⟩ := hls (fWrap env opt.scale) opt.n (copyN opt.n opt.x opt.xn)
    opt.direct 0 hi (1 / 10 ^ 5) 0 opt.neval
  refine ⟨t, le_trans hhi.1 ht1, le_trans ht2 hhi.2, ?_⟩
  intro i hi
  simp only [lineSearchStep]
  rw [ht i hi]
  simp only [copyN, hi, if_true]
  ring

theorem boundaryStep_ok (env : OPTENV K) (opt : OPTOBJ K) (m : K) (opt2 : OPTOBJ K)
    (evals : List (Nat → K)) (h : boundaryStep env opt m = .ok (opt2, evals)) :
    sameProblem opt2 opt ∧
    (∀ p, p ∈ evals → ∃ y, onSegment opt.n opt.x opt.direct m y ∧
      p = fun i => y i * opt.scale i) ∧
    (lineSearchInside env → onSegment opt.n opt.x opt.direct m opt2.xn) := by
  have hB : min (0 : K) m ≤ m * (1 - BOUND_TOL) ∧ m * (1 - BOUND_TOL) ≤ max 0 m := by
    have hb0 : (0 : K) ≤ 1 - BOUND_TOL := by unfold BOUND_TOL; norm_num
    have hb1 : (1 : K) - BOUND_TOL ≤ 1 := by unfold BOUND_TOL; norm_num
    rcases le_total 0 m with hm | hm
    · rw [min_eq_left hm, max_eq_right hm]
      exact ⟨mul_nonneg hm hb0, by nlinarith⟩
    · rw [min_eq_right hm, max_eq_left hm]
      exact ⟨by nlinarith, mul_nonpos_of_nonpos_of_nonneg hm hb0⟩
  have hM : min (0 : K) m ≤ m ∧ m ≤ max 0 m := ⟨min_le_right _ _, le_max_right _ _⟩
  unfold boundaryStep at h
  cases h1 : ScaledStep m opt.x opt.xn opt.direct opt.onbound opt.n with
  | error e => rw [h1] at h; cases h
  | ok xb =>
    rw [h1] at h
    simp only at h
    have hxb := ScaledStep_ok _ _ _ _ _ _ _ h1
    have sxb : onSegment opt.n opt.x opt.direct m xb := by
      rw [hxb]; exact onSegment_factor _ _ _ _ _ _ hM.1 hM.2
    by_cases hf : fWrap env opt.scale xb ≤ opt.fc
    · rw [if_pos hf] at h
      cases h2 : ScaledStep (m * (1 - BOUND_TOL)) opt.x xb opt.direct opt.onbound opt.n with
      | error e => rw [h2] at h; cases h
      | ok xnear =>
        rw [h2] at h
        simp only at h
        have hxn := ScaledStep_ok _ _ _ _ _ _ _ h2
        have sxn : onSegment opt.n opt.x opt.direct m xnear := by
          rw [hxn]; exact onSegment_factor _ _ _ _ _ _ hB.1 hB.2
        by_cases hg : fWrap env opt.scale xnear > fWrap env opt.scale xb
        · rw [if_pos hg] at h
          cases h3 : ScaledStep m opt.x xnear opt.direct opt.onbound opt.n with
          | error e => rw [h3] at h; cases h
          | ok xb2 =>
            rw [h3] at h
            simp only [Except.ok.injEq, Prod.mk.injEq] at h
            obtain ⟨ho, he⟩ := h
            subst ho he
            have hxb2 := ScaledStep_ok _ _ _ _ _ _ _ h3
            refine ⟨by simp [sameProblem], ?_, ?_⟩
            · intro p hp
              simp only [List.mem_cons, List.mem_singleton, List.not_mem_nil, or_false] at hp
              rcases hp with hp | hp
              · exact ⟨xnear, sxn, hp⟩
              · exact ⟨xb, sxb, hp⟩
            · intro _
              simp only
              rw [hxb2]; exact onSegment_factor _ _ _ _ _ _ hM.1 hM.2
        · rw [if_neg hg] at h
          simp only [Except.ok.injEq, Prod.mk.injEq] at h
          obtain ⟨ho, he⟩ := h
          subst ho he
          refine ⟨?_, ?_, ?_⟩
          · have := lineSearchStep_sameProblem env
              { opt with xn := xnear, neval := opt.neval + 2 } m
            simpa [sameProblem] using this
          · intro p hp
            simp only [List.mem_cons, List.mem_singleton, List.not_mem_nil, or_false] at hp
            rcases hp with hp | hp
            · exact ⟨xnear, sxn, hp⟩
            · exact ⟨xb, sxb, hp⟩
          · intro hls
            exact lineSearchStep_onSegment env hls
              { opt with xn := xnear, neval := opt.neval + 2 } m m ⟨le_refl _, le_refl _⟩
    · rw [if_neg hf] at h
      simp only [Except.ok.injEq, Prod.mk.injEq] at h
      obtain ⟨ho, he⟩ := h
      subst ho he
      refine ⟨?_, ?_, ?_⟩
      · have := lineSearchStep_sameProblem env
          { opt with xn := xb, neval := opt.neval + 1 } m
        simpa [sameProblem] using this
      · intro p hp
        simp only [List.mem_singleton] at hp
        exact ⟨xb, sxb, hp⟩
      · intro hls
        exact lineSearchStep_onSegment env hls
          { opt with xn := xb, neval := opt.neval + 1 } m m ⟨le_refl _, le_refl _⟩

theorem newtonStep_ok (env : OPTENV K) (opt : OPTOBJ K) (m : K) (hm : 1 < m)
    (opt2 : OPTOBJ K) (evals : List (Nat → K)) (h : newtonStep env opt = .ok (opt2, evals)) :
    sameProblem opt2 opt ∧
    (∀ p, p ∈ evals → ∃ y, onSegment opt.n opt.x opt.direct m y ∧
      p = fun i => y i * opt.scale i) ∧
    (lineSearchInside env → onSegment opt.n opt.x opt.direct m opt2.xn) := by
  have h0m : (0 : K) ≤ m := by linarith
  have hM : min (0 : K) m ≤ 1 ∧ 1 ≤ max 0 m := by
    rw [min_eq_left h0m, max_eq_right h0m]
    exact ⟨by norm_num, hm.le⟩
  unfold newtonStep at h
  cases h1 : ScaledStep 1 opt.x opt.xn opt.direct opt.onbound opt.n with
  | error e => rw [h1] at h; cases h
  | ok xf =>
    rw [h1] at h
    simp only at h
    have hxf := ScaledStep_ok _ _ _ _ _ _ _ h1
    have sxf : onSegment opt.n opt.x opt.direct m xf := by
      rw [hxf]; exact onSegment_factor _ _ _ _ _ _ hM.1 hM.2
    by_cases hf : opt.fc < fWrap env opt.scale xf
    · rw [if_pos hf] at h
      simp only [Except.ok.injEq, Prod.mk.injEq] at h
      obtain ⟨ho, he⟩ := h
      subst ho he
      refine ⟨?_, ?_, ?_⟩
      · have := lineSearchStep_sameProblem env
          { opt with xn := xf, fn := fWrap env opt.scale xf, neval := opt.neval + 1 } 1
        simpa [sameProblem] using this
      · intro p hp
        simp only [List.mem_singleton] at hp
        exact ⟨xf, sxf, hp⟩
      · intro hls
        refine lineSearchStep_onSegment env hls
          { opt with xn := xf, fn := fWrap env opt.scale xf, neval := opt.neval + 1 } 1 m ?_
        rw [min_eq_left h0m, max_eq_right h0m, min_eq_left (zero_le_one),
          max_eq_right (zero_le_one)]
        exact ⟨le_refl _, hm.le⟩
    · rw [if_neg hf] at h
      simp only [Except.ok.injEq, Prod.mk.injEq] at h
      obtain ⟨ho, he⟩ := h
      subst ho he
      refine ⟨by simp [sameProblem], ?_, ?_⟩
      · intro p hp
        simp only [List.mem_singleton] at hp
        exact ⟨xf, sxf, hp⟩
      · intro _
        exact sxf

theorem ScaledStep_of_checked (factor : K) (x xn direct : Nat → K) (onbound : Nat → Bool)
    (n : Nat) (hn : 0 < n) (h : ∀ i, i < n → onbound i = true → direct i = 0) :
    ScaledStep factor x xn direct onbound n
      = .ok (fun i => if i < n then x i + direct i * factor else xn i) := by
  unfold ScaledStep
  have ha : assertAll n (fun i => decide (¬ onbound i = true ∨ direct i = 0)) .entry
      = .ok () := by
    rw [assertAll_ok]
    intro i hi
    simp only [decide_eq_true_eq]
    by_cases hb : onbound i = true
    · exact Or.inr (h i hi hb)
    · exact Or.inl hb
  simp only [hn, not_true_eq_false, if_false, ha]

/-- Once `TrimAtBoundaries` has returned, neither branch of `TakeStep` fails an
assertion: every call of `ScaledStep` passes, so the points recorded in `evals` are
all the points `TakeStep` passes to the objective. -/
theorem steps_after_trim_ok (env : OPTENV K) (opt : OPTOBJ K) (m : K)
    (h : TrimAtBoundaries opt.x opt.direct opt.scale opt.n opt.lb opt.ub opt.onbound = .ok m) :
    isOk (boundaryStep env opt m) = true ∧ isOk (newtonStep env opt) = true := by
  obtain ⟨hn, h1, _⟩ := TrimAtBoundaries_ok _ _ _ _ _ _ _ _ h
  have hd : ∀ i, i < opt.n → opt.onbound i = true → opt.direct i = 0 :=
    fun i hi => (h1 i hi).2
  constructor
  · unfold boundaryStep
    simp only [ScaledStep_of_checked _ _ _ _ _ _ hn hd]
    split_ifs <;> rfl
  · unfold newtonStep
    simp only [ScaledStep_of_checked _ _ _ _ _ _ hn hd]
    split_ifs <;> rfl

theorem TakeStep_candidate_ok (env : OPTENV K) (fuel : Nat) (opt : OPTOBJ K) (errn : Nat)
    (c : CANDIDATE K) (h : TakeStep_candidate env fuel opt errn = .ok c) :
    (c.opt.x = opt.x ∧ c.opt.dx = opt.dx ∧ c.opt.fc = opt.fc ∧ c.opt.lb = opt.lb ∧
      c.opt.ub = opt.ub ∧ c.opt.scale = opt.scale ∧ c.opt.n = opt.n) ∧
    (inBox opt.n opt.lb opt.ub (fun i => opt.x i * opt.scale i) →
      (∀ p, p ∈ c.evals → inBox opt.n opt.lb opt.ub p) ∧
      (lineSearchInside env → inBox opt.n opt.lb opt.ub (fun i => c.opt.xn i * opt.scale i))) := by
  unfold TakeStep_candidate at h
  cases h1 : activeSetLoop env opt.x opt.dx opt.scale opt.lb opt.ub opt.n fuel
      { direct := opt.direct, InvHess := opt.H, onbound := opt.onbound, nremoved := 0,
        errn := errn } 0 with
  | error e => rw [h1] at h; cases h
  | ok r =>
    obtain ⟨st, newbound, norm⟩ := r
    rw [h1] at h
    simp only at h
    cases h2 : TrimAtBoundaries opt.x
        (if norm > opt.trust then scale_vector st.direct opt.n (opt.trust / norm) else st.direct)
        opt.scale opt.n opt.lb opt.ub st.onbound with
    | error e => rw [h2] at h; cases h
    | ok m =>
      rw [h2] at h
      simp only at h
      obtain ⟨_, htr1, htr2⟩ := TrimAtBoundaries_ok _ _ _ _ _ _ _ _ h2
      cases h3 : (if m ≤ 1 then
          boundaryStep env
            { opt with
              direct := if norm > opt.trust then
                  scale_vector st.direct opt.n (opt.trust / norm) else st.direct
              H := st.InvHess, onbound := st.onbound } m
        else
          newtonStep env
            { opt with
              direct := if norm > opt.trust then
                  scale_vector st.direct opt.n (opt.trust / norm) else st.direct
              H := st.InvHess, onbound := st.onbound }) with
      | error e => rw [h3] at h; cases h
      | ok r2 =>
        obtain ⟨opt2, evals⟩ := r2
        rw [h3] at h
        simp only [Except.ok.injEq] at h
        subst h
        have key : sameProblem opt2
            { opt with
              direct := if norm > opt.trust then
                  scale_vector st.direct opt.n (opt.trust / norm) else st.direct
              H := st.InvHess, onbound := st.onbound } ∧
          (∀ p, p ∈ evals → ∃ y, onSegment opt.n opt.x
              (if norm > opt.trust then
                  scale_vector st.direct opt.n (opt.trust / norm) else st.direct) m y ∧
            p = fun i => y i * opt.scale i) ∧
          (lineSearchInside env → onSegment opt.n opt.x
              (if norm > opt.trust then
                  scale_vector st.direct opt.n (opt.trust / norm) else st.direct) m opt2.xn) := by
          by_cases hm : m ≤ 1
          · rw [if_pos hm] at h3
            exact boundaryStep_ok env _ m opt2 evals h3
          · rw [if_neg hm] at h3
            exact newtonStep_ok env _ m (not_le.mp hm) opt2 evals h3
        obtain ⟨hsame, hev, hxn⟩ := key
        obtain ⟨e1, e2, e3, e4, e5, e6, e7, _⟩ := hsame
        refine ⟨⟨e1, e2, e3, e4, e5, e6, e7⟩, ?_⟩
        intro hfeas
        have htr : trimmed opt.n opt.x
            (if norm > opt.trust then
                scale_vector st.direct opt.n (opt.trust / norm) else st.direct)
            opt.scale opt.lb opt.ub st.onbound m :=
          ⟨hfeas, fun i hi => (htr1 i hi).2, htr2⟩
        constructor
        · intro p hp
          obtain ⟨y, hy, hpy⟩ := hev p hp
          rw [hpy]
          exact onSegment_inBox _ _ _ _ _ _ _ _ _ htr hy
        · intro hls
          exact onSegment_inBox _ _ _ _ _ _ _ _ _ htr (hxn hls)

theorem MINSCALE_pos : (0 : K) < MINSCALE := by
  unfold MINSCALE; norm_num

theorem MAXSCALE_pos : (0 : K) < MAXSCALE := by
  unfold MAXSCALE; norm_num

theorem scalefactOf_pos (sqrt : K → K) (h : K) : 0 < scalefactOf sqrt h := by
  unfold scalefactOf
  have h1 : (0 : K) < (if sqrt h > MINSCALE then sqrt h else MINSCALE) := by
    by_cases hc : sqrt h > MINSCALE
    · rw [if_pos hc]; exact lt_trans MINSCALE_pos hc
    · rw [if_neg hc]; exact MINSCALE_pos
  by_cases hc : (if sqrt h > MINSCALE then sqrt h else MINSCALE) < MAXSCALE
  · simp only [hc, if_true]; exact h1
  · simp only [hc, if_false]; exact MAXSCALE_pos

theorem Rescale_loop_product (sqrt : K → K) (n : Nat) (init : RESCALED K) (k : Nat) (i : Nat) :
    (forLoop k (rescaleStep sqrt n) init).x i * (forLoop k (rescaleStep sqrt n) init).scale i
      = init.x i * init.scale i := by
  induction k with
  | zero => rfl
  | succ k ih =>
    simp only [forLoop, rescaleStep]
    by_cases hik : i = k
    · subst hik
      simp only [Function.update_same]
      rw [← ih]
      have hp := scalefactOf_pos sqrt ((forLoop i (rescaleStep sqrt n) init).H (i * n + i))
      field_simp
      ring
    · simp only [Function.update_noteq hik]
      exact ih

theorem Rescale_product (sqrt : K → K) (x dx H : Nat → K) (n : Nat) (scale : Nat → K)
    (r : RESCALED K) (h : Rescale sqrt x dx H n scale = .ok r) (i : Nat) :
    r.x i * r.scale i = x i * scale i := by
  unfold Rescale at h
  by_cases hn : 0 < n
  swap
  · simp [hn] at h
  simp only [hn, not_true_eq_false, if_false, Except.ok.injEq] at h
  rw [← h]
  exact Rescale_loop_product sqrt n { x := x, dx := dx, H := H, scale := scale } n i

theorem UpdateH_BFGS_product (sqrt : K → K) (H x xn dx dxn scale : Nat → K) (n : Nat)
    (onbound : Nat → Bool) (errn : Nat) (r : RESCALED K) (e : Nat)
    (h : UpdateH_BFGS sqrt H x xn dx dxn scale n onbound errn = .ok (r, e)) (i : Nat) :
    r.x i * r.scale i = xn i * scale i := by
  unfold UpdateH_BFGS at h
  simp only at h
  split_ifs at h with hgd
  · simp only [Except.ok.injEq, Prod.mk.injEq] at h
    rw [← h.1]
  · split at h
    · cases h
    · rename_i r0 hr
      simp only [Except.ok.injEq, Prod.mk.injEq] at h
      rw [← h.1]
      exact Rescale_product sqrt _ _ _ _ _ _ hr i

theorem forLoop_filter_sum (n : Nat) (P : Nat → Bool) (g : Nat → K) :
    forLoop n (fun i acc => if P i = false then acc + g i else acc) 0
      = ∑ i in (Finset.range n).filter (fun i => P i = false), g i := by
  induction n with
  | zero => simp [forLoop]
  | succ k ih =>
    simp only [forLoop, ih, Finset.range_succ]
    by_cases hk : P k = false
    · rw [if_pos hk, Finset.filter_insert, if_pos hk, Finset.sum_insert]
      · ring
      · simp
    · rw [if_neg hk, Finset.filter_insert, if_neg hk]

theorem TakeStep_exit_failed (env : OPTENV K) (c : CANDIDATE K) (h : c.opt.fn > c.opt.fc) :
    TakeStep_exit env c = .ok (failedStep env c) := by
  unfold TakeStep_exit
  simp only [h, if_true]

theorem TakeStep_exit_ok (env : OPTENV K) (c : CANDIDATE K) (r : STEPRESULT K)
    (h : TakeStep_exit env c = .ok r) :
    r.opt.n = c.opt.n ∧ r.opt.lb = c.opt.lb ∧ r.opt.ub = c.opt.ub ∧ r.evals = c.evals ∧
    ((∀ i, r.opt.x i * r.opt.scale i = c.opt.x i * c.opt.scale i) ∨
      (∀ i, i < c.opt.n → r.opt.x i * r.opt.scale i = c.opt.xn i * c.opt.scale i)) := by
  by_cases hf : c.opt.fn > c.opt.fc
  · rw [TakeStep_exit_failed env c hf] at h
    simp only [Except.ok.injEq] at h
    subst h
    exact ⟨rfl, rfl, rfl, rfl, Or.inl (fun _ => rfl)⟩
  · unfold TakeStep_exit at h
    simp only [hf, if_false] at h
    split at h
    · cases h
    · rename_i st hst
      split at h
      · cases h
      · rename_i r0 e0 hr
        simp only [Except.ok.injEq] at h
        subst h
        refine ⟨rfl, rfl, rfl, rfl, Or.inr ?_⟩
        intro i hi
        simp only [copyN, hi, if_true]
        exact UpdateH_BFGS_product env.sqrt _ _ _ _ _ _ _ _ _ _ _ hr i

theorem TakeStep_ok (env : OPTENV K) (fuel : Nat) (opt : OPTOBJ K) (tol : K) (errn : Nat)
    (r : STEPRESULT K) (h : TakeStep env fuel opt tol errn = .ok r) :
    ∃ c, TakeStep_candidate env fuel opt errn = .ok c ∧ TakeStep_exit env c = .ok r := by
  unfold TakeStep at h
  cases hc : TakeStep_candidate env fuel opt errn with
  | error e => rw [hc] at h; cases h
  | ok c => rw [hc] at h; exact ⟨c, rfl, h⟩

theorem eq_ok_okValue {ε α : Type} (d : α) (e : Except ε α) (h : isOk e = true) :
    e = .ok (okValue d e) := by
  cases e with
  | error _ => cases h
  | ok v => rfl

/-- C6: if the current point is feasible (`lb[i] <= x[i]*scale[i] <= ub[i]`), every point
that `TakeStep` builds with `ScaledStep` and passes to the objective (at the factors
`maxfactor`, `maxfactor*(1 - BOUND_TOL)` and 1) is feasible in original units, and the
point `TakeStep` leaves in `opt->x` is feasible provided the line search returns a
factor inside the interval it was given. -/
theorem TakeStep_points_feasible (env : OPTENV K) (fuel : Nat) (opt : OPTOBJ K) (tol : K)
    (errn : Nat) (hfeas : inBox opt.n opt.lb opt.ub (fun i => opt.x i * opt.scale i)) :
    (∀ c, TakeStep_candidate env fuel opt errn = .ok c →
      ∀ p, p ∈ c.evals → inBox opt.n opt.lb opt.ub p) ∧
    (∀ r, TakeStep env fuel opt tol errn = .ok r →
      (r.opt.n = opt.n ∧ r.opt.lb = opt.lb ∧ r.opt.ub = opt.ub) ∧
      (∀ p, p ∈ r.evals → inBox opt.n opt.lb opt.ub p) ∧
      (lineSearchInside env →
        inBox r.opt.n r.opt.lb r.opt.ub (fun i => r.opt.x i * r.opt.scale i))) := by
  constructor
  · intro c hc
    exact ((TakeStep_candidate_ok env fuel opt errn c hc).2 hfeas).1
  · intro r hr
    obtain ⟨c, hc, hx⟩ := TakeStep_ok env fuel opt tol errn r hr
    obtain ⟨⟨e1, _, _, e4, e5, e6, e7⟩, hc2⟩ := TakeStep_candidate_ok env fuel opt errn c hc
    obtain ⟨hev, hxn⟩ := hc2 hfeas
    obtain ⟨f1, f2, f3, f4, f5⟩ := TakeStep_exit_ok env c r hx
    refine ⟨⟨f1.trans e7, f2.trans e4, f3.trans e5⟩, ?_, ?_⟩
    · rw [f4]; exact hev
    · intro hls
      rw [f1, f2, f3, e7, e4, e5]
      intro i hi
      simp only
      rcases f5 with f5 | f5
      · rw [f5 i, e1, e6]
        exact hfeas i hi
      · rw [f5 i (by rw [e7]; exact hi), e6]
        exact hxn hls i hi

/-- C7: whenever `TakeStep` reaches `optexit` with a candidate whose value is greater
than the current one (`opt->fn > opt->fc`), it returns with `opt->x`, `opt->dx` and
`opt->fc` as before the call, `xn` reset to `x` and `fn` to `fc`, and the returned value
is the Euclidean norm of the gradient over the parameters not flagged active. -/
theorem TakeStep_failed_step (env : OPTENV K) (fuel : Nat) (opt : OPTOBJ K) (tol : K)
    (errn : Nat) (c : CANDIDATE K) (hc : TakeStep_candidate env fuel opt errn = .ok c)
    (hworse : c.opt.fn > c.opt.fc) :
    TakeStep env fuel opt tol errn = .ok (failedStep env c) ∧
    (failedStep env c).opt.x = opt.x ∧ (failedStep env c).opt.dx = opt.dx ∧
    (failedStep env c).opt.fc = opt.fc ∧
    (∀ i, i < opt.n → (failedStep env c).opt.xn i = opt.x i) ∧
    (failedStep env c).opt.fn = opt.fc ∧
    (failedStep env c).ret = env.sqrt
      (∑ i in (Finset.range opt.n).filter (fun i => (failedStep env c).opt.onbound i = false),
        opt.dx i * opt.dx i) := by
  obtain ⟨⟨e1, e2, e3, _, _, _, e7⟩, _⟩ := TakeStep_candidate_ok env fuel opt errn c hc
  refine ⟨?_, e1, e2, e3, ?_, e3, ?_⟩
  · unfold TakeStep
    rw [hc]
    exact TakeStep_exit_failed env c hworse
  · intro i hi
    simp only [failedStep, copyN, e7, hi, if_true, e1]
  · simp only [failedStep]
    rw [forLoop_filter_sum, e7]
    congr 1
    apply Finset.sum_congr rfl
    intro i hi
    have hi2 : i < opt.n := Finset.mem_range.mp (Finset.mem_filter.mp hi).1
    simp only [copyN, e7, hi2, if_true, e2]

end optimize_theorems

section optimize_runs

theorem quadOpt_feasible (x0 : ℚ) (h0 : 0 ≤ x0) (h1 : x0 ≤ 1) :
    inBox (quadOpt x0).n (quadOpt x0).lb (quadOpt x0).ub
      (fun i => (quadOpt x0).x i * (quadOpt x0).scale i) := by
  intro i _
  simp only [quadOpt, mul_one]
  exact ⟨h0, h1⟩

theorem quadEnv_lineSearchInside : lineSearchInside quadEnv := by
  intro fw n xn d lo hi tol flag ne
  exact ⟨hi, min_le_right _ _, le_max_right _ _, fun i _ => rfl⟩

/-- Witness for C6: from `x = 1/10` the full Newton step to `1/5` is evaluated and
accepted, and the Hessian update rescales the parameter. -/
theorem TakeStep_points_feasible_witness :
    inBox (quadOpt (1 / 10)).n (quadOpt (1 / 10)).lb (quadOpt (1 / 10)).ub
      (fun i => (quadOpt (1 / 10)).x i * (quadOpt (1 / 10)).scale i) ∧
    lineSearchInside quadEnv ∧
    isOk (TakeStep quadEnv 1 (quadOpt (1 / 10)) 0 0) = true ∧
    (okValue noResult (TakeStep quadEnv 1 (quadOpt (1 / 10)) 0 0)).evals.map (fun p => p 0)
      = [1 / 5] ∧
    (okValue noResult (TakeStep quadEnv 1 (quadOpt (1 / 10)) 0 0)).opt.scale 0 ≠ 1 ∧
    (∀ p, p ∈ (okValue noResult (TakeStep quadEnv 1 (quadOpt (1 / 10)) 0 0)).evals →
      inBox (quadOpt (1 / 10)).n (quadOpt (1 / 10)).lb (quadOpt (1 / 10)).ub p) ∧
    inBox (okValue noResult (TakeStep quadEnv 1 (quadOpt (1 / 10)) 0 0)).opt.n
      (okValue noResult (TakeStep quadEnv 1 (quadOpt (1 / 10)) 0 0)).opt.lb
      (okValue noResult (TakeStep quadEnv 1 (quadOpt (1 / 10)) 0 0)).opt.ub
      (fun i => (okValue noResult (TakeStep quadEnv 1 (quadOpt (1 / 10)) 0 0)).opt.x i
        * (okValue noResult (TakeStep quadEnv 1 (quadOpt (1 / 10)) 0 0)).opt.scale i) :=
  have hf := quadOpt_feasible (1 / 10) (by norm_num) (by norm_num)
  have hok : isOk (TakeStep quadEnv 1 (quadOpt (1 / 10)) 0 0) = true := by decide!
  have h := (TakeStep_points_feasible quadEnv 1 (quadOpt (1 / 10)) 0 0 hf).2 _
    (eq_ok_okValue noResult _ hok)
  ⟨hf, quadEnv_lineSearchInside, hok, by decide!, by decide!, h.2.1,
    h.2.2 quadEnv_lineSearchInside⟩

/-- Witness for C7: from `x = 1/2` the Newton step to `2/5` and the line search both
give a larger value, and the step fails with return value `|dx| = 2`. -/
theorem TakeStep_failed_step_witness :
    isOk (TakeStep_candidate quadEnv 1 (quadOpt (1 / 2)) 0) = true ∧
    (okValue noCandidate (TakeStep_candidate quadEnv 1 (quadOpt (1 / 2)) 0)).opt.fn
      > (okValue noCandidate (TakeStep_candidate quadEnv 1 (quadOpt (1 / 2)) 0)).opt.fc ∧
    TakeStep quadEnv 1 (quadOpt (1 / 2)) 0 0
      = .ok (failedStep quadEnv
          (okValue noCandidate (TakeStep_candidate quadEnv 1 (quadOpt (1 / 2)) 0))) ∧
    (failedStep quadEnv
      (okValue noCandidate (TakeStep_candidate quadEnv 1 (quadOpt (1 / 2)) 0))).opt.x
        = (quadOpt (1 / 2)).x ∧
    (failedStep quadEnv
      (okValue noCandidate (TakeStep_candidate quadEnv 1 (quadOpt (1 / 2)) 0))).ret = 2 :=
  have hok : isOk (TakeStep_candidate quadEnv 1 (quadOpt (1 / 2)) 0) = true := by decide!
  have hw : (okValue noCandidate (TakeStep_candidate quadEnv 1 (quadOpt (1 / 2)) 0)).opt.fn
      > (okValue noCandidate (TakeStep_candidate quadEnv 1 (quadOpt (1 / 2)) 0)).opt.fc := by
    decide!
  have h := TakeStep_failed_step quadEnv 1 (quadOpt (1 / 2)) 0 0 _
    (eq_ok_okValue noCandidate _ hok) hw
  ⟨hok, hw, h.1, h.2.1, by decide!⟩

/-- C5 fails on the code: one inactive parameter `x = 1/2` strictly inside `[0, 1]`
with unit scale and direction `1e-16` satisfies every entry assertion of
`TrimAtBoundaries` (and `scale > 0`); the main loop skips it because
`|direct| <= DBL_EPSILON`, so `maxfact` stays `DBL_MAX`, the returned factor would be
`DBL_MAX - (0 + DBL_MAX) * DBL_EPSILON`, the point at that factor is above `ub`, and the
exit assertion fails. -/
theorem TrimAtBoundaries_exit_assertion_fails :
    (noneActive 0 = false ∧ zeroLb 0 < tinyX 0 * unitScale 0 ∧
      tinyX 0 * unitScale 0 < oneUb 0 ∧ 0 < unitScale 0) ∧
    (tinyDirect 0 ≠ 0 ∧ ¬ |tinyDirect 0| > DBL_EPSILON) ∧
    trimLoop tinyX tinyDirect unitScale 1 zeroLb oneUb noneActive = .ok (DBL_MAX, 0) ∧
    oneUb 0 < (tinyX 0 + (DBL_MAX - (0 + DBL_MAX) * DBL_EPSILON) * tinyDirect 0)
      * unitScale 0 ∧
    TrimAtBoundaries tinyX tinyDirect unitScale 1 zeroLb oneUb noneActive = .error .exit :=
  ⟨by decide!, by decide!, by decide!, by decide!, by decide!⟩

end optimize_runs

section brent_best_value

variable {K : Type} [LinearOrderedField K]

theorem bestValueInv_brentStep (sgn f : K → K) (tol fl0 fx0 fu0 x0 : K) (s : BrentState K)
    (h : bestValueInv f fl0 fx0 fu0 x0 s) :
    bestValueInv f fl0 fx0 fu0 x0 (brentStep sgn f tol s) := by
  obtain ⟨h1, h2, h3, h4, h5, h6, h7⟩ := h
  unfold brentStep
  by_cases hf : f (trialPoint sgn s).1 < s.fx
  · have hle := hf.le
    by_cases hx : (trialPoint sgn s).1 ≥ s.x
    · simp only [hf, hx, if_true]
      refine ⟨hle, by linarith, by linarith, by linarith, by linarith, ?_, ?_⟩
      · intro p hp
        rcases List.mem_cons.mp hp with hp | hp
        · rw [hp]
        · exact le_trans hle (h6 p hp)
      · exact Or.inr ⟨List.mem_cons_self _ _, rfl⟩
    · simp only [hf, hx, if_true, if_false]
      refine ⟨by linarith, hle, by linarith, by linarith, by linarith, ?_, ?_⟩
      · intro p hp
        rcases List.mem_cons.mp hp with hp | hp
        · rw [hp]
        · exact le_trans hle (h6 p hp)
      · exact Or.inr ⟨List.mem_cons_self _ _, rfl⟩
  · have hge := not_lt.mp hf
    have h6n : ∀ p, p ∈ (trialPoint sgn s).1 :: s.evals → s.fx ≤ f p := by
      intro p hp
      rcases List.mem_cons.mp hp with hp | hp
      · rw [hp]; exact hge
      · exact h6 p hp
    have h7n : (s.fx = fx0 ∧ s.x = x0) ∨
        (s.x ∈ (trialPoint sgn s).1 :: s.evals ∧ s.fx = f s.x) := by
      rcases h7 with h7 | h7
      · exact Or.inl h7
      · exact Or.inr ⟨List.mem_cons_of_mem _ h7.1, h7.2⟩
    by_cases hx : (trialPoint sgn s).1 ≥ s.x
    · simp only [hf, hx, if_true, if_false]
      exact ⟨h1, hge, h3, h4, h5, h6n, h7n⟩
    · simp only [hf, hx, if_false]
      exact ⟨hge, h2, h3, h4, h5, h6n, h7n⟩

theorem bestValueInv_brentRun (sgn f : K → K) (tol fl0 fx0 fu0 x0 : K) :
    ∀ (fuel : Nat) (s : BrentState K), bestValueInv f fl0 fx0 fu0 x0 s →
      bestValueInv f fl0 fx0 fu0 x0 (brentRun sgn f tol fuel s)
  | 0, s, h => by simpa [brentRun] using h
  | fuel + 1, s, h => by
    unfold brentRun
    split_ifs
    · exact bestValueInv_brentRun sgn f tol fl0 fx0 fu0 x0 fuel _
        (bestValueInv_brentStep sgn f tol fl0 fx0 fu0 x0 s h)
    · exact h

/-- C11: when the caller supplies `fxp` (holding `v`), the value `brentmin` stores in
`*fxp` on return is the stored best value; it is at most the initial values at `lb`,
`x`, `ub` (so it never exceeds the caller's `v`) and at most the objective at every
trial point, it is one of those values, and it is the objective at the returned `x`
when the caller's `v` is the objective at the `x` it passed. -/
theorem brentmin_fxp_minimum (sgn : K → K) (lb : K) (flbp : Option K) (ub : K)
    (fubp : Option K) (x v : K) (f : K → K) (tol : K) (fuel : Nat) (r : BrentResult K)
    (h : brentmin sgn lb flbp ub fubp x (some v) f tol fuel = .ok r) :
    ∃ w, r.fxp = some w ∧
      w ≤ valueOr flbp f lb ∧ w ≤ v ∧ w ≤ valueOr fubp f ub ∧
      (∀ p, p ∈ r.final.evals → w ≤ f p) ∧
      (w = v ∨ ∃ p, p ∈ r.final.evals ∧ w = f p) ∧
      (v = f x → w = f r.ret) := by
  obtain ⟨hv, hl, hret, hfxp⟩ := brentmin_ok sgn lb flbp ub fubp x (some v) f tol fuel r h
  obtain ⟨hrun, _⟩ := brentLoop_some sgn f tol fuel _ _ hl
  simp only [valueOr] at hv hrun
  have hinv : bestValueInv f (valueOr flbp f lb) v (valueOr fubp f ub) x r.final := by
    rw [hrun]
    apply bestValueInv_brentRun
    exact ⟨hv.2.1, hv.2.2, hv.2.1, le_refl _, hv.2.2, by simp [brentInit],
      Or.inl ⟨rfl, rfl⟩⟩
  obtain ⟨_, _, h3, h4, h5, h6, h7⟩ := hinv
  refine ⟨r.final.fx, by simpa using hfxp, h3, h4, h5, h6, ?_, ?_⟩
  · rcases h7 with h7 | h7
    · exact Or.inl h7.1
    · exact Or.inr ⟨r.final.x, h7.1, h7.2⟩
  · intro hvx
    rw [hret]
    rcases h7 with h7 | h7
    · rw [h7.1, h7.2, hvx]
    · exact h7.2

end brent_best_value

section brent_more_runs

variable {K : Type} [LinearOrderedField K]

theorem brentRun_of_not_cond (sgn f : K → K) (tol : K) (k : Nat) (s : BrentState K)
    (h : ¬ brentCond s) : brentRun sgn f tol k s = s := by
  cases k with
  | zero => rfl
  | succ k => simp only [brentRun, h, if_false]

theorem brentRun_add (sgn f : K → K) (tol : K) (a k : Nat) :
    ∀ s : BrentState K,
      brentRun sgn f tol (a + k) s = brentRun sgn f tol k (brentRun sgn f tol a s) := by
  induction a with
  | zero => intro s; simp only [Nat.zero_add, brentRun]
  | succ a ih =>
    intro s
    rw [Nat.add_right_comm]
    by_cases hc : brentCond s
    · simp only [brentRun, hc, if_true]
      exact ih _
    · simp only [brentRun, hc, if_false]
      exact (brentRun_of_not_cond sgn f tol k s hc).symm

theorem brentLoop_of_left (sgn f : K → K) (tol : K) (a k : Nat) (s : BrentState K)
    (h : ¬ brentCond (brentRun sgn f tol a s)) :
    brentLoop sgn f tol (a + k) s = some (brentRun sgn f tol a s) := by
  unfold brentLoop
  rw [brentRun_add, brentRun_of_not_cond sgn f tol k _ h]
  simp only [h, if_false]

theorem nudgeStepFn_run_supplied :
    brentmin sign 0 none 1 none nudgeX (some 0) nudgeStepFn nudgeTol 2 = .ok nudgeSupplied := by
  have hv : ((0 : ℚ) ≤ nudgeX ∧ nudgeX ≤ 1) ∧
      (valueOr (some 0) nudgeStepFn nudgeX ≤ valueOr none nudgeStepFn 0 ∧
        valueOr (some 0) nudgeStepFn nudgeX ≤ valueOr none nudgeStepFn 1) := by decide!
  have hl : brentLoop sign nudgeStepFn nudgeTol 2
      (brentInit 0 (valueOr none nudgeStepFn 0) 1 (valueOr none nudgeStepFn 1) nudgeX
        (valueOr (some 0) nudgeStepFn nudgeX) nudgeTol) = some nudgeFinal := by decide!
  rw [brentmin_of_valid sign 0 none 1 none nudgeX (some 0) nudgeStepFn nudgeTol 2 hv, hl]
  rfl

/-- Witness for C11: the run of two iterations on the step objective, with the value
0 at `nudgeX` supplied by the caller; the stored value is -1. -/
theorem brentmin_fxp_minimum_witness :
    brentmin sign 0 none 1 none nudgeX (some 0) nudgeStepFn nudgeTol 2 = .ok nudgeSupplied ∧
    ∃ w, nudgeSupplied.fxp = some w ∧
      w ≤ valueOr none nudgeStepFn 0 ∧ w ≤ 0 ∧ w ≤ valueOr none nudgeStepFn 1 ∧
      (∀ p, p ∈ nudgeSupplied.final.evals → w ≤ nudgeStepFn p) ∧
      (w = 0 ∨ ∃ p, p ∈ nudgeSupplied.final.evals ∧ w = nudgeStepFn p) ∧
      (0 = nudgeStepFn nudgeX → w = nudgeStepFn nudgeSupplied.ret) :=
  ⟨nudgeStepFn_run_supplied,
   brentmin_fxp_minimum sign 0 none 1 none nudgeX 0 nudgeStepFn nudgeTol 2 nudgeSupplied
     nudgeStepFn_run_supplied⟩

set_option maxRecDepth 100000 in
theorem squareFn_run :
    ¬ brentCond (brentRun sign squareFn nudgeTol 23 squareInit) ∧
    (brentRun sign squareFn nudgeTol 23 squareInit).x = 2 ∧
    (brentRun sign squareFn nudgeTol 23 squareInit).iters = 23 ∧
    brentCond (brentRun sign squareFn nudgeTol 22 squareInit) := by
  decide!

/-- C12: on `(t - 2)^2` with the bracket `[0, 5]`, interior point 1 and `tol = 1e-5`,
`brentmin` returns after 23 iterations (for every iteration budget of at least 23, and
not with a budget of 22) and the returned point is exactly 2, which meets the stated
tolerance.  The first iteration is a golden-section step to `1 + 4 * GOLDENRATIO`; in
the second the parabolic point 2 is accepted and becomes `x`; the two points
evaluated by then are the golden point and 2. -/
theorem brentmin_square_returns_two :
    ∃ r : BrentResult ℚ,
      (∀ k, brentmin sign 0 none 5 none 1 none squareFn nudgeTol (23 + k) = .ok r) ∧
      brentmin sign 0 none 5 none 1 none squareFn nudgeTol 22 = .error .fuel ∧
      r.ret = 2 ∧ |r.ret - 2| ≤ 2 * (nudgeTol * |r.ret| + DBL_EPSILON) ∧
      r.final.iters = 23 ∧
      trialPoint sign squareInit = goldenStep squareInit ∧
      (goldenStep squareInit).1 = squareGolden ∧
      (brentStep sign squareFn nudgeTol squareInit).x = squareGolden ∧
      parabolic_interpolate (brentStep sign squareFn nudgeTol squareInit).lb
          (brentStep sign squareFn nudgeTol squareInit).x
          (brentStep sign squareFn nudgeTol squareInit).ub
          (brentStep sign squareFn nudgeTol squareInit).flb
          (brentStep sign squareFn nudgeTol squareInit).fx
          (brentStep sign squareFn nudgeTol squareInit).fub = some 2 ∧
      trialPoint sign (brentStep sign squareFn nudgeTol squareInit)
        = (2, |squareGolden - 2|) ∧
      (brentRun sign squareFn nudgeTol 2 squareInit).x = 2 ∧
      (brentRun sign squareFn nudgeTol 2 squareInit).evals = [2, squareGolden] := by
  have hv : ((0 : ℚ) ≤ 1 ∧ (1 : ℚ) ≤ 5) ∧
      (valueOr none squareFn 1 ≤ valueOr none squareFn 0 ∧
        valueOr none squareFn 1 ≤ valueOr none squareFn 5) := by decide!
  have hinit : brentInit 0 (valueOr none squareFn 0) 5 (valueOr none squareFn 5) 1
      (valueOr none squareFn 1) nudgeTol = squareInit := rfl
  refine ⟨{ ret := (brentRun sign squareFn nudgeTol 23 squareInit).x, fxp := none,
            final := brentRun sign squareFn nudgeTol 23 squareInit }, ?_, ?_, squareFn_run.2.1,
    ?_, squareFn_run.2.2.1, by decide!, by decide!, by decide!, by decide!, by decide!,
    by decide!, by decide!⟩
  · intro k
    rw [brentmin_of_valid sign 0 none 5 none 1 none squareFn nudgeTol (23 + k) hv, hinit,
      brentLoop_of_left sign squareFn nudgeTol 23 k squareInit squareFn_run.1]
    rfl
  · rw [brentmin_of_valid sign 0 none 5 none 1 none squareFn nudgeTol 22 hv, hinit]
    unfold brentLoop
    rw [if_pos squareFn_run.2.2.2]
    rfl
  · show |(brentRun sign squareFn nudgeTol 23 squareInit).x - 2|
      ≤ 2 * (nudgeTol * |(brentRun sign squareFn nudgeTol 23 squareInit).x| + DBL_EPSILON)
    rw [squareFn_run.2.1]
    decide!

end brent_more_runs

section brent_constant

variable {K : Type} [LinearOrderedField K]

theorem GOLDENRATIO_pos : (0 : K) < GOLDENRATIO := by
  unfold GOLDENRATIO; norm_num

theorem GOLDENRATIO_lt_one : ( GOLDENRATIO : K) < 1 := by
  unfold GOLDENRATIO; norm_num

theorem DBL_EPSILON_pos : (0 : K) < DBL_EPSILON := by
  unfold DBL_EPSILON; positivity

theorem brentCond_iff_side (s : BrentState K) (x0 : K) (hx : s.x = x0) :
    brentCond s ↔ (if s.ub - x0 < x0 - s.lb then x0 - s.lb else s.ub - x0) > 2 * s.fractol := by
  unfold brentCond
  rw [hx]
  by_cases h : s.ub - x0 < x0 - s.lb
  · rw [if_pos h, abs_of_pos (by linarith)]
    constructor <;> intro h1 <;> linarith
  · rw [if_neg h, abs_of_nonpos (by linarith)]
    constructor <;> intro h1 <;> linarith

theorem goldenStep_flat (s : BrentState K) (x0 : K) (hx : s.x = x0) :
    goldenStep s =
      if s.ub - x0 < x0 - s.lb then
        (x0 - GOLDENRATIO * (x0 - s.lb), |x0 - GOLDENRATIO * (x0 - s.lb) - x0|)
      else (x0 + GOLDENRATIO * (s.ub - x0), |x0 + GOLDENRATIO * (s.ub - x0) - x0|) := by
  unfold goldenStep
  rw [hx]
  by_cases h : s.ub - x0 < x0 - s.lb
  · have h2 : 2 * x0 > s.lb + s.ub := by linarith
    have e : x0 + GOLDENRATIO * (s.lb - x0) = x0 - GOLDENRATIO * (x0 - s.lb) := by ring
    simp only [h, h2, if_true, e]
  · have h2 : ¬ 2 * x0 > s.lb + s.ub := by intro h3; exact h (by linarith)
    simp only [h, h2, if_false]

theorem proposeStep_flat (c : K) (s : BrentState K) (hl : s.flb = c) (hm : s.fx = c)
    (hu : s.fub = c) : proposeStep s = goldenStep s := by
  have hpar : parabolic_interpolate s.lb s.x s.ub s.flb s.fx s.fub = none := by
    simp [parabolic_interpolate, hl, hm, hu]
  unfold proposeStep
  rw [hpar]

theorem brentStep_of_no_improvement (sgn f : K → K) (tol : K) (s : BrentState K) (p d : K)
    (htp : trialPoint sgn s = (p, d)) (hnot : ¬ f p < s.fx) :
    brentStep sgn f tol s =
      if p ≥ s.x then
        { s with
          ub := p, fub := f p, diff_old2 := s.diff_old, diff_old := d
          fractol := tol * |s.x| + DBL_EPSILON, iters := s.iters + 1, evals := p :: s.evals }
      else
        { s with
          lb := p, flb := f p, diff_old2 := s.diff_old, diff_old := d
          fractol := tol * |s.x| + DBL_EPSILON, iters := s.iters + 1, evals := p :: s.evals } := by
  unfold brentStep
  simp only [htp, hnot, if_false]
  split_ifs <;> rfl

theorem trialPoint_flat (sgn : K → K) (c x0 : K) (s : BrentState K)
    (hneg : ∀ d, d < 0 → sgn d = -1) (hpos : ∀ d, 0 < d → sgn d = 1)
    (hinv : flatInv c x0 s) (hc : brentCond s) :
    (s.ub - x0 < x0 - s.lb ∧
      ((trialPoint sgn s).1 = x0 - GOLDENRATIO * (x0 - s.lb)
        ∨ (trialPoint sgn s).1 = x0 - s.fractol)) ∨
    (¬ s.ub - x0 < x0 - s.lb ∧
      ((trialPoint sgn s).1 = x0 + GOLDENRATIO * (s.ub - x0)
        ∨ (trialPoint sgn s).1 = x0 + s.fractol)) := by
  obtain ⟨_, _, hx, hl, hm, hu, hf⟩ := hinv
  have hside := (brentCond_iff_side s x0 hx).1 hc
  have hG : (0 : K) < GOLDENRATIO := GOLDENRATIO_pos
  unfold trialPoint
  rw [proposeStep_flat c s hl hm hu, goldenStep_flat s x0 hx, hx]
  by_cases h : s.ub - x0 < x0 - s.lb
  · left
    refine ⟨h, ?_⟩
    rw [if_pos h] at hside
    have ha : 0 < GOLDENRATIO * (x0 - s.lb) := mul_pos hG (by linarith)
    simp only [h, if_true]
    by_cases hd : |x0 - GOLDENRATIO * (x0 - s.lb) - x0| ≥ s.fractol
    · left; rw [if_pos hd]
    · right
      rw [if_neg hd, hneg _ (by linarith)]
      ring
  · right
    refine ⟨h, ?_⟩
    rw [if_neg h] at hside
    have hb : 0 < GOLDENRATIO * (s.ub - x0) := mul_pos hG (by linarith)
    simp only [h, if_false]
    by_cases hd : |x0 + GOLDENRATIO * (s.ub - x0) - x0| ≥ s.fractol
    · left; rw [if_pos hd]
    · right
      rw [if_neg hd, hpos _ (by linarith)]
      ring

theorem brentStep_flat (sgn : K → K) (c tol x0 : K) (s : BrentState K)
    (hneg : ∀ d, d < 0 → sgn d = -1) (hpos : ∀ d, 0 < d → sgn d = 1) (htol : 0 ≤ tol)
    (hinv : flatInv c x0 s) (hc : brentCond s) :
    flatInv c x0 (brentStep sgn (fun _ => c) tol s) ∧
    (brentStep sgn (fun _ => c) tol s).fractol = tol * |x0| + DBL_EPSILON ∧
    ((s.ub - x0 < x0 - s.lb ∧ (brentStep sgn (fun _ => c) tol s).ub = s.ub ∧
        (x0 - (brentStep sgn (fun _ => c) tol s).lb = GOLDENRATIO * (x0 - s.lb)
          ∨ x0 - (brentStep sgn (fun _ => c) tol s).lb = s.fractol)) ∨
      (¬ s.ub - x0 < x0 - s.lb ∧ (brentStep sgn (fun _ => c) tol s).lb = s.lb ∧
        ((brentStep sgn (fun _ => c) tol s).ub - x0 = GOLDENRATIO * (s.ub - x0)
          ∨ (brentStep sgn (fun _ => c) tol s).ub - x0 = s.fractol))) := by
  have htrial := trialPoint_flat sgn c x0 s hneg hpos hinv hc
  obtain ⟨h1, h2, hx, hl, hm, hu, hf⟩ := hinv
  have hside := (brentCond_iff_side s x0 hx).1 hc
  have hG : (0 : K) < GOLDENRATIO := GOLDENRATIO_pos
  have hτ : 0 < tol * |x0| + DBL_EPSILON :=
    add_pos_of_nonneg_of_pos (mul_nonneg htol (abs_nonneg _)) DBL_EPSILON_pos
  have hstep := brentStep_of_no_improvement sgn (fun _ => c) tol s (trialPoint sgn s).1
    (trialPoint sgn s).2 rfl (by rw [hm]; exact lt_irrefl c)
  rw [hx] at hstep
  rcases htrial with ⟨h, hp⟩ | ⟨h, hp⟩
  · rw [if_pos h] at hside
    have ha : 0 < GOLDENRATIO * (x0 - s.lb) := mul_pos hG (by linarith)
    have hlt : ¬ (trialPoint sgn s).1 ≥ x0 := by
      rcases hp with hp | hp <;> rw [hp] <;> intro h3 <;> linarith
    rw [if_neg hlt] at hstep
    rw [hstep]
    refine ⟨⟨?_, h2, rfl, rfl, hm, hu, hτ⟩, rfl, Or.inl ⟨h, rfl, ?_⟩⟩
    · show (trialPoint sgn s).1 ≤ x0
      exact le_of_lt (lt_of_not_ge hlt)
    · show x0 - (trialPoint sgn s).1 = GOLDENRATIO * (x0 - s.lb)
        ∨ x0 - (trialPoint sgn s).1 = s.fractol
      rcases hp with hp | hp
      · left; rw [hp]; ring
      · right; rw [hp]; ring
  · rw [if_neg h] at hside
    have hb : 0 < GOLDENRATIO * (s.ub - x0) := mul_pos hG (by linarith)
    have hge : (trialPoint sgn s).1 ≥ x0 := by
      rcases hp with hp | hp <;> rw [hp] <;> linarith
    rw [if_pos hge] at hstep
    rw [hstep]
    refine ⟨⟨h1, hge, rfl, hl, hm, rfl, hτ⟩, rfl, Or.inr ⟨h, rfl, ?_⟩⟩
    show (trialPoint sgn s).1 - x0 = GOLDENRATIO * (s.ub - x0)
      ∨ (trialPoint sgn s).1 - x0 = s.fractol
    rcases hp with hp | hp
    · left; rw [hp]; ring
    · right; rw [hp]; ring

theorem brentRun_flat_leaves (sgn : K → K) (c tol x0 : K)
    (hneg : ∀ d, d < 0 → sgn d = -1) (hpos : ∀ d, 0 < d → sgn d = 1) (htol : 0 ≤ tol) :
    ∀ (n : Nat) (s : BrentState K) (na nb : Nat), na + nb = n → flatInv c x0 s →
      s.fractol = tol * |x0| + DBL_EPSILON →
      GOLDENRATIO ^ na * (x0 - s.lb) ≤ 2 * (tol * |x0| + DBL_EPSILON) →
      GOLDENRATIO ^ nb * (s.ub - x0) ≤ 2 * (tol * |x0| + DBL_EPSILON) →
      ∃ k, ¬ brentCond (brentRun sgn (fun _ => c) tol k s) ∧
        flatInv c x0 (brentRun sgn (fun _ => c) tol k s) := by
  have hτ : 0 < tol * |x0| + DBL_EPSILON :=
    add_pos_of_nonneg_of_pos (mul_nonneg htol (abs_nonneg _)) DBL_EPSILON_pos
  have hGn : ∀ m : Nat, ( GOLDENRATIO : K) ^ m * (tol * |x0| + DBL_EPSILON)
      ≤ 2 * (tol * |x0| + DBL_EPSILON) := by
    intro m
    have h1 : ( GOLDENRATIO : K) ^ m ≤ 1 :=
      pow_le_one₀ (le_of_lt GOLDENRATIO_pos) (le_of_lt GOLDENRATIO_lt_one)
    nlinarith
  intro n
  induction n with
  | zero =>
    intro s na nb hn hinv hf ha hb
    have hna : na = 0 := by omega
    have hnb : nb = 0 := by omega
    subst hna hnb
    simp only [pow_zero, one_mul] at ha hb
    refine ⟨0, ?_, hinv⟩
    show ¬ brentCond s
    rw [brentCond_iff_side s x0 hinv.2.2.1, hf]
    split_ifs <;> linarith
  | succ n ih =>
    intro s na nb hn hinv hf ha hb
    by_cases hc : brentCond s
    swap
    · exact ⟨0, hc, hinv⟩
    obtain ⟨hinv1, hf1, hcase⟩ := brentStep_flat sgn c tol x0 s hneg hpos htol hinv hc
    have hside := (brentCond_iff_side s x0 hinv.2.2.1).1 hc
    rw [hf] at hside
    have hnext : ∀ k, ¬ brentCond (brentRun sgn (fun _ => c) tol k
          (brentStep sgn (fun _ => c) tol s)) ∧
        flatInv c x0 (brentRun sgn (fun _ => c) tol k (brentStep sgn (fun _ => c) tol s)) →
        ∃ k, ¬ brentCond (brentRun sgn (fun _ => c) tol k s) ∧
          flatInv c x0 (brentRun sgn (fun _ => c) tol k s) := by
      intro k hk
      refine ⟨k + 1, ?_⟩
      simp only [brentRun, hc, if_true]
      exact hk
    rcases hcase with ⟨h, hub, hlb⟩ | ⟨h, hlb, hub⟩
    · rw [if_pos h] at hside
      cases na with
      | zero =>
        simp only [pow_zero, one_mul] at ha
        linarith
      | succ na =>
        have ha1 : GOLDENRATIO ^ na * (x0 - (brentStep sgn (fun _ => c) tol s).lb)
            ≤ 2 * (tol * |x0| + DBL_EPSILON) := by
          rcases hlb with e | e
          · rw [e, ← mul_assoc, ← pow_succ]; exact ha
          · rw [e, hf]; exact hGn na
        obtain ⟨k, hk⟩ := ih (brentStep sgn (fun _ => c) tol s) na nb (by omega) hinv1 hf1 ha1
          (by rw [hub]; exact hb)
        exact hnext k hk
    · rw [if_neg h] at hside
      cases nb with
      | zero =>
        simp only [pow_zero, one_mul] at hb
        linarith
      | succ nb =>
        have hb1 : GOLDENRATIO ^ nb * ((brentStep sgn (fun _ => c) tol s).ub - x0)
            ≤ 2 * (tol * |x0| + DBL_EPSILON) := by
          rcases hub with e | e
          · rw [e, ← mul_assoc, ← pow_succ]; exact hb
          · rw [e, hf]; exact hGn nb
        obtain ⟨k, hk⟩ := ih (brentStep sgn (fun _ => c) tol s) na nb (by omega) hinv1 hf1
          (by rw [hlb]; exact ha) hb1
        exact hnext k hk

theorem exists_pow_GOLDENRATIO_mul_le [Archimedean K] (a t : K) (ht : 0 < t) :
    ∃ n : Nat, GOLDENRATIO ^ n * a ≤ t := by
  by_cases ha : a ≤ 0
  · exact ⟨0, by simp only [pow_zero, one_mul]; linarith⟩
  · have ha1 : 0 < a := lt_of_not_ge ha
    obtain ⟨n, hn⟩ := exists_pow_lt_of_lt_one (div_pos ht ha1)
      GOLDENRATIO_lt_one
    refine ⟨n, ?_⟩
    have h2 := mul_lt_mul_of_pos_right hn ha1
    rw [div_mul_cancel₀ _ (ne_of_gt ha1)] at h2
    exact le_of_lt h2

theorem brentRun_flat_terminates [Archimedean K] (sgn : K → K) (c tol x0 : K)
    (hneg : ∀ d, d < 0 → sgn d = -1) (hpos : ∀ d, 0 < d → sgn d = 1) (htol : 0 ≤ tol)
    (s : BrentState K) (hinv : flatInv c x0 s) :
    ∃ k, ¬ brentCond (brentRun sgn (fun _ => c) tol k s) ∧
      flatInv c x0 (brentRun sgn (fun _ => c) tol k s) := by
  have hτ : 0 < tol * |x0| + DBL_EPSILON :=
    add_pos_of_nonneg_of_pos (mul_nonneg htol (abs_nonneg _)) DBL_EPSILON_pos
  by_cases hc : brentCond s
  swap
  · exact ⟨0, hc, hinv⟩
  obtain ⟨hinv1, hf1, _⟩ := brentStep_flat sgn c tol x0 s hneg hpos htol hinv hc
  obtain ⟨na, hna⟩ := exists_pow_GOLDENRATIO_mul_le
    (x0 - (brentStep sgn (fun _ => c) tol s).lb) (2 * (tol * |x0| + DBL_EPSILON)) (by linarith)
  obtain ⟨nb, hnb⟩ := exists_pow_GOLDENRATIO_mul_le
    ((brentStep sgn (fun _ => c) tol s).ub - x0) (2 * (tol * |x0| + DBL_EPSILON)) (by linarith)
  obtain ⟨k, hk⟩ := brentRun_flat_leaves sgn c tol x0 hneg hpos htol (na + nb) _ na nb rfl
    hinv1 hf1 hna hnb
  refine ⟨k + 1, ?_⟩
  simp only [brentRun, hc, if_true]
  exact hk

theorem bound_of_not_brentCond (tol : K) (s : BrentState K) (hinv : fractolInv tol s)
    (hc : ¬ brentCond s) :
    |s.x - (s.lb + s.ub) / 2| + (s.ub - s.lb) / 2
      ≤ 2 * (tol * |s.x| + (if s.iters = 0 then 3 / 10 ^ 8 else DBL_EPSILON)) := by
  unfold brentCond at hc
  unfold fractolInv at hinv
  rw [hinv, not_lt] at hc
  have e1 : (s.lb + s.ub) / 2 = 1 / 2 * (s.ub + s.lb) := by ring
  have e2 : (s.ub - s.lb) / 2 = 1 / 2 * (s.ub - s.lb) := by ring
  rw [e1, e2]
  exact hc

/-- In exact arithmetic, that is without the rounding of the type `double`: on a constant
objective (every value supplied by the caller being that constant), for `lb <= x <= ub`
and `tol >= 0`, there is an iteration count `n` such that `brentmin` returns with every
iteration budget of at least `n`; it returns the `x` it was given and the final bracket
meets the convergence inequality, with the absolute term `3e-8` when no iteration ran
and `DBL_EPSILON` otherwise.  The macro `sign` is any function that is -1 on negative
and 1 on positive arguments; the field is Archimedean. -/
theorem brentmin_constant_terminates [Archimedean K] (sgn : K → K) (lb : K) (flbp : Option K)
    (ub : K) (fubp : Option K) (x : K) (fxp : Option K) (c tol : K)
    (hneg : ∀ d, d < 0 → sgn d = -1) (hpos : ∀ d, 0 < d → sgn d = 1) (htol : 0 ≤ tol)
    (hlb : lb ≤ x) (hub : x ≤ ub)
    (hfl : valueOr flbp (fun _ => c) lb = c) (hfu : valueOr fubp (fun _ => c) ub = c)
    (hfx : valueOr fxp (fun _ => c) x = c) :
    ∃ (n : Nat) (r : BrentResult K),
      (∀ k, brentmin sgn lb flbp ub fubp x fxp (fun _ => c) tol (n + k) = .ok r) ∧
      r.ret = x ∧
      |r.ret - (r.final.lb + r.final.ub) / 2| + (r.final.ub - r.final.lb) / 2
        ≤ 2 * (tol * |r.ret| + (if r.final.iters = 0 then 3 / 10 ^ 8 else DBL_EPSILON)) := by
  have hinit : flatInv c x (brentInit lb c ub c x c tol) := by
    refine ⟨hlb, hub, rfl, rfl, rfl, rfl, ?_⟩
    show 0 < tol * |x| + 3 / 10 ^ 8
    have := mul_nonneg htol (abs_nonneg x)
    positivity
  obtain ⟨n, hleft, hflat⟩ :=
    brentRun_flat_terminates sgn c tol x hneg hpos htol _ hinit
  have hfrac : fractolInv tol (brentRun sgn (fun _ => c) tol n (brentInit lb c ub c x c tol)) := by
    apply fractolInv_brentRun
    simp [fractolInv, brentInit]
  refine ⟨n, { ret := (brentRun sgn (fun _ => c) tol n (brentInit lb c ub c x c tol)).x,
               fxp := fxp.map (fun _ =>
                 (brentRun sgn (fun _ => c) tol n (brentInit lb c ub c x c tol)).fx),
               final := brentRun sgn (fun _ => c) tol n (brentInit lb c ub c x c tol) },
    ?_, hflat.2.2.1, bound_of_not_brentCond tol _ hfrac hleft⟩
  intro k
  have hv : (lb ≤ x ∧ x ≤ ub) ∧
      (valueOr fxp (fun _ => c) x ≤ valueOr flbp (fun _ => c) lb ∧
        valueOr fxp (fun _ => c) x ≤ valueOr fubp (fun _ => c) ub) := by
    rw [hfl, hfu, hfx]
    exact ⟨⟨hlb, hub⟩, le_refl c, le_refl c⟩
  rw [brentmin_of_valid sgn lb flbp ub fubp x fxp (fun _ => c) tol (n + k) hv, hfl, hfu, hfx,
    brentLoop_of_left sgn (fun _ => c) tol n k _ hleft]
  rfl

theorem sign_of_neg (d : K) (h : d < 0) : sign d = -1 := by
  unfold sign
  rw [if_pos h]

theorem sign_of_pos (d : K) (h : 0 < d) : sign d = 1 := by
  unfold sign
  rw [if_neg (not_lt.2 (le_of_lt h))]

/-- A run in exact arithmetic: the constant objective 0 on the bracket `[0, 1]` with
interior point 1/2 and `tol = 1e-5`, no value supplied by the caller. -/
theorem brentmin_constant_terminates_run :
    (∀ d : ℚ, d < 0 → sign d = -1) ∧ (∀ d : ℚ, 0 < d → sign d = 1) ∧ (0 : ℚ) ≤ nudgeTol ∧
    (0 : ℚ) ≤ 1 / 2 ∧ (1 / 2 : ℚ) ≤ 1 ∧
    ∃ (n : Nat) (r : BrentResult ℚ),
      (∀ k, brentmin sign 0 none 1 none (1 / 2) none (fun _ => 0) nudgeTol (n + k) = .ok r) ∧
      r.ret = 1 / 2 ∧
      |r.ret - (r.final.lb + r.final.ub) / 2| + (r.final.ub - r.final.lb) / 2
        ≤ 2 * (nudgeTol * |r.ret|
            + (if r.final.iters = 0 then 3 / 10 ^ 8 else DBL_EPSILON)) :=
  ⟨sign_of_neg, sign_of_pos, by decide!, by decide!, by decide!,
   brentmin_constant_terminates sign 0 none 1 none (1 / 2) none 0 nudgeTol sign_of_neg
     sign_of_pos (by decide!) (by decide!) (by decide!) rfl rfl rfl⟩

end brent_constant

section brent_double_theorems

variable {K : Type} [LinearOrderedField K]

/-- With no rounding the iteration in rounded arithmetic is the exact one. -/
theorem brentStep_fl_id (sgn f : K → K) (tol : K) (s : BrentState K) :
    brentStep_fl id sgn f tol s = brentStep sgn f tol s := rfl

/-- With no rounding the loop condition in rounded arithmetic is the exact one. -/
theorem brentCond_fl_id (s : BrentState K) : brentCond_fl id s ↔ brentCond s := Iff.rfl

theorem brentRun_fl_of_not_cond (rnd sgn f : K → K) (tol : K) (k : Nat) (s : BrentState K)
    (h : ¬ brentCond_fl rnd s) : brentRun_fl rnd sgn f tol k s = s := by
  cases k with
  | zero => rfl
  | succ k => simp only [brentRun_fl, h, if_false]

theorem brentRun_fl_add (rnd sgn f : K → K) (tol : K) :
    ∀ (a b : Nat) (s : BrentState K),
      brentRun_fl rnd sgn f tol (a + b) s
        = brentRun_fl rnd sgn f tol b (brentRun_fl rnd sgn f tol a s)
  | 0, b, s => by rw [Nat.zero_add]; rfl
  | a + 1, b, s => by
    rw [Nat.add_right_comm]
    by_cases hc : brentCond_fl rnd s
    · simp only [brentRun_fl, hc, if_true]
      exact brentRun_fl_add rnd sgn f tol a b _
    · simp only [brentRun_fl, hc, if_false]
      exact (brentRun_fl_of_not_cond rnd sgn f tol b s hc).symm

theorem trialPoint_fl_counters (rnd sgn : K → K) (s : BrentState K) :
    trialPoint_fl rnd sgn (resetCounters s) = trialPoint_fl rnd sgn s := by
  cases s
  rfl

/-- The counters `iters` and `evals` do not enter the iteration. -/
theorem brentStep_fl_counters (rnd sgn f : K → K) (tol : K) (s : BrentState K) :
    resetCounters (brentStep_fl rnd sgn f tol s)
      = resetCounters (brentStep_fl rnd sgn f tol (resetCounters s)) ∧
    (brentStep_fl rnd sgn f tol s).iters = s.iters + 1 := by
  refine ⟨?_, rfl⟩
  unfold brentStep_fl
  rw [trialPoint_fl_counters]
  simp only [resetCounters]
  split_ifs <;> rfl

end brent_double_theorems

section brent_double_runs

set_option maxRecDepth 1000000 in
/-- Values of `roundDouble`: a double is kept; 1/10, `GOLDENRATIO` and `3e-8` become the
doubles that C reads for these literals; `1024 + 2^-52` lies less than half a unit in
the last place from 1024; a number midway between two doubles goes to the one with the
even last digit. -/
theorem roundDouble_values :
    roundDouble 1024 = 1024 ∧ roundDouble (1024 - 1 / 2 ^ 43) = 1024 - 1 / 2 ^ 43 ∧
    roundDouble (1 / 10) = 3602879701896397 / 2 ^ 55 ∧
    roundDouble GOLDENRATIO = 6880887943736673 / 2 ^ 54 ∧
    roundDouble (3 / 10 ^ 8) = 4533471823554859 / 2 ^ 77 ∧
    roundDouble (1024 + 1 / 2 ^ 52) = 1024 ∧
    roundDouble (1024 + 1 / 2 ^ 43) = 1024 ∧
    roundDouble (1024 + 3 / 2 ^ 43) = 1024 + 1 / 2 ^ 41 ∧
    roundDouble (-(1 / 10)) = -(3602879701896397 / 2 ^ 55) := by decide!

theorem brentCond_fl_counters (rnd : ℚ → ℚ) (s : BrentState ℚ) :
    brentCond_fl rnd (resetCounters s) ↔ brentCond_fl rnd s := Iff.rfl

set_option maxRecDepth 1000000 in
/-- In double arithmetic one iteration from `stuckState` leaves every variable of the C
code as it was, and the loop condition holds there: the golden-section point
`x + GOLDENRATIO * (lb - x)` rounds to `x`, so does the nudged point `x + fractol`, and
the new upper end is `x` again. -/
theorem stuckState_step :
    resetCounters (brentStep_fl roundDouble sign (fun _ => 0) 0 stuckState) = stuckState ∧
    brentCond_fl roundDouble stuckState ∧
    trialPoint_fl roundDouble sign stuckState = (1024, 0) := by decide!

set_option maxRecDepth 1000000 in
/-- In double arithmetic the loop reaches `stuckState` from `wideInit` in 79 iterations. -/
theorem wideInit_run :
    { brentRun_fl roundDouble sign (fun _ => 0) 0 79 wideInit with evals := [] }
      = { stuckState with iters := 79, evals := [] } := by decide!

theorem counters_of_eq (s t : BrentState ℚ) (n : Nat)
    (h : ({ s with evals := [] } : BrentState ℚ) = { t with iters := n, evals := [] }) :
    resetCounters s = resetCounters t ∧ s.iters = n := by
  have h1 := congrArg resetCounters h
  have h2 := congrArg BrentState.iters h
  exact ⟨h1, h2⟩

/-- In double arithmetic the loop never leaves a state whose variables are those of
`stuckState`. -/
theorem stuckState_run :
    ∀ (k : Nat) (s : BrentState ℚ), resetCounters s = stuckState →
      resetCounters (brentRun_fl roundDouble sign (fun _ => 0) 0 k s) = stuckState ∧
      (brentRun_fl roundDouble sign (fun _ => 0) 0 k s).iters = s.iters + k ∧
      brentCond_fl roundDouble (brentRun_fl roundDouble sign (fun _ => 0) 0 k s)
  | 0, s, h => by
    refine ⟨h, rfl, ?_⟩
    show brentCond_fl roundDouble s
    rw [← brentCond_fl_counters, h]
    exact stuckState_step.2.1
  | k + 1, s, h => by
    have hc : brentCond_fl roundDouble s := by
      rw [← brentCond_fl_counters, h]
      exact stuckState_step.2.1
    have hs := brentStep_fl_counters roundDouble sign (fun _ => 0) 0 s
    rw [h, stuckState_step.1] at hs
    obtain ⟨h1, h2, h3⟩ := stuckState_run k _ hs.1
    simp only [brentRun_fl, hc, if_true]
    refine ⟨h1, ?_, h3⟩
    rw [h2, hs.2]
    omega

set_option maxRecDepth 1000000 in
/-- Around 1024 the nudge of line 54 by `fractol = DBL_EPSILON` rounds back to 1024
whatever `sign` gives at 0, be it -1, 0 or 1. -/
theorem nudge_rounds_back (z : ℚ) (hz : z = -1 ∨ z = 0 ∨ z = 1) :
    roundDouble (1024 + roundDouble (1 / 2 ^ 52 * z)) = 1024 := by
  rcases hz with hz | hz | hz <;> rw [hz] <;> decide!

/-- The variables that the loop keeps on the constant objective 0 with `tol = 0` from
`x = 1024`; after an iteration `fractol` is `DBL_EPSILON`. -/
theorem flat1024_step (sgn : ℚ → ℚ) (s : BrentState ℚ) (hx : s.x = 1024) (hfx : s.fx = 0) :
    (brentStep_fl roundDouble sgn (fun _ => 0) 0 s).x = 1024 ∧
    (brentStep_fl roundDouble sgn (fun _ => 0) 0 s).fx = 0 ∧
    (brentStep_fl roundDouble sgn (fun _ => 0) 0 s).fractol = 1 / 2 ^ 52 := by
  have he : roundDouble (roundDouble (0 * |(1024 : ℚ)|) + DBL_EPSILON) = 1 / 2 ^ 52 := by
    decide!
  unfold brentStep_fl
  simp only [hfx, lt_irrefl, if_false]
  split_ifs
  · exact ⟨hx, rfl, by simp only [hx]; exact he⟩
  · exact ⟨hx, rfl, by simp only [hx]; exact he⟩

/-- On such a state the iteration is the same for every macro `sign` that is -1 on
negative and 1 on positive arguments and -1, 0 or 1 at 0, when `fractol` is
`DBL_EPSILON` or the trial point is not nudged. -/
theorem brentStep_fl_sign (sgn : ℚ → ℚ) (hneg : ∀ d, d < 0 → sgn d = -1)
    (hpos : ∀ d, 0 < d → sgn d = 1) (h0 : sgn 0 = -1 ∨ sgn 0 = 0 ∨ sgn 0 = 1)
    (s : BrentState ℚ) (hx : s.x = 1024)
    (hf : s.fractol = 1 / 2 ^ 52 ∨ (proposeStep_fl roundDouble s).2 ≥ s.fractol) :
    brentStep_fl roundDouble sgn (fun _ => 0) 0 s
      = brentStep_fl roundDouble sign (fun _ => 0) 0 s := by
  have ht : trialPoint_fl roundDouble sgn s = trialPoint_fl roundDouble sign s := by
    unfold trialPoint_fl
    by_cases hd : (proposeStep_fl roundDouble s).2 ≥ s.fractol
    · simp only [hd, if_true]
    · simp only [hd, if_false]
      rcases hf with hf | hf
      swap
      · exact absurd hf hd
      rcases lt_trichotomy (roundDouble ((proposeStep_fl roundDouble s).1 - s.x)) 0
        with h | h | h
      · rw [hneg _ h, sign_of_neg _ h]
      · rw [h, hx, hf, nudge_rounds_back (sgn 0) h0,
          nudge_rounds_back (sign 0) (Or.inr (Or.inr rfl))]
      · rw [hpos _ h, sign_of_pos _ h]
  unfold brentStep_fl
  rw [ht]

theorem brentRun_fl_sign (sgn : ℚ → ℚ) (hneg : ∀ d, d < 0 → sgn d = -1)
    (hpos : ∀ d, 0 < d → sgn d = 1) (h0 : sgn 0 = -1 ∨ sgn 0 = 0 ∨ sgn 0 = 1) :
    ∀ (k : Nat) (s : BrentState ℚ), s.x = 1024 → s.fx = 0 →
      (s.fractol = 1 / 2 ^ 52 ∨ (proposeStep_fl roundDouble s).2 ≥ s.fractol) →
      brentRun_fl roundDouble sgn (fun _ => 0) 0 k s
        = brentRun_fl roundDouble sign (fun _ => 0) 0 k s
  | 0, _, _, _, _ => rfl
  | k + 1, s, hx, hfx, hf => by
    by_cases hc : brentCond_fl roundDouble s
    · simp only [brentRun_fl, hc, if_true]
      obtain ⟨h1, h2, h3⟩ := flat1024_step sgn s hx hfx
      rw [brentRun_fl_sign sgn hneg hpos h0 k _ h1 h2 (Or.inl h3),
        brentStep_fl_sign sgn hneg hpos h0 s hx hf]
    · simp only [brentRun_fl, hc, if_false]

set_option maxRecDepth 1000000 in
/-- The first trial point from `wideInit` is not nudged. -/
theorem wideInit_first_step :
    (proposeStep_fl roundDouble wideInit).2 ≥ wideInit.fractol := by decide!

/-- In double arithmetic the loop condition of `brentmin` holds after every number of
iterations from `wideInit`, and from the 79th on the bracket is that of `stuckState`. -/
theorem wideInit_never_leaves (k : Nat) :
    brentCond_fl roundDouble (brentRun_fl roundDouble sign (fun _ => 0) 0 k wideInit) ∧
    resetCounters (brentRun_fl roundDouble sign (fun _ => 0) 0 (79 + k) wideInit)
      = stuckState ∧
    (brentRun_fl roundDouble sign (fun _ => 0) 0 (79 + k) wideInit).iters = 79 + k := by
  obtain ⟨h79, hit⟩ := counters_of_eq _ stuckState 79 wideInit_run
  have hlate : ∀ j, resetCounters (brentRun_fl roundDouble sign (fun _ => 0) 0 (79 + j) wideInit)
        = stuckState ∧
      (brentRun_fl roundDouble sign (fun _ => 0) 0 (79 + j) wideInit).iters = 79 + j ∧
      brentCond_fl roundDouble
        (brentRun_fl roundDouble sign (fun _ => 0) 0 (79 + j) wideInit) := by
    intro j
    rw [brentRun_fl_add]
    have := stuckState_run j _ h79
    rw [hit] at this
    exact this
  refine ⟨?_, (hlate k).1, (hlate k).2.1⟩
  by_cases hk : 79 ≤ k
  · obtain ⟨j, rfl⟩ := Nat.exists_eq_add_of_le hk
    exact (hlate j).2.2
  · by_contra hc
    have h1 : brentRun_fl roundDouble sign (fun _ => 0) 0 (k + (79 - k)) wideInit
        = brentRun_fl roundDouble sign (fun _ => 0) 0 k wideInit := by
      rw [brentRun_fl_add]
      exact brentRun_fl_of_not_cond _ _ _ _ _ _ hc
    have h2 : k + (79 - k) = 79 + 0 := by omega
    rw [h2] at h1
    have h3 := (hlate 0).2.2
    rw [h1] at h3
    exact hc h3

end brent_double_runs

section brent_double_claim

/-- C13 fails on the code in double arithmetic: for the constant objective 0, the bracket
`[0, 2048]` with interior point 1024 and `tol = 0`, the loop of `brentmin` never leaves.
The loop condition holds after every number of iterations; from the 79th iteration on
the upper end is `x = 1024`, the lower end is the double next below 1024 and `fractol` is
`DBL_EPSILON`, so that the golden-section point and the nudged point `x + fractol` both
round to `x`; `brentmin` returns for no iteration budget.  The macro `sign` is any
function that is -1 on negative and 1 on positive arguments and -1, 0 or 1 at 0.  In
exact arithmetic the same call returns 1024 (last part). -/
theorem brentmin_constant_never_returns (sgn : ℚ → ℚ) (hneg : ∀ d, d < 0 → sgn d = -1)
    (hpos : ∀ d, 0 < d → sgn d = 1) (h0 : sgn 0 = -1 ∨ sgn 0 = 0 ∨ sgn 0 = 1) :
    (∀ k, brentCond_fl roundDouble (brentRun_fl roundDouble sgn (fun _ => 0) 0 k wideInit)) ∧
    (∀ k, (brentRun_fl roundDouble sgn (fun _ => 0) 0 (79 + k) wideInit).lb = 1024 - 1 / 2 ^ 43 ∧
      (brentRun_fl roundDouble sgn (fun _ => 0) 0 (79 + k) wideInit).x = 1024 ∧
      (brentRun_fl roundDouble sgn (fun _ => 0) 0 (79 + k) wideInit).ub = 1024 ∧
      (brentRun_fl roundDouble sgn (fun _ => 0) 0 (79 + k) wideInit).fractol = 1 / 2 ^ 52 ∧
      (brentRun_fl roundDouble sgn (fun _ => 0) 0 (79 + k) wideInit).iters = 79 + k) ∧
    (∀ fuel, brentmin_fl roundDouble sgn 0 none 2048 none 1024 none (fun _ => 0) 0 fuel
      = .error .fuel) ∧
    (∃ (n : Nat) (r : BrentResult ℚ),
      (∀ k, brentmin sgn 0 none 2048 none 1024 none (fun _ => 0) 0 (n + k) = .ok r) ∧
      r.ret = 1024) := by
  have hrun : ∀ k, brentRun_fl roundDouble sgn (fun _ => 0) 0 k wideInit
      = brentRun_fl roundDouble sign (fun _ => 0) 0 k wideInit :=
    fun k => brentRun_fl_sign sgn hneg hpos h0 k wideInit rfl rfl (Or.inr wideInit_first_step)
  have hcond : ∀ k,
      brentCond_fl roundDouble (brentRun_fl roundDouble sgn (fun _ => 0) 0 k wideInit) := by
    intro k
    rw [hrun]
    exact (wideInit_never_leaves k).1
  refine ⟨hcond, fun k => ?_, fun fuel => ?_, ?_⟩
  · rw [hrun]
    obtain ⟨_, h2, h3⟩ := wideInit_never_leaves k
    exact ⟨congrArg BrentState.lb h2, congrArg BrentState.x h2, congrArg BrentState.ub h2,
      congrArg BrentState.fractol h2, h3⟩
  · have hv : ¬ ¬ ((0 : ℚ) ≤ 1024 ∧ (1024 : ℚ) ≤ 2048) := by norm_num
    have hw : ¬ ¬ ((0 : ℚ) ≤ 0 ∧ (0 : ℚ) ≤ 0) := by norm_num
    unfold brentmin_fl
    rw [if_neg hv]
    simp only [valueOr]
    rw [if_neg hw]
    unfold brentLoop_fl
    have hc : brentCond_fl roundDouble (brentRun_fl roundDouble sgn (fun _ => 0) 0 fuel
        (brentInit_fl roundDouble 0 0 2048 0 1024 0 0)) := hcond fuel
    rw [if_pos hc]
    rfl
  · obtain ⟨n, r, h1, h2, _⟩ := brentmin_constant_terminates sgn 0 none 2048 none 1024 none 0 0
      hneg hpos (le_refl 0) (by norm_num) (by norm_num) rfl rfl rfl
    exact ⟨n, r, h1, h2⟩

/-- Witness for C13: the macro `sign` of this file meets the three hypotheses. -/
theorem brentmin_constant_never_returns_witness :
    (∀ d : ℚ, d < 0 → sign d = -1) ∧ (∀ d : ℚ, 0 < d → sign d = 1) ∧ sign (0 : ℚ) = 1 ∧
    (∀ fuel, brentmin_fl roundDouble sign 0 none 2048 none 1024 none (fun _ => 0) 0 fuel
      = .error .fuel) ∧
    (brentRun_fl roundDouble sign (fun _ => 0) 0 (79 + 21) wideInit).ub = 1024 :=
  have h := brentmin_constant_never_returns sign sign_of_neg sign_of_pos (Or.inr (Or.inr rfl))
  ⟨sign_of_neg, sign_of_pos, rfl, h.2.2.1, (h.2.1 21).2.2.1⟩

end brent_double_claim

section errors_and_scaling

variable {K : Type} [LinearOrderedField K]

/-- C14 fails on the code: `calcerr(x, y)` is the absolute difference `x - y` (its
first statement returns it; the relative formula after it is never reached), so
multiplying both values by `c` multiplies `calcerr` by `c`: for the values 2 and 1 it is
1, for 4 and 2 it is 2, while the relative improvement `2*(x-y)/(|x|+|y|)` is 2/3 for
both.  The tests of the inner and outer loops of `Optimize` compare this difference
with `tol`. -/
theorem calcerr_is_absolute :
    (∀ x y : ℚ, calcerr x y = x - y) ∧
    (∀ c x y : ℚ, calcerr (c * x) (c * y) = c * calcerr x y) ∧
    calcerr (2 : ℚ) 1 = 1 ∧ calcerr (2 * 2 : ℚ) (2 * 1) = 2 ∧
    calcerr (2 * 2 : ℚ) (2 * 1) ≠ calcerr 2 1 ∧
    (2 * (2 - 1) / (|2| + |1|) : ℚ) = 2 * (2 * 2 - 2 * 1) / (|2 * 2| + |2 * 1|) ∧
    (∀ st : OPTRUN ℚ, Optimize_stepAgain st ↔
      st.fn - st.opt.fc > Optimize_tol ∨ st.newbound ≠ 0) ∧
    (∀ st : OPTRUN ℚ, Optimize_restartAgain st ↔
      st.restarts < max_restart ∧ st.opt.fc - st.fo > Optimize_tol ∧ RESTART ≠ 0) := by
  refine ⟨fun _ _ => rfl, ?_, by decide!, by decide!, by decide!, by decide!,
    fun _ => Iff.rfl, fun _ => Iff.rfl⟩
  intro c x y
  unfold calcerr
  ring

theorem and_flag_mod (errn F : Nat) (h : 255 &&& F = F) : (errn % 256) &&& F = errn &&& F := by
  have e : errn % 256 = errn &&& (2 ^ 8 - 1) := (Nat.and_pow_two_sub_one_eq_mod errn 8).symm
  rw [e, Nat.and_assoc]
  show errn &&& (255 &&& F) = errn &&& F
  rw [h]

theorem MakeErrString_mod (errn : Nat) : MakeErrString (errn % 256) = MakeErrString errn := by
  unfold MakeErrString
  simp only [and_flag_mod errn HESSIAN_NONPD (by decide), and_flag_mod errn PARAM_BOUND (by decide),
    and_flag_mod errn NEWTON (by decide), and_flag_mod errn TRUNC_BOUND (by decide),
    and_flag_mod errn INVALID_STEP (by decide), and_flag_mod errn BAD_STEP (by decide),
    and_flag_mod errn REARRANGED (by decide), and_flag_mod errn DOG_LEG (by decide)]

theorem MakeErrString_count_mod (errn : Nat) :
    MakeErrString_count (errn % 256) = MakeErrString_count errn := by
  unfold MakeErrString_count
  simp only [and_flag_mod errn HESSIAN_NONPD (by decide), and_flag_mod errn PARAM_BOUND (by decide),
    and_flag_mod errn NEWTON (by decide), and_flag_mod errn TRUNC_BOUND (by decide),
    and_flag_mod errn INVALID_STEP (by decide), and_flag_mod errn BAD_STEP (by decide),
    and_flag_mod errn REARRANGED (by decide), and_flag_mod errn DOG_LEG (by decide)]

theorem setFlags_mod (errn : Nat) : setFlags (errn % 256) = setFlags errn := by
  unfold setFlags
  apply List.filter_congr
  intro b hb
  have hb8 : b < 8 := List.mem_range.1 hb
  have e : errn % 256 = errn % 2 ^ 8 := rfl
  rw [e, Nat.testBit_mod_two_pow]
  simp [hb8]

set_option maxRecDepth 100000 in
theorem MakeErrString_low : ∀ m, m < 256 →
    MakeErrString m = (setFlags m).map flagChar ∧
    (MakeErrString m).length = MakeErrString_count m ∧
    decodeErrString (MakeErrString m) = m := by
  decide

theorem and_255_eq_mod (errn : Nat) : errn &&& 255 = errn % 256 :=
  Nat.and_pow_two_sub_one_eq_mod errn 8

/-- C19: for every error code, `MakeErrString` writes the characters of the flags set
among the low eight bits, one each, in the order of the bits (`-`, `B`, `N`, `T`, `V`,
`W`, `R`, `D` for bits 0 to 7); the bit numbers listed are exactly the set bits of
`errn & 255`, their number is the length of the string and the count of the first pass
(so the buffer of `nerr + 1` characters fits), and two codes give the same string if
and only if they agree on `errn & 255`. -/
theorem MakeErrString_one_char_per_flag (errn : Nat) :
    MakeErrString errn = (setFlags errn).map flagChar ∧
    (List.range 8).map flagChar = ['-', 'B', 'N', 'T', 'V', 'W', 'R', 'D'] ∧
    (∀ b, b ∈ setFlags errn ↔ (errn &&& 255).testBit b = true) ∧
    (MakeErrString errn).length = (setFlags (errn &&& 255)).length ∧
    MakeErrString_count errn = (MakeErrString errn).length ∧
    (∀ other, MakeErrString errn = MakeErrString other ↔ errn &&& 255 = other &&& 255) := by
  have hlow := fun m => MakeErrString_low (m % 256) (Nat.mod_lt m (by decide))
  have h1 : MakeErrString errn = (setFlags errn).map flagChar := by
    rw [← MakeErrString_mod, ← setFlags_mod]
    exact (hlow errn).1
  refine ⟨h1, by decide, ?_, ?_, ?_, ?_⟩
  · intro b
    unfold setFlags
    rw [List.mem_filter, List.mem_range, Nat.testBit_and]
    have e : (255 : Nat).testBit b = decide (b < 8) := Nat.testBit_two_pow_sub_one 8 b
    rw [e]
    simp only [Bool.and_eq_true, decide_eq_true_eq]
    exact And.comm
  · rw [h1, List.length_map, and_255_eq_mod, setFlags_mod]
  · rw [← MakeErrString_mod, ← MakeErrString_count_mod]
    exact ((hlow errn).2.1).symm
  · intro other
    rw [and_255_eq_mod, and_255_eq_mod]
    constructor
    · intro h
      have h2 := congrArg decodeErrString h
      rw [← MakeErrString_mod errn, ← MakeErrString_mod other, (hlow errn).2.2,
        (hlow other).2.2] at h2
      exact h2
    · intro h
      rw [← MakeErrString_mod errn, ← MakeErrString_mod other, h]

theorem scalefactOf_range (sqrt : K → K) (h : K) :
    MINSCALE ≤ scalefactOf sqrt h ∧ scalefactOf sqrt h ≤ MAXSCALE := by
  have hmm : (MINSCALE : K) ≤ MAXSCALE := by unfold MINSCALE MAXSCALE; norm_num
  unfold scalefactOf
  by_cases h1 : sqrt h > MINSCALE
  · simp only [h1, if_true]
    by_cases h2 : sqrt h < MAXSCALE
    · simp only [h2, if_true]; exact ⟨le_of_lt h1, le_of_lt h2⟩
    · simp only [h2, if_false]; exact ⟨hmm, le_refl _⟩
  · simp only [h1, if_false]
    by_cases h2 : (MINSCALE : K) < MAXSCALE
    · simp only [h2, if_true]; exact ⟨le_refl _, hmm⟩
    · simp only [h2, if_false]; exact ⟨hmm, le_refl _⟩

theorem Rescale_loop_factors (sqrt : K → K) (n : Nat) (init : RESCALED K) (k : Nat) (i : Nat) :
    ∃ s : K, MINSCALE ≤ s ∧ s ≤ MAXSCALE ∧ (k ≤ i → s = 1) ∧
      (forLoop k (rescaleStep sqrt n) init).scale i = init.scale i * s ∧
      (forLoop k (rescaleStep sqrt n) init).x i = init.x i / s ∧
      (forLoop k (rescaleStep sqrt n) init).dx i = init.dx i * s := by
  induction k with
  | zero =>
    refine ⟨1, ?_, ?_, fun _ => rfl, ?_, ?_, ?_⟩
    · unfold MINSCALE; norm_num
    · unfold MAXSCALE; norm_num
    · simp only [forLoop, mul_one]
    · simp only [forLoop, div_one]
    · simp only [forLoop, mul_one]
  | succ k ih =>
    obtain ⟨s, hs1, hs2, hs3, hs4, hs5, hs6⟩ := ih
    simp only [forLoop, rescaleStep]
    by_cases hik : i = k
    · subst hik
      have hs : s = 1 := hs3 (le_refl _)
      subst hs
      refine ⟨scalefactOf sqrt ((forLoop i (rescaleStep sqrt n) init).H (i * n + i)),
        (scalefactOf_range sqrt _).1, (scalefactOf_range sqrt _).2, ?_, ?_, ?_, ?_⟩
      · intro h; omega
      · simp only [Function.update_same, hs4, mul_one]
      · simp only [Function.update_same, hs5, div_one]
      · simp only [Function.update_same, hs6, mul_one]
    · refine ⟨s, hs1, hs2, ?_, ?_, ?_, ?_⟩
      · intro h; exact hs3 (by omega)
      · simp only [Function.update_noteq hik, hs4]
      · simp only [Function.update_noteq hik, hs5]
      · simp only [Function.update_noteq hik, hs6]

/-- C20: when `Rescale` returns, for every `i` the product `x[i] * scale[i]` is the one
before the call; there is a factor `s` in `[MINSCALE, MAXSCALE]` with `scale[i]`
multiplied, `x[i]` divided and `dx[i]` multiplied by `s`; a positive `scale[i]` stays
positive and `dx[i] / scale[i]` is unchanged; and `fWrap` at the new `x` with the new
scale is `fWrap` at the old `x` with the old scale. -/
theorem Rescale_keeps_original_units (env : OPTENV K) (x dx H : Nat → K) (n : Nat)
    (scale : Nat → K) (r : RESCALED K) (h : Rescale env.sqrt x dx H n scale = .ok r) :
    (∀ i, r.x i * r.scale i = x i * scale i) ∧
    (∀ i, ∃ s : K, MINSCALE ≤ s ∧ s ≤ MAXSCALE ∧
      r.scale i = scale i * s ∧ r.x i = x i / s ∧ r.dx i = dx i * s) ∧
    (∀ i, 0 < scale i → 0 < r.scale i ∧ r.dx i / r.scale i = dx i / scale i) ∧
    fWrap env r.scale r.x = fWrap env scale x := by
  have hprod := Rescale_product env.sqrt x dx H n scale r h
  have hfac : ∀ i, ∃ s : K, MINSCALE ≤ s ∧ s ≤ MAXSCALE ∧
      r.scale i = scale i * s ∧ r.x i = x i / s ∧ r.dx i = dx i * s := by
    intro i
    unfold Rescale at h
    by_cases hn : 0 < n
    swap
    · simp [hn] at h
    simp only [hn, not_true_eq_false, if_false, Except.ok.injEq] at h
    obtain ⟨s, h1, h2, _, h4, h5, h6⟩ :=
      Rescale_loop_factors env.sqrt n { x := x, dx := dx, H := H, scale := scale } n i
    rw [h] at h4 h5 h6
    exact ⟨s, h1, h2, h4, h5, h6⟩
  refine ⟨hprod, hfac, ?_, ?_⟩
  · intro i hi
    obtain ⟨s, h1, _, h4, _, h6⟩ := hfac i
    have hs : 0 < s := lt_of_lt_of_le MINSCALE_pos h1
    refine ⟨by rw [h4]; exact mul_pos hi hs, ?_⟩
    rw [h4, h6]
    field_simp
    ring
  · unfold fWrap
    congr 1
    funext i
    exact hprod i

set_option maxRecDepth 100000 in
/-- Witness for C20: one parameter `x = 1/2` with gradient 3, scale 1 and
inverse-Hessian entry 4: the factor is 2. -/
theorem Rescale_keeps_original_units_witness :
    isOk (Rescale quadEnv.sqrt tinyX (fun _ => 3) fourH 1 unitScale) = true ∧
    (okValue noRescaled (Rescale quadEnv.sqrt tinyX (fun _ => 3) fourH 1 unitScale)).scale 0 = 2 ∧
    (okValue noRescaled (Rescale quadEnv.sqrt tinyX (fun _ => 3) fourH 1 unitScale)).x 0
      = 1 / 4 ∧
    fWrap quadEnv (okValue noRescaled (Rescale quadEnv.sqrt tinyX (fun _ => 3) fourH 1
        unitScale)).scale
      (okValue noRescaled (Rescale quadEnv.sqrt tinyX (fun _ => 3) fourH 1 unitScale)).x
      = fWrap quadEnv unitScale tinyX :=
  have hok : isOk (Rescale quadEnv.sqrt tinyX (fun _ => 3) fourH 1 unitScale) = true := by
    decide!
  ⟨hok, by decide!, by decide!,
   (Rescale_keeps_original_units quadEnv tinyX (fun _ => 3) fourH 1 unitScale _
      (eq_ok_okValue noRescaled _ hok)).2.2.2⟩

end errors_and_scaling

section optimize_loops

variable {K : Type} [LinearOrderedField K]

theorem Optimize_step_keeps (env : OPTENV K) (fuel : Nat) (st st1 : OPTRUN K)
    (h : Optimize_step env fuel st = .ok st1) :
    st1.restarts = st.restarts ∧ st1.passes = st.passes ∧ st1.fo = st.fo ∧
      st1.step = st.step + 1 := by
  unfold Optimize_step at h
  split at h
  · cases h
  · simp only at h
    split at h
    · split at h
      · cases h
      · split at h
        · cases h
        · simp only [Except.ok.injEq] at h
          subst h
          exact ⟨rfl, rfl, rfl, rfl⟩
    · simp only [Except.ok.injEq] at h
      subst h
      exact ⟨rfl, rfl, rfl, rfl⟩

theorem Optimize_innerRun_keeps (env : OPTENV K) (fuel : Nat) :
    ∀ (k : Nat) (st st1 : OPTRUN K) (b : Bool),
      Optimize_innerRun env fuel k st = .ok (st1, b) →
      st1.restarts = st.restarts ∧ st1.passes = st.passes ∧ st1.fo = st.fo ∧
        st1.step ≤ st.step + k
  | 0, st, st1, b, h => by
    simp only [Optimize_innerRun, Except.ok.injEq, Prod.mk.injEq] at h
    rw [← h.1]
    exact ⟨rfl, rfl, rfl, le_refl _⟩
  | k + 1, st, st1, b, h => by
    unfold Optimize_innerRun at h
    cases hs : Optimize_step env fuel st with
    | error e => rw [hs] at h; cases h
    | ok st2 =>
      rw [hs] at h
      obtain ⟨h1, h2, h3, h4⟩ := Optimize_step_keeps env fuel st st2 hs
      by_cases hc : Optimize_stepAgain st2
      · simp only [hc, if_true] at h
        obtain ⟨g1, g2, g3, g4⟩ := Optimize_innerRun_keeps env fuel k st2 st1 b h
        exact ⟨g1.trans h1, g2.trans h2, g3.trans h3, by omega⟩
      · simp only [hc, if_false, Except.ok.injEq, Prod.mk.injEq] at h
        rw [← h.1]
        exact ⟨h1, h2, h3, by omega⟩

theorem Optimize_inner_keeps (env : OPTENV K) (fuel inner : Nat) (st st1 : OPTRUN K)
    (h : Optimize_inner env fuel inner st = .ok st1) :
    st1.restarts = st.restarts ∧ st1.passes = st.passes ∧ st1.fo = st.fo := by
  unfold Optimize_inner at h
  cases hr : Optimize_innerRun env fuel inner st with
  | error e => rw [hr] at h; cases h
  | ok p =>
    obtain ⟨st2, b⟩ := p
    rw [hr] at h
    cases b with
    | true => cases h
    | false =>
      simp only [Except.ok.injEq] at h
      subst h
      obtain ⟨g1, g2, g3, _⟩ := Optimize_innerRun_keeps env fuel inner st st2 false hr
      exact ⟨g1, g2, g3⟩

theorem Optimize_restart_counts (env : OPTENV K) (fuel inner : Nat) (st st1 : OPTRUN K)
    (h : Optimize_restart env fuel inner st = .ok st1) :
    st1.restarts = st.restarts + 1 ∧ st1.passes = st.passes + 1 ∧ st1.fo = st.opt.fc := by
  unfold Optimize_restart at h
  cases hr : Optimize_inner env fuel inner
      { st with fo := st.opt.fc, opt := InitializeH st.opt, fact := 1 } with
  | error e => rw [hr] at h; cases h
  | ok st2 =>
    rw [hr] at h
    simp only [Except.ok.injEq] at h
    subst h
    obtain ⟨g1, g2, g3⟩ := Optimize_inner_keeps env fuel inner _ st2 hr
    exact ⟨by rw [g1], by rw [g2], g3⟩

theorem Optimize_outer_left (env : OPTENV K) (fuel inner : Nat) :
    ∀ (outer : Nat) (st r : OPTRUN K), Optimize_outer env fuel inner outer st = .ok r →
      st.restarts < max_restart → (st.passes : Int) = st.restarts + 1 →
      r.restarts ≤ max_restart ∧ (r.passes : Int) = r.restarts + 1 ∧
        ¬ Optimize_restartAgain r
  | 0, st, r, h, _, _ => by cases h
  | outer + 1, st, r, h, hlt, hp => by
    unfold Optimize_outer at h
    cases hs : Optimize_restart env fuel inner st with
    | error e => rw [hs] at h; cases h
    | ok st1 =>
      rw [hs] at h
      obtain ⟨h1, h2, _⟩ := Optimize_restart_counts env fuel inner st st1 hs
      have hp1 : (st1.passes : Int) = st1.restarts + 1 := by
        rw [h1, h2]; push_cast; rw [hp]
      by_cases hc : Optimize_restartAgain st1
      · simp only [hc, if_true] at h
        exact Optimize_outer_left env fuel inner outer st1 r h hc.1 hp1
      · simp only [hc, if_false, Except.ok.injEq] at h
        subst h
        refine ⟨?_, hp1, hc⟩
        rw [h1]
        unfold max_restart at hlt ⊢
        omega

theorem Optimize_outer_budget (env : OPTENV K) (fuel inner : Nat) (k : Nat) :
    ∀ (m : Nat) (st : OPTRUN K), max_restart ≤ st.restarts + m + 1 →
      Optimize_outer env fuel inner (m + 1 + k) st = Optimize_outer env fuel inner (m + 1) st
  | m, st, hm => by
    rw [Nat.add_right_comm]
    unfold Optimize_outer
    cases hs : Optimize_restart env fuel inner st with
    | error e => rfl
    | ok st1 =>
      obtain ⟨h1, _, _⟩ := Optimize_restart_counts env fuel inner st st1 hs
      by_cases hc : Optimize_restartAgain st1
      · simp only [hc, if_true]
        have hlt := hc.1
        rw [h1] at hlt
        cases m with
        | zero =>
          exfalso
          unfold max_restart at hlt hm
          omega
        | succ m =>
          exact Optimize_outer_budget env fuel inner k m st1 (by
            rw [h1]
            unfold max_restart at hm ⊢
            push_cast at hm
            omega)
      · simp only [hc, if_false]

theorem InitializeH_keeps (opt : OPTOBJ K) (H : Nat → K)
    (h : ∀ k, opt.n * opt.n ≤ k → H k = opt.H k) :
    InitializeH { opt with H := H } = InitializeH opt := by
  unfold InitializeH MakeMatrixIdentity
  congr 1
  funext k
  by_cases hk : k < opt.n * opt.n
  · simp only [hk, if_true]
  · simp only [hk, if_false]
    exact h k (not_lt.1 hk)

/-- C15: for every objective and input, the outer loop of `Optimize` never needs more
than 21 bodies (an iteration budget of 21 or more gives the same result as 21).  On a
run that returns, the number of bodies run is `restarts + 1`, at most 21; the
non-convergence message is printed exactly when 21 bodies were run, in which case the
loop was left because `restarts < max_restart` was false, and otherwise it was left
because the outer convergence test failed to hold.  Every body starts by resetting the
inverse Hessian to the identity: its result does not depend on the matrix it finds. -/
theorem Optimize_restart_budget (env : OPTENV K) (mem : OPTOBJ K) (fuel inner : Nat)
    (x : Nat → K) (n : Nat) (fx : K) (bd : Nat → K) :
    (∀ k, Optimize env mem fuel inner (21 + k) x n fx bd
      = Optimize env mem fuel inner 21 x n fx bd) ∧
    (∀ (outer : Nat) (opt0 : OPTOBJ K) (st : OPTRUN K), NewOpt mem n = some opt0 →
      Optimize_outer env fuel inner outer (Optimize_start (InitializeOpt env opt0 x n fx bd))
        = .ok st →
      Optimize env mem fuel inner outer x n fx bd = .ok (Optimize_finish x n st) ∧
      st.passes ≤ 21 ∧ (st.passes : Int) = st.restarts + 1 ∧
      ((Optimize_finish x n st).reported = true ↔ st.passes = 21) ∧
      ((Optimize_finish x n st).reported = true → ¬ st.restarts < max_restart) ∧
      ((Optimize_finish x n st).reported = false →
        ¬ calcerr st.opt.fc st.fo > Optimize_tol)) ∧
    (∀ (st : OPTRUN K) (H : Nat → K), (∀ k, st.opt.n * st.opt.n ≤ k → H k = st.opt.H k) →
      Optimize_restart env fuel inner { st with opt := { st.opt with H := H } }
        = Optimize_restart env fuel inner st) ∧
    (∀ (opt : OPTOBJ K) (k : Nat), k < opt.n * opt.n →
      (InitializeH opt).H k = if k / opt.n = k % opt.n then 1 else 0) := by
  refine ⟨?_, ?_, ?_, ?_⟩
  · intro k
    unfold Optimize
    cases NewOpt mem n with
    | none => rfl
    | some opt0 =>
      simp only
      rw [show 21 + k = 20 + 1 + k by omega,
        Optimize_outer_budget env fuel inner k 20 _ (by
          show max_restart ≤ (-1 : Int) + (20 : Nat) + 1
          unfold max_restart
          norm_num)]
  · intro outer opt0 st hnew hrun
    obtain ⟨h1, h2, h3⟩ := Optimize_outer_left env fuel inner outer _ st hrun
      (by show (-1 : Int) < max_restart; unfold max_restart; norm_num)
      (by show ((0 : Nat) : Int) = -1 + 1; norm_num)
    have hrep : (Optimize_finish x n st).reported = true ↔ st.restarts = max_restart := by
      show decide (st.restarts = max_restart) = true ↔ _
      rw [decide_eq_true_eq]
    unfold max_restart at h1 hrep
    refine ⟨?_, by omega, h2, ?_, ?_, ?_⟩
    · unfold Optimize
      rw [hnew]
      simp only
      rw [hrun]
    · rw [hrep]; constructor <;> intro h <;> omega
    · rw [hrep]; intro h; unfold max_restart; omega
    · intro hf hc
      have hne : ¬ st.restarts = 20 := by
        intro h
        rw [hrep.2 h] at hf
        cases hf
      apply h3
      refine ⟨?_, hc, by decide⟩
      unfold max_restart
      omega
  · intro st H hH
    unfold Optimize_restart
    simp only
    rw [InitializeH_keeps st.opt H hH]
  · intro opt k hk
    unfold InitializeH MakeMatrixIdentity
    simp only [hk, if_true]

end optimize_loops

section optimize_loop_runs

set_option maxRecDepth 1000000 in
theorem quadStart_run :
    isOk (Optimize_outer quadEnv 1 10 21 quadStart) = true ∧
    (okValue noRun (Optimize_outer quadEnv 1 10 21 quadStart)).passes = 2 ∧
    (okValue noRun (Optimize_outer quadEnv 1 10 21 quadStart)).step = 10 := by
  decide!

/-- Witness for C15: the objective of `quadEnv` from `x = 1/2` in `[0, 1]`: `Optimize`
returns after two bodies of the outer loop and ten steps, without the message. -/
theorem Optimize_restart_budget_witness :
    NewOpt zeroMem 1 = some oneMem ∧
    isOk (Optimize_outer quadEnv 1 10 21 quadStart) = true ∧
    Optimize quadEnv zeroMem 1 10 21 (fun _ => 1 / 2) 1 (1 / 100) quadBd
      = .ok (Optimize_finish (fun _ => 1 / 2) 1
          (okValue noRun (Optimize_outer quadEnv 1 10 21 quadStart))) ∧
    (okValue noRun (Optimize_outer quadEnv 1 10 21 quadStart)).passes = 2 ∧
    (okValue noRun (Optimize_outer quadEnv 1 10 21 quadStart)).passes ≤ 21 ∧
    ((Optimize_finish (fun _ => 1 / 2) 1
        (okValue noRun (Optimize_outer quadEnv 1 10 21 quadStart))).reported = true ↔
      (okValue noRun (Optimize_outer quadEnv 1 10 21 quadStart)).passes = 21) :=
  have h := (Optimize_restart_budget quadEnv zeroMem 1 10 (fun _ => 1 / 2) 1 (1 / 100)
    quadBd).2.1 21 oneMem _ rfl (eq_ok_okValue noRun _ quadStart_run.1)
  ⟨rfl, quadStart_run.1, h.1, quadStart_run.2.1, h.2.1, h.2.2.2.1⟩

set_option maxRecDepth 1000000 in
/-- C16 fails on the code: `max_step` is assigned and never read, and the inner loop of
`Optimize` has no test on the step count.  For the objective `-p` from `x = 1` in
`[0, 1000]` the state handed to the inner loop by the first outer body is `climbPass`;
after `max_step + 1 = 101` calls of `TakeStep` (the global `step` is 101) in that same
outer body no assertion has failed and the loop test still holds, so `Optimize` does not
return within 101 steps. -/
theorem Optimize_inner_ignores_max_step :
    NewOpt zeroMem 1 = some oneMem ∧
    climbPass.opt.fc = climbPass.fo ∧
    isOk (Optimize_innerRun climbEnv 1 (max_step + 1) climbPass) = true ∧
    (okValue (noRun, false) (Optimize_innerRun climbEnv 1 (max_step + 1) climbPass)).2 = true ∧
    (okValue (noRun, false) (Optimize_innerRun climbEnv 1 (max_step + 1) climbPass)).1.step
      = max_step + 1 ∧
    (okValue (noRun, false) (Optimize_innerRun climbEnv 1 (max_step + 1) climbPass)).1.passes
      = 0 ∧
    Optimize_stepAgain
      (okValue (noRun, false) (Optimize_innerRun climbEnv 1 (max_step + 1) climbPass)).1 ∧
    isOk (Optimize climbEnv zeroMem 1 (max_step + 1) 21 (fun _ => 1) 1 (-1) climbBd) = false :=
  ⟨rfl, rfl, by decide!⟩

end optimize_loop_runs

section optimize_flags_and_bounds

variable {K : Type} [LinearOrderedField K]

theorem TakeStep_of_failed (env : OPTENV K) (fuel : Nat) (opt : OPTOBJ K) (tol : K)
    (errn : Nat) (c : CANDIDATE K) (hc : TakeStep_candidate env fuel opt errn = .ok c)
    (hworse : c.opt.fn > c.opt.fc) :
    TakeStep env fuel opt tol errn = .ok (failedStep env c) := by
  unfold TakeStep
  rw [hc]
  exact TakeStep_exit_failed env c hworse

set_option maxRecDepth 1000000 in
/-- C18 fails on the code: the branch of `TakeStep` that restores `xn = x` and
`fn = fc` leaves `errn` as it finds it, and nothing in optimize_new.c sets `BAD_STEP`.  In
the first step of `Optimize` on the objective of `quadEnv` from `x = 1/2` in `[0, 1]`
the candidate is worse than the current point, `TakeStep` leaves through that branch
with `errn = 0`, and the diagnostic string of that step is empty: it has no `W`. -/
theorem TakeStep_failed_step_unflagged :
    (∀ (env : OPTENV ℚ) (c : CANDIDATE ℚ), (failedStep env c).errn = c.errn) ∧
    isOk (TakeStep_candidate quadEnv 1 quadPass.opt 0) = true ∧
    (okValue noCandidate (TakeStep_candidate quadEnv 1 quadPass.opt 0)).opt.fn
      > (okValue noCandidate (TakeStep_candidate quadEnv 1 quadPass.opt 0)).opt.fc ∧
    TakeStep quadEnv 1 quadPass.opt Optimize_tol 0
      = .ok (failedStep quadEnv
          (okValue noCandidate (TakeStep_candidate quadEnv 1 quadPass.opt 0))) ∧
    (failedStep quadEnv
      (okValue noCandidate (TakeStep_candidate quadEnv 1 quadPass.opt 0))).errn = 0 ∧
    (failedStep quadEnv
        (okValue noCandidate (TakeStep_candidate quadEnv 1 quadPass.opt 0))).errn &&& BAD_STEP
      ≠ BAD_STEP ∧
    isOk (Optimize_step quadEnv 1 quadPass) = true ∧
    (okValue noRun (Optimize_step quadEnv 1 quadPass)).errstring = [] ∧
    'W' ∉ (okValue noRun (Optimize_step quadEnv 1 quadPass)).errstring ∧
    'W' ∈ MakeErrString BAD_STEP :=
  have hok : isOk (TakeStep_candidate quadEnv 1 quadPass.opt 0) = true := by decide!
  have hw : (okValue noCandidate (TakeStep_candidate quadEnv 1 quadPass.opt 0)).opt.fn
      > (okValue noCandidate (TakeStep_candidate quadEnv 1 quadPass.opt 0)).opt.fc := by
    decide!
  ⟨fun _ _ => rfl, hok, hw,
   TakeStep_of_failed quadEnv 1 quadPass.opt Optimize_tol 0 _
     (eq_ok_okValue noCandidate _ hok) hw,
   by decide!, by decide!, by decide!, by decide!, by decide!, by decide!⟩

theorem TrimAtBoundaries_malformed (x direct scale : Nat → K) (n : Nat) (lb ub : Nat → K)
    (onbound : Nat → Bool) (i : Nat) (hi : i < n) (hb : lb i > ub i)
    (ho : onbound i = false) :
    TrimAtBoundaries x direct scale n lb ub onbound = .error .entry := by
  have hn : 0 < n := by omega
  unfold TrimAtBoundaries
  simp only [hn, not_true_eq_false, if_false]
  rcases assertAll_cases n (fun i =>
      decide (((onbound i = false ∧ x i * scale i > lb i ∧ x i * scale i < ub i)
          ∨ onbound i = true)
        ∧ (onbound i = false ∨ direct i = 0))) .entry with h | h
  · exfalso
    have hc := (assertAll_ok _ _ _).1 h i hi
    simp only [ho, decide_eq_true_eq] at hc
    rcases hc.1 with ⟨_, h1, h2⟩ | h3
    · exact absurd (lt_trans h1 h2) (not_lt.2 (le_of_lt hb))
    · cases h3
  · rw [h]

/-- C17 as amended: `InitializeOpt` copies the bounds as given, whatever their order,
and makes no check.  With a pair `lb[i] > ub[i]`, `TakeStep` fails the entry assertion
of `TrimAtBoundaries` (which comes before any evaluation of the objective) whenever
parameter `i` is not flagged active at the end of the active-set loop. -/
theorem Optimize_bounds_unchecked (env : OPTENV K) (opt0 : OPTOBJ K) (x : Nat → K) (n : Nat)
    (fx : K) (bd : Nat → K) :
    (∀ i, i < n → (InitializeOpt env opt0 x n fx bd).lb i = bd i ∧
      (InitializeOpt env opt0 x n fx bd).ub i = bd (n + i)) ∧
    (∀ (fuel : Nat) (opt : OPTOBJ K) (tol : K) (errn : Nat) (r : ACTIVESET K × Nat × K)
      (i : Nat),
      activeSetLoop env opt.x opt.dx opt.scale opt.lb opt.ub opt.n fuel
          { direct := opt.direct, InvHess := opt.H, onbound := opt.onbound, nremoved := 0,
            errn := errn } 0 = .ok r →
      i < opt.n → opt.lb i > opt.ub i → r.1.onbound i = false →
      TakeStep env fuel opt tol errn = .error .entry) := by
  constructor
  · intro i hi
    simp only [InitializeOpt, hi, if_true, and_self]
  · intro fuel opt tol errn r i hr hi hb ho
    obtain ⟨st, nb, norm⟩ := r
    unfold TakeStep TakeStep_candidate
    rw [hr]
    simp only
    rw [TrimAtBoundaries_malformed opt.x _ opt.scale opt.n opt.lb opt.ub st.onbound i hi hb ho]

end optimize_flags_and_bounds

section malformed_bounds_runs

set_option maxRecDepth 1000000 in
/-- C17 fails as stated: with the bound array `[1, 0]` (lower bound above upper bound)
for the objective `p^2` from `x = 1/2`, `InitializeOpt` stores the bounds as given and
flags the parameter active, no assertion fails, and `Optimize` returns `x = 1/2` after
one call of `TakeStep`. -/
theorem Optimize_accepts_malformed_bounds :
    badBd 0 > badBd (1 + 0) ∧
    NewOpt zeroMem 1 = some oneMem ∧
    (InitializeOpt parabolaEnv oneMem (fun _ => 1 / 2) 1 (1 / 4) badBd).lb 0 = 1 ∧
    (InitializeOpt parabolaEnv oneMem (fun _ => 1 / 2) 1 (1 / 4) badBd).ub 0 = 0 ∧
    (InitializeOpt parabolaEnv oneMem (fun _ => 1 / 2) 1 (1 / 4) badBd).onbound 0 = true ∧
    isOk (Optimize parabolaEnv zeroMem 1 2 21 (fun _ => 1 / 2) 1 (1 / 4) badBd) = true ∧
    (okValue noOut (Optimize parabolaEnv zeroMem 1 2 21 (fun _ => 1 / 2) 1 (1 / 4) badBd)).x 0
      = 1 / 2 ∧
    (okValue noOut (Optimize parabolaEnv zeroMem 1 2 21 (fun _ => 1 / 2) 1 (1 / 4)
      badBd)).run.map (fun st => st.step) = some 1 :=
  ⟨by decide!, rfl, by decide!⟩

set_option maxRecDepth 1000000 in
/-- Witness for C17: the objective `p^2` from `x = 2` with the bound array `[1, 0]`: the
parameter is not flagged active and the first `TakeStep` fails the entry assertion. -/
theorem Optimize_bounds_unchecked_witness :
    isOk (activeSetLoop parabolaEnv badOpt.x badOpt.dx badOpt.scale badOpt.lb badOpt.ub
      badOpt.n 1
      { direct := badOpt.direct, InvHess := badOpt.H, onbound := badOpt.onbound, nremoved := 0,
        errn := 0 } 0) = true ∧
    0 < badOpt.n ∧ badOpt.lb 0 > badOpt.ub 0 ∧
    (okValue noActiveSet (activeSetLoop parabolaEnv badOpt.x badOpt.dx badOpt.scale badOpt.lb
      badOpt.ub badOpt.n 1
      { direct := badOpt.direct, InvHess := badOpt.H, onbound := badOpt.onbound, nremoved := 0,
        errn := 0 } 0)).1.onbound 0 = false ∧
    TakeStep parabolaEnv 1 badOpt Optimize_tol 0 = .error .entry :=
  have hok : isOk (activeSetLoop parabolaEnv badOpt.x badOpt.dx badOpt.scale badOpt.lb
      badOpt.ub badOpt.n 1
      { direct := badOpt.direct, InvHess := badOpt.H, onbound := badOpt.onbound, nremoved := 0,
        errn := 0 } 0) = true := by decide!
  have hn : 0 < badOpt.n := by decide!
  have hb : badOpt.lb 0 > badOpt.ub 0 := by decide!
  have ho : (okValue noActiveSet (activeSetLoop parabolaEnv badOpt.x badOpt.dx badOpt.scale
      badOpt.lb badOpt.ub badOpt.n 1
      { direct := badOpt.direct, InvHess := badOpt.H, onbound := badOpt.onbound, nremoved := 0,
        errn := 0 } 0)).1.onbound 0 = false := by decide!
  ⟨hok, hn, hb, ho,
   (Optimize_bounds_unchecked parabolaEnv oneMem (fun _ => 2) 1 4 badBd).2 1 badOpt
     Optimize_tol 0 _ 0 (eq_ok_okValue noActiveSet _ hok) hn hb ho⟩

end malformed_bounds_runs

section active_set_and_direction

variable {K : Type} [LinearOrderedField K]

theorem forLoop_induction {σ : Type} (P : Nat → σ → Prop) (n : Nat) (body : Nat → σ → σ)
    (init : σ) (h0 : P 0 init) (hstep : ∀ k s, k < n → P k s → P (k + 1) (body k s)) :
    P n (forLoop n body init) := by
  induction n with
  | zero => exact h0
  | succ n ih =>
    simp only [forLoop]
    exact hstep n _ (Nat.lt_succ_self n)
      (ih (fun k s hk hp => hstep k s (Nat.lt_succ_of_lt hk) hp))

theorem activeSetInv_step (x direct scale lb ub : Nat → K) (onbound : Nat → Bool) (k : Nat)
    (st st1 : ACTIVESET K) (hinv : activeSetInv x direct scale lb ub onbound k st)
    (b : Bool) (hb : b = true ↔ atBound x direct scale lb ub k)
    (hon : st1.onbound = Function.update st.onbound k b)
    (hdir : st1.direct = if b = true then Function.update st.direct k 0 else st.direct)
    (hrem : st1.nremoved = if b = true ∧ st.onbound k = false then st.nremoved + 1
      else st.nremoved) :
    activeSetInv x direct scale lb ub onbound (k + 1) st1 := by
  obtain ⟨h1, h2, h3⟩ := hinv
  have hok := (h2 k (le_refl k)).1
  have hdk := (h2 k (le_refl k)).2
  refine ⟨?_, ?_, ?_⟩
  · intro i hi
    by_cases hik : i = k
    · subst hik
      rw [hon, hdir]
      simp only [Function.update_same]
      refine ⟨hb, ?_⟩
      cases b with
      | true => simp
      | false => simp [hdk]
    · have hi2 : i < k := by omega
      rw [hon, hdir]
      simp only [Function.update_noteq hik]
      refine ⟨(h1 i hi2).1, ?_⟩
      cases b with
      | true => simp only [if_true, Function.update_noteq hik]; exact (h1 i hi2).2
      | false => simp only [Bool.false_eq_true, if_false]; exact (h1 i hi2).2
  · intro i hi
    have hik : i ≠ k := by omega
    rw [hon, hdir]
    simp only [Function.update_noteq hik]
    refine ⟨(h2 i (by omega)).1, ?_⟩
    cases b with
    | true => simp only [if_true, Function.update_noteq hik]; exact (h2 i (by omega)).2
    | false => simp only [Bool.false_eq_true, if_false]; exact (h2 i (by omega)).2
  · rw [hrem, Finset.range_succ, Finset.filter_insert, hon]
    simp only [Function.update_same]
    have hold : (Finset.range k).filter
          (fun i => onbound i = false ∧ Function.update st.onbound k b i = true)
        = (Finset.range k).filter (fun i => onbound i = false ∧ st.onbound i = true) := by
      apply Finset.filter_congr
      intro i hi
      have hik : i ≠ k := by
        have := Finset.mem_range.1 hi
        omega
      simp only [Function.update_noteq hik]
    rw [hold, hok]
    by_cases hc : onbound k = false ∧ b = true
    · have hc2 : b = true ∧ onbound k = false := ⟨hc.2, hc.1⟩
      rw [if_pos hc, if_pos hc2, Finset.card_insert_of_not_mem (by simp), h3]
    · have hc2 : ¬ (b = true ∧ onbound k = false) := fun h => hc ⟨h.2, h.1⟩
      rw [if_neg hc, if_neg hc2, h3]

/-- C28: when `UpdateActiveSet` returns, for every parameter `i < n` the flag
`onbound[i]` is set exactly when the test holds on the values at the call, `direct[i]`
is 0 where the flag is set and unchanged elsewhere (as is everything from index `n`
on), the return value is the number of parameters inactive before and active after,
and `*newbound` has grown by that number. -/
theorem UpdateActiveSet_flags (InvertMatrix : (Nat → K) → Nat → Nat → K)
    (x direct scale InvHess lb ub : Nat → K) (onbound : Nat → Bool) (n : Nat) (errn : Nat)
    (newbound : Nat) (r : ACTIVESET K)
    (h : UpdateActiveSet InvertMatrix x direct scale InvHess lb ub onbound n errn = .ok r) :
    (∀ i, i < n → (r.onbound i = true ↔ atBound x direct scale lb ub i)) ∧
    (∀ i, i < n → r.direct i = if r.onbound i = true then 0 else direct i) ∧
    (∀ i, n ≤ i → r.onbound i = onbound i ∧ r.direct i = direct i) ∧
    r.nremoved
      = ((Finset.range n).filter (fun i => onbound i = false ∧ r.onbound i = true)).card ∧
    newboundAfter newbound r = newbound
      + ((Finset.range n).filter (fun i => onbound i = false ∧ r.onbound i = true)).card := by
  unfold UpdateActiveSet at h
  by_cases hn : 0 < n
  swap
  · simp [hn] at h
  simp only [hn, not_true_eq_false, if_false, Except.ok.injEq] at h
  have key : activeSetInv x direct scale lb ub onbound n r := by
    rw [← h]
    apply forLoop_induction (activeSetInv x direct scale lb ub onbound)
    · refine ⟨fun i hi => absurd hi (Nat.not_lt_zero i), fun i _ => ⟨rfl, rfl⟩, ?_⟩
      simp
    · intro k st hk hinv
      have hdk := (hinv.2.1 k (le_refl k)).2
      by_cases hc : atBound x direct scale lb ub k
      · have hc2 : (x k * scale k - lb k < BOUND_TOL ∧ st.direct k ≤ 0)
            ∨ (ub k - x k * scale k < BOUND_TOL ∧ st.direct k ≥ 0) := by
          rw [hdk]; exact hc
        simp only [hc2, if_true]
        apply activeSetInv_step x direct scale lb ub onbound k st _ hinv true
          (by simp [hc])
        · by_cases ho : st.onbound k = false <;> simp [ho]
        · by_cases ho : st.onbound k = false <;> simp [ho]
        · by_cases ho : st.onbound k = false <;> simp [ho]
      · have hc2 : ¬ ((x k * scale k - lb k < BOUND_TOL ∧ st.direct k ≤ 0)
            ∨ (ub k - x k * scale k < BOUND_TOL ∧ st.direct k ≥ 0)) := by
          rw [hdk]; exact hc
        simp only [hc2, if_false]
        exact activeSetInv_step x direct scale lb ub onbound k st _ hinv false
          (by simp [hc]) rfl (by simp) (by simp)
  obtain ⟨k1, k2, k3⟩ := key
  refine ⟨fun i hi => (k1 i hi).1, fun i hi => (k1 i hi).2, k2, k3, ?_⟩
  unfold newboundAfter
  rw [k3]

theorem forLoop_filter_sub (n : Nat) (P : Nat → Bool) (g : Nat → K) :
    forLoop n (fun i acc => if P i = false then acc - g i else acc) 0
      = -(∑ i in (Finset.range n).filter (fun i => P i = false), g i) := by
  induction n with
  | zero => simp [forLoop]
  | succ k ih =>
    simp only [forLoop, ih, Finset.range_succ]
    by_cases hk : P k = false
    · rw [if_pos hk, Finset.filter_insert, if_pos hk, Finset.sum_insert]
      · ring
      · simp
    · rw [if_neg hk, Finset.filter_insert, if_neg hk]

theorem forLoop_update_sum (d direct : Nat → K) (n : Nat) :
    forLoop n (fun i (st : (Nat → K) × K) => (Function.update st.1 i (d i), st.2 + d i * d i))
        (direct, 0)
      = (fun i => if i < n then d i else direct i, ∑ i in Finset.range n, d i * d i) := by
  induction n with
  | zero => simp [forLoop]
  | succ k ih =>
    simp only [forLoop, ih, Finset.sum_range_succ]
    congr 1
    funext i
    by_cases hik : i = k
    · subst hik
      simp
    · rw [Function.update_noteq hik]
      by_cases hlt : i < k
      · have : i < k + 1 := by omega
        simp [hlt, this]
      · have : ¬ i < k + 1 := by omega
        simp [hlt, this]

theorem GetNewtonStep_eq (sqrt : K → K) (direct InvHess grad : Nat → K) (n : Nat)
    (onbound : Nat → Bool) (hn : 0 < n) :
    GetNewtonStep sqrt direct InvHess grad n onbound
      = .ok (fun i => if i < n then newtonComponent InvHess grad n onbound i else direct i,
          sqrt (∑ i in Finset.range n, newtonComponent InvHess grad n onbound i
            * newtonComponent InvHess grad n onbound i)) := by
  unfold GetNewtonStep
  simp only [hn, not_true_eq_false, if_false, forLoop_filter_sub]
  have h := forLoop_update_sum (newtonComponent InvHess grad n onbound) direct n
  simp only [newtonComponent] at h ⊢
  rw [h]

theorem GetNewtonStep_ok (sqrt : K → K) (direct InvHess grad : Nat → K) (n : Nat)
    (onbound : Nat → Bool) (r : (Nat → K) × K)
    (h : GetNewtonStep sqrt direct InvHess grad n onbound = .ok r) : 0 < n := by
  by_contra hn
  unfold GetNewtonStep at h
  simp [hn] at h

/-- C29: when `GetNewtonStep` returns, `direct[i]` is 0 for the active parameters and
minus the sum over the inactive `j` of `InvHess[i * n + j] * grad[j]` for the inactive
ones, the returned value is `sqrt` of the sum of the squares of `direct`, the result is
the same for any gradient that agrees on the inactive parameters, and for an identity
`InvHess` (as `InitializeH` leaves it) the direction is minus the gradient on the
inactive parameters. -/
theorem GetNewtonStep_direction (sqrt : K → K) (direct InvHess grad : Nat → K) (n : Nat)
    (onbound : Nat → Bool) (r : (Nat → K) × K)
    (h : GetNewtonStep sqrt direct InvHess grad n onbound = .ok r) :
    (∀ i, i < n → onbound i = true → r.1 i = 0) ∧
    (∀ i, i < n → onbound i = false →
      r.1 i = -(∑ j in (Finset.range n).filter (fun j => onbound j = false),
        InvHess (i * n + j) * grad j)) ∧
    (∀ i, n ≤ i → r.1 i = direct i) ∧
    r.2 = sqrt (∑ i in Finset.range n, r.1 i * r.1 i) ∧
    (∀ grad2 : Nat → K, (∀ j, j < n → onbound j = false → grad2 j = grad j) →
      GetNewtonStep sqrt direct InvHess grad2 n onbound = .ok r) ∧
    ((∀ i j, i < n → j < n → InvHess (i * n + j) = if i = j then 1 else 0) →
      ∀ i, i < n → onbound i = false → r.1 i = -grad i) ∧
    (∀ (opt : OPTOBJ K) (i j : Nat), i < opt.n → j < opt.n →
      (InitializeH opt).H (i * opt.n + j) = if i = j then 1 else 0) := by
  have hn := GetNewtonStep_ok sqrt direct InvHess grad n onbound r h
  rw [GetNewtonStep_eq sqrt direct InvHess grad n onbound hn] at h
  simp only [Except.ok.injEq] at h
  subst h
  have hcomp : ∀ i, i < n → onbound i = false →
      newtonComponent InvHess grad n onbound i
        = -(∑ j in (Finset.range n).filter (fun j => onbound j = false),
          InvHess (i * n + j) * grad j) := by
    intro i _ ho
    simp [newtonComponent, ho]
  refine ⟨?_, ?_, ?_, ?_, ?_, ?_, ?_⟩
  · intro i hi ho
    simp [hi, newtonComponent, ho]
  · intro i hi ho
    simp only [hi, if_true]
    exact hcomp i hi ho
  · intro i hi
    have : ¬ i < n := by omega
    simp [this]
  · simp only
    congr 1
    apply Finset.sum_congr rfl
    intro i hi
    simp [Finset.mem_range.1 hi]
  · intro grad2 hg
    rw [GetNewtonStep_eq sqrt direct InvHess grad2 n onbound hn]
    have e : ∀ i, newtonComponent InvHess grad2 n onbound i
        = newtonComponent InvHess grad n onbound i := by
      intro i
      unfold newtonComponent
      by_cases ho : onbound i = true
      · simp [ho]
      · rw [if_neg ho, if_neg ho, neg_inj]
        apply Finset.sum_congr rfl
        intro j hj
        rw [Finset.mem_filter, Finset.mem_range] at hj
        rw [hg j hj.1 hj.2]
    simp only [e]
  · intro hid i hi ho
    simp only [hi, if_true]
    rw [hcomp i hi ho]
    congr 1
    rw [Finset.sum_eq_single i]
    · rw [hid i i hi hi]; simp
    · intro j hj hji
      rw [Finset.mem_filter, Finset.mem_range] at hj
      rw [hid i j hi hj.1, if_neg (Ne.symm hji)]; simp
    · intro hni
      exact absurd (by rw [Finset.mem_filter, Finset.mem_range]; exact ⟨hi, ho⟩) hni
  · intro opt i j hi hj
    unfold InitializeH MakeMatrixIdentity
    have hk : i * opt.n + j < opt.n * opt.n := by
      calc i * opt.n + j < i * opt.n + opt.n := by omega
        _ = (i + 1) * opt.n := by ring
        _ ≤ opt.n * opt.n := Nat.mul_le_mul_right _ hi
    have hpos : 0 < opt.n := by omega
    have h1 : (i * opt.n + j) / opt.n = i := by
      rw [Nat.add_comm, Nat.add_mul_div_right _ _ hpos, Nat.div_eq_of_lt hj, Nat.zero_add]
    have h2 : (i * opt.n + j) % opt.n = j := by
      rw [Nat.add_comm, Nat.add_mul_mod_self_right, Nat.mod_eq_of_lt hj]
    simp only [hk, if_true, h1, h2]

theorem or_and_flag (errn F : Nat) : (errn ||| F) &&& F = F := by
  apply Nat.eq_of_testBit_eq
  intro i
  rw [Nat.testBit_and, Nat.testBit_or]
  cases errn.testBit i <;> cases F.testBit i <;> rfl

theorem MakeMatrixIdentity_entry (H : Nat → K) (n i j : Nat) (hi : i < n) (hj : j < n) :
    MakeMatrixIdentity H n (i * n + j) = if i = j then 1 else 0 := by
  unfold MakeMatrixIdentity
  have hk : i * n + j < n * n := by
    calc i * n + j < i * n + n := by omega
      _ = (i + 1) * n := by ring
      _ ≤ n * n := Nat.mul_le_mul_right _ hi
  have hpos : 0 < n := by omega
  have h1 : (i * n + j) / n = i := by
    rw [Nat.add_comm, Nat.add_mul_div_right _ _ hpos, Nat.div_eq_of_lt hj, Nat.zero_add]
  have h2 : (i * n + j) % n = j := by
    rw [Nat.add_comm, Nat.add_mul_mod_self_right, Nat.mod_eq_of_lt hj]
  simp only [hk, if_true, h1, h2]

/-- C30: if the curvature `gd` over the inactive parameters is at most `1e-5`,
`UpdateH_BFGS` returns with `H` the identity, the bit `HESSIAN_NONPD` set in `errn`, and
`xn`, `dxn`, `scale` as they were; if it is above `1e-5` the call returns (for `n > 0`)
with `errn` as it was. -/
theorem UpdateH_BFGS_curvature_test (sqrt : K → K) (H x xn dx dxn scale : Nat → K) (n : Nat)
    (onbound : Nat → Bool) (errn : Nat) :
    (curvature x xn dx dxn n onbound ≤ 1 / 10 ^ 5 →
      UpdateH_BFGS sqrt H x xn dx dxn scale n onbound errn
        = .ok ({ x := xn, dx := dxn, H := MakeMatrixIdentity H n, scale := scale },
            errn ||| HESSIAN_NONPD) ∧
      (errn ||| HESSIAN_NONPD) &&& HESSIAN_NONPD = HESSIAN_NONPD ∧
      ∀ i j, i < n → j < n → MakeMatrixIdentity H n (i * n + j) = if i = j then 1 else 0) ∧
    (curvature x xn dx dxn n onbound > 1 / 10 ^ 5 →
      (0 < n → isOk (UpdateH_BFGS sqrt H x xn dx dxn scale n onbound errn) = true) ∧
      ∀ (r : RESCALED K) (e : Nat),
        UpdateH_BFGS sqrt H x xn dx dxn scale n onbound errn = .ok (r, e) → e = errn) := by
  have hgd : forLoop n (fun i gd =>
        if onbound i = false then gd + (dxn i - dx i) * (xn i - x i) else gd) 0
      = curvature x xn dx dxn n onbound :=
    forLoop_filter_sum n onbound (fun i => (dxn i - dx i) * (xn i - x i))
  constructor
  · intro hc
    refine ⟨?_, or_and_flag errn HESSIAN_NONPD,
      fun i j hi hj => MakeMatrixIdentity_entry H n i j hi hj⟩
    unfold UpdateH_BFGS
    simp only [hgd, hc, if_true]
  · intro hc
    have hc2 : ¬ curvature x xn dx dxn n onbound ≤ 1 / 10 ^ 5 := not_le.2 hc
    constructor
    · intro hn
      unfold UpdateH_BFGS
      simp only [hgd, hc2, if_false]
      unfold Rescale
      simp only [hn, not_true_eq_false, if_false]
      rfl
    · intro r e h
      unfold UpdateH_BFGS at h
      simp only [hgd, hc2, if_false] at h
      split at h
      · cases h
      · simp only [Except.ok.injEq, Prod.mk.injEq] at h
        exact h.2.symm

end active_set_and_direction

section active_set_runs

set_option maxRecDepth 100000 in
/-- Witness for C28: two parameters in `[0, 1]`, the first on its lower bound with a
downward direction, the second at `1/2`: the first becomes active. -/
theorem UpdateActiveSet_flags_witness :
    isOk (UpdateActiveSet quadEnv.InvertMatrix edgeX edgeDirect unitScale twoIdentity zeroLb
      oneUb noneActive 2 0) = true ∧
    (okValue noActiveSet.1 (UpdateActiveSet quadEnv.InvertMatrix edgeX edgeDirect unitScale
      twoIdentity zeroLb oneUb noneActive 2 0)).onbound 0 = true ∧
    (okValue noActiveSet.1 (UpdateActiveSet quadEnv.InvertMatrix edgeX edgeDirect unitScale
      twoIdentity zeroLb oneUb noneActive 2 0)).onbound 1 = false ∧
    (okValue noActiveSet.1 (UpdateActiveSet quadEnv.InvertMatrix edgeX edgeDirect unitScale
      twoIdentity zeroLb oneUb noneActive 2 0)).nremoved = 1 ∧
    newboundAfter 3 (okValue noActiveSet.1 (UpdateActiveSet quadEnv.InvertMatrix edgeX
        edgeDirect unitScale twoIdentity zeroLb oneUb noneActive 2 0))
      = 3 + ((Finset.range 2).filter (fun i => noneActive i = false ∧
          (okValue noActiveSet.1 (UpdateActiveSet quadEnv.InvertMatrix edgeX edgeDirect
            unitScale twoIdentity zeroLb oneUb noneActive 2 0)).onbound i = true)).card :=
  have hok : isOk (UpdateActiveSet quadEnv.InvertMatrix edgeX edgeDirect unitScale twoIdentity
      zeroLb oneUb noneActive 2 0) = true := by decide!
  ⟨hok, by decide!, by decide!, by decide!,
   (UpdateActiveSet_flags quadEnv.InvertMatrix edgeX edgeDirect unitScale twoIdentity zeroLb
      oneUb noneActive 2 0 3 _ (eq_ok_okValue noActiveSet.1 _ hok)).2.2.2.2⟩

set_option maxRecDepth 100000 in
/-- Witness for C29: two parameters with the identity as inverse Hessian, gradient
`(2, 5)` and the second parameter active: the direction is `(-2, 0)` with norm 2. -/
theorem GetNewtonStep_direction_witness :
    isOk (GetNewtonStep sqrtStandIn edgeDirect twoIdentity twoGrad 2 secondActive) = true ∧
    (okValue noStep (GetNewtonStep sqrtStandIn edgeDirect twoIdentity twoGrad 2
      secondActive)).1 0 = -2 ∧
    (okValue noStep (GetNewtonStep sqrtStandIn edgeDirect twoIdentity twoGrad 2
      secondActive)).2 = 2 ∧
    (∀ i, i < 2 → secondActive i = true →
      (okValue noStep (GetNewtonStep sqrtStandIn edgeDirect twoIdentity twoGrad 2
        secondActive)).1 i = 0) :=
  have hok : isOk (GetNewtonStep sqrtStandIn edgeDirect twoIdentity twoGrad 2 secondActive)
      = true := by decide!
  ⟨hok, by decide!, by decide!,
   (GetNewtonStep_direction sqrtStandIn edgeDirect twoIdentity twoGrad 2 secondActive _
      (eq_ok_okValue noStep _ hok)).1⟩

set_option maxRecDepth 100000 in
/-- Witness for C30: one parameter; with `xn = x` the curvature is 0 and the update is
rejected; with `x = 0`, `xn = 1/2`, `dx = -1`, `dxn = 1` it is 1 and `errn` is kept. -/
theorem UpdateH_BFGS_curvature_test_witness :
    curvature tinyX tinyX edgeDirect edgeDirect 1 noneActive ≤ 1 / 10 ^ 5 ∧
    UpdateH_BFGS sqrtStandIn fourH tinyX tinyX edgeDirect edgeDirect unitScale 1 noneActive 0
      = .ok ({ x := tinyX, dx := edgeDirect, H := MakeMatrixIdentity fourH 1,
               scale := unitScale }, 0 ||| HESSIAN_NONPD) ∧
    curvature edgeX tinyX edgeDirect unitScale 1 noneActive > 1 / 10 ^ 5 ∧
    isOk (UpdateH_BFGS sqrtStandIn fourH edgeX tinyX edgeDirect unitScale unitScale 1
      noneActive 2) = true ∧
    (okValue noUpdate (UpdateH_BFGS sqrtStandIn fourH edgeX tinyX edgeDirect unitScale
      unitScale 1 noneActive 2)).2 = 2 :=
  have h1 : curvature tinyX tinyX edgeDirect edgeDirect 1 noneActive ≤ 1 / 10 ^ 5 := by
    decide!
  have h2 : curvature edgeX tinyX edgeDirect unitScale 1 noneActive > 1 / 10 ^ 5 := by
    decide!
  have hok := ((UpdateH_BFGS_curvature_test sqrtStandIn fourH edgeX tinyX edgeDirect unitScale
    unitScale 1 noneActive 2).2 h2).1 (by decide)
  ⟨h1,
   ((UpdateH_BFGS_curvature_test sqrtStandIn fourH tinyX tinyX edgeDirect edgeDirect unitScale 1
      noneActive 0).1 h1).1,
   h2, hok,
   ((UpdateH_BFGS_curvature_test sqrtStandIn fourH edgeX tinyX edgeDirect unitScale
      unitScale 1 noneActive 2).2 h2).2 _ _ (eq_ok_okValue noUpdate _ hok)⟩

end active_set_runs

section root_and_leaves

variable {K : Type} [LinearOrderedField K]

theorem clampEntry_eq_max (v : K) : clampEntry v = max v 0 := by
  unfold clampEntry
  by_cases h : v < 0
  · rw [if_pos h, max_eq_right (le_of_lt h)]
  · rw [if_neg h, max_eq_left (not_lt.1 h)]

/-- C21: `LikeVectorSub` replaces every negative entry of the root vector by 0 (the
stored entry becomes `max(plik[a][b], 0)`), and when every `pi[b]` is non-negative each
returned `p[a]` is the sum over `b` of `max(plik[a][b], 0) * pi[b]` and is
non-negative.  The function has no failing outcome. -/
theorem LikeVectorSub_clamps_root (scaleFlag : Nat) (log : K → K) (m : MODEL K)
    (tree : KIDS K) (hpi : ∀ b, b < m.nbase → 0 ≤ m.pi b) (a : Nat) :
    (∀ b, (LikeVectorSub scaleFlag log m tree).2.plik a b
      = max ((CalcLike_root scaleFlag log m tree).plik a b) 0) ∧
    (LikeVectorSub scaleFlag log m tree).1 a
      = ∑ b in Finset.range m.nbase,
          max ((CalcLike_root scaleFlag log m tree).plik a b) 0 * m.pi b ∧
    0 ≤ (LikeVectorSub scaleFlag log m tree).1 a := by
  have hp : (LikeVectorSub scaleFlag log m tree).1 a
      = ∑ b in Finset.range m.nbase,
          max ((CalcLike_root scaleFlag log m tree).plik a b) 0 * m.pi b := by
    simp only [LikeVectorSub, forLoop_add_eq_sum, zero_add, clampEntry_eq_max]
  refine ⟨fun b => ?_, hp, ?_⟩
  · simp only [LikeVectorSub, clampEntry_eq_max]
  · rw [hp]
    apply Finset.sum_nonneg
    intro b hb
    exact mul_nonneg (le_max_right _ _) (hpi b (Finset.mem_range.1 hb))

set_option maxRecDepth 100000 in
/-- Witness for C21: a leaf whose matrix has the entry -1 gives the root entry -1,
which is stored as 0; `p[0]` is `0 * 1/2 + 1/2 * 1/2`. -/
theorem LikeVectorSub_clamps_root_witness :
    (∀ b, b < (starModel : MODEL ℚ).nbase → 0 ≤ (starModel : MODEL ℚ).pi b) ∧
    (CalcLike_root SCALE (fun _ => 0) (starModel : MODEL ℚ) signedTree).plik 0 0 = -1 ∧
    (LikeVectorSub SCALE (fun _ => 0) (starModel : MODEL ℚ) signedTree).2.plik 0 0 = 0 ∧
    (LikeVectorSub SCALE (fun _ => 0) (starModel : MODEL ℚ) signedTree).1 0 = 1 / 4 ∧
    0 ≤ (LikeVectorSub SCALE (fun _ => 0) (starModel : MODEL ℚ) signedTree).1 0 :=
  have hpi : ∀ b, b < (starModel : MODEL ℚ).nbase → 0 ≤ (starModel : MODEL ℚ).pi b := by
    intro b _
    show (0 : ℚ) ≤ 1 / 2
    norm_num
  ⟨hpi, by decide!, by decide!, by decide!,
   (LikeVectorSub_clamps_root SCALE (fun _ => 0) starModel signedTree hpi 0).2.2⟩

set_option maxRecDepth 100000 in
/-- C25 fails on the code: in the branch for leaves that carry a state distribution
the pointer into the matrix is never advanced, so `mid[a][b]` is the sum over `c` of
`plik[a][c] * mat[c]` (row 0 of the matrix) for every `b`.  For two states, the matrix
with entries 1, 2, 3, 4 and the one-hot vector at state 1, `mid[0][1]` is `mat[1] = 2`,
while the sum over `c` of `mat[1 * nbase + c] * plik[0][c]` and the
exact-observation branch both give `mat[3] = 4`; the parent's vector is multiplied by
the same 2. -/
theorem CalcLike_Sub_leaf_distribution_row :
    (∀ (m : MODEL ℚ) (mat : Nat → ℚ) (seq : Nat → Nat) (lplik : Nat → Nat → ℚ)
      (parent : BUF ℚ) (a b : Nat),
      (CalcLike_Sub SCALE (fun _ => 0) { m with exact_obs := 0 } (.leaf mat seq lplik)
          parent).mid a b
        = ∑ c in Finset.range m.nbase, lplik a c * mat c) ∧
    (CalcLike_Sub SCALE (fun _ => 0) (softModel : MODEL ℚ) (.leaf countP (fun _ => 1) hotOne)
      BUF.ones).mid 0 1 = 2 ∧
    (∑ c in Finset.range (softModel : MODEL ℚ).nbase,
      countP (1 * (softModel : MODEL ℚ).nbase + c) * hotOne 0 c) = (4 : ℚ) ∧
    (CalcLike_Sub SCALE (fun _ => 0) (starModel : MODEL ℚ) (.leaf countP (fun _ => 1) hotOne)
      BUF.ones).mid 0 1 = (4 : ℚ) ∧
    (CalcLike_Sub SCALE (fun _ => 0) (softModel : MODEL ℚ) (.leaf countP (fun _ => 1) hotOne)
      BUF.ones).parent.plik 0 1 = 2 := by
  refine ⟨?_, by decide!, by decide!, by decide!, by decide!⟩
  intro m mat seq lplik parent a b
  simp [CalcLike_Sub, forLoop_add_eq_sum]

end root_and_leaves

section site_loop

variable {K : Type} [LinearOrderedField K]

theorem bestInv_loop (g : Nat → K) (n : Nat) :
    bestInv g n (forLoop n (fun a (st : K × Nat) => if g a < st.1 then (g a, a) else st)
      (DBL_MAX, 0)) := by
  apply forLoop_induction (bestInv g)
  · exact ⟨fun a ha => absurd ha (Nat.not_lt_zero a),
      Or.inl ⟨rfl, fun a ha => absurd ha (Nat.not_lt_zero a)⟩⟩
  · intro k st _ ⟨h1, h2⟩
    have hle : st.1 ≤ DBL_MAX := by
      rcases h2 with ⟨h, _⟩ | ⟨_, _, h, _⟩
      · rw [h]
      · exact le_of_lt h
    by_cases hc : g k < st.1
    · rw [if_pos hc]
      refine ⟨?_, Or.inr ⟨Nat.lt_succ_self k, rfl, lt_of_lt_of_le hc hle, ?_⟩⟩
      · intro a ha
        by_cases hak : a = k
        · rw [hak]
        · exact le_of_lt (lt_of_lt_of_le hc (h1 a (by omega)))
      · intro a ha
        exact lt_of_lt_of_le hc (h1 a ha)
    · rw [if_neg hc]
      have hk : st.1 ≤ g k := not_lt.1 hc
      refine ⟨?_, ?_⟩
      · intro a ha
        by_cases hak : a = k
        · rw [hak]; exact hk
        · exact h1 a (by omega)
      · rcases h2 with ⟨h, h3⟩ | ⟨h3, h4, h5, h6⟩
        · left
          refine ⟨h, ?_⟩
          intro a ha
          by_cases hak : a = k
          · rw [hak]
            have : st.1 = DBL_MAX := by rw [h]
            rw [← this]; exact hk
          · exact h3 a (by omega)
        · right
          exact ⟨by omega, h4, h5, h6⟩

theorem FindBestX_eq (grid : Nat → K) (site n : Nat) :
    FindBestX grid (site : Int) (n : Int)
      = .ok (forLoop n (fun a (st : K × Nat) =>
          if grid (site * n + a) < st.1 then (grid (site * n + a), a) else st)
          (DBL_MAX, 0)).2 := by
  unfold FindBestX
  simp

/-- C23: `FindBestX(grid, site, n)` returns; when the row has an entry below
`DBL_MAX` the returned index `k` is below `n`, its entry is at most every entry of the
row and strictly below every entry before it (the first minimum); when `n = 0` or no
entry is below `DBL_MAX` it returns 0. -/
theorem FindBestX_first_minimum (grid : Nat → K) (site n : Nat) :
    ∃ k, FindBestX grid (site : Int) (n : Int) = .ok k ∧
      ((∃ a, a < n ∧ grid (site * n + a) < DBL_MAX) →
        k < n ∧ (∀ a, a < n → grid (site * n + k) ≤ grid (site * n + a)) ∧
        (∀ a, a < k → grid (site * n + k) < grid (site * n + a))) ∧
      ((n = 0 ∨ ∀ a, a < n → ¬ grid (site * n + a) < DBL_MAX) → k = 0) := by
  have hinv := bestInv_loop (fun a => grid (site * n + a)) n
  refine ⟨_, FindBestX_eq grid site n, ?_, ?_⟩
  · rintro ⟨a, ha, hlt⟩
    obtain ⟨h1, h2⟩ := hinv
    rcases h2 with ⟨_, h3⟩ | ⟨h3, h4, _, h6⟩
    · exact absurd hlt (not_lt.2 (h3 a ha))
    · refine ⟨h3, ?_, ?_⟩
      · intro b hb
        have := h1 b hb
        rw [h4] at this
        exact this
      · intro b hb
        have := h6 b hb
        rw [h4] at this
        exact this
  · intro h
    obtain ⟨_, h2⟩ := hinv
    rcases h2 with ⟨h3, _⟩ | ⟨h3, h4, h5, _⟩
    · rw [h3]
    · rcases h with h | h
      · rw [h] at h3
        exact absurd h3 (Nat.not_lt_zero _)
      · rw [h4] at h5
        exact absurd h5 (h _ h3)

theorem create_grid_entry (expm1 : K → K) (positive : Bool) (grid : Nat → K)
    (hmono : StrictMono expm1) (h0 : expm1 0 = 0)
    (hg : create_grid expm1 GRIDSIZE positive = .ok grid) :
    grid 0 = (if positive = true then 1 else 0) ∧ grid (GRIDSIZE - 1) = 50 ∧
    (∀ i j, i < j → j < GRIDSIZE → grid i < grid j) := by
  unfold create_grid at hg
  have hlen : GRIDSIZE > 1 := by decide
  simp only [hlen, not_true_eq_false, if_false, Except.ok.injEq] at hg
  have hpos : 0 < expm1 (OMEGAEXPCONST * ((GRIDSIZE - 1 : Nat) : K)) := by
    rw [← h0]
    apply hmono
    unfold OMEGAEXPCONST GRIDSIZE
    norm_num
  have hc : 0 < (if ¬ positive = true
      then OMEGAMAX / expm1 (OMEGAEXPCONST * ((GRIDSIZE - 1 : Nat) : K))
      else (OMEGAMAX - 1) / expm1 (OMEGAEXPCONST * ((GRIDSIZE - 1 : Nat) : K))) := by
    split_ifs
    · exact div_pos (by unfold OMEGAMAX; norm_num) hpos
    · exact div_pos (by unfold OMEGAMAX; norm_num) hpos
  rw [← hg]
  refine ⟨?_, ?_, ?_⟩
  · have h00 : (0 : Nat) < GRIDSIZE := by decide
    simp only [h00, if_true, Nat.cast_zero, mul_zero, h0, zero_add]
  · have hl : GRIDSIZE - 1 < GRIDSIZE := by decide
    simp only [hl, if_true]
    cases positive with
    | true =>
      simp only [not_true_eq_false, if_false, if_true]
      rw [div_mul_cancel₀ _ (ne_of_gt hpos)]
      unfold OMEGAMAX
      norm_num
    | false =>
      simp only [Bool.false_eq_true, not_false_eq_true, if_true, if_false]
      rw [div_mul_cancel₀ _ (ne_of_gt hpos)]
      unfold OMEGAMAX
      norm_num
  · intro i j hij hj
    have hi : i < GRIDSIZE := by omega
    simp only [hi, hj, if_true]
    have hlt : expm1 (OMEGAEXPCONST * (i : K)) < expm1 (OMEGAEXPCONST * (j : K)) := by
      apply hmono
      unfold OMEGAEXPCONST
      have : (i : K) < (j : K) := by exact_mod_cast hij
      linarith
    have := mul_lt_mul_of_pos_left hlt hc
    linarith

/-- For every length above 1 `create_grid` returns, and its grid rises strictly from the
domain extreme (0, or 1 for positive-only selection) at index 0 to 50 at index `len - 1`,
when `expm1` is strictly increasing and 0 at 0. -/
theorem create_grid_increasing (expm1 : K → K) (len : Nat) (positive : Bool)
    (hmono : StrictMono expm1) (h0 : expm1 0 = 0) (hlen : 1 < len) :
    ∃ grid, create_grid expm1 len positive = .ok grid ∧
      grid 0 = (if positive = true then 1 else 0) ∧ grid (len - 1) = 50 ∧
      (∀ i j, i < j → j < len → grid i < grid j) := by
  have hl1 : (0 : K) < ((len - 1 : Nat) : K) := by
    have : 0 < len - 1 := by omega
    exact_mod_cast this
  have hpos : 0 < expm1 (OMEGAEXPCONST * ((len - 1 : Nat) : K)) := by
    rw [← h0]
    apply hmono
    unfold OMEGAEXPCONST
    linarith
  have hc : 0 < (if ¬ positive = true
      then OMEGAMAX / expm1 (OMEGAEXPCONST * ((len - 1 : Nat) : K))
      else (OMEGAMAX - 1) / expm1 (OMEGAEXPCONST * ((len - 1 : Nat) : K))) := by
    split_ifs
    · exact div_pos (by unfold OMEGAMAX; norm_num) hpos
    · exact div_pos (by unfold OMEGAMAX; norm_num) hpos
  have hgt : len > 1 := hlen
  unfold create_grid
  simp only [hgt, not_true_eq_false, if_false]
  refine ⟨_, rfl, ?_, ?_, ?_⟩
  · have h00 : (0 : Nat) < len := by omega
    simp only [h00, if_true, Nat.cast_zero, mul_zero, h0, zero_add]
  · have hl : len - 1 < len := by omega
    simp only [hl, if_true]
    cases positive with
    | true =>
      simp only [not_true_eq_false, if_false, if_true]
      rw [div_mul_cancel₀ _ (ne_of_gt hpos)]
      unfold OMEGAMAX
      norm_num
    | false =>
      simp only [Bool.false_eq_true, not_false_eq_true, if_true, if_false]
      rw [div_mul_cancel₀ _ (ne_of_gt hpos)]
      unfold OMEGAMAX
      norm_num
  · intro i j hij hj
    have hi : i < len := by omega
    simp only [hi, hj, if_true]
    have hlt : expm1 (OMEGAEXPCONST * (i : K)) < expm1 (OMEGAEXPCONST * (j : K)) := by
      apply hmono
      unfold OMEGAEXPCONST
      have : (i : K) < (j : K) := by exact_mod_cast hij
      linarith
    have := mul_lt_mul_of_pos_left hlt hc
    linarith

/-- C24: for the grid of `create_grid` (with `expm1` strictly increasing and 0 at 0, as
the function of `<math.h>` is) and `start = FindBestX(...)`, the seeded bracket has
lower end `grid[start - 1]` (the domain extreme 0, or 1 if positive-only, when
`start = 0`), interior point `grid[start]` and upper end `grid[start + 1]` (99 when
`start = GRIDSIZE - 1`), with `lower <= interior <= upper`; when `start` is an
interior grid index the table value at `start` is at most those at both neighbours.
The grid itself is strictly increasing, from the domain extreme at index 0 to 50 at
index `GRIDSIZE - 1`, and `create_grid` returns such a grid for every length above 1. -/
theorem seedBracket_is_bracket (expm1 : K → K) (positive : Bool) (grid lgrid : Nat → K)
    (idx start : Nat) (hmono : StrictMono expm1) (h0 : expm1 0 = 0)
    (hg : create_grid expm1 GRIDSIZE positive = .ok grid)
    (hs : FindBestX lgrid (idx : Int) (GRIDSIZE : Int) = .ok start) :
    start < GRIDSIZE ∧
    (seedBracket grid positive start).lower
      = (if start = 0 then (if positive = true then 1 else 0) else grid (start - 1)) ∧
    (seedBracket grid positive start).interior = grid start ∧
    (seedBracket grid positive start).upper
      = (if start = GRIDSIZE - 1 then 99 else grid (start + 1)) ∧
    (seedBracket grid positive start).lower ≤ (seedBracket grid positive start).interior ∧
    (seedBracket grid positive start).interior ≤ (seedBracket grid positive start).upper ∧
    (0 < start → start < GRIDSIZE - 1 →
      lgrid (idx * GRIDSIZE + start) ≤ lgrid (idx * GRIDSIZE + (start - 1)) ∧
      lgrid (idx * GRIDSIZE + start) ≤ lgrid (idx * GRIDSIZE + (start + 1))) ∧
    grid 0 = (if positive = true then 1 else 0) ∧ grid (GRIDSIZE - 1) = 50 ∧
    (∀ i j, i < j → j < GRIDSIZE → grid i < grid j) ∧
    (∀ len, 1 < len → ∃ g, create_grid expm1 len positive = .ok g ∧
      g 0 = (if positive = true then 1 else 0) ∧ g (len - 1) = 50 ∧
      (∀ i j, i < j → j < len → g i < g j)) := by
  obtain ⟨g0, gl, gm⟩ := create_grid_entry expm1 positive grid hmono h0 hg
  have hinv := bestInv_loop (fun a => lgrid (idx * GRIDSIZE + a)) GRIDSIZE
  rw [FindBestX_eq lgrid idx GRIDSIZE] at hs
  simp only [Except.ok.injEq] at hs
  generalize forLoop GRIDSIZE (fun a (st : K × Nat) =>
    if lgrid (idx * GRIDSIZE + a) < st.1 then (lgrid (idx * GRIDSIZE + a), a) else st)
    (DBL_MAX, 0) = st at hinv hs
  subst hs
  obtain ⟨h1, h2⟩ := hinv
  have hstart : st.2 < GRIDSIZE := by
    rcases h2 with ⟨h, _⟩ | ⟨h, _⟩
    · rw [h]
      show 0 < GRIDSIZE
      decide
    · exact h
  have hmin : 0 < st.2 → ∀ a, a < GRIDSIZE →
      lgrid (idx * GRIDSIZE + st.2) ≤ lgrid (idx * GRIDSIZE + a) := by
    intro hpos a ha
    rcases h2 with ⟨h, _⟩ | ⟨_, h4, _, _⟩
    · rw [h] at hpos
      exact absurd hpos (Nat.lt_irrefl 0)
    · have := h1 a ha
      rw [h4] at this
      exact this
  refine ⟨hstart, ?_, rfl, ?_, ?_, ?_, ?_, g0, gl, gm,
    fun len hlen => create_grid_increasing expm1 len positive hmono h0 hlen⟩
  · unfold seedBracket
    by_cases h : st.2 = 0
    · simp [h]
    · have : st.2 > 0 := by omega
      simp [h, this]
  · unfold seedBracket
    by_cases h : st.2 = GRIDSIZE - 1
    · simp [h]
    · have : st.2 < GRIDSIZE - 1 := by omega
      simp [h, this]
  · unfold seedBracket
    by_cases h : st.2 > 0
    · simp only [h, if_true]
      exact le_of_lt (gm (st.2 - 1) st.2 (by omega) hstart)
    · have e : st.2 = 0 := by omega
      simp only [h, if_false, e, g0]
      exact le_refl _
  · unfold seedBracket
    by_cases h : st.2 < GRIDSIZE - 1
    · simp only [h, if_true]
      exact le_of_lt (gm st.2 (st.2 + 1) (by omega) (by omega))
    · have e : st.2 = GRIDSIZE - 1 := by omega
      simp only [h, if_false, e, gl]
      norm_num
  · intro hpos hlt
    exact ⟨hmin hpos (st.2 - 1) (by omega), hmin hpos (st.2 + 1) (by omega)⟩

theorem forLoopE_induction {ε σ : Type} (P : Nat → σ → Prop) (n : Nat)
    (body : Nat → σ → Except ε σ) (init r : σ) (h : forLoopE n body init = .ok r)
    (h0 : P 0 init)
    (hstep : ∀ k s t, k < n → P k s → body k s = .ok t → P (k + 1) t) : P n r := by
  induction n generalizing r with
  | zero =>
    simp only [forLoopE, Except.ok.injEq] at h
    rw [← h]; exact h0
  | succ n ih =>
    simp only [forLoopE] at h
    cases hp : forLoopE n body init with
    | error e => rw [hp] at h; cases h
    | ok t =>
      rw [hp] at h
      exact hstep n t r (Nat.lt_succ_self n)
        (ih t hp (fun k s u hk hs hb => hstep k s u (Nat.lt_succ_of_lt hk) hs hb)) h

theorem siteValues_cases {W : Type} (env : SELENV K W) (index : Nat → Int) (positive : Bool)
    (ldiff : K) (omega_grid likelihood_grid likelihood_neutral : Nat → K) (site : Nat)
    (st st1 : SELSTATE K W) (v : SITEVALS K)
    (h : siteValues env index positive ldiff omega_grid likelihood_grid likelihood_neutral
      site st = .ok (v, st1)) :
    (index site < 0 ∧ st1 = st) ∨
    (0 ≤ index site ∧ st.done_usite (index site).toNat ≠ -1 ∧ st1 = st ∧
      v.fn = st.selinfo.llike_neu (st.done_usite (index site).toNat).toNat ∧
      v.fm = st.selinfo.llike_max (st.done_usite (index site).toNat).toNat ∧
      v.omegam = st.selinfo.omega_max (st.done_usite (index site).toNat).toNat ∧
      v.type = st.selinfo.type (st.done_usite (index site).toNat).toNat ∧
      (ldiff ≠ 0 → v.lb = st.selinfo.lbound (st.done_usite (index site).toNat).toNat ∧
        v.ub = st.selinfo.ubound (st.done_usite (index site).toNat).toNat)) ∨
    (0 ≤ index site ∧ st.done_usite (index site).toNat = -1 ∧
      st1.selinfo = st.selinfo ∧
      st1.done_usite = Function.update st.done_usite (index site).toNat (site : Int) ∧
      st1.solved = site :: st.solved) := by
  unfold siteValues at h
  by_cases h1 : index site = -INT_MAX
  · simp only [h1, if_true, Except.ok.injEq, Prod.mk.injEq] at h
    left
    refine ⟨?_, h.2.symm⟩
    rw [h1]; unfold INT_MAX; norm_num
  rw [if_neg h1] at h
  by_cases h2 : index site < 0
  · simp only [h2, if_true, Except.ok.injEq, Prod.mk.injEq] at h
    exact Or.inl ⟨h2, h.2.symm⟩
  rw [if_neg h2] at h
  have h0 : 0 ≤ index site := not_lt.1 h2
  by_cases h3 : st.done_usite (index site).toNat ≠ -1
  · rw [if_pos h3] at h
    simp only [Except.ok.injEq, Prod.mk.injEq] at h
    right; left
    obtain ⟨hv, hst⟩ := h
    subst hv hst
    refine ⟨h0, h3, rfl, rfl, rfl, rfl, rfl, ?_⟩
    intro hl
    rw [if_pos hl, if_pos hl]
    exact ⟨rfl, rfl⟩
  · rw [if_neg h3] at h
    right; right
    have h3' : st.done_usite (index site).toNat = -1 := not_not.1 h3
    refine ⟨h0, h3', ?_⟩
    unfold solveSite at h
    split at h
    · cases h
    · simp only at h
      split at h
      · cases h
      · simp only [Except.ok.injEq, Prod.mk.injEq] at h
        obtain ⟨_, hst⟩ := h
        subst hst
        exact ⟨rfl, rfl, rfl⟩

theorem sameRecord_recordSite {W : Type} (index : Nat → Int) (ldiff : K) (k : Nat)
    (v : SITEVALS K) (st1 : SELSTATE K W)
    (hA : ∀ s t, s < k → t < k → index s = index t → 0 ≤ index t →
      sameRecord ldiff st1.selinfo s t)
    (hk : ∀ s, s < k → index s = index k → 0 ≤ index k → holdsRecord ldiff st1.selinfo s v) :
    ∀ s t, s < k + 1 → t < k + 1 → index s = index t → 0 ≤ index t →
      sameRecord ldiff (recordSite ldiff k v st1).selinfo s t := by
  intro s t hs ht hst h0
  by_cases hsk : s = k
  · by_cases htk : t = k
    · rw [hsk, htk]
      exact ⟨rfl, rfl, rfl, rfl, fun _ => ⟨rfl, rfl⟩⟩
    · have ht2 : t < k := by omega
      obtain ⟨e1, e2, e3, e4, e5⟩ := hk t ht2 (by rw [← hst, hsk]) (by rw [← hsk, hst]; exact h0)
      rw [hsk]
      unfold sameRecord recordSite
      simp only [Function.update_same, Function.update_noteq htk]
      refine ⟨e1.symm, e2.symm, e3.symm, e4.symm, ?_⟩
      intro hl
      rw [if_pos hl, if_pos hl]
      simp only [Function.update_same, Function.update_noteq htk]
      exact ⟨(e5 hl).1.symm, (e5 hl).2.symm⟩
  · have hs2 : s < k := by omega
    by_cases htk : t = k
    · obtain ⟨e1, e2, e3, e4, e5⟩ := hk s hs2 (by rw [hst, htk]) (by rw [← htk]; exact h0)
      rw [htk]
      unfold sameRecord recordSite
      simp only [Function.update_same, Function.update_noteq hsk]
      refine ⟨e1, e2, e3, e4, ?_⟩
      intro hl
      rw [if_pos hl, if_pos hl]
      simp only [Function.update_same, Function.update_noteq hsk]
      exact e5 hl
    · have ht2 : t < k := by omega
      obtain ⟨e1, e2, e3, e4, e5⟩ := hA s t hs2 ht2 hst h0
      unfold sameRecord recordSite
      simp only [Function.update_noteq hsk, Function.update_noteq htk]
      refine ⟨e1, e2, e3, e4, ?_⟩
      intro hl
      rw [if_pos hl, if_pos hl]
      simp only [Function.update_noteq hsk, Function.update_noteq htk]
      exact e5 hl

theorem sitesInv_step {W : Type} (env : SELENV K W) (index : Nat → Int) (n_unique_pts : Nat)
    (positive : Bool) (ldiff : K) (omega_grid likelihood_grid likelihood_neutral : Nat → K)
    (k : Nat) (st st1 : SELSTATE K W) (v : SITEVALS K)
    (hidx : index k < (n_unique_pts : Int))
    (hinv : sitesInv index n_unique_pts ldiff k st)
    (h : siteValues env index positive ldiff omega_grid likelihood_grid likelihood_neutral
      k st = .ok (v, st1)) :
    sitesInv index n_unique_pts ldiff (k + 1) (recordSite ldiff k v st1) := by
  obtain ⟨hA, hB, hC, hD⟩ := hinv
  rcases siteValues_cases env index positive ldiff omega_grid likelihood_grid
    likelihood_neutral k st st1 v h with ⟨hneg, hst⟩ | ⟨h0, hdone, hst, hv⟩ | ⟨h0, hdone, hsel, hdu, hso⟩
  · subst hst
    refine ⟨?_, ?_, ?_, hD⟩
    · apply sameRecord_recordSite index ldiff k v st1 hA
      intro s _ _ h0
      omega
    · intro i hi
      rcases hB i hi with ⟨h1, h2⟩ | ⟨s0, h1, h2, h3⟩
      · left
        refine ⟨h1, ?_⟩
        intro s hs
        by_cases hsk : s = k
        · rw [hsk]; omega
        · exact h2 s (by omega)
      · right
        exact ⟨s0, by omega, h2, h3⟩
    · intro t
      show t ∈ st1.solved ↔ _
      rw [hC t]
      constructor
      · rintro ⟨h1, h2⟩
        exact ⟨by omega, h2⟩
      · rintro ⟨h1, h2⟩
        refine ⟨?_, h2⟩
        by_contra hn
        have : t = k := by omega
        rw [this] at h2
        have := h2.1
        omega
  · subst hst
    have hi : (index k).toNat < n_unique_pts := by omega
    have hcast : (((index k).toNat : Nat) : Int) = index k := Int.toNat_of_nonneg h0
    obtain ⟨s0, hs0, hd0, hi0⟩ : ∃ s0, s0 < k ∧ st1.done_usite (index k).toNat = (s0 : Int)
        ∧ index s0 = (((index k).toNat : Nat) : Int) := by
      rcases hB _ hi with ⟨h1, _⟩ | h2
      · exact absurd h1 hdone
      · exact h2
    rw [hcast] at hi0
    rw [hd0, Int.toNat_ofNat] at hv
    refine ⟨?_, ?_, ?_, hD⟩
    · apply sameRecord_recordSite index ldiff k v st1 hA
      intro s hs hsk _
      obtain ⟨e1, e2, e3, e4, e5⟩ := hA s s0 hs hs0 (by rw [hsk, hi0]) (by rw [hi0]; exact h0)
      obtain ⟨v1, v2, v3, v4, v5⟩ := hv
      exact ⟨by rw [v1, e1], by rw [v2, e2], by rw [v3, e3], by rw [v4, e4],
        fun hl => ⟨by rw [(v5 hl).1, (e5 hl).1], by rw [(v5 hl).2, (e5 hl).2]⟩⟩
    · intro i hi'
      rcases hB i hi' with ⟨h1, h2⟩ | ⟨s1, h1, h2, h3⟩
      · left
        refine ⟨h1, ?_⟩
        intro s hs
        by_cases hsk : s = k
        · rw [hsk]
          intro hki
          have : (index k).toNat = i := by omega
          rw [this] at hdone
          exact hdone h1
        · exact h2 s (by omega)
      · right
        exact ⟨s1, by omega, h2, h3⟩
    · intro t
      show t ∈ st1.solved ↔ _
      rw [hC t]
      constructor
      · rintro ⟨h1, h2⟩
        exact ⟨by omega, h2⟩
      · rintro ⟨h1, h2⟩
        refine ⟨?_, h2⟩
        by_contra hn
        have : t = k := by omega
        rw [this] at h2
        exact h2.2 s0 hs0 hi0
  · have hi : (index k).toNat < n_unique_pts := by omega
    have hcast : (((index k).toNat : Nat) : Int) = index k := Int.toNat_of_nonneg h0
    have hfirst : ∀ s, s < k → index s ≠ index k := by
      rcases hB _ hi with ⟨_, h2⟩ | ⟨s0, _, h2, _⟩
      · intro s hs
        have := h2 s hs
        rw [hcast] at this
        exact this
      · rw [hdone] at h2
        omega
    have hA1 : ∀ s t, s < k → t < k → index s = index t → 0 ≤ index t →
        sameRecord ldiff st1.selinfo s t := by
      rw [hsel]; exact hA
    refine ⟨?_, ?_, ?_, ?_⟩
    · apply sameRecord_recordSite index ldiff k v st1 hA1
      intro s hs hsk _
      exact absurd hsk (hfirst s hs)
    · intro i hi'
      show (st1.done_usite i = -1 ∧ _) ∨ (∃ s0, s0 < k + 1 ∧ st1.done_usite i = _ ∧ _)
      rw [hdu]
      by_cases hik : i = (index k).toNat
      · right
        refine ⟨k, by omega, ?_, ?_⟩
        · rw [hik, Function.update_same]
        · rw [hik, hcast]
      · rw [Function.update_noteq hik]
        rcases hB i hi' with ⟨h1, h2⟩ | ⟨s1, h1, h2, h3⟩
        · left
          refine ⟨h1, ?_⟩
          intro s hs
          by_cases hsk : s = k
          · rw [hsk]
            intro hki
            apply hik
            omega
          · exact h2 s (by omega)
        · right
          exact ⟨s1, by omega, h2, h3⟩
    · intro t
      show t ∈ st1.solved ↔ _
      rw [hso, List.mem_cons, hC t]
      constructor
      · rintro (h1 | ⟨h1, h2⟩)
        · rw [h1]
          exact ⟨by omega, h0, hfirst⟩
        · exact ⟨by omega, h2⟩
      · rintro ⟨h1, h2⟩
        by_cases htk : t = k
        · left; exact htk
        · right; exact ⟨by omega, h2⟩
    · show st1.solved.Nodup
      rw [hso, List.nodup_cons]
      refine ⟨?_, hD⟩
      intro hmem
      have := ((hC k).1 hmem).1
      omega

/-- C22: when the site loop of `CalculateSelection` returns, for any two columns
`s < t` with the same non-negative pattern index the values recorded for `t`
(`llike_neu`, `llike_max`, `omega_max`, `type`, and the bounds when support is
requested) are those recorded for `s`, hence for the first column with that index;
the optimiser (and the root finder after it) was invoked exactly for the first column
of each non-negative pattern index, once each. -/
theorem CalculateSelection_reuses_first_column {W : Type} (env : SELENV K W)
    (index : Nat → Int) (n_pts n_unique_pts : Nat) (junk : Nat → Int) (positive : Bool)
    (ldiff : K) (omega_grid likelihood_grid likelihood_neutral : Nat → K) (w : W)
    (final : SELSTATE K W)
    (hidx : ∀ t, t < n_pts → index t < (n_unique_pts : Int))
    (hrun : CalculateSelection_sites env index n_pts n_unique_pts junk positive ldiff
      omega_grid likelihood_grid likelihood_neutral w = .ok final) :
    (∀ s t, s < t → t < n_pts → index s = index t → 0 ≤ index t →
      final.selinfo.llike_neu t = final.selinfo.llike_neu s ∧
      final.selinfo.llike_max t = final.selinfo.llike_max s ∧
      final.selinfo.omega_max t = final.selinfo.omega_max s ∧
      final.selinfo.type t = final.selinfo.type s ∧
      (ldiff ≠ 0 → final.selinfo.lbound t = final.selinfo.lbound s ∧
        final.selinfo.ubound t = final.selinfo.ubound s)) ∧
    (∀ t, t ∈ final.solved ↔
      t < n_pts ∧ 0 ≤ index t ∧ ∀ r, r < t → index r ≠ index t) ∧
    final.solved.Nodup := by
  have key : sitesInv index n_unique_pts ldiff n_pts final := by
    unfold CalculateSelection_sites at hrun
    refine forLoopE_induction (sitesInv index n_unique_pts ldiff) n_pts _ _ final hrun ?_ ?_
    · refine ⟨fun s t hs => absurd hs (Nat.not_lt_zero s), ?_, ?_, List.nodup_nil⟩
      · intro i hi
        left
        refine ⟨?_, fun s hs => absurd hs (Nat.not_lt_zero s)⟩
        simp only [hi, if_true]
      · intro t
        simp
    · intro k st t hk hinv hbody
      cases hv : siteValues env index positive ldiff omega_grid likelihood_grid
          likelihood_neutral k st with
      | error e => rw [hv] at hbody; cases hbody
      | ok p =>
        obtain ⟨v, st1⟩ := p
        rw [hv] at hbody
        simp only [Except.ok.injEq] at hbody
        rw [← hbody]
        exact sitesInv_step env index n_unique_pts positive ldiff omega_grid likelihood_grid
          likelihood_neutral k st st1 v (hidx k hk) hinv hv
  obtain ⟨hA, _, hC, hD⟩ := key
  refine ⟨?_, hC, hD⟩
  intro s t hst ht hi h0
  exact hA s t (by omega) ht hi h0

end site_loop

section site_loop_runs

set_option maxRecDepth 1000000 in
theorem sharedIndex_run :
    isOk (CalculateSelection_sites countingEnv sharedIndex 3 2 (fun _ => 0) false 1
      (fun i => (i : ℚ)) bowlGrid (fun _ => 7) 0) = true ∧
    (okValue noSites (CalculateSelection_sites countingEnv sharedIndex 3 2 (fun _ => 0) false 1
      (fun i => (i : ℚ)) bowlGrid (fun _ => 7) 0)).solved = [1, 0] ∧
    (okValue noSites (CalculateSelection_sites countingEnv sharedIndex 3 2 (fun _ => 0) false 1
      (fun i => (i : ℚ)) bowlGrid (fun _ => 7) 0)).selinfo.llike_max 0 = 3 ∧
    (okValue noSites (CalculateSelection_sites countingEnv sharedIndex 3 2 (fun _ => 0) false 1
      (fun i => (i : ℚ)) bowlGrid (fun _ => 7) 0)).selinfo.llike_max 2 = 3 := by
  decide!

/-- Witness for C23: row 1 of a table with 50 columns whose minimum is at index 3. -/
theorem FindBestX_first_minimum_witness :
    (∃ a, a < 50 ∧ bowlGrid (1 * 50 + a) < DBL_MAX) ∧
    FindBestX bowlGrid 1 50 = .ok 3 ∧
    ∃ k, FindBestX bowlGrid ((1 : Nat) : Int) ((50 : Nat) : Int) = .ok k ∧ k < 50 ∧
      (∀ a, a < 50 → bowlGrid (1 * 50 + k) ≤ bowlGrid (1 * 50 + a)) ∧
      (∀ a, a < k → bowlGrid (1 * 50 + k) < bowlGrid (1 * 50 + a)) :=
  have hex : ∃ a, a < 50 ∧ bowlGrid (1 * 50 + a) < DBL_MAX := ⟨3, by decide, by decide!⟩
  ⟨hex, by decide!,
   match FindBestX_first_minimum bowlGrid 1 50 with
   | ⟨k, hk, h1, _⟩ => ⟨k, hk, h1 hex⟩⟩

set_option maxRecDepth 1000000 in
/-- Witness for C22: three columns, the first and third with pattern 0: the optimiser
runs for columns 0 and 1 only, and column 2 holds the value of column 0. -/
theorem CalculateSelection_reuses_first_column_witness :
    (∀ t, t < 3 → sharedIndex t < ((2 : Nat) : Int)) ∧
    isOk (CalculateSelection_sites countingEnv sharedIndex 3 2 (fun _ => 0) false 1
      (fun i => (i : ℚ)) bowlGrid (fun _ => 7) 0) = true ∧
    (okValue noSites (CalculateSelection_sites countingEnv sharedIndex 3 2 (fun _ => 0) false 1
      (fun i => (i : ℚ)) bowlGrid (fun _ => 7) 0)).solved = [1, 0] ∧
    (okValue noSites (CalculateSelection_sites countingEnv sharedIndex 3 2 (fun _ => 0) false 1
      (fun i => (i : ℚ)) bowlGrid (fun _ => 7) 0)).selinfo.llike_max 0 = 3 ∧
    (okValue noSites (CalculateSelection_sites countingEnv sharedIndex 3 2 (fun _ => 0) false 1
        (fun i => (i : ℚ)) bowlGrid (fun _ => 7) 0)).selinfo.llike_max 2
      = (okValue noSites (CalculateSelection_sites countingEnv sharedIndex 3 2 (fun _ => 0)
        false 1 (fun i => (i : ℚ)) bowlGrid (fun _ => 7) 0)).selinfo.llike_max 0 :=
  have hidx : ∀ t, t < 3 → sharedIndex t < ((2 : Nat) : Int) := by decide
  ⟨hidx, sharedIndex_run.1, sharedIndex_run.2.1, sharedIndex_run.2.2.1,
   ((CalculateSelection_reuses_first_column countingEnv sharedIndex 3 2 (fun _ => 0) false 1
      (fun i => (i : ℚ)) bowlGrid (fun _ => 7) 0 _ hidx
      (eq_ok_okValue noSites _ sharedIndex_run.1)).1 0 2 (by decide) (by decide) rfl
      (by decide)).2.1⟩

set_option maxRecDepth 1000000 in
/-- Witness for C24: the function `exp(x) - 1` over the reals meets the two hypotheses
on `expm1`; with the identity standing in for it over the rationals, the grid for
positive-only selection and the table `bowlGrid` give `start = 3` and the bracket
`grid[2] <= grid[3] <= grid[4]`; that grid runs from 1 to 50 and is strictly increasing,
and it is not constant: `grid[2] = 3`, `grid[3] = 4`. -/
theorem seedBracket_is_bracket_witness :
    StrictMono (fun x : ℝ => Real.exp x - 1) ∧ Real.exp 0 - 1 = 0 ∧
    StrictMono (fun x : ℚ => x) ∧
    isOk (create_grid (fun x : ℚ => x) GRIDSIZE true) = true ∧
    FindBestX bowlGrid ((1 : Nat) : Int) (GRIDSIZE : Int) = .ok 3 ∧
    (seedBracket linearGrid true 3).lower = linearGrid 2 ∧
    (seedBracket linearGrid true 3).lower ≤ (seedBracket linearGrid true 3).interior ∧
    (seedBracket linearGrid true 3).interior ≤ (seedBracket linearGrid true 3).upper ∧
    linearGrid 0 = 1 ∧ linearGrid (GRIDSIZE - 1) = 50 ∧
    (∀ i j, i < j → j < GRIDSIZE → linearGrid i < linearGrid j) ∧
    linearGrid 2 = 3 ∧ linearGrid 3 = 4 :=
  have hok : isOk (create_grid (fun x : ℚ => x) GRIDSIZE true) = true := by decide!
  have hs : FindBestX bowlGrid ((1 : Nat) : Int) (GRIDSIZE : Int) = .ok 3 := by decide!
  have h := seedBracket_is_bracket (fun x : ℚ => x) true linearGrid bowlGrid 1 3
    (fun _ _ hab => hab) rfl (eq_ok_okValue (fun _ => 0) _ hok) hs
  ⟨fun _ _ hab => sub_lt_sub_right (Real.exp_strictMono hab) 1, by rw [Real.exp_zero, sub_self],
   fun _ _ hab => hab, hok, hs, by decide!, h.2.2.2.2.1, h.2.2.2.2.2.1,
   h.2.2.2.2.2.2.2.1, h.2.2.2.2.2.2.2.2.1, h.2.2.2.2.2.2.2.2.2.1, by decide!, by decide!⟩

end site_loop_runs

section backward_pass

variable {K : Type} [LinearOrderedField K]

/-- The loop over the siblings in closed form: `back` is the start value times the product
of the siblings' `mid`, and `bscalefactor`, `bscale` are the start values plus the sums of
the siblings' `scalefactor`, `scale`; the node itself is left out. -/
theorem siblingLoop_eq (nsib : Nat) (sibs : Nat → FWD K) (self : Nat) (init : BACK K) (a b : Nat) :
    (siblingLoop nsib sibs self init).back a b
      = init.back a b * ∏ j in (Finset.range nsib).filter (fun j => j ≠ self), (sibs j).mid a b ∧
    (siblingLoop nsib sibs self init).bscalefactor a
      = init.bscalefactor a
        + ∑ j in (Finset.range nsib).filter (fun j => j ≠ self), (sibs j).scalefactor a ∧
    (siblingLoop nsib sibs self init).bscale
      = init.bscale + ∑ j in (Finset.range nsib).filter (fun j => j ≠ self), (sibs j).scale := by
  unfold siblingLoop
  induction nsib with
  | zero => simp [forLoop]
  | succ k ih =>
    obtain ⟨h1, h2, h3⟩ := ih
    simp only [forLoop, Finset.range_succ]
    by_cases hk : k ≠ self
    · rw [if_pos hk, Finset.filter_insert, if_pos hk, Finset.prod_insert (by simp),
        Finset.sum_insert (by simp), Finset.sum_insert (by simp)]
      simp only [h1, h2, h3]
      refine ⟨by ring, by ring, by ring⟩
    · rw [if_neg hk, Finset.filter_insert, if_neg hk]
      exact ⟨h1, h2, h3⟩

/-- When the rescaling block does not fire at a node, `Backwards` leaves the values of the
sibling loop there. -/
theorem Backwards_node_back (scaleFlag : Nat) (log : K → K) (m : MODEL K)
    (above : Option (BACK K × (Nat → K))) (kids : KIDS K) (self : Nat)
    (hno : ¬ (scaleFlag = 1 ∧
      (siblingLoop (KIDS.length kids) (fwdAt scaleFlag log m kids) self
        (backStart m above)).bscale + 1 > EVERY)) (a b : Nat) :
    (Backwards_node scaleFlag log m above kids self).back a b
      = (backStart m above).back a b
        * ∏ j in (Finset.range (KIDS.length kids)).filter (fun j => j ≠ self),
            (fwdAt scaleFlag log m kids j).mid a b ∧
    (Backwards_node scaleFlag log m above kids self).bscalefactor a
      = (backStart m above).bscalefactor a
        + ∑ j in (Finset.range (KIDS.length kids)).filter (fun j => j ≠ self),
            (fwdAt scaleFlag log m kids j).scalefactor a := by
  obtain ⟨h1, h2, _⟩ := siblingLoop_eq (KIDS.length kids) (fwdAt scaleFlag log m kids) self
    (backStart m above) a b
  unfold Backwards_node rescaleBack
  simp only [hno, if_false]
  exact ⟨h1, h2⟩

/-- A child of the node where the traversal starts holds what `Backwards_node` computes
from the start data. -/
theorem Backwards_single (scaleFlag : Nat) (log : K → K) (m : MODEL K) (kids : KIDS K)
    (above : Option (BACK K × (Nat → K))) (i : Nat) (v : NODE K) (hv : kidAt kids i = some v) :
    Backwards scaleFlag log m kids above [i]
      = some (Backwards_node scaleFlag log m above kids i) := by
  simp only [Backwards, hv, List.isEmpty_nil, if_true]

/-- A node one step below an internal node `u` holds what `Backwards_node` computes from
the data written at `u` and the matrix of `u`. -/
theorem Backwards_append (scaleFlag : Nat) (log : K → K) (m : MODEL K) (i : Nat)
    (mat_u : Nat → K) (ks_u : KIDS K) (v : NODE K) (hv : kidAt ks_u i = some v) (ub : BACK K) :
    ∀ (p : List Nat) (kids : KIDS K) (above : Option (BACK K × (Nat → K))),
      nodeAt kids p = some (.internal mat_u ks_u) →
      Backwards scaleFlag log m kids above p = some ub →
      Backwards scaleFlag log m kids above (p ++ [i])
        = some (Backwards_node scaleFlag log m (some (ub, mat_u)) ks_u i)
  | [], _, _, h, _ => by simp [nodeAt] at h
  | [j], kids, above, h, hb => by
    cases hj : kidAt kids j with
    | none => simp [nodeAt, hj] at h
    | some w =>
      simp only [nodeAt, hj, List.isEmpty_nil, if_true, Option.some.injEq] at h
      simp only [Backwards, hj, List.isEmpty_nil, if_true, Option.some.injEq] at hb
      subst h
      subst hb
      show Backwards scaleFlag log m kids above (j :: [i]) = _
      simp only [Backwards, hj, List.isEmpty_cons, Bool.false_eq_true, if_false, hv,
        List.isEmpty_nil, if_true]
  | j :: r :: rs, kids, above, h, hb => by
    cases hj : kidAt kids j with
    | none => simp [nodeAt, hj] at h
    | some w =>
      cases w with
      | leaf mat seq lp =>
        simp [nodeAt, hj] at h
      | internal mat ks =>
        simp only [nodeAt, hj, List.isEmpty_cons, Bool.false_eq_true, if_false] at h
        simp only [Backwards, hj, List.isEmpty_cons, Bool.false_eq_true, if_false] at hb
        have ih := Backwards_append scaleFlag log m i mat_u ks_u v hv ub (r :: rs) ks
          (some (Backwards_node scaleFlag log m above kids j, mat)) h hb
        show Backwards scaleFlag log m kids above (j :: ((r :: rs) ++ [i])) = _
        simp only [Backwards, hj, List.cons_append, List.isEmpty_cons, Bool.false_eq_true,
          if_false]
        exact ih

/-- C26: after `Backwards`, a node `v` at which the rescaling block does not fire holds
the product of the `mid` vectors of its siblings.  For child `i` of the root, `back_v[a][b]`
is the product over the other children `j` of the root of `mid_j[a][b]` and
`bscalefactor_v[a]` is the sum of their `scalefactor[a]`.  For child `i` of a node `u` below
the root (reached by the path `p`), `back_v[a][b]` is
`(sum over c of back_u[a][c] * mat_u[b * nbase + c])` times the product of the siblings'
`mid_j[a][b]`, and `bscalefactor_v[a]` is `bscalefactor_u[a]` plus the sum of the siblings'
`scalefactor[a]`.  In both cases the traversal does write these values at `v`. -/
theorem Backwards_sibling_products (scaleFlag : Nat) (log : K → K) (m : MODEL K) :
    (∀ (tree : KIDS K) (i : Nat) (v : NODE K), kidAt tree i = some v →
      Backwards scaleFlag log m tree none [i]
        = some (Backwards_node scaleFlag log m none tree i) ∧
      (¬ (scaleFlag = 1 ∧
          (siblingLoop (KIDS.length tree) (fwdAt scaleFlag log m tree) i
            (backStart m none)).bscale + 1 > EVERY) →
        ∀ a b,
          (Backwards_node scaleFlag log m none tree i).back a b
            = ∏ j in (Finset.range (KIDS.length tree)).filter (fun j => j ≠ i),
                (fwdAt scaleFlag log m tree j).mid a b ∧
          (Backwards_node scaleFlag log m none tree i).bscalefactor a
            = ∑ j in (Finset.range (KIDS.length tree)).filter (fun j => j ≠ i),
                (fwdAt scaleFlag log m tree j).scalefactor a)) ∧
    (∀ (tree : KIDS K) (p : List Nat) (mat_u : Nat → K) (ks_u : KIDS K) (back_u : BACK K)
      (i : Nat) (v : NODE K),
      nodeAt tree p = some (.internal mat_u ks_u) →
      Backwards scaleFlag log m tree none p = some back_u →
      kidAt ks_u i = some v →
      Backwards scaleFlag log m tree none (p ++ [i])
        = some (Backwards_node scaleFlag log m (some (back_u, mat_u)) ks_u i) ∧
      (¬ (scaleFlag = 1 ∧
          (siblingLoop (KIDS.length ks_u) (fwdAt scaleFlag log m ks_u) i
            (backStart m (some (back_u, mat_u)))).bscale + 1 > EVERY) →
        ∀ a b,
          (Backwards_node scaleFlag log m (some (back_u, mat_u)) ks_u i).back a b
            = (∑ c in Finset.range m.nbase, back_u.back a c * mat_u (b * m.nbase + c))
              * ∏ j in (Finset.range (KIDS.length ks_u)).filter (fun j => j ≠ i),
                  (fwdAt scaleFlag log m ks_u j).mid a b ∧
          (Backwards_node scaleFlag log m (some (back_u, mat_u)) ks_u i).bscalefactor a
            = back_u.bscalefactor a
              + ∑ j in (Finset.range (KIDS.length ks_u)).filter (fun j => j ≠ i),
                  (fwdAt scaleFlag log m ks_u j).scalefactor a)) := by
  constructor
  · intro tree i v hv
    refine ⟨Backwards_single scaleFlag log m tree none i v hv, ?_⟩
    intro hno a b
    obtain ⟨h1, h2⟩ := Backwards_node_back scaleFlag log m none tree i hno a b
    rw [h1, h2]
    simp only [backStart, one_mul, zero_add, and_self]
  · intro tree p mat_u ks_u back_u i v hn hb hv
    refine ⟨Backwards_append scaleFlag log m i mat_u ks_u v hv back_u p tree none hn hb, ?_⟩
    intro hno a b
    obtain ⟨h1, h2⟩ := Backwards_node_back scaleFlag log m (some (back_u, mat_u)) ks_u i hno a b
    rw [h1, h2]
    simp only [backStart, Matrix_MatrixT_Mult, and_self]

end backward_pass

section backward_pass_runs

set_option maxRecDepth 1000000 in
/-- Witness for C26: on `nestedTree` the internal child of the root gets the `mid` of its
sibling leaf, `(1/4, 3/4)`, and its first leaf gets
`(1/4 * 3/4 + 3/4 * 1/4) * 1/4 = 3/32` at state 0. -/
theorem Backwards_sibling_products_witness :
    (Backwards SCALE (fun _ => 0) (starModel : MODEL ℚ) nestedTree none [0]
      = some (Backwards_node SCALE (fun _ => 0) starModel none nestedTree 0)) ∧
    (∀ a b, (Backwards_node SCALE (fun _ => 0) (starModel : MODEL ℚ) none nestedTree 0).back a b
      = ∏ j in (Finset.range (KIDS.length (nestedTree : KIDS ℚ))).filter (fun j => j ≠ 0),
          (fwdAt SCALE (fun _ => 0) starModel nestedTree j).mid a b) ∧
    (Backwards_node SCALE (fun _ => 0) (starModel : MODEL ℚ) none nestedTree 0).back 0 0 = 1 / 4 ∧
    (Backwards_node SCALE (fun _ => 0) (starModel : MODEL ℚ) none nestedTree 0).back 0 1 = 3 / 4 ∧
    (Backwards SCALE (fun _ => 0) (starModel : MODEL ℚ) nestedTree none ([0] ++ [0])
      = some (Backwards_node SCALE (fun _ => 0) starModel
          (some (Backwards_node SCALE (fun _ => 0) starModel none nestedTree 0, starP))
          nestedKids 0)) ∧
    (Backwards_node SCALE (fun _ => 0) (starModel : MODEL ℚ)
      (some (Backwards_node SCALE (fun _ => 0) starModel none nestedTree 0, starP))
      nestedKids 0).back 0 0 = 3 / 32 ∧
    (Backwards_node SCALE (fun _ => 0) (starModel : MODEL ℚ)
      (some (Backwards_node SCALE (fun _ => 0) starModel none nestedTree 0, starP))
      nestedKids 0).bscalefactor 0 = 0 ∧
    (∀ a b, (Backwards_node SCALE (fun _ => 0) (starModel : MODEL ℚ)
        (some (Backwards_node SCALE (fun _ => 0) starModel none nestedTree 0, starP))
        nestedKids 0).back a b
      = (∑ c in Finset.range (starModel : MODEL ℚ).nbase,
          (Backwards_node SCALE (fun _ => 0) (starModel : MODEL ℚ) none nestedTree 0).back a c
            * starP (b * (starModel : MODEL ℚ).nbase + c))
        * ∏ j in (Finset.range (KIDS.length (nestedKids : KIDS ℚ))).filter (fun j => j ≠ 0),
            (fwdAt SCALE (fun _ => 0) starModel nestedKids j).mid a b) :=
  have hroot := (Backwards_sibling_products SCALE (fun _ => 0) (starModel : MODEL ℚ)).1
    nestedTree 0 (.internal starP nestedKids) rfl
  have hdeep := (Backwards_sibling_products SCALE (fun _ => 0) (starModel : MODEL ℚ)).2
    nestedTree [0] starP nestedKids
    (Backwards_node SCALE (fun _ => 0) starModel none nestedTree 0) 0
    (.leaf starP (fun _ => 0) (fun _ _ => 0)) rfl hroot.1 rfl
  ⟨hroot.1, fun a b => (hroot.2 (by decide!) a b).1, by decide!, by decide!, hdeep.1,
   by decide!, by decide!, fun a b => (hdeep.2 (by decide!) a b).1⟩

end backward_pass_runs

section gradient

variable {K : Type} [LinearOrderedField K]

/-- A loop whose body fails at index 0 fails, whatever its length. -/
theorem forLoopE_error_first {ε σ : Type} (n : Nat) (body : Nat → σ → Except ε σ) (init : σ)
    (e : ε) (h : ∀ s, body 0 s = .error e) : forLoopE (n + 1) body init = .error e := by
  induction n with
  | zero => simp only [forLoopE, h]
  | succ n ih =>
    rw [forLoopE, ih]

/-- The call `GetParam(model, tree, 0)` fails its assertion `i > 0`. -/
theorem GetParam_zero {K : Type} (ps : PARAMS K) : GetParam ps 0 = .error .assertion := by
  unfold GetParam
  simp

/-- The function `GradLike` fails in its first iteration whenever it has a parameter to
differentiate. -/
theorem GradLike_fails (ps : PARAMS K) (DELTA : K) (log : K → K)
    (likeAt : Int → K → (Nat → K) × (Nat → K)) (pt_freq : Nat → K) (n_unique_pts : Nat)
    (grad : Nat → K) (m : Nat)
    (hm : (if ps.branchesVariable = true then ps.nparam + ps.n_br else ps.nparam).toNat
      = m + 1) :
    GradLike ps DELTA log likeAt pt_freq n_unique_pts grad = .error .assertion := by
  unfold GradLike
  simp only [hm]
  apply forLoopE_error_first
  intro s
  simp only [PartialDeriv, Nat.cast_zero, GetParam_zero]

/-- C27 fails on the code: `GetParam` asserts `i > 0`, and `i - offset > 0` for a model
parameter, so it fails at index 0 and at the first model parameter after the branch
lengths (index `n_br`).  `GradLike` starts its loop at `i = 0`, so with at least one
parameter its first call of `PartialDeriv` fails the assertion and no entry of `grad` is
written; index 1 of a model with two parameters is read without failure. -/
theorem GradLike_first_parameter_asserts :
    (∀ ps : PARAMS ℚ, GetParam ps 0 = .error .assertion) ∧
    (∀ ps : PARAMS ℚ, GetParam { ps with branchesVariable := true } ps.n_br
      = .error .assertion) ∧
    (∀ (ps : PARAMS ℚ) (DELTA : ℚ) (log : ℚ → ℚ) (likeAt : Int → ℚ → (Nat → ℚ) × (Nat → ℚ))
      (pt_freq : Nat → ℚ) (n_unique_pts : Nat) (grad : Nat → ℚ) (m : Nat),
      GradLike { ps with branchesVariable := false, nparam := (m : Int) + 1 } DELTA log likeAt
        pt_freq n_unique_pts grad = .error .assertion) ∧
    (∀ (ps : PARAMS ℚ) (DELTA : ℚ) (log : ℚ → ℚ) (likeAt : Int → ℚ → (Nat → ℚ) × (Nat → ℚ))
      (pt_freq : Nat → ℚ) (n_unique_pts : Nat) (grad : Nat → ℚ) (m b : Nat),
      GradLike { ps with branchesVariable := true, nparam := (m : Int) + 1, n_br := (b : Int) }
        DELTA log likeAt pt_freq n_unique_pts grad = .error .assertion) ∧
    isOk (GradLike twoParams (1 / 10 ^ 5) (fun _ => 0) (fun _ _ => (fun _ => 1, fun _ => 0))
      (fun _ => 1) 1 (fun _ => 0)) = false ∧
    isOk (GetParam twoParams 1) = true := by
  refine ⟨GetParam_zero, ?_, ?_, ?_, by decide!, by decide!⟩
  · intro ps
    unfold GetParam
    by_cases h : ps.n_br > 0
    · simp [h]
    · simp [h]
  · intro ps DELTA log likeAt pt_freq n_unique_pts grad m
    apply GradLike_fails _ _ _ _ _ _ _ m
    simp only [Bool.false_eq_true, if_false]
    omega
  · intro ps DELTA log likeAt pt_freq n_unique_pts grad m b
    apply GradLike_fails _ _ _ _ _ _ _ (m + b)
    simp only [if_true]
    omega

end gradient

section brent_iteration
variable {K : Type} [LinearOrderedField K]

/-- A run of one iteration: the body when the loop condition holds. -/
theorem brentRun_one (sgn f : K → K) (tol : K) (s : BrentState K) :
    brentRun sgn f tol 1 s = if brentCond s then brentStep sgn f tol s else s := by
  simp only [brentRun]

/-- C37: one iteration of the loop of `brentmin` keeps `fx <= flb` and `fx <= fub` for the
stored values and never increases `fx`; hence both hold after every number of
iterations, and `fx` is non-increasing along the run. -/
theorem brentStep_keeps_value_invariant (sgn f : K → K) (tol : K) (s : BrentState K)
    (hl : s.fx ≤ s.flb) (hu : s.fx ≤ s.fub) :
    ((brentStep sgn f tol s).fx ≤ (brentStep sgn f tol s).flb ∧
      (brentStep sgn f tol s).fx ≤ (brentStep sgn f tol s).fub ∧
      (brentStep sgn f tol s).fx ≤ s.fx) ∧
    ∀ k, (brentRun sgn f tol k s).fx ≤ (brentRun sgn f tol k s).flb ∧
      (brentRun sgn f tol k s).fx ≤ (brentRun sgn f tol k s).fub ∧
      (brentRun sgn f tol (k + 1) s).fx ≤ (brentRun sgn f tol k s).fx ∧
      (brentRun sgn f tol k s).fx ≤ s.fx := by
  have step : ∀ t : BrentState K, t.fx ≤ t.flb → t.fx ≤ t.fub →
      (brentStep sgn f tol t).fx ≤ (brentStep sgn f tol t).flb ∧
      (brentStep sgn f tol t).fx ≤ (brentStep sgn f tol t).fub ∧
      (brentStep sgn f tol t).fx ≤ t.fx := by
    intro t h1 h2
    unfold brentStep
    by_cases hf : f (trialPoint sgn t).1 < t.fx
    · by_cases hx : (trialPoint sgn t).1 ≥ t.x
      · simp only [hf, hx, if_true]
        exact ⟨le_of_lt hf, le_trans (le_of_lt hf) h2, le_of_lt hf⟩
      · simp only [hf, hx, if_true, if_false]
        exact ⟨le_trans (le_of_lt hf) h1, le_of_lt hf, le_of_lt hf⟩
    · have hge : t.fx ≤ f (trialPoint sgn t).1 := not_lt.mp hf
      by_cases hx : (trialPoint sgn t).1 ≥ t.x
      · simp only [hf, hx, if_true, if_false]
        exact ⟨h1, hge, le_refl _⟩
      · simp only [hf, hx, if_false]
        exact ⟨hge, h2, le_refl _⟩
  have run : ∀ k, (brentRun sgn f tol k s).fx ≤ (brentRun sgn f tol k s).flb ∧
      (brentRun sgn f tol k s).fx ≤ (brentRun sgn f tol k s).fub ∧
      (brentRun sgn f tol k s).fx ≤ s.fx ∧
      (brentRun sgn f tol (k + 1) s).fx ≤ (brentRun sgn f tol k s).fx ∧
      (brentRun sgn f tol (k + 1) s).fx ≤ (brentRun sgn f tol (k + 1) s).flb ∧
      (brentRun sgn f tol (k + 1) s).fx ≤ (brentRun sgn f tol (k + 1) s).fub := by
    intro k
    induction k with
    | zero =>
      refine ⟨by simpa [brentRun] using hl, by simpa [brentRun] using hu,
        by simp [brentRun], ?_⟩
      show (brentRun sgn f tol (0 + 1) s).fx ≤ (brentRun sgn f tol 0 s).fx ∧ _
      by_cases hc : brentCond s
      · simp only [brentRun, hc, if_true]
        exact ⟨(step s hl hu).2.2, (step s hl hu).1, (step s hl hu).2.1⟩
      · simp only [brentRun, hc, if_false]
        exact ⟨le_refl _, hl, hu⟩
    | succ k ih =>
      obtain ⟨_, _, h3, h4, h5, h6⟩ := ih
      refine ⟨h5, h6, le_trans h4 h3, ?_⟩
      rw [brentRun_add sgn f tol (k + 1) 1 s, brentRun_one]
      by_cases hc : brentCond (brentRun sgn f tol (k + 1) s)
      · rw [if_pos hc]
        exact ⟨(step _ h5 h6).2.2, (step _ h5 h6).1, (step _ h5 h6).2.1⟩
      · rw [if_neg hc]
        exact ⟨le_refl _, h5, h6⟩
  exact ⟨step s hl hu, fun k => ⟨(run k).1, (run k).2.1, (run k).2.2.2.1, (run k).2.2.1⟩⟩

/-- C38, as the code has it: the parabolic point `p` is taken as the candidate exactly
when it is finite, the step before was not shorter than the tolerance
(`diff_old >= fractol`), its distance from `x` exceeds half of `diff_old2`, and it lies
in `[lb, ub]`; otherwise the candidate is the golden-section point
`x + GOLDENRATIO * (e - x)` with `e` the end of the larger of `[lb, x]` and `[x, ub]`.
In both cases the objective is evaluated at the candidate when its distance from `x`
is at least `fractol`, and at `x + fractol * sign(candidate - x)` otherwise. -/
theorem trialPoint_cases (sgn : K → K) (s : BrentState K) :
    (∀ p, parabolic_interpolate s.lb s.x s.ub s.flb s.fx s.fub = some p →
      s.fractol ≤ s.diff_old → (1 / 2) * s.diff_old2 < |s.x - p| → s.lb ≤ p → p ≤ s.ub →
      proposeStep s = (p, |s.x - p|)) ∧
    ((parabolic_interpolate s.lb s.x s.ub s.flb s.fx s.fub = none ∨
      ∃ p, parabolic_interpolate s.lb s.x s.ub s.flb s.fx s.fub = some p ∧
        (s.diff_old < s.fractol ∨ |s.x - p| ≤ (1 / 2) * s.diff_old2 ∨ p < s.lb ∨ p > s.ub)) →
      proposeStep s = goldenStep s) ∧
    (goldenStep s).1
      = s.x + GOLDENRATIO * ((if s.x - s.lb > s.ub - s.x then s.lb else s.ub) - s.x) ∧
    (goldenStep s).2 = |(goldenStep s).1 - s.x| ∧
    (s.fractol ≤ (proposeStep s).2 → (trialPoint sgn s).1 = (proposeStep s).1) ∧
    ((proposeStep s).2 < s.fractol →
      (trialPoint sgn s).1 = s.x + s.fractol * sgn ((proposeStep s).1 - s.x)) := by
  refine ⟨?_, ?_, ?_, rfl, ?_, ?_⟩
  · intro p hp h1 h2 h3 h4
    unfold proposeStep
    rw [hp]
    have hc : ¬ (s.diff_old < s.fractol ∨ |s.x - p| ≤ (1 / 2) * s.diff_old2
        ∨ p < s.lb ∨ p > s.ub) := by
      rintro (h | h | h | h)
      · exact absurd h (not_lt.mpr h1)
      · exact absurd h (not_le.mpr h2)
      · exact absurd h (not_lt.mpr h3)
      · exact absurd h (not_lt.mpr h4)
    simp only [hc, if_false]
  · rintro (hn | ⟨p, hp, hc⟩)
    · unfold proposeStep
      rw [hn]
    · unfold proposeStep
      rw [hp]
      simp only [hc, if_true]
  · unfold goldenStep
    by_cases h : 2 * s.x > s.lb + s.ub
    · have h2 : s.x - s.lb > s.ub - s.x := by linarith
      simp only [h, h2, if_true]
    · have h2 : ¬ (s.x - s.lb > s.ub - s.x) := by
        intro h3
        apply h
        linarith
      simp only [h, h2, if_false]
  · intro h
    unfold trialPoint
    simp only [ge_iff_le, h, if_true]
  · intro h
    unfold trialPoint
    simp only [ge_iff_le, not_le.mpr h, if_false]

end brent_iteration

section brent_parabola
variable {K : Type} [LinearOrderedField K]

/-- C39: for the quadratic `f(t) = p*t^2 + q*t + r` with `p != 0` and three pairwise
distinct abscissae `a`, `b`, `c`, `parabolic_interpolate(a, b, c, f(a), f(b), f(c))`
returns a finite value, the vertex `-q / (2p)`; the same holds for the arguments in
every other order. -/
theorem parabolic_interpolate_vertex (p q r a b c : K) (hp : p ≠ 0) (hab : a ≠ b) (hbc : b ≠ c)
    (hac : a ≠ c) :
    parabolic_interpolate a b c (p * a ^ 2 + q * a + r) (p * b ^ 2 + q * b + r)
        (p * c ^ 2 + q * c + r) = some (-q / (2 * p)) ∧
    parabolic_interpolate a c b (p * a ^ 2 + q * a + r) (p * c ^ 2 + q * c + r)
        (p * b ^ 2 + q * b + r) = some (-q / (2 * p)) ∧
    parabolic_interpolate b a c (p * b ^ 2 + q * b + r) (p * a ^ 2 + q * a + r)
        (p * c ^ 2 + q * c + r) = some (-q / (2 * p)) ∧
    parabolic_interpolate b c a (p * b ^ 2 + q * b + r) (p * c ^ 2 + q * c + r)
        (p * a ^ 2 + q * a + r) = some (-q / (2 * p)) ∧
    parabolic_interpolate c a b (p * c ^ 2 + q * c + r) (p * a ^ 2 + q * a + r)
        (p * b ^ 2 + q * b + r) = some (-q / (2 * p)) ∧
    parabolic_interpolate c b a (p * c ^ 2 + q * c + r) (p * b ^ 2 + q * b + r)
        (p * a ^ 2 + q * a + r) = some (-q / (2 * p)) := by
  have key : ∀ u v w : K, u ≠ v → v ≠ w → u ≠ w →
      parabolic_interpolate u v w (p * u ^ 2 + q * u + r) (p * v ^ 2 + q * v + r)
        (p * w ^ 2 + q * w + r) = some (-q / (2 * p)) := by
    intro u v w huv hvw huw
    have h1 : v - u ≠ 0 := sub_ne_zero.mpr (Ne.symm huv)
    have h2 : v - w ≠ 0 := sub_ne_zero.mpr hvw
    have h3 : w - u ≠ 0 := sub_ne_zero.mpr (Ne.symm huw)
    have hden : (v - u) * (p * v ^ 2 + q * v + r - (p * w ^ 2 + q * w + r))
        - (v - w) * (p * v ^ 2 + q * v + r - (p * u ^ 2 + q * u + r))
        = (v - u) * (v - w) * (w - u) * p := by ring
    have hne : (v - u) * (v - w) * (w - u) * p ≠ 0 :=
      mul_ne_zero (mul_ne_zero (mul_ne_zero h1 h2) h3) hp
    unfold parabolic_interpolate
    simp only [hden, hne, if_false, Option.some.injEq]
    field_simp
    ring
  exact ⟨key a b c hab hbc hac, key a c b hac (Ne.symm hbc) hab,
    key b a c (Ne.symm hab) hac hbc, key b c a hbc (Ne.symm hac) (Ne.symm hab),
    key c a b (Ne.symm hac) hab (Ne.symm hbc), key c b a (Ne.symm hbc) (Ne.symm hab)
      (Ne.symm hac)⟩

end brent_parabola

section brent_iteration_runs

set_option maxRecDepth 1000000 in
/-- Witness for C37: the first two iterations on `squareFn` from the bracket `[0, 5]` with
interior point 1. -/
theorem brentStep_keeps_value_invariant_witness :
    (squareInit.fx ≤ squareInit.flb ∧ squareInit.fx ≤ squareInit.fub) ∧
    (brentStep sign squareFn nudgeTol squareInit).fx
      ≤ (brentStep sign squareFn nudgeTol squareInit).flb ∧
    (brentStep sign squareFn nudgeTol squareInit).fx
      ≤ (brentStep sign squareFn nudgeTol squareInit).fub ∧
    (brentStep sign squareFn nudgeTol squareInit).fx ≤ squareInit.fx ∧
    (brentRun sign squareFn nudgeTol 2 squareInit).fx
      ≤ (brentRun sign squareFn nudgeTol 1 squareInit).fx ∧
    (brentRun sign squareFn nudgeTol 2 squareInit).fx = 0 :=
  have hl : squareInit.fx ≤ squareInit.flb := by decide!
  have hu : squareInit.fx ≤ squareInit.fub := by decide!
  have h := brentStep_keeps_value_invariant sign squareFn nudgeTol squareInit hl hu
  ⟨⟨hl, hu⟩, h.1.1, h.1.2.1, h.1.2.2, (h.2 1).2.2.1, by decide!⟩

set_option maxRecDepth 1000000 in
/-- C38 fails on the code: in the second iteration on `nudgeParabola` (bracket `[0, 1]`,
interior point `1e-16`, `tol = 1e-5`) the parabolic point `x / 2` lies in the bracket at
distance `5e-17` from `x`, below the tolerance `fractol`; it is taken as the candidate
all the same (the test on the tolerance reads `diff_old`, the length of the step
before), and the objective is evaluated at `x - fractol`, which is neither the parabolic
point nor the golden-section point. -/
theorem proposeStep_accepts_short_parabolic_step :
    nudgeSecond.iters = 1 ∧
    parabolic_interpolate nudgeSecond.lb nudgeSecond.x nudgeSecond.ub nudgeSecond.flb
      nudgeSecond.fx nudgeSecond.fub = some (nudgeX / 2) ∧
    (nudgeSecond.lb ≤ nudgeX / 2 ∧ nudgeX / 2 ≤ nudgeSecond.ub) ∧
    |nudgeSecond.x - nudgeX / 2| < nudgeSecond.fractol ∧
    nudgeSecond.fractol = nudgeTol * |nudgeSecond.x| + DBL_EPSILON ∧
    proposeStep nudgeSecond = (nudgeX / 2, nudgeX / 2) ∧
    proposeStep nudgeSecond ≠ goldenStep nudgeSecond ∧
    (trialPoint sign nudgeSecond).1 = nudgeSecond.x - nudgeSecond.fractol ∧
    (trialPoint sign nudgeSecond).1 ≠ (goldenStep nudgeSecond).1 ∧
    (trialPoint sign nudgeSecond).1 ≠ nudgeX / 2 := by
  decide!

set_option maxRecDepth 1000000 in
/-- Witness for C38 as amended: the first iteration on `squareFn` takes the golden-section
point, the second the parabolic point 2. -/
theorem trialPoint_cases_witness :
    proposeStep squareInit = goldenStep squareInit ∧
    (goldenStep squareInit).1 = squareGolden ∧
    (trialPoint sign squareInit).1 = squareGolden ∧
    proposeStep (brentStep sign squareFn nudgeTol squareInit) = (2, |squareGolden - 2|) ∧
    (trialPoint sign (brentStep sign squareFn nudgeTol squareInit)).1 = 2 :=
  have h1 := trialPoint_cases sign squareInit
  have h2 := trialPoint_cases sign (brentStep sign squareFn nudgeTol squareInit)
  have hg : proposeStep squareInit = goldenStep squareInit :=
    h1.2.1 (Or.inr ⟨2, by decide!, Or.inl (by decide!)⟩)
  have hp : proposeStep (brentStep sign squareFn nudgeTol squareInit)
      = (2, |(brentStep sign squareFn nudgeTol squareInit).x - 2|) :=
    h2.1 2 (by decide!) (by decide!) (by decide!) (by decide!) (by decide!)
  ⟨hg, by decide!, by decide!, by rw [hp]; decide!, by decide!⟩

/-- Witness for C39: the parabola `2*t^2 - 8*t + 1` sampled at 0, 1, 5 (values 1, -5, 11)
has its vertex at `8 / 4 = 2`, which the function returns. -/
theorem parabolic_interpolate_vertex_witness :
    parabolic_interpolate (0 : ℚ) 1 5 (2 * 0 ^ 2 + (-8) * 0 + 1) (2 * 1 ^ 2 + (-8) * 1 + 1)
        (2 * 5 ^ 2 + (-8) * 5 + 1) = some (-(-8) / (2 * 2)) ∧
    parabolic_interpolate (0 : ℚ) 1 5 1 (-5) 11 = some 2 ∧
    parabolic_interpolate (5 : ℚ) 0 1 11 1 (-5) = some 2 :=
  ⟨(parabolic_interpolate_vertex (2 : ℚ) (-8) 1 0 1 5 (by norm_num) (by norm_num)
    (by norm_num) (by norm_num)).1, by decide!, by decide!⟩

end brent_iteration_runs

section trust
variable {K : Type} [LinearOrderedField K]

/-- The line search halves the trust radius, not below `MIN_TRUST`, and keeps `direct`. -/
theorem lineSearchStep_trust (env : OPTENV K) (opt : OPTOBJ K) (hi : K) :
    (lineSearchStep env opt hi).trust = max (opt.trust / 2) MIN_TRUST ∧
    (lineSearchStep env opt hi).direct = opt.direct := by
  refine ⟨?_, rfl⟩
  unfold lineSearchStep
  by_cases h : opt.trust / 2 < MIN_TRUST
  · simp only [h, if_true]
    exact (max_eq_right (le_of_lt h)).symm
  · simp only [h, if_false]
    exact (max_eq_left (not_lt.mp h)).symm

/-- The branch `maxfactor <= 1.0` leaves the trust radius as it was when the point on
the boundary is accepted (its value is then at most `fc`), and halves it otherwise. -/
theorem boundaryStep_trust (env : OPTENV K) (opt : OPTOBJ K) (m : K) (opt2 : OPTOBJ K)
    (evals : List (Nat → K)) (h : boundaryStep env opt m = .ok (opt2, evals)) :
    opt2.direct = opt.direct ∧
    ((opt2.trust = opt.trust ∧ opt2.fn ≤ opt.fc) ∨
      opt2.trust = max (opt.trust / 2) MIN_TRUST) := by
  unfold boundaryStep at h
  cases h1 : ScaledStep m opt.x opt.xn opt.direct opt.onbound opt.n with
  | error e => rw [h1] at h; cases h
  | ok xb =>
    rw [h1] at h
    simp only at h
    by_cases hf : fWrap env opt.scale xb ≤ opt.fc
    · rw [if_pos hf] at h
      cases h2 : ScaledStep (m * (1 - BOUND_TOL)) opt.x xb opt.direct opt.onbound opt.n with
      | error e => rw [h2] at h; cases h
      | ok xnear =>
        rw [h2] at h
        simp only at h
        by_cases hg : fWrap env opt.scale xnear > fWrap env opt.scale xb
        · rw [if_pos hg] at h
          cases h3 : ScaledStep m opt.x xnear opt.direct opt.onbound opt.n with
          | error e => rw [h3] at h; cases h
          | ok xb2 =>
            rw [h3] at h
            simp only [Except.ok.injEq, Prod.mk.injEq] at h
            rw [← h.1]
            exact ⟨rfl, Or.inl ⟨rfl, hf⟩⟩
        · rw [if_neg hg] at h
          simp only [Except.ok.injEq, Prod.mk.injEq] at h
          rw [← h.1]
          exact ⟨(lineSearchStep_trust env _ m).2, Or.inr (lineSearchStep_trust env _ m).1⟩
    · rw [if_neg hf] at h
      simp only [Except.ok.injEq, Prod.mk.injEq] at h
      rw [← h.1]
      exact ⟨(lineSearchStep_trust env _ m).2, Or.inr (lineSearchStep_trust env _ m).1⟩

/-- The branch `maxfactor > 1.0` halves the trust radius when the full Newton step gives
a larger value than `fc`, and doubles it, not above `MAX_TRUST`, otherwise. -/
theorem newtonStep_trust (env : OPTENV K) (opt : OPTOBJ K) (opt2 : OPTOBJ K)
    (evals : List (Nat → K)) (h : newtonStep env opt = .ok (opt2, evals)) :
    opt2.direct = opt.direct ∧
    ((opt2.trust = max (opt.trust / 2) MIN_TRUST ∧ ∃ p, p ∈ evals ∧ opt.fc < env.f p) ∨
      (opt2.trust = min (2 * opt.trust) MAX_TRUST ∧ opt2.fn ≤ opt.fc)) := by
  unfold newtonStep at h
  cases h1 : ScaledStep 1 opt.x opt.xn opt.direct opt.onbound opt.n with
  | error e => rw [h1] at h; cases h
  | ok xf =>
    rw [h1] at h
    simp only at h
    by_cases hw : opt.fc < fWrap env opt.scale xf
    · rw [if_pos hw] at h
      simp only [Except.ok.injEq, Prod.mk.injEq] at h
      rw [← h.1, ← h.2]
      exact ⟨(lineSearchStep_trust env _ 1).2, Or.inl ⟨(lineSearchStep_trust env _ 1).1,
        _, List.mem_singleton.mpr rfl, hw⟩⟩
    · rw [if_neg hw] at h
      simp only [Except.ok.injEq, Prod.mk.injEq] at h
      rw [← h.1]
      refine ⟨rfl, Or.inr ⟨?_, not_lt.mp hw⟩⟩
      show (if 2 * opt.trust ≥ MAX_TRUST then MAX_TRUST else 2 * opt.trust)
        = min (2 * opt.trust) MAX_TRUST
      by_cases hc : 2 * opt.trust ≥ MAX_TRUST
      · simp only [hc, if_true]
        exact (min_eq_right hc).symm
      · simp only [hc, if_false]
        exact (min_eq_left (le_of_lt (not_le.mp hc))).symm

/-- The norm that the active-set loop returns is `sqrt` of the sum of squares of a
direction from which the final `direct` differs only in entries set to 0. -/
theorem activeSetLoop_norm (env : OPTENV K) (x dx scale lb ub : Nat → K) (n : Nat) :
    ∀ (fuel : Nat) (st : ACTIVESET K) (nb : Nat) (r : ACTIVESET K × Nat × K),
      activeSetLoop env x dx scale lb ub n fuel st nb = .ok r →
      ∃ d : Nat → K, r.2.2 = env.sqrt (∑ i in Finset.range n, d i * d i) ∧
        ∀ i, i < n → r.1.direct i = 0 ∨ r.1.direct i = d i
  | 0, _, _, _, h => by simp [activeSetLoop] at h
  | fuel + 1, st, nb, r, h => by
    unfold activeSetLoop at h
    cases h1 : GetNewtonStep env.sqrt st.direct st.InvHess dx n st.onbound with
    | error e => rw [h1] at h; cases h
    | ok p =>
      obtain ⟨direct, norm⟩ := p
      rw [h1] at h
      simp only at h
      have hn := GetNewtonStep_ok _ _ _ _ _ _ _ h1
      rw [GetNewtonStep_eq _ _ _ _ _ _ hn] at h1
      simp only [Except.ok.injEq, Prod.mk.injEq] at h1
      cases h2 : UpdateActiveSet env.InvertMatrix x direct scale st.InvHess lb ub st.onbound n
          st.errn with
      | error e => rw [h2] at h; cases h
      | ok st1 =>
        rw [h2] at h
        simp only at h
        by_cases hr : st1.nremoved ≠ 0
        · rw [if_pos hr] at h
          exact activeSetLoop_norm env x dx scale lb ub n fuel st1 _ r h
        · rw [if_neg hr] at h
          simp only [Except.ok.injEq] at h
          rw [← h]
          refine ⟨newtonComponent st.InvHess dx n st.onbound, h1.2.symm, ?_⟩
          intro i hi
          have hf := (UpdateActiveSet_flags env.InvertMatrix x direct scale st.InvHess lb ub
            st.onbound n st.errn 0 st1 h2).2.1 i hi
          show st1.direct i = 0 ∨ st1.direct i = _
          rw [hf]
          by_cases hb : st1.onbound i = true
          · left; rw [if_pos hb]
          · right
            rw [if_neg hb, ← h1.1]
            simp only [hi, if_true]

/-- The parts of a call of `TakeStep` that reaches its label `optexit`. -/
theorem TakeStep_candidate_parts (env : OPTENV K) (fuel : Nat) (opt : OPTOBJ K) (errn : Nat)
    (c : CANDIDATE K) (h : TakeStep_candidate env fuel opt errn = .ok c) :
    ∃ (st : ACTIVESET K) (newbound : Nat) (norm m : K) (opt2 : OPTOBJ K),
      activeSetLoop env opt.x opt.dx opt.scale opt.lb opt.ub opt.n fuel
        { direct := opt.direct, InvHess := opt.H, onbound := opt.onbound, nremoved := 0,
          errn := errn } 0 = .ok (st, newbound, norm) ∧
      (if m ≤ 1 then
          boundaryStep env
            { opt with
              direct := if norm > opt.trust then
                  scale_vector st.direct opt.n (opt.trust / norm) else st.direct
              H := st.InvHess, onbound := st.onbound } m
        else
          newtonStep env
            { opt with
              direct := if norm > opt.trust then
                  scale_vector st.direct opt.n (opt.trust / norm) else st.direct
              H := st.InvHess, onbound := st.onbound }) = .ok (opt2, c.evals) ∧
      c.opt = opt2 := by
  unfold TakeStep_candidate at h
  cases h1 : activeSetLoop env opt.x opt.dx opt.scale opt.lb opt.ub opt.n fuel
      { direct := opt.direct, InvHess := opt.H, onbound := opt.onbound, nremoved := 0,
        errn := errn } 0 with
  | error e => rw [h1] at h; cases h
  | ok r =>
    obtain ⟨st, newbound, norm⟩ := r
    rw [h1] at h
    simp only at h
    cases h2 : TrimAtBoundaries opt.x
        (if norm > opt.trust then scale_vector st.direct opt.n (opt.trust / norm) else st.direct)
        opt.scale opt.n opt.lb opt.ub st.onbound with
    | error e => rw [h2] at h; cases h
    | ok m =>
      rw [h2] at h
      simp only at h
      cases h3 : (if m ≤ 1 then
          boundaryStep env
            { opt with
              direct := if norm > opt.trust then
                  scale_vector st.direct opt.n (opt.trust / norm) else st.direct
              H := st.InvHess, onbound := st.onbound } m
        else
          newtonStep env
            { opt with
              direct := if norm > opt.trust then
                  scale_vector st.direct opt.n (opt.trust / norm) else st.direct
              H := st.InvHess, onbound := st.onbound }) with
      | error e => rw [h3] at h; cases h
      | ok r2 =>
        obtain ⟨opt2, evals⟩ := r2
        rw [h3] at h
        simp only [Except.ok.injEq] at h
        subst h
        exact ⟨st, newbound, norm, m, opt2, rfl, h3, rfl⟩

/-- The direction after the trust-region scaling has a sum of squares of at most
`trust^2`. -/
theorem scaled_direction_norm (sqrt : K → K) (hs : sqrtNotBelow sqrt) (n : Nat)
    (d direct : Nat → K) (trust : K)
    (hd : ∀ i, i < n → direct i = 0 ∨ direct i = d i) :
    ∑ i in Finset.range n,
        (if sqrt (∑ i in Finset.range n, d i * d i) > trust then
            scale_vector direct n (trust / sqrt (∑ i in Finset.range n, d i * d i))
          else direct) i
        * (if sqrt (∑ i in Finset.range n, d i * d i) > trust then
            scale_vector direct n (trust / sqrt (∑ i in Finset.range n, d i * d i))
          else direct) i
      ≤ trust * trust := by
  have hv : (0 : K) ≤ ∑ i in Finset.range n, d i * d i :=
    Finset.sum_nonneg (fun i _ => mul_self_nonneg (d i))
  obtain ⟨h0, hsq⟩ := hs _ hv
  have hle : ∑ i in Finset.range n, direct i * direct i ≤ ∑ i in Finset.range n, d i * d i := by
    apply Finset.sum_le_sum
    intro i hi
    rcases hd i (Finset.mem_range.mp hi) with h | h
    · rw [h, mul_zero]; exact mul_self_nonneg _
    · rw [h]
  have hdn : (0 : K) ≤ ∑ i in Finset.range n, direct i * direct i :=
    Finset.sum_nonneg (fun i _ => mul_self_nonneg (direct i))
  generalize sqrt (∑ i in Finset.range n, d i * d i) = norm at h0 hsq ⊢
  by_cases hc : norm > trust
  · simp only [hc, if_true]
    have e : ∑ i in Finset.range n,
        scale_vector direct n (trust / norm) i * scale_vector direct n (trust / norm) i
        = (trust / norm) * (trust / norm) * ∑ i in Finset.range n, direct i * direct i := by
      rw [Finset.mul_sum]
      apply Finset.sum_congr rfl
      intro i hi
      unfold scale_vector
      simp only [Finset.mem_range.mp hi, if_true]
      ring
    rw [e]
    by_cases hz : norm = 0
    · rw [hz, div_zero, zero_mul, zero_mul]
      exact mul_self_nonneg _
    · have hpos : 0 < norm := lt_of_le_of_ne h0 (Ne.symm hz)
      calc (trust / norm) * (trust / norm) * ∑ i in Finset.range n, direct i * direct i
          ≤ (trust / norm) * (trust / norm) * (norm * norm) :=
            mul_le_mul_of_nonneg_left (le_trans hle hsq) (mul_self_nonneg _)
        _ = trust * trust := by field_simp
  · simp only [hc, if_false]
    have hnt : norm ≤ trust := not_lt.mp hc
    calc ∑ i in Finset.range n, direct i * direct i
        ≤ norm * norm := le_trans hle hsq
      _ ≤ trust * trust := mul_le_mul hnt hnt h0 (le_trans h0 hnt)

/-- From its label `optexit` on, `TakeStep` leaves the trust radius alone; a failed step
leaves `fc` and `x`, an accepted step stores `fn`, which is at most `fc`, as the new
`fc`. -/
theorem TakeStep_exit_value (env : OPTENV K) (c : CANDIDATE K) (r : STEPRESULT K)
    (h : TakeStep_exit env c = .ok r) :
    r.opt.trust = c.opt.trust ∧
    ((c.opt.fn > c.opt.fc ∧ r.opt.fc = c.opt.fc ∧ r.opt.x = c.opt.x) ∨
      (c.opt.fn ≤ c.opt.fc ∧ r.opt.fc = c.opt.fn)) := by
  by_cases hf : c.opt.fn > c.opt.fc
  · rw [TakeStep_exit_failed env c hf] at h
    simp only [Except.ok.injEq] at h
    subst h
    exact ⟨rfl, Or.inl ⟨hf, rfl, rfl⟩⟩
  · unfold TakeStep_exit at h
    simp only [hf, if_false] at h
    split at h
    · cases h
    · split at h
      · cases h
      · simp only [Except.ok.injEq] at h
        subst h
        exact ⟨rfl, Or.inr ⟨not_lt.mp hf, rfl⟩⟩

/-- C36: a call of `TakeStep` that returns leaves `fc` at most what it was, for every
objective and every line search: either the step failed (`fn > fc` at the label
`optexit`), and then `fc` and `x` are as before the call, or the new `fc` is the value
`fn` of the accepted point, which is at most the old `fc`. -/
theorem TakeStep_never_increases (env : OPTENV K) (fuel : Nat) (opt : OPTOBJ K) (tol : K)
    (errn : Nat) (r : STEPRESULT K) (h : TakeStep env fuel opt tol errn = .ok r) :
    r.opt.fc ≤ opt.fc ∧
    ∃ c, TakeStep_candidate env fuel opt errn = .ok c ∧
      ((c.opt.fn > opt.fc ∧ r.opt.fc = opt.fc ∧ r.opt.x = opt.x) ∨
        (c.opt.fn ≤ opt.fc ∧ r.opt.fc = c.opt.fn)) := by
  obtain ⟨c, hc, he⟩ := TakeStep_ok env fuel opt tol errn r h
  obtain ⟨⟨ex, _, efc, _⟩, _⟩ := TakeStep_candidate_ok env fuel opt errn c hc
  obtain ⟨_, hv⟩ := TakeStep_exit_value env c r he
  rw [efc, ex] at hv
  refine ⟨?_, c, hc, hv⟩
  rcases hv with ⟨_, h1, _⟩ | ⟨h1, h2⟩
  · rw [h1]
  · rw [h2]; exact h1

/-- A call of `TakeStep` that returns keeps a trust radius in `[MIN_TRUST, MAX_TRUST]`
there. -/
theorem TakeStep_trust_band (env : OPTENV K) (fuel : Nat) (opt : OPTOBJ K) (tol : K)
    (errn : Nat) (r : STEPRESULT K) (h : TakeStep env fuel opt tol errn = .ok r)
    (hlo : MIN_TRUST ≤ opt.trust) (hhi : opt.trust ≤ MAX_TRUST) :
    MIN_TRUST ≤ r.opt.trust ∧ r.opt.trust ≤ MAX_TRUST := by
  obtain ⟨c, hc, he⟩ := TakeStep_ok env fuel opt tol errn r h
  obtain ⟨htr, _⟩ := TakeStep_exit_value env c r he
  obtain ⟨st, newbound, norm, m, opt2, _, hstep, hopt⟩ :=
    TakeStep_candidate_parts env fuel opt errn c hc
  have hcases : opt2.trust = opt.trust ∨ opt2.trust = max (opt.trust / 2) MIN_TRUST
      ∨ opt2.trust = min (2 * opt.trust) MAX_TRUST := by
    by_cases hm : m ≤ 1
    · rw [if_pos hm] at hstep
      rcases (boundaryStep_trust env _ m opt2 c.evals hstep).2 with h2 | h2
      · exact Or.inl h2.1
      · exact Or.inr (Or.inl h2)
    · rw [if_neg hm] at hstep
      rcases (newtonStep_trust env _ opt2 c.evals hstep).2 with h2 | h2
      · exact Or.inr (Or.inl h2.1)
      · exact Or.inr (Or.inr h2.1)
  rw [htr, hopt]
  have hmin : (0 : K) < MIN_TRUST := by unfold MIN_TRUST; norm_num
  have hmm : (MIN_TRUST : K) ≤ MAX_TRUST := by unfold MIN_TRUST MAX_TRUST; norm_num
  have hp : 0 < opt.trust := lt_of_lt_of_le hmin hlo
  rcases hcases with h1 | h1 | h1
  · rw [h1]; exact ⟨hlo, hhi⟩
  · rw [h1]
    exact ⟨le_max_right _ _, max_le (le_trans (by linarith) hhi) hmm⟩
  · rw [h1]
    exact ⟨le_min (by linarith) hmm, min_le_right _ _⟩

/-- The body of the inner loop of `Optimize` changes the trust radius only in `TakeStep`. -/
theorem Optimize_step_trust (env : OPTENV K) (fuel : Nat) (st st1 : OPTRUN K)
    (h : Optimize_step env fuel st = .ok st1)
    (hb : MIN_TRUST ≤ st.opt.trust ∧ st.opt.trust ≤ MAX_TRUST) :
    MIN_TRUST ≤ st1.opt.trust ∧ st1.opt.trust ≤ MAX_TRUST := by
  unfold Optimize_step at h
  cases ht : TakeStep env fuel st.opt Optimize_tol 0 with
  | error e => rw [ht] at h; cases h
  | ok r =>
    rw [ht] at h
    have hr := TakeStep_trust_band env fuel st.opt Optimize_tol 0 r ht hb.1 hb.2
    simp only at h
    split at h
    · cases hsd : SteepestDescentStep env r.opt with
      | error e => rw [hsd] at h; cases h
      | ok p =>
        obtain ⟨fnew, o⟩ := p
        rw [hsd] at h
        simp only at h
        have ho : o.trust = r.opt.trust := by
          unfold SteepestDescentStep at hsd
          simp only at hsd
          split at hsd
          · cases hsd
          · simp only [Except.ok.injEq, Prod.mk.injEq] at hsd
            rw [← hsd.2]
        split at h
        · cases h
        · simp only [Except.ok.injEq] at h
          rw [← h]
          show MIN_TRUST ≤ o.trust ∧ o.trust ≤ MAX_TRUST
          rw [ho]
          exact hr
    · simp only [Except.ok.injEq] at h
      rw [← h]
      exact hr

/-- The inner loop of `Optimize` keeps the trust radius in `[MIN_TRUST, MAX_TRUST]`. -/
theorem Optimize_innerRun_trust (env : OPTENV K) (fuel : Nat) :
    ∀ (k : Nat) (st st1 : OPTRUN K) (b : Bool),
      Optimize_innerRun env fuel k st = .ok (st1, b) →
      (MIN_TRUST ≤ st.opt.trust ∧ st.opt.trust ≤ MAX_TRUST) →
      MIN_TRUST ≤ st1.opt.trust ∧ st1.opt.trust ≤ MAX_TRUST
  | 0, st, st1, b, h, hb => by
    simp only [Optimize_innerRun, Except.ok.injEq, Prod.mk.injEq] at h
    rw [← h.1]
    exact hb
  | k + 1, st, st1, b, h, hb => by
    unfold Optimize_innerRun at h
    cases hs : Optimize_step env fuel st with
    | error e => rw [hs] at h; cases h
    | ok st2 =>
      rw [hs] at h
      have h2 := Optimize_step_trust env fuel st st2 hs hb
      by_cases hc : Optimize_stepAgain st2
      · simp only [hc, if_true] at h
        exact Optimize_innerRun_trust env fuel k st2 st1 b h h2
      · simp only [hc, if_false, Except.ok.injEq, Prod.mk.injEq] at h
        rw [← h.1]
        exact h2

/-- The outer loop of `Optimize` keeps the trust radius in `[MIN_TRUST, MAX_TRUST]`. -/
theorem Optimize_outer_trust (env : OPTENV K) (fuel inner : Nat) :
    ∀ (outer : Nat) (st r : OPTRUN K), Optimize_outer env fuel inner outer st = .ok r →
      (MIN_TRUST ≤ st.opt.trust ∧ st.opt.trust ≤ MAX_TRUST) →
      MIN_TRUST ≤ r.opt.trust ∧ r.opt.trust ≤ MAX_TRUST
  | 0, st, r, h, _ => by cases h
  | outer + 1, st, r, h, hb => by
    unfold Optimize_outer at h
    cases hs : Optimize_restart env fuel inner st with
    | error e => rw [hs] at h; cases h
    | ok st1 =>
      rw [hs] at h
      have h1 : MIN_TRUST ≤ st1.opt.trust ∧ st1.opt.trust ≤ MAX_TRUST := by
        unfold Optimize_restart at hs
        cases hi : Optimize_inner env fuel inner
            { st with fo := st.opt.fc, opt := InitializeH st.opt, fact := 1 } with
        | error e => rw [hi] at hs; cases hs
        | ok st2 =>
          rw [hi] at hs
          simp only [Except.ok.injEq] at hs
          rw [← hs]
          show MIN_TRUST ≤ st2.opt.trust ∧ st2.opt.trust ≤ MAX_TRUST
          unfold Optimize_inner at hi
          cases hr : Optimize_innerRun env fuel inner
              { st with fo := st.opt.fc, opt := InitializeH st.opt, fact := 1 } with
          | error e => rw [hr] at hi; cases hi
          | ok p =>
            obtain ⟨st3, b⟩ := p
            rw [hr] at hi
            cases b with
            | true => cases hi
            | false =>
              simp only [Except.ok.injEq] at hi
              rw [← hi]
              exact Optimize_innerRun_trust env fuel inner _ st3 false hr hb
      by_cases hc : Optimize_restartAgain st1
      · simp only [hc, if_true] at h
        exact Optimize_outer_trust env fuel inner outer st1 r h h1
      · simp only [hc, if_false, Except.ok.injEq] at h
        rw [← h]
        exact h1

/-- On return of `Optimize` the trust radius is in `[MIN_TRUST, MAX_TRUST]`. -/
theorem Optimize_trust (env : OPTENV K) (mem : OPTOBJ K) (fuel inner outer : Nat)
    (x : Nat → K) (n : Nat) (fx : K) (bd : Nat → K) (out : OPTOUT K) (st : OPTRUN K)
    (h : Optimize env mem fuel inner outer x n fx bd = .ok out) (hrun : out.run = some st) :
    MIN_TRUST ≤ st.opt.trust ∧ st.opt.trust ≤ MAX_TRUST := by
  unfold Optimize at h
  cases hn : NewOpt mem n with
  | none =>
    rw [hn] at h
    simp only [Except.ok.injEq] at h
    rw [← h] at hrun
    cases hrun
  | some opt0 =>
    rw [hn] at h
    simp only at h
    cases ho : Optimize_outer env fuel inner outer
        (Optimize_start (InitializeOpt env opt0 x n fx bd)) with
    | error e => rw [ho] at h; cases h
    | ok r =>
      rw [ho] at h
      simp only [Except.ok.injEq] at h
      rw [← h] at hrun
      unfold Optimize_finish at hrun
      simp only [Option.some.injEq] at hrun
      rw [← hrun]
      show MIN_TRUST ≤ r.opt.trust ∧ r.opt.trust ≤ MAX_TRUST
      apply Optimize_outer_trust env fuel inner outer _ r ho
      show MIN_TRUST ≤ opt0.trust ∧ opt0.trust ≤ MAX_TRUST
      unfold NewOpt at hn
      by_cases h1 : n < 1
      · rw [if_pos h1] at hn; cases hn
      · rw [if_neg h1] at hn
        simp only [Option.some.injEq] at hn
        rw [← hn]
        constructor
        · show (MIN_TRUST : K) ≤ 1 / 10
          unfold MIN_TRUST; norm_num
        · show (1 / 10 : K) ≤ MAX_TRUST
          unfold MAX_TRUST; norm_num

/-- The branch `maxfactor <= 1.0` passes the objective only points `x + t * direct` with
`t = maxfactor` or `t = maxfactor * (1 - BOUND_TOL)`; it either accepts the point on the
boundary, leaving the trust radius alone, or runs the line search along `direct` on
`[0, maxfactor]` and halves the radius. -/
theorem boundaryStep_points (env : OPTENV K) (opt : OPTOBJ K) (m : K) (opt2 : OPTOBJ K)
    (evals : List (Nat → K)) (h : boundaryStep env opt m = .ok (opt2, evals)) (hm : m ≤ 1) :
    (∀ p, p ∈ evals → ∃ t, (t = m ∨ t = m * (1 - BOUND_TOL)) ∧ t ≤ 1 ∧
      ∀ i, i < opt.n → p i = (opt.x i + opt.direct i * t) * opt.scale i) ∧
    ((opt2.trust = opt.trust ∧ opt2.fn ≤ opt.fc) ∨
      (opt2.trust = max (opt.trust / 2) MIN_TRUST ∧
        ∃ (xn0 : Nat → K) (nev : Nat),
          opt2.fn = (env.linemin_backtrack (fWrap env opt.scale) opt.n (copyN opt.n opt.x xn0)
            opt.direct 0 m (1 / 10 ^ 5) 0 nev).value ∧
          opt2.xn = (env.linemin_backtrack (fWrap env opt.scale) opt.n (copyN opt.n opt.x xn0)
            opt.direct 0 m (1 / 10 ^ 5) 0 nev).xn)) := by
  have hnear : m * (1 - BOUND_TOL) ≤ 1 := by
    have hb0 : (0 : K) ≤ 1 - BOUND_TOL := by unfold BOUND_TOL; norm_num
    have hb1 : (1 : K) - BOUND_TOL ≤ 1 := by unfold BOUND_TOL; norm_num
    calc m * (1 - BOUND_TOL) ≤ 1 * (1 - BOUND_TOL) := mul_le_mul_of_nonneg_right hm hb0
      _ ≤ 1 := by rw [one_mul]; exact hb1
  unfold boundaryStep at h
  cases h1 : ScaledStep m opt.x opt.xn opt.direct opt.onbound opt.n with
  | error e => rw [h1] at h; cases h
  | ok xb =>
    rw [h1] at h
    simp only at h
    have hxb := ScaledStep_ok _ _ _ _ _ _ _ h1
    have pxb : ∃ t, (t = m ∨ t = m * (1 - BOUND_TOL)) ∧ t ≤ 1 ∧
        ∀ i, i < opt.n → (fun i => xb i * opt.scale i) i
          = (opt.x i + opt.direct i * t) * opt.scale i := by
      refine ⟨m, Or.inl rfl, hm, fun i hi => ?_⟩
      rw [hxb]
      simp only [hi, if_true]
    by_cases hf : fWrap env opt.scale xb ≤ opt.fc
    · rw [if_pos hf] at h
      cases h2 : ScaledStep (m * (1 - BOUND_TOL)) opt.x xb opt.direct opt.onbound opt.n with
      | error e => rw [h2] at h; cases h
      | ok xnear =>
        rw [h2] at h
        simp only at h
        have hxn := ScaledStep_ok _ _ _ _ _ _ _ h2
        have pxn : ∃ t, (t = m ∨ t = m * (1 - BOUND_TOL)) ∧ t ≤ 1 ∧
            ∀ i, i < opt.n → (fun i => xnear i * opt.scale i) i
              = (opt.x i + opt.direct i * t) * opt.scale i := by
          refine ⟨m * (1 - BOUND_TOL), Or.inr rfl, hnear, fun i hi => ?_⟩
          rw [hxn]
          simp only [hi, if_true]
        have hpts : ∀ p, p ∈ [fun i => xnear i * opt.scale i, fun i => xb i * opt.scale i] →
            ∃ t, (t = m ∨ t = m * (1 - BOUND_TOL)) ∧ t ≤ 1 ∧
              ∀ i, i < opt.n → p i = (opt.x i + opt.direct i * t) * opt.scale i := by
          intro p hp
          simp only [List.mem_cons, List.mem_singleton, List.not_mem_nil, or_false] at hp
          rcases hp with hp | hp
          · rw [hp]; exact pxn
          · rw [hp]; exact pxb
        by_cases hg : fWrap env opt.scale xnear > fWrap env opt.scale xb
        · rw [if_pos hg] at h
          cases h3 : ScaledStep m opt.x xnear opt.direct opt.onbound opt.n with
          | error e => rw [h3] at h; cases h
          | ok xb2 =>
            rw [h3] at h
            simp only [Except.ok.injEq, Prod.mk.injEq] at h
            obtain ⟨ho, he⟩ := h
            subst ho he
            exact ⟨hpts, Or.inl ⟨rfl, hf⟩⟩
        · rw [if_neg hg] at h
          simp only [Except.ok.injEq, Prod.mk.injEq] at h
          obtain ⟨ho, he⟩ := h
          subst ho he
          exact ⟨hpts, Or.inr ⟨(lineSearchStep_trust env _ m).1, xnear, opt.neval + 2, rfl, rfl⟩⟩
    · rw [if_neg hf] at h
      simp only [Except.ok.injEq, Prod.mk.injEq] at h
      obtain ⟨ho, he⟩ := h
      subst ho he
      refine ⟨?_, Or.inr ⟨(lineSearchStep_trust env _ m).1, xb, opt.neval + 1, rfl, rfl⟩⟩
      intro p hp
      simp only [List.mem_singleton] at hp
      rw [hp]; exact pxb

/-- The branch `maxfactor > 1.0` passes the objective the point `x + direct` only; it
either runs the line search along `direct` on `[0, 1]` and halves the trust radius, or
accepts the point and doubles the radius. -/
theorem newtonStep_points (env : OPTENV K) (opt : OPTOBJ K) (opt2 : OPTOBJ K)
    (evals : List (Nat → K)) (h : newtonStep env opt = .ok (opt2, evals)) :
    (∀ p, p ∈ evals →
      ∀ i, i < opt.n → p i = (opt.x i + opt.direct i * 1) * opt.scale i) ∧
    ((opt2.trust = max (opt.trust / 2) MIN_TRUST ∧
        ∃ (xn0 : Nat → K) (nev : Nat),
          opt2.fn = (env.linemin_backtrack (fWrap env opt.scale) opt.n (copyN opt.n opt.x xn0)
            opt.direct 0 1 (1 / 10 ^ 5) 0 nev).value ∧
          opt2.xn = (env.linemin_backtrack (fWrap env opt.scale) opt.n (copyN opt.n opt.x xn0)
            opt.direct 0 1 (1 / 10 ^ 5) 0 nev).xn) ∨
      (opt2.trust = min (2 * opt.trust) MAX_TRUST ∧ opt2.fn ≤ opt.fc)) := by
  unfold newtonStep at h
  cases h1 : ScaledStep 1 opt.x opt.xn opt.direct opt.onbound opt.n with
  | error e => rw [h1] at h; cases h
  | ok xf =>
    rw [h1] at h
    simp only at h
    have hxf := ScaledStep_ok _ _ _ _ _ _ _ h1
    have pxf : ∀ p, p ∈ [fun i => xf i * opt.scale i] →
        ∀ i, i < opt.n → p i = (opt.x i + opt.direct i * 1) * opt.scale i := by
      intro p hp i hi
      simp only [List.mem_singleton] at hp
      rw [hp, hxf]
      simp only [hi, if_true]
    by_cases hw : opt.fc < fWrap env opt.scale xf
    · rw [if_pos hw] at h
      simp only [Except.ok.injEq, Prod.mk.injEq] at h
      obtain ⟨ho, he⟩ := h
      subst ho he
      exact ⟨pxf, Or.inl ⟨(lineSearchStep_trust env _ 1).1, xf, opt.neval + 1, rfl, rfl⟩⟩
    · rw [if_neg hw] at h
      simp only [Except.ok.injEq, Prod.mk.injEq] at h
      obtain ⟨ho, he⟩ := h
      subst ho he
      refine ⟨pxf, Or.inr ⟨?_, not_lt.mp hw⟩⟩
      show (if 2 * opt.trust ≥ MAX_TRUST then MAX_TRUST else 2 * opt.trust)
        = min (2 * opt.trust) MAX_TRUST
      by_cases hc : 2 * opt.trust ≥ MAX_TRUST
      · simp only [hc, if_true]
        exact (min_eq_right hc).symm
      · simp only [hc, if_false]
        exact (min_eq_left (le_of_lt (not_le.mp hc))).symm

/-- The parts of a call of `TakeStep` that reaches its label `optexit`, with the factor
that `TrimAtBoundaries` returned for the scaled direction. -/
theorem TakeStep_candidate_steps (env : OPTENV K) (fuel : Nat) (opt : OPTOBJ K) (errn : Nat)
    (c : CANDIDATE K) (h : TakeStep_candidate env fuel opt errn = .ok c) :
    ∃ (st : ACTIVESET K) (newbound : Nat) (norm m : K) (opt2 : OPTOBJ K),
      activeSetLoop env opt.x opt.dx opt.scale opt.lb opt.ub opt.n fuel
        { direct := opt.direct, InvHess := opt.H, onbound := opt.onbound, nremoved := 0,
          errn := errn } 0 = .ok (st, newbound, norm) ∧
      TrimAtBoundaries opt.x
        (if norm > opt.trust then scale_vector st.direct opt.n (opt.trust / norm) else st.direct)
        opt.scale opt.n opt.lb opt.ub st.onbound = .ok m ∧
      (if m ≤ 1 then
          boundaryStep env
            { opt with
              direct := if norm > opt.trust then
                  scale_vector st.direct opt.n (opt.trust / norm) else st.direct
              H := st.InvHess, onbound := st.onbound } m
        else
          newtonStep env
            { opt with
              direct := if norm > opt.trust then
                  scale_vector st.direct opt.n (opt.trust / norm) else st.direct
              H := st.InvHess, onbound := st.onbound }) = .ok (opt2, c.evals) ∧
      c.opt = opt2 := by
  unfold TakeStep_candidate at h
  cases h1 : activeSetLoop env opt.x opt.dx opt.scale opt.lb opt.ub opt.n fuel
      { direct := opt.direct, InvHess := opt.H, onbound := opt.onbound, nremoved := 0,
        errn := errn } 0 with
  | error e => rw [h1] at h; cases h
  | ok r =>
    obtain ⟨st, newbound, norm⟩ := r
    rw [h1] at h
    simp only at h
    cases h2 : TrimAtBoundaries opt.x
        (if norm > opt.trust then scale_vector st.direct opt.n (opt.trust / norm) else st.direct)
        opt.scale opt.n opt.lb opt.ub st.onbound with
    | error e => rw [h2] at h; cases h
    | ok m =>
      rw [h2] at h
      simp only at h
      cases h3 : (if m ≤ 1 then
          boundaryStep env
            { opt with
              direct := if norm > opt.trust then
                  scale_vector st.direct opt.n (opt.trust / norm) else st.direct
              H := st.InvHess, onbound := st.onbound } m
        else
          newtonStep env
            { opt with
              direct := if norm > opt.trust then
                  scale_vector st.direct opt.n (opt.trust / norm) else st.direct
              H := st.InvHess, onbound := st.onbound }) with
      | error e => rw [h3] at h; cases h
      | ok r2 =>
        obtain ⟨opt2, evals⟩ := r2
        rw [h3] at h
        simp only [Except.ok.injEq] at h
        subst h
        exact ⟨st, newbound, norm, m, opt2, rfl, h2, h3, rfl⟩

/-- C35: a call of `TakeStep` that returns leaves the trust radius unchanged (the point on
the boundary was accepted, with a value of at most `fc`), or `max(trust/2, MIN_TRUST)`
(a line search was run), or `min(2*trust, MAX_TRUST)` (the full Newton step was
feasible and its value is at most `fc`); a radius in `[MIN_TRUST, MAX_TRUST]`, such as
the 0.1 that `NewOpt` sets, stays there, and so the radius is in that interval when
`Optimize` returns.  The direction of the step is the array `direct` that the call holds
at its label `optexit`: the direction of the active-set loop, multiplied by `trust / norm`
when `norm > trust`.  Every point the call passes to the objective is
`x + t * direct` (times `scale`) with `t` the factor of `TrimAtBoundaries`, that factor
times `1 - BOUND_TOL`, or 1, and `t <= 1`; the line search is called with this `direct`
on `[0, hi]`, `hi <= 1`; and the sum of squares of `direct` is at most `trust^2`, for
the radius at the start of the call, when `sqrt` does not return less than the square
root. -/
theorem TakeStep_trust_radius (env : OPTENV K) (fuel : Nat) (opt : OPTOBJ K) (tol : K)
    (errn : Nat) (r : STEPRESULT K) (h : TakeStep env fuel opt tol errn = .ok r) :
    (∃ (c : CANDIDATE K) (st : ACTIVESET K) (newbound : Nat) (norm maxfactor : K),
      TakeStep_candidate env fuel opt errn = .ok c ∧
      activeSetLoop env opt.x opt.dx opt.scale opt.lb opt.ub opt.n fuel
        { direct := opt.direct, InvHess := opt.H, onbound := opt.onbound, nremoved := 0,
          errn := errn } 0 = .ok (st, newbound, norm) ∧
      c.opt.direct
        = (if norm > opt.trust then scale_vector st.direct opt.n (opt.trust / norm)
            else st.direct) ∧
      TrimAtBoundaries opt.x c.opt.direct opt.scale opt.n opt.lb opt.ub st.onbound
        = .ok maxfactor ∧
      ((r.opt.trust = opt.trust ∧ c.opt.fn ≤ opt.fc ∧ maxfactor ≤ 1) ∨
        (r.opt.trust = max (opt.trust / 2) MIN_TRUST ∧
          ∃ (hi : K) (xn0 : Nat → K) (nev : Nat),
            ((hi = maxfactor ∧ maxfactor ≤ 1) ∨ (hi = 1 ∧ 1 < maxfactor)) ∧
            c.opt.fn = (env.linemin_backtrack (fWrap env opt.scale) opt.n
              (copyN opt.n opt.x xn0) c.opt.direct 0 hi (1 / 10 ^ 5) 0 nev).value ∧
            c.opt.xn = (env.linemin_backtrack (fWrap env opt.scale) opt.n
              (copyN opt.n opt.x xn0) c.opt.direct 0 hi (1 / 10 ^ 5) 0 nev).xn) ∨
        (r.opt.trust = min (2 * opt.trust) MAX_TRUST ∧ c.opt.fn ≤ opt.fc ∧ 1 < maxfactor)) ∧
      (∀ p, p ∈ r.evals →
        ∃ t, (t = maxfactor ∨ t = maxfactor * (1 - BOUND_TOL) ∨ t = 1) ∧ t ≤ 1 ∧
          ∀ i, i < opt.n → p i = (opt.x i + c.opt.direct i * t) * opt.scale i) ∧
      (sqrtNotBelow env.sqrt →
        ∑ i in Finset.range opt.n, c.opt.direct i * c.opt.direct i
          ≤ opt.trust * opt.trust)) ∧
    (MIN_TRUST ≤ opt.trust → opt.trust ≤ MAX_TRUST →
      MIN_TRUST ≤ r.opt.trust ∧ r.opt.trust ≤ MAX_TRUST) ∧
    (∀ (mem : OPTOBJ K) (n : Nat) (o : OPTOBJ K), NewOpt mem n = some o →
      o.trust = 1 / 10 ∧ MIN_TRUST ≤ o.trust ∧ o.trust ≤ MAX_TRUST) ∧
    (∀ (mem : OPTOBJ K) (inner outer : Nat) (x0 : Nat → K) (n0 : Nat) (fx : K) (bd : Nat → K)
      (out : OPTOUT K) (run : OPTRUN K),
      Optimize env mem fuel inner outer x0 n0 fx bd = .ok out → out.run = some run →
      MIN_TRUST ≤ run.opt.trust ∧ run.opt.trust ≤ MAX_TRUST) := by
  obtain ⟨c, hc, he⟩ := TakeStep_ok env fuel opt tol errn r h
  obtain ⟨htr, _⟩ := TakeStep_exit_value env c r he
  obtain ⟨_, _, _, hev, _⟩ := TakeStep_exit_ok env c r he
  obtain ⟨st, newbound, norm, m, opt2, hloop, htrim, hstep, hopt⟩ :=
    TakeStep_candidate_steps env fuel opt errn c hc
  have hdir : opt2.direct
      = (if norm > opt.trust then scale_vector st.direct opt.n (opt.trust / norm)
          else st.direct) := by
    by_cases hm : m ≤ 1
    · rw [if_pos hm] at hstep
      exact (boundaryStep_trust env _ m opt2 c.evals hstep).1
    · rw [if_neg hm] at hstep
      exact (newtonStep_trust env _ opt2 c.evals hstep).1
  subst hopt
  refine ⟨⟨c, st, newbound, norm, m, hc, hloop, hdir, ?_, ?_, ?_, ?_⟩,
    TakeStep_trust_band env fuel opt tol errn r h, ?_,
    fun mem inner outer x0 n0 fx bd out run ho hr =>
      Optimize_trust env mem fuel inner outer x0 n0 fx bd out run ho hr⟩
  · rw [hdir]; exact htrim
  · rw [htr, hdir]
    by_cases hm : m ≤ 1
    · rw [if_pos hm] at hstep
      rcases (boundaryStep_points env _ m c.opt c.evals hstep hm).2
        with h2 | ⟨h2, xn0, nev, h3, h4⟩
      · exact Or.inl ⟨h2.1, h2.2, hm⟩
      · exact Or.inr (Or.inl ⟨h2, m, xn0, nev, Or.inl ⟨rfl, hm⟩, h3, h4⟩)
    · rw [if_neg hm] at hstep
      rcases (newtonStep_points env _ c.opt c.evals hstep).2 with ⟨h2, xn0, nev, h3, h4⟩ | h2
      · exact Or.inr (Or.inl ⟨h2, 1, xn0, nev, Or.inr ⟨rfl, not_le.mp hm⟩, h3, h4⟩)
      · exact Or.inr (Or.inr ⟨h2.1, h2.2, not_le.mp hm⟩)
  · intro p hp
    rw [hev] at hp
    rw [hdir]
    by_cases hm : m ≤ 1
    · rw [if_pos hm] at hstep
      obtain ⟨t, ht, ht1, hpt⟩ := (boundaryStep_points env _ m c.opt c.evals hstep hm).1 p hp
      refine ⟨t, ?_, ht1, hpt⟩
      rcases ht with ht | ht
      · exact Or.inl ht
      · exact Or.inr (Or.inl ht)
    · rw [if_neg hm] at hstep
      exact ⟨1, Or.inr (Or.inr rfl), le_refl 1,
        (newtonStep_points env _ c.opt c.evals hstep).1 p hp⟩
  · intro hs
    obtain ⟨d, hnorm, hd⟩ := activeSetLoop_norm env _ _ _ _ _ _ _ _ _ _ hloop
    have := scaled_direction_norm env.sqrt hs opt.n d st.direct opt.trust hd
    rw [← hnorm] at this
    rw [hdir]
    exact this
  · intro mem n o ho
    unfold NewOpt at ho
    by_cases hn : n < 1
    · rw [if_pos hn] at ho; cases ho
    · rw [if_neg hn] at ho
      simp only [Option.some.injEq] at ho
      rw [← ho]
      refine ⟨rfl, ?_, ?_⟩
      · show (MIN_TRUST : K) ≤ 1 / 10
        unfold MIN_TRUST; norm_num
      · show (1 / 10 : K) ≤ MAX_TRUST
        unfold MAX_TRUST; norm_num

end trust

section trust_runs

/-- The stand-in `sqrtStandIn` never returns less than the square root. -/
theorem sqrtStandIn_notBelow : sqrtNotBelow sqrtStandIn := by
  intro v hv
  unfold sqrtStandIn
  by_cases h0 : v = 0
  · simp only [h0, if_true]; norm_num
  · by_cases h1 : v = 1
    · simp only [h1, if_true]; norm_num
    · by_cases h4 : v = 4
      · simp only [h4, if_true]; norm_num
      · by_cases h6 : v = 6084
        · simp only [h6, if_true]; norm_num
        · simp only [h0, h1, h4, h6, if_false]
          constructor
          · linarith
          · nlinarith [sq_nonneg (v - 1)]

set_option maxRecDepth 1000000 in
/-- Witness for C36: from `x = 1/10` the Newton step to `1/5` is accepted and `fc` falls
from `1521/100` to `841/100`; from `x = 1/2` the step fails and `fc`, `x` stay. -/
theorem TakeStep_never_increases_witness :
    isOk (TakeStep quadEnv 1 (quadOpt (1 / 10)) 0 0) = true ∧
    (okValue noResult (TakeStep quadEnv 1 (quadOpt (1 / 10)) 0 0)).opt.fc
      ≤ (quadOpt (1 / 10)).fc ∧
    (quadOpt (1 / 10)).fc = 1521 / 100 ∧
    (okValue noResult (TakeStep quadEnv 1 (quadOpt (1 / 10)) 0 0)).opt.fc = 841 / 100 ∧
    isOk (TakeStep quadEnv 1 (quadOpt (1 / 2)) 0 0) = true ∧
    (okValue noResult (TakeStep quadEnv 1 (quadOpt (1 / 2)) 0 0)).opt.fc
      ≤ (quadOpt (1 / 2)).fc ∧
    (okValue noResult (TakeStep quadEnv 1 (quadOpt (1 / 2)) 0 0)).opt.fc = 1 / 100 ∧
    (okValue noResult (TakeStep quadEnv 1 (quadOpt (1 / 2)) 0 0)).opt.x 0 = 1 / 2 :=
  have hok : isOk (TakeStep quadEnv 1 (quadOpt (1 / 10)) 0 0) = true := by decide!
  have hok2 : isOk (TakeStep quadEnv 1 (quadOpt (1 / 2)) 0 0) = true := by decide!
  ⟨hok,
   (TakeStep_never_increases quadEnv 1 (quadOpt (1 / 10)) 0 0 _
      (eq_ok_okValue noResult _ hok)).1,
   by decide!, by decide!, hok2,
   (TakeStep_never_increases quadEnv 1 (quadOpt (1 / 2)) 0 0 _
      (eq_ok_okValue noResult _ hok2)).1,
   by decide!, by decide!⟩

set_option maxRecDepth 1000000 in
/-- Witness for C35: the exact square root over the reals and the stand-in over the
rationals both meet the hypothesis on `sqrt`; from `x = 1/10` with radius `1/10` the
accepted Newton step doubles the radius to `1/5`, from `x = 1/2` the line search
halves it to `1/20`; the direction of the first call is the Newton direction 78 multiplied by
`trust / norm = (1/10) / 78`, which is `1/10`; its square is `trust^2 = 1/100`, and the
one point passed to the objective is `x + direct = 1/5`. -/
theorem TakeStep_trust_radius_witness :
    sqrtNotBelow Real.sqrt ∧ sqrtNotBelow quadEnv.sqrt ∧
    isOk (TakeStep quadEnv 1 (quadOpt (1 / 10)) 0 0) = true ∧
    (MIN_TRUST ≤ (quadOpt (1 / 10)).trust ∧ (quadOpt (1 / 10)).trust ≤ MAX_TRUST) ∧
    (MIN_TRUST ≤ (okValue noResult (TakeStep quadEnv 1 (quadOpt (1 / 10)) 0 0)).opt.trust ∧
      (okValue noResult (TakeStep quadEnv 1 (quadOpt (1 / 10)) 0 0)).opt.trust ≤ MAX_TRUST) ∧
    (okValue noResult (TakeStep quadEnv 1 (quadOpt (1 / 10)) 0 0)).opt.trust = 1 / 5 ∧
    (okValue noResult (TakeStep quadEnv 1 (quadOpt (1 / 2)) 0 0)).opt.trust = 1 / 20 ∧
    (∃ c : CANDIDATE ℚ, TakeStep_candidate quadEnv 1 (quadOpt (1 / 10)) 0 = .ok c ∧
      ∑ i in Finset.range (quadOpt (1 / 10)).n, c.opt.direct i * c.opt.direct i
        ≤ (quadOpt (1 / 10)).trust * (quadOpt (1 / 10)).trust ∧
      ∀ p, p ∈ (okValue noResult (TakeStep quadEnv 1 (quadOpt (1 / 10)) 0 0)).evals →
        ∃ t, t ≤ 1 ∧ ∀ i, i < (quadOpt (1 / 10)).n →
          p i = ((quadOpt (1 / 10)).x i + c.opt.direct i * t) * (quadOpt (1 / 10)).scale i) ∧
    (okValue noCandidate (TakeStep_candidate quadEnv 1 (quadOpt (1 / 10)) 0)).opt.direct 0
      = 1 / 10 :=
  have hok : isOk (TakeStep quadEnv 1 (quadOpt (1 / 10)) 0 0) = true := by decide!
  have hlo : MIN_TRUST ≤ (quadOpt (1 / 10)).trust := by decide!
  have hhi : (quadOpt (1 / 10)).trust ≤ MAX_TRUST := by decide!
  have h := TakeStep_trust_radius quadEnv 1 (quadOpt (1 / 10)) 0 0 _
    (eq_ok_okValue noResult _ hok)
  ⟨fun v hv => ⟨Real.sqrt_nonneg v, le_of_eq (Real.mul_self_sqrt hv).symm⟩,
   sqrtStandIn_notBelow, hok, ⟨hlo, hhi⟩, h.2.1 hlo hhi, by decide!, by decide!,
   (match h.1 with
    | ⟨c, _, _, _, _, hc, _, _, _, _, hp, hn⟩ =>
      ⟨c, hc, hn sqrtStandIn_notBelow,
        fun p hm => match hp p hm with | ⟨t, _, ht, hpt⟩ => ⟨t, ht, hpt⟩⟩),
   by decide!⟩

end trust_runs

section parameter_vector

variable {K : Type} [LinearOrderedField K]

/-- The loop that stores the branch lengths keeps the number of entries. -/
theorem forLoop_set_length {α : Type} (k : Nat) (g : Nat → α) (x : List α) :
    (forLoop k (fun bran x => x.set bran (g bran)) x).length = x.length := by
  induction k with
  | zero => simp [forLoop]
  | succ k ih => simp [forLoop, ih]

/-- The array that `main` builds has `nparam` entries. -/
theorem main_x_length (branopt : model_branches) (nbr : Nat) (blength : Nat → K)
    (kappa0 omega0 : K) :
    (main_x branopt nbr blength kappa0 omega0).length = main_nparam branopt nbr := by
  unfold main_x
  cases branopt <;> simp [forLoop_set_length]

/-- C40 fails on the code: `OptimizeTree` reads `x[nbr]` and `x[nbr + 1]` for every branch
option, while `main` stores kappa and omega at `offset` and `offset + 1`.  With variable
branches `offset = nbr` and the reads return what `main` stored.  With fixed branches
`x` has 2 entries and `offset = 0`: for every tree with at least one branch the read
`x[nbr + 1]` is outside the array, and with one branch `x[nbr]` is the entry of omega.
With proportional branches `x` has 3 entries and `offset = 1`: for at least two
branches the read `x[nbr + 1]` is outside the array. -/
theorem OptimizeTree_initial_reads_nbr :
    (∀ (nbr : Nat) (blength : Nat → ℚ) (kappa0 omega0 : ℚ),
      OptimizeTree_initial (main_x .Branches_Variable nbr blength kappa0 omega0) nbr
        = some (kappa0, omega0) ∧ main_offset .Branches_Variable nbr = nbr) ∧
    (∀ (nbr : Nat) (blength : Nat → ℚ) (kappa0 omega0 : ℚ),
      main_nparam .Branches_Fixed (nbr + 1) = 2 ∧
      main_offset .Branches_Fixed (nbr + 1) = 0 ∧
      ¬ (nbr + 1) + 1 < main_nparam .Branches_Fixed (nbr + 1) ∧
      OptimizeTree_initial (main_x .Branches_Fixed (nbr + 1) blength kappa0 omega0) (nbr + 1)
        = none) ∧
    (∀ (nbr : Nat) (blength : Nat → ℚ) (kappa0 omega0 : ℚ),
      main_nparam .Branches_Proportional (nbr + 2) = 3 ∧
      main_offset .Branches_Proportional (nbr + 2) = 1 ∧
      ¬ (nbr + 2) + 1 < main_nparam .Branches_Proportional (nbr + 2) ∧
      OptimizeTree_initial (main_x .Branches_Proportional (nbr + 2) blength kappa0 omega0)
        (nbr + 2) = none) ∧
    (main_x .Branches_Fixed 1 (fun _ => (1 : ℚ)) 2 (1 / 5)).get? 1 = some (1 / 5) ∧
    (main_x .Branches_Fixed 1 (fun _ => (1 : ℚ)) 2 (1 / 5)).get? 2 = none ∧
    main_x .Branches_Proportional 2 (fun _ => (1 : ℚ)) 2 (1 / 5) = [1, 2, 1 / 5] ∧
    OptimizeTree_initial (main_x .Branches_Proportional 2 (fun _ => (1 : ℚ)) 2 (1 / 5)) 2
      = none := by
  refine ⟨?_, ?_, ?_, by decide!, by decide!, by decide!, by decide!⟩
  · intro nbr blength kappa0 omega0
    have hlen := main_x_length .Branches_Variable nbr blength kappa0 omega0
    refine ⟨?_, by simp [main_offset]⟩
    have hk : (main_x .Branches_Variable nbr blength kappa0 omega0).get? (nbr + 0)
        = some kappa0 := by
      unfold main_x
      simp [main_offset, main_nparam, forLoop_set_length]
    have hw : (main_x .Branches_Variable nbr blength kappa0 omega0).get? (nbr + 1)
        = some omega0 := by
      unfold main_x
      simp only [main_offset, main_nparam, if_true, Nat.zero_add, List.get?_eq_getElem?]
      rw [List.getElem?_set_self]
      simp only [List.length_set, forLoop_set_length, List.length_replicate]
      simp
      omega
    unfold OptimizeTree_initial
    rw [hk, hw]
  · intro nbr blength kappa0 omega0
    have hlen := main_x_length .Branches_Fixed (nbr + 1) blength kappa0 omega0
    have hn : main_nparam .Branches_Fixed (nbr + 1) = 2 := by simp [main_nparam]
    refine ⟨hn, by simp [main_offset], by rw [hn]; omega, ?_⟩
    have h2 : (main_x .Branches_Fixed (nbr + 1) blength kappa0 omega0).get? (nbr + 1 + 1)
        = none := by
      rw [List.get?_eq_none]
      rw [hlen, hn]
      omega
    unfold OptimizeTree_initial
    rw [h2]
    cases (main_x .Branches_Fixed (nbr + 1) blength kappa0 omega0).get? (nbr + 1 + 0) <;> rfl
  · intro nbr blength kappa0 omega0
    have hlen := main_x_length .Branches_Proportional (nbr + 2) blength kappa0 omega0
    have hn : main_nparam .Branches_Proportional (nbr + 2) = 3 := by simp [main_nparam]
    refine ⟨hn, by simp [main_offset], by rw [hn]; omega, ?_⟩
    have h2 : (main_x .Branches_Proportional (nbr + 2) blength kappa0 omega0).get? (nbr + 2 + 1)
        = none := by
      rw [List.get?_eq_none]
      rw [hlen, hn]
      omega
    unfold OptimizeTree_initial
    rw [h2]
    cases (main_x .Branches_Proportional (nbr + 2) blength kappa0 omega0).get? (nbr + 2 + 0)
      <;> rfl

end parameter_vector

section flat_matrices
variable {K : Type} [LinearOrderedField K]

/-- Row-major indices of an `n` by `n` matrix determine the row and the column. -/
theorem flat_index_inj (n a b c d : Nat) (hb : b < n) (hd : d < n)
    (h : a * n + b = c * n + d) : a = c ∧ b = d := by
  have hn : 0 < n := lt_of_le_of_lt (Nat.zero_le b) hb
  have h1 : (a * n + b) / n = a := by
    rw [Nat.mul_comm, Nat.mul_add_div hn, Nat.div_eq_of_lt hb, Nat.add_zero]
  have h2 : (c * n + d) / n = c := by
    rw [Nat.mul_comm, Nat.mul_add_div hn, Nat.div_eq_of_lt hd, Nat.add_zero]
  have hac : a = c := by rw [← h1, ← h2, h]
  subst hac
  exact ⟨rfl, Nat.add_left_cancel h⟩

/-- An update at the entry `(c, d)` read at the entry `(a, b)`. -/
theorem update_flat {α : Type} (n a b c d : Nat) (hb : b < n) (hd : d < n) (H : Nat → α)
    (v : α) :
    Function.update H (c * n + d) v (a * n + b) = if a = c ∧ b = d then v else H (a * n + b) := by
  by_cases h : a = c ∧ b = d
  · rw [if_pos h, h.1, h.2, Function.update_same]
  · rw [if_neg h, Function.update_noteq]
    intro he
    exact h (flat_index_inj n a b c d hb hd he)

/-- The inner loop of `Rescale` for the index `i`, run for `k` iterations: the entries of
row `i` and of column `i` below `k` are divided by `s`. -/
theorem rescale_inner (n i : Nat) (s : K) (hi : i < n) (H0 : Nat → K) (k : Nat) (hk : k ≤ n) :
    ∀ a b, a < n → b < n →
    forLoop k (fun j H =>
        Function.update (Function.update H (i * n + j) (H (i * n + j) / s)) (j * n + i)
          (Function.update H (i * n + j) (H (i * n + j) / s) (j * n + i) / s)) H0 (a * n + b)
      = H0 (a * n + b) / (if a = i ∧ b < k then s else 1) / (if b = i ∧ a < k then s else 1) := by
  induction k with
  | zero => intro a b _ _; simp [forLoop]
  | succ k ih =>
    have hkn : k < n := hk
    have ih' := ih (Nat.le_of_lt hkn)
    intro a b ha hb
    simp only [forLoop]
    generalize forLoop k (fun j H =>
        Function.update (Function.update H (i * n + j) (H (i * n + j) / s)) (j * n + i)
          (Function.update H (i * n + j) (H (i * n + j) / s) (j * n + i) / s)) H0 = Hk at ih' ⊢
    rw [update_flat n a b k i hb hi, update_flat n k i i k hi hkn, update_flat n a b i k hb hkn]
    by_cases hA : a = k ∧ b = i
    · obtain ⟨hak, hbi⟩ := hA
      subst hak hbi
      by_cases hki : a = b
      · subst hki
        have e := ih' a a ha ha
        simp only [lt_irrefl, and_false, and_self, if_true, if_false, div_one] at e
        simp only [and_self, if_true, Nat.lt_succ_self, e]
      · have e := ih' a b ha hb
        simp only [hki, false_and, lt_irrefl, and_false, if_false, div_one] at e
        have hki2 : ¬ (a = b ∧ b = a) := fun h => hki h.1
        simp only [and_self, if_true, hki2, if_false, e, hki, false_and, Nat.lt_succ_self,
          and_true, div_one]
    · rw [if_neg hA]
      by_cases hB : a = i ∧ b = k
      · obtain ⟨hai, hbk⟩ := hB
        subst hai hbk
        have hne : ¬ b = a := fun h => hA ⟨h.symm, h⟩
        have e := ih' a b ha hb
        simp only [lt_irrefl, and_false, hne, false_and, if_false, div_one] at e
        simp only [and_self, if_true, e, Nat.lt_succ_self, and_true, hne, false_and, if_false,
          div_one]
      · rw [if_neg hB, ih' a b ha hb]
        have c1 : (a = i ∧ b < k + 1) ↔ (a = i ∧ b < k) := by
          constructor
          · rintro ⟨h1, h2⟩
            refine ⟨h1, ?_⟩
            rcases Nat.lt_succ_iff_lt_or_eq.mp h2 with h3 | h3
            · exact h3
            · exact absurd ⟨h1, h3⟩ hB
          · rintro ⟨h1, h2⟩
            exact ⟨h1, Nat.lt_succ_of_lt h2⟩
        have c2 : (b = i ∧ a < k + 1) ↔ (b = i ∧ a < k) := by
          constructor
          · rintro ⟨h1, h2⟩
            refine ⟨h1, ?_⟩
            rcases Nat.lt_succ_iff_lt_or_eq.mp h2 with h3 | h3
            · exact h3
            · exact absurd ⟨h3, h1⟩ hA
          · rintro ⟨h1, h2⟩
            exact ⟨h1, Nat.lt_succ_of_lt h2⟩
        simp only [c1, c2]

/-- The loop of `Rescale` run for `k` iterations, in closed form: with `s i` the factor
`scalefactOf sqrt (H[i][i])` of the diagonal entry at the call, the entry `(a, b)` is
divided by `s a` when `a < k` and by `s b` when `b < k`; `x[i]` is divided and `dx[i]`,
`scale[i]` are multiplied by `s i` for `i < k`. -/
theorem Rescale_loop_closed (sqrt : K → K) (n : Nat) (init : RESCALED K) (k : Nat)
    (hk : k ≤ n) :
    (∀ a b, a < n → b < n →
      (forLoop k (rescaleStep sqrt n) init).H (a * n + b)
        = init.H (a * n + b)
          / (if a < k then scalefactOf sqrt (init.H (a * n + a)) else 1)
          / (if b < k then scalefactOf sqrt (init.H (b * n + b)) else 1)) ∧
    (∀ i, (forLoop k (rescaleStep sqrt n) init).x i
      = if i < k then init.x i / scalefactOf sqrt (init.H (i * n + i)) else init.x i) ∧
    (∀ i, (forLoop k (rescaleStep sqrt n) init).dx i
      = if i < k then init.dx i * scalefactOf sqrt (init.H (i * n + i)) else init.dx i) ∧
    (∀ i, (forLoop k (rescaleStep sqrt n) init).scale i
      = if i < k then init.scale i * scalefactOf sqrt (init.H (i * n + i))
        else init.scale i) := by
  induction k with
  | zero =>
    refine ⟨?_, ?_, ?_, ?_⟩ <;> intros <;> simp [forLoop]
  | succ k ih =>
    have hkn : k < n := hk
    obtain ⟨ihH, ihx, ihdx, ihs⟩ := ih (Nat.le_of_lt hkn)
    have hdiag : (forLoop k (rescaleStep sqrt n) init).H (k * n + k) = init.H (k * n + k) := by
      rw [ihH k k hkn hkn]
      simp only [lt_irrefl, if_false, div_one]
    refine ⟨?_, ?_, ?_, ?_⟩
    · intro a b ha hb
      simp only [forLoop, rescaleStep]
      rw [hdiag]
      have e := rescale_inner n k (scalefactOf sqrt (init.H (k * n + k))) hkn
        (forLoop k (rescaleStep sqrt n) init).H n (le_refl n) a b ha hb
      rw [e, ihH a b ha hb]
      simp only [ha, hb, and_true]
      have p1 : ∀ c, c < n →
          (if c < k then scalefactOf sqrt (init.H (c * n + c)) else 1)
            * (if c = k then scalefactOf sqrt (init.H (k * n + k)) else 1)
          = (if c < k + 1 then scalefactOf sqrt (init.H (c * n + c)) else 1) := by
        intro c _
        rcases Nat.lt_trichotomy c k with h | h | h
        · have h1 : c ≠ k := Nat.ne_of_lt h
          have h2 : c < k + 1 := Nat.lt_succ_of_lt h
          simp only [h, h1, h2, if_true, if_false, mul_one]
        · subst h
          simp only [lt_irrefl, if_false, if_true, Nat.lt_succ_self, one_mul]
        · have h1 : ¬ c < k := Nat.not_lt.mpr (Nat.le_of_lt h)
          have h2 : c ≠ k := Nat.ne_of_gt h
          have h3 : ¬ c < k + 1 := Nat.not_lt.mpr h
          simp only [h1, h2, h3, if_false, mul_one]
      rw [← p1 a ha, ← p1 b hb]
      simp only [div_div]
      congr 1
      ring
    · intro i
      simp only [forLoop, rescaleStep]
      rw [hdiag]
      by_cases hik : i = k
      · subst hik
        rw [Function.update_same, ihx i]
        simp only [lt_irrefl, if_false, Nat.lt_succ_self, if_true]
      · rw [Function.update_noteq hik, ihx i]
        have c : i < k + 1 ↔ i < k := by
          constructor
          · intro h
            rcases Nat.lt_succ_iff_lt_or_eq.mp h with h1 | h1
            · exact h1
            · exact absurd h1 hik
          · exact Nat.lt_succ_of_lt
        simp only [c]
    · intro i
      simp only [forLoop, rescaleStep]
      rw [hdiag]
      by_cases hik : i = k
      · subst hik
        rw [Function.update_same, ihdx i]
        simp only [lt_irrefl, if_false, Nat.lt_succ_self, if_true]
      · rw [Function.update_noteq hik, ihdx i]
        have c : i < k + 1 ↔ i < k := by
          constructor
          · intro h
            rcases Nat.lt_succ_iff_lt_or_eq.mp h with h1 | h1
            · exact h1
            · exact absurd h1 hik
          · exact Nat.lt_succ_of_lt
        simp only [c]
    · intro i
      simp only [forLoop, rescaleStep]
      rw [hdiag]
      by_cases hik : i = k
      · subst hik
        rw [Function.update_same, ihs i]
        simp only [lt_irrefl, if_false, Nat.lt_succ_self, if_true]
      · rw [Function.update_noteq hik, ihs i]
        have c : i < k + 1 ↔ i < k := by
          constructor
          · intro h
            rcases Nat.lt_succ_iff_lt_or_eq.mp h with h1 | h1
            · exact h1
            · exact absurd h1 hik
          · exact Nat.lt_succ_of_lt
        simp only [c]

/-- The factor of `Rescale` is the square root clamped to `[MINSCALE, MAXSCALE]`. -/
theorem scalefactOf_clamp (sqrt : K → K) (h : K) :
    scalefactOf sqrt h = min (max (sqrt h) MINSCALE) MAXSCALE := by
  unfold scalefactOf
  have e1 : (if sqrt h > MINSCALE then sqrt h else MINSCALE) = max (sqrt h) MINSCALE := by
    by_cases c : sqrt h > MINSCALE
    · rw [if_pos c]; exact (max_eq_left (le_of_lt c)).symm
    · rw [if_neg c]; exact (max_eq_right (not_lt.mp c)).symm
  simp only [e1]
  by_cases c : max (sqrt h) MINSCALE < MAXSCALE
  · rw [if_pos c]; exact (min_eq_left (le_of_lt c)).symm
  · rw [if_neg c]; exact (min_eq_right (not_lt.mp c)).symm

/-- What `Rescale` returns, in closed form. -/
theorem Rescale_closed (sqrt : K → K) (x dx H : Nat → K) (n : Nat) (scale : Nat → K)
    (hn : 0 < n) :
    ∃ r, Rescale sqrt x dx H n scale = .ok r ∧
      (∀ i j, i < n → j < n →
        r.H (i * n + j)
          = H (i * n + j) / (scalefactOf sqrt (H (i * n + i)) * scalefactOf sqrt (H (j * n + j)))) ∧
      (∀ i, i < n →
        r.x i = x i / scalefactOf sqrt (H (i * n + i)) ∧
        r.dx i = dx i * scalefactOf sqrt (H (i * n + i)) ∧
        r.scale i = scale i * scalefactOf sqrt (H (i * n + i))) := by
  refine ⟨forLoop n (rescaleStep sqrt n) { x := x, dx := dx, H := H, scale := scale }, ?_, ?_, ?_⟩
  · unfold Rescale
    simp only [hn, not_true_eq_false, if_false]
  · intro i j hi hj
    obtain ⟨h1, _⟩ := Rescale_loop_closed sqrt n { x := x, dx := dx, H := H, scale := scale } n
      (le_refl n)
    rw [h1 i j hi hj]
    simp only [hi, hj, if_true, div_div]
  · intro i hi
    obtain ⟨_, h2, h3, h4⟩ := Rescale_loop_closed sqrt n
      { x := x, dx := dx, H := H, scale := scale } n (le_refl n)
    rw [h2 i, h3 i, h4 i]
    simp only [hi, if_true, and_self]

/-- C33: for every matrix `H` (and `n > 0`), `Rescale` returns with every entry
`H[i][j]` replaced by `H[i][j] / (s_i * s_j)`, where `s_i` is `sqrt(H[i][i])` of the
diagonal entry at the call clamped to `[MINSCALE, MAXSCALE]` (so the diagonal entry is
divided by `s_i` twice); a diagonal entry whose square root lies in the band becomes 1
(for a `sqrt` that is exact at it); and a symmetric `H` stays symmetric. -/
theorem Rescale_entries (sqrt : K → K) (x dx H : Nat → K) (n : Nat) (scale : Nat → K)
    (hn : 0 < n) :
    ∃ r, Rescale sqrt x dx H n scale = .ok r ∧
      (∀ i j, i < n → j < n →
        r.H (i * n + j)
          = H (i * n + j) / (scalefactOf sqrt (H (i * n + i)) * scalefactOf sqrt (H (j * n + j)))) ∧
      (∀ i, i < n →
        r.H (i * n + i)
          = H (i * n + i) / scalefactOf sqrt (H (i * n + i)) / scalefactOf sqrt (H (i * n + i))) ∧
      (∀ h, scalefactOf sqrt h = min (max (sqrt h) MINSCALE) MAXSCALE) ∧
      (∀ i, i < n → MINSCALE ≤ sqrt (H (i * n + i)) → sqrt (H (i * n + i)) ≤ MAXSCALE →
        sqrt (H (i * n + i)) * sqrt (H (i * n + i)) = H (i * n + i) → r.H (i * n + i) = 1) ∧
      (symmetricMat n H → symmetricMat n r.H) := by
  obtain ⟨r, hr, hH, _⟩ := Rescale_closed sqrt x dx H n scale hn
  refine ⟨r, hr, hH, ?_, scalefactOf_clamp sqrt, ?_, ?_⟩
  · intro i hi
    rw [hH i i hi hi, div_div]
  · intro i hi hlo hhi hsq
    have hs : scalefactOf sqrt (H (i * n + i)) = sqrt (H (i * n + i)) := by
      rw [scalefactOf_clamp, max_eq_left hlo, min_eq_left hhi]
    rw [hH i i hi hi, hs, hsq]
    have hpos : (0 : K) < sqrt (H (i * n + i)) := lt_of_lt_of_le MINSCALE_pos hlo
    have hne : H (i * n + i) ≠ 0 := by
      rw [← hsq]
      exact ne_of_gt (mul_pos hpos hpos)
    exact div_self hne
  · intro hsym a b ha hb
    rw [hH a b ha hb, hH b a hb ha, hsym a b ha hb,
      mul_comm (scalefactOf sqrt (H (a * n + a)))]

end flat_matrices

section flat_matrix_runs

set_option maxRecDepth 1000000 in
/-- Witness for C33: the matrix with rows `(4, 2)`, `(2, 1)` has the factors 2 and 1 and
becomes the matrix of ones. -/
theorem Rescale_entries_witness :
    (∃ r, Rescale sqrtStandIn (fun _ => 0) (fun _ => 0) fourTwoOne 2 (fun _ => 1) = .ok r ∧
      (∀ i j, i < 2 → j < 2 →
        r.H (i * 2 + j)
          = fourTwoOne (i * 2 + j) / (scalefactOf sqrtStandIn (fourTwoOne (i * 2 + i))
              * scalefactOf sqrtStandIn (fourTwoOne (j * 2 + j)))) ∧
      (symmetricMat 2 fourTwoOne → symmetricMat 2 r.H)) ∧
    scalefactOf sqrtStandIn (fourTwoOne 0) = 2 ∧
    scalefactOf sqrtStandIn (fourTwoOne 3) = 1 ∧
    (List.range 4).map (okValue noRescaled
      (Rescale sqrtStandIn (fun _ => 0) (fun _ => 0) fourTwoOne 2 (fun _ => 1))).H
      = [1, 1, 1, 1] :=
  match Rescale_entries sqrtStandIn (fun _ => 0) (fun _ => 0) fourTwoOne 2 (fun _ => 1)
    (by decide) with
  | ⟨r, h1, h2, _, _, _, h6⟩ => ⟨⟨r, h1, h2, h6⟩, by decide!, by decide!, by decide!⟩

end flat_matrix_runs

section bfgs
variable {K : Type} [LinearOrderedField K]

/-- Above the curvature threshold `UpdateH_BFGS` is `Rescale` on the corrected matrix. -/
theorem UpdateH_BFGS_eq (sqrt : K → K) (H x xn dx dxn scale : Nat → K) (n : Nat)
    (onbound : Nat → Bool) (errn : Nat)
    (hgd : curvature x xn dx dxn n onbound > 1 / 10 ^ 5) :
    UpdateH_BFGS sqrt H x xn dx dxn scale n onbound errn
      = match Rescale sqrt xn dxn (UpdateH_BFGS_corrected H x xn dx dxn n onbound) n scale with
        | .error e => .error e
        | .ok r => .ok (r, errn) := by
  have h1 : forLoop n (fun i gd =>
        if onbound i = false then gd + (dxn i - dx i) * (xn i - x i) else gd) 0
      = curvature x xn dx dxn n onbound :=
    forLoop_filter_sum n onbound (fun i => (dxn i - dx i) * (xn i - x i))
  have hc2 : ¬ curvature x xn dx dxn n onbound ≤ 1 / 10 ^ 5 := not_le.2 hgd
  have hc3 : ¬ forLoop n (fun i gd =>
        if onbound i = false then gd + (dxn i - dx i) * (xn i - x i) else gd) 0
      ≤ 1 / 10 ^ 5 := by
    rw [h1]; exact hc2
  unfold UpdateH_BFGS
  simp only [hc3, if_false]
  rfl

/-- One more iteration of a loop runs the body on the state of the loop before it. -/
theorem forLoop_succ {σ : Type} (k : Nat) (body : Nat → σ → σ) (s : σ) :
    forLoop (k + 1) body s = body k (forLoop k body s) := rfl

/-- One row of the rank-2 correction, run for `k` columns. -/
theorem correction_row (n i : Nat) (hi : i < n) (P : Nat → Bool) (U : Nat → Nat → K)
    (H0 : Nat → K) (k : Nat) (hk : k ≤ n) :
    ∀ a b, a < n → b < n →
      forLoop k (fun j H =>
          if P j = false then Function.update H (i * n + j) (H (i * n + j) + U i j) else H)
        H0 (a * n + b)
        = if a = i ∧ b < k ∧ P b = false then H0 (a * n + b) + U a b else H0 (a * n + b) := by
  induction k with
  | zero => intro a b _ _; simp [forLoop]
  | succ k ih =>
    have hkn : k < n := hk
    have ih' := ih (Nat.le_of_lt hkn)
    intro a b ha hb
    simp only [forLoop]
    generalize forLoop k (fun j H =>
        if P j = false then Function.update H (i * n + j) (H (i * n + j) + U i j) else H)
      H0 = Hk at ih' ⊢
    by_cases hp : P k = false
    · rw [if_pos hp, update_flat n a b i k hb hkn]
      by_cases hab : a = i ∧ b = k
      · obtain ⟨h1, h2⟩ := hab
        subst h1 h2
        have e := ih' a b ha hb
        simp only [lt_irrefl, false_and, and_false, if_false] at e
        simp only [and_self, if_true, e, Nat.lt_succ_self, hp, and_true]
      · rw [if_neg hab, ih' a b ha hb]
        have c : (a = i ∧ b < k + 1 ∧ P b = false) ↔ (a = i ∧ b < k ∧ P b = false) := by
          constructor
          · rintro ⟨h1, h2, h3⟩
            refine ⟨h1, ?_, h3⟩
            rcases Nat.lt_succ_iff_lt_or_eq.mp h2 with h4 | h4
            · exact h4
            · exact absurd ⟨h1, h4⟩ hab
          · rintro ⟨h1, h2, h3⟩
            exact ⟨h1, Nat.lt_succ_of_lt h2, h3⟩
        simp only [c]
    · rw [if_neg hp, ih' a b ha hb]
      have c : (a = i ∧ b < k + 1 ∧ P b = false) ↔ (a = i ∧ b < k ∧ P b = false) := by
        constructor
        · rintro ⟨h1, h2, h3⟩
          refine ⟨h1, ?_, h3⟩
          rcases Nat.lt_succ_iff_lt_or_eq.mp h2 with h4 | h4
          · exact h4
          · rw [h4] at h3; exact absurd h3 hp
        · rintro ⟨h1, h2, h3⟩
          exact ⟨h1, Nat.lt_succ_of_lt h2, h3⟩
      simp only [c]

/-- The rank-2 correction of the lower triangle, run for `k` rows. -/
theorem correction_rows (n : Nat) (P : Nat → Bool) (U : Nat → Nat → K) (H0 : Nat → K)
    (k : Nat) (hk : k ≤ n) :
    ∀ a b, a < n → b < n →
      forLoop k (fun i H =>
          if P i = false then
            forLoop (i + 1) (fun j H =>
              if P j = false then Function.update H (i * n + j) (H (i * n + j) + U i j)
              else H) H
          else H) H0 (a * n + b)
        = if a < k ∧ b ≤ a ∧ P a = false ∧ P b = false then H0 (a * n + b) + U a b
          else H0 (a * n + b) := by
  induction k with
  | zero => intro a b _ _; simp [forLoop]
  | succ k ih =>
    have hkn : k < n := hk
    have ih' := ih (Nat.le_of_lt hkn)
    intro a b ha hb
    rw [forLoop_succ]
    generalize forLoop k (fun i H =>
          if P i = false then
            forLoop (i + 1) (fun j H =>
              if P j = false then Function.update H (i * n + j) (H (i * n + j) + U i j)
              else H) H
          else H) H0 = Hk at ih' ⊢
    by_cases hp : P k = false
    · rw [if_pos hp, correction_row n k hkn P U Hk (k + 1) hkn a b ha hb, ih' a b ha hb]
      by_cases hak : a = k
      · subst hak
        simp only [lt_irrefl, false_and, if_false, true_and, Nat.lt_succ_self,
          Nat.lt_succ_iff, hp]
      · have c : a < k + 1 ↔ a < k := by
          constructor
          · intro h
            rcases Nat.lt_succ_iff_lt_or_eq.mp h with h1 | h1
            · exact h1
            · exact absurd h1 hak
          · exact Nat.lt_succ_of_lt
        simp only [hak, false_and, if_false, c]
    · rw [if_neg hp, ih' a b ha hb]
      by_cases hak : a = k
      · subst hak
        rw [if_neg (fun h => absurd h.1 (lt_irrefl a)), if_neg (fun h => hp h.2.2.1)]
      · have c : a < k + 1 ↔ a < k := by
          constructor
          · intro h
            rcases Nat.lt_succ_iff_lt_or_eq.mp h with h1 | h1
            · exact h1
            · exact absurd h1 hak
          · exact Nat.lt_succ_of_lt
        simp only [c]

/-- One row of the symmetrization, run for `k` columns. -/
theorem symmetrize_row {α : Type} (n i : Nat) (hi : i < n) (H0 : Nat → α) (k : Nat)
    (hk : k ≤ i) :
    ∀ a b, a < n → b < n →
      forLoop k (fun j H => Function.update H (j * n + i) (H (i * n + j))) H0 (a * n + b)
        = if b = i ∧ a < k then H0 (i * n + a) else H0 (a * n + b) := by
  induction k with
  | zero => intro a b _ _; simp [forLoop]
  | succ k ih =>
    have hki : k < i := hk
    have hkn : k < n := lt_trans hki hi
    have ih' := ih (Nat.le_of_lt hki)
    intro a b ha hb
    simp only [forLoop]
    generalize forLoop k (fun j H => Function.update H (j * n + i) (H (i * n + j))) H0
      = Hk at ih' ⊢
    rw [update_flat n a b k i hb hi]
    have eik : Hk (i * n + k) = H0 (i * n + k) := by
      rw [ih' i k hi hkn]
      have : ¬ (k = i ∧ i < k) := fun h => absurd h.1 (Nat.ne_of_lt hki)
      rw [if_neg this]
    by_cases hab : a = k ∧ b = i
    · obtain ⟨h1, h2⟩ := hab
      subst h1 h2
      simp only [and_self, if_true, eik, Nat.lt_succ_self]
    · rw [if_neg hab, ih' a b ha hb]
      have c : (b = i ∧ a < k + 1) ↔ (b = i ∧ a < k) := by
        constructor
        · rintro ⟨h1, h2⟩
          refine ⟨h1, ?_⟩
          rcases Nat.lt_succ_iff_lt_or_eq.mp h2 with h3 | h3
          · exact h3
          · exact absurd ⟨h3, h1⟩ hab
        · rintro ⟨h1, h2⟩
          exact ⟨h1, Nat.lt_succ_of_lt h2⟩
      simp only [c]

/-- The symmetrization, run for `k` rows: the entries above the diagonal in the columns
below `k` hold the entries below the diagonal. -/
theorem symmetrize_rows {α : Type} (n : Nat) (H0 : Nat → α) (k : Nat) (hk : k ≤ n) :
    ∀ a b, a < n → b < n →
      forLoop k (fun i H =>
          forLoop i (fun j H => Function.update H (j * n + i) (H (i * n + j))) H) H0
          (a * n + b)
        = if a < b ∧ b < k then H0 (b * n + a) else H0 (a * n + b) := by
  induction k with
  | zero => intro a b _ _; simp [forLoop]
  | succ k ih =>
    have hkn : k < n := hk
    have ih' := ih (Nat.le_of_lt hkn)
    intro a b ha hb
    simp only [forLoop]
    generalize forLoop k (fun i H =>
          forLoop i (fun j H => Function.update H (j * n + i) (H (i * n + j))) H) H0
      = Hk at ih' ⊢
    rw [symmetrize_row n k hkn Hk k (le_refl k) a b ha hb]
    by_cases hbk : b = k
    · subst hbk
      by_cases hab : a < b
      · have e := ih' b a hb ha
        have hn1 : ¬ (b < a ∧ a < b) := fun h => absurd h.1 (Nat.lt_asymm hab)
        rw [if_neg hn1] at e
        simp only [hab, and_self, true_and, if_true, e, Nat.lt_succ_self]
      · have e := ih' a b ha hb
        have hn1 : ¬ (a < b ∧ b < b) := fun h => absurd h.2 (lt_irrefl b)
        rw [if_neg hn1] at e
        simp only [hab, and_false, false_and, if_false, e]
    · rw [if_neg (fun h => hbk h.1), ih' a b ha hb]
      have c : b < k + 1 ↔ b < k := by
        constructor
        · intro h
          rcases Nat.lt_succ_iff_lt_or_eq.mp h with h1 | h1
          · exact h1
          · exact absurd h1 hbk
        · exact Nat.lt_succ_of_lt
      simp only [c]

/-- A sum over the parameters not flagged active is the full sum when none is flagged. -/
theorem forLoop_all_inactive_sum (n : Nat) (P : Nat → Bool) (g : Nat → K)
    (hact : ∀ i, i < n → P i = false) :
    forLoop n (fun i acc => if P i = false then acc + g i else acc) 0
      = ∑ i in Finset.range n, g i := by
  rw [forLoop_filter_sum]
  congr 1
  apply Finset.filter_true_of_mem
  intro i hi
  exact hact i (Finset.mem_range.mp hi)

theorem UpdateH_BFGS_gd_eq (x xn dx dxn : Nat → K) (n : Nat) (onbound : Nat → Bool)
    (hact : ∀ i, i < n → onbound i = false) :
    UpdateH_BFGS_gd x xn dx dxn n onbound
      = dotN n (fun i => dxn i - dx i) (fun i => xn i - x i) := by
  unfold UpdateH_BFGS_gd dotN
  exact forLoop_all_inactive_sum n onbound _ hact

theorem UpdateH_BFGS_Hg_eq (H dx dxn : Nat → K) (n : Nat) (onbound : Nat → Bool)
    (hact : ∀ i, i < n → onbound i = false) (i : Nat) (hi : i < n) :
    UpdateH_BFGS_Hg H dx dxn n onbound i = matVec n H (fun i => dxn i - dx i) i := by
  unfold UpdateH_BFGS_Hg matVec
  rw [if_pos (hact i hi)]
  exact forLoop_all_inactive_sum n onbound _ hact

theorem UpdateH_BFGS_gHg_eq (H dx dxn : Nat → K) (n : Nat) (onbound : Nat → Bool)
    (hact : ∀ i, i < n → onbound i = false) :
    UpdateH_BFGS_gHg H dx dxn n onbound
      = dotN n (fun i => dxn i - dx i) (matVec n H (fun i => dxn i - dx i)) := by
  unfold UpdateH_BFGS_gHg dotN
  rw [forLoop_all_inactive_sum n onbound _ hact]
  apply Finset.sum_congr rfl
  intro i hi
  rw [UpdateH_BFGS_Hg_eq H dx dxn n onbound hact i (Finset.mem_range.mp hi)]

/-- With no parameter flagged active and a symmetric `H`, the matrix that `UpdateH_BFGS`
passes to `Rescale` is the BFGS update of `H` for `d = xn - x` and `g = dxn - dx`. -/
theorem UpdateH_BFGS_corrected_entry (H x xn dx dxn : Nat → K) (n : Nat)
    (onbound : Nat → Bool) (hsym : symmetricMat n H)
    (hact : ∀ i, i < n → onbound i = false) (a b : Nat) (ha : a < n) (hb : b < n) :
    UpdateH_BFGS_corrected H x xn dx dxn n onbound (a * n + b)
      = bfgsFormula n H (fun i => xn i - x i) (fun i => dxn i - dx i) a b := by
  have hterm : ∀ i j, i < n → j < n →
      H (i * n + j) + UpdateH_BFGS_term H x xn dx dxn n onbound i j
        = bfgsFormula n H (fun i => xn i - x i) (fun i => dxn i - dx i) i j := by
    intro i j hi hj
    unfold UpdateH_BFGS_term bfgsFormula
    rw [UpdateH_BFGS_gd_eq x xn dx dxn n onbound hact,
      UpdateH_BFGS_gHg_eq H dx dxn n onbound hact,
      UpdateH_BFGS_Hg_eq H dx dxn n onbound hact i hi,
      UpdateH_BFGS_Hg_eq H dx dxn n onbound hact j hj]
  have hsymF : ∀ i j, i < n → j < n →
      bfgsFormula n H (fun i => xn i - x i) (fun i => dxn i - dx i) i j
        = bfgsFormula n H (fun i => xn i - x i) (fun i => dxn i - dx i) j i := by
    intro i j hi hj
    unfold bfgsFormula
    rw [hsym i j hi hj]
    ring
  unfold UpdateH_BFGS_corrected
  rw [symmetrize_rows n _ n (le_refl n) a b ha hb]
  by_cases hab : a < b
  · rw [if_pos ⟨hab, hb⟩,
      correction_rows n onbound (UpdateH_BFGS_term H x xn dx dxn n onbound) H n (le_refl n)
        b a hb ha,
      if_pos ⟨hb, le_of_lt hab, hact b hb, hact a ha⟩, hterm b a hb ha, hsymF b a hb ha]
  · rw [if_neg (fun h => hab h.1),
      correction_rows n onbound (UpdateH_BFGS_term H x xn dx dxn n onbound) H n (le_refl n)
        a b ha hb,
      if_pos ⟨ha, not_lt.mp hab, hact a ha, hact b hb⟩, hterm a b ha hb]

/-- The BFGS update of a symmetric matrix is symmetric. -/
theorem bfgsFormula_symm (n : Nat) (H d g : Nat → K) (hsym : symmetricMat n H) (a b : Nat)
    (ha : a < n) (hb : b < n) : bfgsFormula n H d g a b = bfgsFormula n H d g b a := by
  unfold bfgsFormula
  rw [hsym a b ha hb]
  ring

/-- The BFGS update satisfies the secant equation `H' g = d` when `g.d` is not zero. -/
theorem bfgsFormula_secant (n : Nat) (H d g : Nat → K) (hgd : dotN n g d ≠ 0) (a : Nat) :
    ∑ b in Finset.range n, bfgsFormula n H d g a b * g b = d a := by
  have e : ∀ b, bfgsFormula n H d g a b * g b
      = H (a * n + b) * g b
        + ((1 + dotN n g (matVec n H g) / dotN n g d) * d a / dotN n g d) * (g b * d b)
        - (d a / dotN n g d) * (g b * matVec n H g b)
        - (matVec n H g a / dotN n g d) * (g b * d b) := by
    intro b
    unfold bfgsFormula
    ring
  simp only [e, Finset.sum_add_distrib, Finset.sum_sub_distrib, ← Finset.mul_sum]
  have e1 : ∑ b in Finset.range n, g b * d b = dotN n g d := rfl
  have e2 : ∑ b in Finset.range n, g b * matVec n H g b = dotN n g (matVec n H g) := rfl
  have e3 : ∑ b in Finset.range n, H (a * n + b) * g b = matVec n H g a := rfl
  rw [e1, e2, e3]
  field_simp
  ring

/-- With no parameter flagged active, the curvature is the dot product `g.d`. -/
theorem curvature_all_inactive (x xn dx dxn : Nat → K) (n : Nat) (onbound : Nat → Bool)
    (hact : ∀ i, i < n → onbound i = false) :
    curvature x xn dx dxn n onbound = dotN n (fun i => dxn i - dx i) (fun i => xn i - x i) := by
  unfold curvature dotN
  congr 1
  apply Finset.filter_true_of_mem
  intro i hi
  exact hact i (Finset.mem_range.mp hi)

/-- C31: for a symmetric `H`, no parameter flagged active and `gd = g.d > 1e-5` with
`d = xn - x`, `g = dxn - dx`, the matrix `H'` that `UpdateH_BFGS` holds after the rank-2
correction and the symmetrization, when it calls `Rescale`, is symmetric and satisfies
the secant equation `H' g = d`; the call returns, and the matrix `H''` it leaves
satisfies `H'' (s o g) = d / s` for the factors `s` of that call of `Rescale`
(`scale[i]` is multiplied by `s[i]`). -/
theorem UpdateH_BFGS_secant (sqrt : K → K) (H x xn dx dxn scale : Nat → K) (n : Nat)
    (onbound : Nat → Bool) (errn : Nat) (hn : 0 < n) (hsym : symmetricMat n H)
    (hact : ∀ i, i < n → onbound i = false)
    (hgd : curvature x xn dx dxn n onbound > 1 / 10 ^ 5) :
    symmetricMat n (UpdateH_BFGS_corrected H x xn dx dxn n onbound) ∧
    (∀ i, i < n →
      ∑ j in Finset.range n,
        UpdateH_BFGS_corrected H x xn dx dxn n onbound (i * n + j) * (dxn j - dx j)
        = xn i - x i) ∧
    ∃ r, UpdateH_BFGS sqrt H x xn dx dxn scale n onbound errn = .ok (r, errn) ∧
      Rescale sqrt xn dxn (UpdateH_BFGS_corrected H x xn dx dxn n onbound) n scale = .ok r ∧
      symmetricMat n r.H ∧
      (∀ i, i < n → r.scale i = scale i
        * scalefactOf sqrt (UpdateH_BFGS_corrected H x xn dx dxn n onbound (i * n + i))) ∧
      ∀ i, i < n →
        ∑ j in Finset.range n,
          r.H (i * n + j)
            * (scalefactOf sqrt (UpdateH_BFGS_corrected H x xn dx dxn n onbound (j * n + j))
                * (dxn j - dx j))
          = (xn i - x i)
            / scalefactOf sqrt (UpdateH_BFGS_corrected H x xn dx dxn n onbound (i * n + i)) := by
  have hpos : (0 : K) < 1 / 10 ^ 5 := by norm_num
  have hne : dotN n (fun i => dxn i - dx i) (fun i => xn i - x i) ≠ 0 := by
    rw [← curvature_all_inactive x xn dx dxn n onbound hact]
    exact ne_of_gt (lt_trans hpos hgd)
  have hsymC : symmetricMat n (UpdateH_BFGS_corrected H x xn dx dxn n onbound) := by
    intro a b ha hb
    rw [UpdateH_BFGS_corrected_entry H x xn dx dxn n onbound hsym hact a b ha hb,
      UpdateH_BFGS_corrected_entry H x xn dx dxn n onbound hsym hact b a hb ha]
    exact bfgsFormula_symm n H _ _ hsym a b ha hb
  have hsec : ∀ i, i < n →
      ∑ j in Finset.range n,
        UpdateH_BFGS_corrected H x xn dx dxn n onbound (i * n + j) * (dxn j - dx j)
        = xn i - x i := by
    intro i hi
    rw [← bfgsFormula_secant n H (fun i => xn i - x i) (fun i => dxn i - dx i) hne i]
    apply Finset.sum_congr rfl
    intro j hj
    rw [UpdateH_BFGS_corrected_entry H x xn dx dxn n onbound hsym hact i j hi
      (Finset.mem_range.mp hj)]
  refine ⟨hsymC, hsec, ?_⟩
  obtain ⟨r, hr, hH, hx⟩ := Rescale_closed sqrt xn dxn
    (UpdateH_BFGS_corrected H x xn dx dxn n onbound) n scale hn
  refine ⟨r, ?_, hr, ?_, fun i hi => (hx i hi).2.2, ?_⟩
  · rw [UpdateH_BFGS_eq sqrt H x xn dx dxn scale n onbound errn hgd, hr]
  · intro a b ha hb
    rw [hH a b ha hb, hH b a hb ha, hsymC a b ha hb,
      mul_comm (scalefactOf sqrt (UpdateH_BFGS_corrected H x xn dx dxn n onbound (a * n + a)))]
  · intro i hi
    rw [← hsec i hi, Finset.sum_div]
    apply Finset.sum_congr rfl
    intro j hj
    rw [hH i j hi (Finset.mem_range.mp hj)]
    have h1 := ne_of_gt (scalefactOf_pos sqrt
      (UpdateH_BFGS_corrected H x xn dx dxn n onbound (i * n + i)))
    have h2 := ne_of_gt (scalefactOf_pos sqrt
      (UpdateH_BFGS_corrected H x xn dx dxn n onbound (j * n + j)))
    field_simp
    ring

end bfgs

section bfgs_runs

set_option maxRecDepth 1000000 in
/-- Witness for C31: from the identity with `d = (1, 0)` and `g = (2, 1)` (so `gd = 2`) the
corrected matrix has the rows `(3/4, -1/2)` and `(-1/2, 1)`, and `H' g = d`. -/
theorem UpdateH_BFGS_secant_witness :
    (symmetricMat 2 twoIdentity ∧ (∀ i, i < 2 → noneActive i = false) ∧
      curvature (fun _ => 0) stepXn (fun _ => 0) stepDxn 2 noneActive > 1 / 10 ^ 5) ∧
    (List.range 4).map
        (UpdateH_BFGS_corrected twoIdentity (fun _ => 0) stepXn (fun _ => 0) stepDxn 2 noneActive)
      = [3 / 4, -1 / 2, -1 / 2, 1] ∧
    (∀ i, i < 2 →
      ∑ j in Finset.range 2,
        UpdateH_BFGS_corrected twoIdentity (fun _ => 0) stepXn (fun _ => 0) stepDxn 2 noneActive
            (i * 2 + j) * (stepDxn j - 0)
        = stepXn i - 0) ∧
    isOk (UpdateH_BFGS sqrtStandIn twoIdentity (fun _ => 0) stepXn (fun _ => 0) stepDxn
      (fun _ => 1) 2 noneActive 0) = true :=
  have hs : symmetricMat 2 twoIdentity := by
    intro a b ha hb
    interval_cases a <;> interval_cases b <;> rfl
  have ha : ∀ i, i < 2 → noneActive i = false := fun _ _ => rfl
  have hg : curvature (fun _ => 0) stepXn (fun _ => 0) stepDxn 2 noneActive > 1 / 10 ^ 5 := by
    decide!
  have h := UpdateH_BFGS_secant sqrtStandIn twoIdentity (fun _ => 0) stepXn (fun _ => 0)
    stepDxn (fun _ => 1) 2 noneActive 0 (by decide) hs ha hg
  ⟨⟨hs, ha, hg⟩, by decide!, h.2.1, by decide!⟩

end bfgs_runs

section positive_definite
variable {K : Type} [LinearOrderedField K]

/-- The quadratic form is the dot product of `v` with `H v`. -/
theorem quadForm_eq_dot (n : Nat) (H v : Nat → K) :
    quadForm n H v = dotN n v (matVec n H v) := by
  unfold quadForm dotN matVec
  apply Finset.sum_congr rfl
  intro a _
  rw [Finset.mul_sum]
  apply Finset.sum_congr rfl
  intro b _
  ring

/-- For a symmetric matrix, `u . (H v) = v . (H u)`. -/
theorem dot_matVec_symm (n : Nat) (H u v : Nat → K) (hsym : symmetricMat n H) :
    dotN n u (matVec n H v) = dotN n v (matVec n H u) := by
  unfold dotN matVec
  simp only [Finset.mul_sum]
  rw [Finset.sum_comm]
  apply Finset.sum_congr rfl
  intro a ha
  apply Finset.sum_congr rfl
  intro b hb
  rw [hsym b a (Finset.mem_range.mp hb) (Finset.mem_range.mp ha)]
  ring

/-- The dot product is linear in its first argument. -/
theorem dotN_sub_mul_left (n : Nat) (u w z : Nat → K) (c : K) :
    dotN n (fun a => u a - c * w a) z = dotN n u z - c * dotN n w z := by
  unfold dotN
  rw [Finset.mul_sum, ← Finset.sum_sub_distrib]
  apply Finset.sum_congr rfl
  intro a _
  ring

/-- The dot product is linear in its second argument. -/
theorem dotN_sub_mul_right (n : Nat) (u w z : Nat → K) (c : K) :
    dotN n z (fun a => u a - c * w a) = dotN n z u - c * dotN n z w := by
  unfold dotN
  rw [Finset.mul_sum, ← Finset.sum_sub_distrib]
  apply Finset.sum_congr rfl
  intro a _
  ring

/-- A double sum of products is the product of the sums. -/
theorem sum_sum_mul (n : Nat) (p q : Nat → K) :
    ∑ a in Finset.range n, ∑ b in Finset.range n, p a * q b
      = (∑ a in Finset.range n, p a) * ∑ b in Finset.range n, q b := by
  rw [Finset.sum_mul_sum]

/-- The quadratic form of the BFGS update: with `c = (v.d) / (g.d)` it is the quadratic
form of `H` at `v - c g` plus `c^2 (g.d)`. -/
theorem quadForm_bfgs (n : Nat) (H d g v : Nat → K) (hsym : symmetricMat n H)
    (hgd : dotN n g d ≠ 0) :
    ∑ a in Finset.range n, ∑ b in Finset.range n, v a * bfgsFormula n H d g a b * v b
      = quadForm n H (fun a => v a - dotN n v d / dotN n g d * g a)
        + (dotN n v d / dotN n g d) ^ 2 * dotN n g d := by
  have lhs : ∑ a in Finset.range n, ∑ b in Finset.range n, v a * bfgsFormula n H d g a b * v b
      = quadForm n H v
        + (1 + dotN n g (matVec n H g) / dotN n g d) / dotN n g d * (dotN n v d * dotN n v d)
        - 1 / dotN n g d * (dotN n v d * dotN n v (matVec n H g))
        - 1 / dotN n g d * (dotN n v (matVec n H g) * dotN n v d) := by
    have e : ∀ a b, v a * bfgsFormula n H d g a b * v b
        = v a * H (a * n + b) * v b
          + (1 + dotN n g (matVec n H g) / dotN n g d) / dotN n g d
              * ((v a * d a) * (v b * d b))
          - 1 / dotN n g d * ((v a * d a) * (v b * matVec n H g b))
          - 1 / dotN n g d * ((v a * matVec n H g a) * (v b * d b)) := by
      intro a b
      unfold bfgsFormula
      ring
    simp only [e, Finset.sum_add_distrib, Finset.sum_sub_distrib]
    simp only [← Finset.mul_sum (Finset.range n) _
      ((1 + dotN n g (matVec n H g) / dotN n g d) / dotN n g d),
      ← Finset.mul_sum (Finset.range n) _ (1 / dotN n g d), sum_sum_mul]
    rfl
  have rhs : quadForm n H (fun a => v a - dotN n v d / dotN n g d * g a)
      = quadForm n H v - 2 * (dotN n v d / dotN n g d) * dotN n v (matVec n H g)
        + (dotN n v d / dotN n g d) ^ 2 * dotN n g (matVec n H g) := by
    have mv : matVec n H (fun a => v a - dotN n v d / dotN n g d * g a)
        = fun a => matVec n H v a - dotN n v d / dotN n g d * matVec n H g a := by
      funext a
      unfold matVec
      rw [Finset.mul_sum, ← Finset.sum_sub_distrib]
      apply Finset.sum_congr rfl
      intro b _
      ring
    rw [quadForm_eq_dot, quadForm_eq_dot, mv, dotN_sub_mul_left, dotN_sub_mul_right,
      dotN_sub_mul_right, dot_matVec_symm n H g v hsym]
    ring
  rw [lhs, rhs]
  field_simp
  ring

/-- The quadratic form reads only the entries of the `n` by `n` matrix. -/
theorem quadForm_congr (n : Nat) (H1 H2 v : Nat → K)
    (h : ∀ a b, a < n → b < n → H1 (a * n + b) = H2 (a * n + b)) :
    quadForm n H1 v = quadForm n H2 v := by
  unfold quadForm
  apply Finset.sum_congr rfl
  intro a ha
  apply Finset.sum_congr rfl
  intro b hb
  rw [h a b (Finset.mem_range.mp ha) (Finset.mem_range.mp hb)]

/-- The BFGS update of a symmetric positive definite matrix is positive definite when
`g.d > 0`. -/
theorem posDef_bfgs (n : Nat) (H d g C : Nat → K) (hsym : symmetricMat n H)
    (hpd : posDefMat n H) (hgd : 0 < dotN n g d)
    (hC : ∀ a b, a < n → b < n → C (a * n + b) = bfgsFormula n H d g a b) :
    posDefMat n C := by
  intro v hv
  have e : quadForm n C v
      = quadForm n H (fun a => v a - dotN n v d / dotN n g d * g a)
        + (dotN n v d / dotN n g d) ^ 2 * dotN n g d := by
    rw [← quadForm_bfgs n H d g v hsym (ne_of_gt hgd)]
    unfold quadForm
    apply Finset.sum_congr rfl
    intro a ha
    apply Finset.sum_congr rfl
    intro b hb
    rw [hC a b (Finset.mem_range.mp ha) (Finset.mem_range.mp hb)]
  rw [e]
  by_cases hw : ∃ a, a < n ∧ v a - dotN n v d / dotN n g d * g a ≠ 0
  · have h1 := hpd (fun a => v a - dotN n v d / dotN n g d * g a) hw
    have h2 : 0 ≤ (dotN n v d / dotN n g d) ^ 2 * dotN n g d :=
      mul_nonneg (sq_nonneg _) (le_of_lt hgd)
    linarith
  · have hz : ∀ a, a < n → v a - dotN n v d / dotN n g d * g a = 0 := by
      intro a ha
      by_contra hne
      exact hw ⟨a, ha, hne⟩
    have hq : quadForm n H (fun a => v a - dotN n v d / dotN n g d * g a) = 0 := by
      unfold quadForm
      apply Finset.sum_eq_zero
      intro a ha
      apply Finset.sum_eq_zero
      intro b _
      simp only [hz a (Finset.mem_range.mp ha), zero_mul]
    have hc : dotN n v d / dotN n g d ≠ 0 := by
      intro hc0
      obtain ⟨a, ha, hva⟩ := hv
      have := hz a ha
      rw [hc0, zero_mul, sub_zero] at this
      exact hva this
    rw [hq, zero_add]
    exact mul_pos (by positivity) hgd

/-- Dividing the entry `(a, b)` by `s a * s b` with positive `s` keeps a matrix positive
definite. -/
theorem posDef_rescaled (n : Nat) (C R s : Nat → K) (hs : ∀ a, 0 < s a)
    (hpd : posDefMat n C)
    (hR : ∀ a b, a < n → b < n → R (a * n + b) = C (a * n + b) / (s a * s b)) :
    posDefMat n R := by
  intro v hv
  have e : quadForm n R v = quadForm n C (fun a => v a / s a) := by
    unfold quadForm
    apply Finset.sum_congr rfl
    intro a ha
    apply Finset.sum_congr rfl
    intro b hb
    rw [hR a b (Finset.mem_range.mp ha) (Finset.mem_range.mp hb)]
    have h1 := ne_of_gt (hs a)
    have h2 := ne_of_gt (hs b)
    field_simp
  rw [e]
  apply hpd
  obtain ⟨a, ha, hva⟩ := hv
  exact ⟨a, ha, div_ne_zero hva (ne_of_gt (hs a))⟩

/-- A matrix whose entries are those of the identity is symmetric and positive
definite. -/
theorem posDef_identity (n : Nat) (H : Nat → K)
    (hI : ∀ a b, a < n → b < n → H (a * n + b) = if a = b then 1 else 0) :
    symmetricMat n H ∧ posDefMat n H := by
  constructor
  · intro a b ha hb
    rw [hI a b ha hb, hI b a hb ha]
    by_cases h : a = b
    · rw [if_pos h, if_pos h.symm]
    · rw [if_neg h, if_neg (fun h2 => h h2.symm)]
  · intro v hv
    have e : quadForm n H v = ∑ a in Finset.range n, v a * v a := by
      unfold quadForm
      apply Finset.sum_congr rfl
      intro a ha
      rw [Finset.sum_eq_single a]
      · rw [hI a a (Finset.mem_range.mp ha) (Finset.mem_range.mp ha), if_pos rfl, mul_one]
      · intro b hb hba
        rw [hI a b (Finset.mem_range.mp ha) (Finset.mem_range.mp hb),
          if_neg (fun h => hba h.symm), mul_zero, zero_mul]
      · intro h
        exact absurd ha h
    rw [e]
    obtain ⟨a, ha, hva⟩ := hv
    have h1 : v a * v a ≤ ∑ a in Finset.range n, v a * v a :=
      Finset.single_le_sum (fun i _ => mul_self_nonneg (v i)) (Finset.mem_range.mpr ha)
    have h2 : 0 < v a * v a := mul_self_pos.mpr hva
    exact lt_of_lt_of_le h2 h1

/-- At or below the curvature threshold `UpdateH_BFGS` resets `H` to the identity. -/
theorem UpdateH_BFGS_identity (sqrt : K → K) (H x xn dx dxn scale : Nat → K) (n : Nat)
    (onbound : Nat → Bool) (errn : Nat)
    (hc : curvature x xn dx dxn n onbound ≤ 1 / 10 ^ 5) :
    UpdateH_BFGS sqrt H x xn dx dxn scale n onbound errn
      = .ok ({ x := xn, dx := dxn, H := MakeMatrixIdentity H n, scale := scale },
          errn ||| HESSIAN_NONPD) := by
  have hgd : forLoop n (fun i gd =>
        if onbound i = false then gd + (dxn i - dx i) * (xn i - x i) else gd) 0
      = curvature x xn dx dxn n onbound :=
    forLoop_filter_sum n onbound (fun i => (dxn i - dx i) * (xn i - x i))
  unfold UpdateH_BFGS
  simp only [hgd, hc, if_true]

/-- With no parameter flagged active, the corrected matrix of a symmetric `H` is
symmetric. -/
theorem UpdateH_BFGS_corrected_symm (H x xn dx dxn : Nat → K) (n : Nat)
    (onbound : Nat → Bool) (hsym : symmetricMat n H)
    (hact : ∀ i, i < n → onbound i = false) :
    symmetricMat n (UpdateH_BFGS_corrected H x xn dx dxn n onbound) := by
  intro a b ha hb
  rw [UpdateH_BFGS_corrected_entry H x xn dx dxn n onbound hsym hact a b ha hb,
    UpdateH_BFGS_corrected_entry H x xn dx dxn n onbound hsym hact b a hb ha]
  exact bfgsFormula_symm n H _ _ hsym a b ha hb

/-- C32: if `H` is symmetric positive definite on entry and no parameter is flagged
active, `UpdateH_BFGS` returns with a symmetric positive definite `H`: above the
curvature threshold `gd > 1e-5` it is the BFGS update of `H`, symmetrized and passed
through `Rescale`; otherwise it is the identity.  At or below the threshold the call
leaves the identity, which is symmetric positive definite, whatever `H` and the flags
are. -/
theorem UpdateH_BFGS_keeps_positive_definite (sqrt : K → K) (H x xn dx dxn scale : Nat → K)
    (n : Nat) (onbound : Nat → Bool) (errn : Nat) (hn : 0 < n) (hsym : symmetricMat n H)
    (hpd : posDefMat n H) (hact : ∀ i, i < n → onbound i = false) :
    (∃ r e, UpdateH_BFGS sqrt H x xn dx dxn scale n onbound errn = .ok (r, e) ∧
      symmetricMat n r.H ∧ posDefMat n r.H ∧
      (curvature x xn dx dxn n onbound > 1 / 10 ^ 5 →
        Rescale sqrt xn dxn (UpdateH_BFGS_corrected H x xn dx dxn n onbound) n scale = .ok r ∧
        posDefMat n (UpdateH_BFGS_corrected H x xn dx dxn n onbound)) ∧
      (curvature x xn dx dxn n onbound ≤ 1 / 10 ^ 5 → r.H = MakeMatrixIdentity H n)) ∧
    (∀ (H2 : Nat → K) (flags : Nat → Bool), curvature x xn dx dxn n flags ≤ 1 / 10 ^ 5 →
      ∃ r e, UpdateH_BFGS sqrt H2 x xn dx dxn scale n flags errn = .ok (r, e) ∧
        r.H = MakeMatrixIdentity H2 n ∧ symmetricMat n r.H ∧ posDefMat n r.H) := by
  refine ⟨?_, ?_⟩
  swap
  · intro H2 flags hle
    obtain ⟨h1, h2⟩ := posDef_identity n (MakeMatrixIdentity H2 n)
      (fun a b ha hb => MakeMatrixIdentity_entry H2 n a b ha hb)
    exact ⟨_, _, UpdateH_BFGS_identity sqrt H2 x xn dx dxn scale n flags errn hle, rfl, h1, h2⟩
  by_cases hgd : curvature x xn dx dxn n onbound > 1 / 10 ^ 5
  · have hpos : (0 : K) < 1 / 10 ^ 5 := by norm_num
    have hgd0 : 0 < dotN n (fun i => dxn i - dx i) (fun i => xn i - x i) := by
      rw [← curvature_all_inactive x xn dx dxn n onbound hact]
      exact lt_trans hpos hgd
    have hC : posDefMat n (UpdateH_BFGS_corrected H x xn dx dxn n onbound) :=
      posDef_bfgs n H _ _ _ hsym hpd hgd0
        (UpdateH_BFGS_corrected_entry H x xn dx dxn n onbound hsym hact)
    have hsymC := UpdateH_BFGS_corrected_symm H x xn dx dxn n onbound hsym hact
    obtain ⟨r2, hr2, hH, _⟩ := Rescale_closed sqrt xn dxn
      (UpdateH_BFGS_corrected H x xn dx dxn n onbound) n scale hn
    refine ⟨r2, errn, ?_, ?_, ?_, fun _ => ⟨hr2, hC⟩, fun hle => absurd hgd (not_lt.mpr hle)⟩
    · rw [UpdateH_BFGS_eq sqrt H x xn dx dxn scale n onbound errn hgd, hr2]
    · intro a b ha hb
      rw [hH a b ha hb, hH b a hb ha, hsymC a b ha hb,
        mul_comm (scalefactOf sqrt (UpdateH_BFGS_corrected H x xn dx dxn n onbound (a * n + a)))]
    · exact posDef_rescaled n _ r2.H
        (fun a => scalefactOf sqrt (UpdateH_BFGS_corrected H x xn dx dxn n onbound (a * n + a)))
        (fun a => scalefactOf_pos sqrt _) hC hH
  · have hle : curvature x xn dx dxn n onbound ≤ 1 / 10 ^ 5 := not_lt.mp hgd
    have h := (UpdateH_BFGS_identity sqrt H x xn dx dxn scale n onbound errn hle)
    obtain ⟨h1, h2⟩ := posDef_identity n (MakeMatrixIdentity H n)
      (fun a b ha hb => MakeMatrixIdentity_entry H n a b ha hb)
    exact ⟨_, _, h, h1, h2, fun hc => absurd hc hgd, fun _ => rfl⟩

end positive_definite

section positive_definite_runs

set_option maxRecDepth 1000000 in
/-- Witness for C32: from the identity with `d = (1, 0)` and `g = (2, 1)` the call leaves
the matrix with rows `(48/49, -4/7)` and `(-4/7, 1)`, which is symmetric positive
definite. -/
theorem UpdateH_BFGS_keeps_positive_definite_witness :
    (symmetricMat 2 twoIdentity ∧ posDefMat 2 twoIdentity ∧
      ∀ i, i < 2 → noneActive i = false) ∧
    (∃ r e, UpdateH_BFGS sqrtStandIn twoIdentity (fun _ => 0) stepXn (fun _ => 0) stepDxn
        (fun _ => 1) 2 noneActive 0 = .ok (r, e) ∧
      symmetricMat 2 r.H ∧ posDefMat 2 r.H) ∧
    (List.range 4).map (okValue noUpdate (UpdateH_BFGS sqrtStandIn twoIdentity (fun _ => 0)
        stepXn (fun _ => 0) stepDxn (fun _ => 1) 2 noneActive 0)).1.H
      = [48 / 49, -4 / 7, -4 / 7, 1] :=
  have hI : ∀ a b, a < 2 → b < 2 → twoIdentity (a * 2 + b) = if a = b then 1 else 0 := by
    intro a b ha hb
    interval_cases a <;> interval_cases b <;> rfl
  have hs := posDef_identity 2 twoIdentity hI
  have ha : ∀ i, i < 2 → noneActive i = false := fun _ _ => rfl
  match UpdateH_BFGS_keeps_positive_definite sqrtStandIn twoIdentity (fun _ => 0) stepXn
    (fun _ => 0) stepDxn (fun _ => 1) 2 noneActive 0 (by decide) hs.1 hs.2 ha with
  | ⟨⟨r, e, h1, h2, h3, _⟩, _⟩ => ⟨⟨hs.1, hs.2, ha⟩, ⟨r, e, h1, h2, h3⟩, by decide!⟩

end positive_definite_runs

section inverse
variable {K : Type} [LinearOrderedField K]

/-- The relation `isInverse` is the matrix equation `A * B = 1`. -/
theorem isInverse_iff (n : Nat) (A B : Nat → K) :
    isInverse n A B ↔ toMatrix n A * toMatrix n B = 1 := by
  constructor
  · intro h
    ext a b
    rw [Matrix.mul_apply, Matrix.one_apply]
    have e := Fin.sum_univ_eq_sum_range (fun c => A (a.val * n + c) * B (c * n + b.val)) n
    have e2 : ∑ j : Fin n, toMatrix n A a j * toMatrix n B j b
        = ∑ c in Finset.range n, A (a.val * n + c) * B (c * n + b.val) := e
    rw [e2, h a.val b.val a.isLt b.isLt]
    by_cases hab : a = b
    · rw [if_pos hab, if_pos (congrArg Fin.val hab)]
    · rw [if_neg hab, if_neg (fun h2 => hab (Fin.ext h2))]
  · intro h a b ha hb
    have e := Fin.sum_univ_eq_sum_range (fun c => A (a * n + c) * B (c * n + b)) n
    rw [← e]
    have h2 := congrFun (congrFun h ⟨a, ha⟩) ⟨b, hb⟩
    rw [Matrix.mul_apply, Matrix.one_apply] at h2
    have e3 : ∑ j : Fin n, toMatrix n A ⟨a, ha⟩ j * toMatrix n B j ⟨b, hb⟩
        = ∑ c : Fin n, A (a * n + c.val) * B (c.val * n + b) := rfl
    rw [e3] at h2
    rw [h2]
    by_cases hab : a = b
    · rw [if_pos hab, if_pos (Fin.ext hab)]
    · rw [if_neg hab, if_neg (fun h3 => hab (congrArg Fin.val h3))]

/-- An inverse on one side is an inverse on the other side. -/
theorem isInverse_comm (n : Nat) (A B : Nat → K) (h : isInverse n A B) : isInverse n B A := by
  rw [isInverse_iff] at h ⊢
  exact Matrix.mul_eq_one_comm.mp h

/-- A positive definite matrix has an inverse. -/
theorem posDef_has_inverse (n : Nat) (A : Nat → K) (hpd : posDefMat n A) :
    ∃ B, isInverse n A B := by
  have hdet : (toMatrix n A).det ≠ 0 := by
    intro h0
    obtain ⟨v, hv, hmv⟩ := Matrix.exists_mulVec_eq_zero_iff.mpr h0
    have hex : ∃ a, a < n ∧ (fun a => if h : a < n then v ⟨a, h⟩ else 0) a ≠ 0 := by
      obtain ⟨a, ha⟩ := Function.ne_iff.mp hv
      refine ⟨a.val, a.isLt, ?_⟩
      simp only [a.isLt, dif_pos, Fin.eta]
      exact ha
    have hq := hpd _ hex
    have hz : quadForm n A (fun a => if h : a < n then v ⟨a, h⟩ else 0) = 0 := by
      unfold quadForm
      apply Finset.sum_eq_zero
      intro a ha
      have ha' := Finset.mem_range.mp ha
      have e1 : ∑ b in Finset.range n,
          (fun a => if h : a < n then v ⟨a, h⟩ else 0) a * A (a * n + b)
            * (fun a => if h : a < n then v ⟨a, h⟩ else 0) b
          = v ⟨a, ha'⟩ * ∑ b in Finset.range n,
            A (a * n + b) * (fun a => if h : a < n then v ⟨a, h⟩ else 0) b := by
        rw [Finset.mul_sum]
        apply Finset.sum_congr rfl
        intro b _
        simp only [ha', dif_pos]
        ring
      rw [e1]
      have e2 := Fin.sum_univ_eq_sum_range
        (fun b => A (a * n + b) * (fun a => if h : a < n then v ⟨a, h⟩ else 0) b) n
      rw [← e2]
      have e3 : ∑ b : Fin n, A (a * n + b.val)
            * (fun a => if h : a < n then v ⟨a, h⟩ else 0) b.val
          = (toMatrix n A).mulVec v ⟨a, ha'⟩ := by
        unfold Matrix.mulVec Matrix.dotProduct toMatrix
        apply Finset.sum_congr rfl
        intro b _
        simp only [b.isLt, dif_pos, Fin.eta]
      rw [e3, hmv]
      simp
    rw [hz] at hq
    exact lt_irrefl 0 hq
  have hunit : IsUnit (toMatrix n A).det := isUnit_iff_ne_zero.mpr hdet
  have hmul := Matrix.mul_nonsing_inv (toMatrix n A) hunit
  have hn2 : ∀ k, k < n * n → k / n < n ∧ k % n < n := by
    intro k hk
    have hn : 0 < n := by
      rcases Nat.eq_zero_or_pos n with h | h
      · rw [h] at hk; exact absurd hk (Nat.not_lt_zero k)
      · exact h
    exact ⟨Nat.div_lt_of_lt_mul hk, Nat.mod_lt k hn⟩
  refine ⟨fun k => if h : k < n * n then
    (toMatrix n A)⁻¹ ⟨k / n, (hn2 k h).1⟩ ⟨k % n, (hn2 k h).2⟩ else 0, ?_⟩
  rw [isInverse_iff]
  have e : toMatrix n (fun k => if h : k < n * n then
      (toMatrix n A)⁻¹ ⟨k / n, (hn2 k h).1⟩ ⟨k % n, (hn2 k h).2⟩ else 0) = (toMatrix n A)⁻¹ := by
    ext a b
    unfold toMatrix
    have hlt : a.val * n + b.val < n * n := by
      have h1 : a.val + 1 ≤ n := a.isLt
      calc a.val * n + b.val < a.val * n + n := Nat.add_lt_add_left b.isLt _
        _ = (a.val + 1) * n := by ring
        _ ≤ n * n := Nat.mul_le_mul_right n h1
    have hn : 0 < n := lt_of_le_of_lt (Nat.zero_le _) a.isLt
    have hd : (a.val * n + b.val) / n = a.val := by
      rw [Nat.mul_comm, Nat.mul_add_div hn, Nat.div_eq_of_lt b.isLt, Nat.add_zero]
    have hm : (a.val * n + b.val) % n = b.val := by
      rw [Nat.mul_comm, Nat.mul_add_mod, Nat.mod_eq_of_lt b.isLt]
    simp only [hlt, dif_pos, hd, hm, Fin.eta]
  rw [e]
  exact hmul

/-- The loop of `UpdateActiveSet` that zeroes row `i` and column `i`, run for `k`
iterations. -/
theorem zero_row_col {α : Type} [Zero α] (n i : Nat) (hi : i < n) (H0 : Nat → α) (k : Nat)
    (hk : k ≤ n) :
    ∀ a b, a < n → b < n →
      forLoop k (fun j H =>
          Function.update (Function.update H (i * n + j) 0) (j * n + i) 0) H0 (a * n + b)
        = if (a = i ∧ b < k) ∨ (b = i ∧ a < k) then 0 else H0 (a * n + b) := by
  induction k with
  | zero => intro a b _ _; simp [forLoop]
  | succ k ih =>
    have hkn : k < n := hk
    have ih' := ih (Nat.le_of_lt hkn)
    intro a b ha hb
    rw [forLoop_succ]
    generalize forLoop k (fun j H =>
          Function.update (Function.update H (i * n + j) 0) (j * n + i) 0) H0 = Hk at ih' ⊢
    rw [update_flat n a b k i hb hi, update_flat n a b i k hb hkn, ih' a b ha hb]
    by_cases h1 : a = k ∧ b = i
    · rw [if_pos h1, if_pos (Or.inr ⟨h1.2, by rw [h1.1]; exact Nat.lt_succ_self k⟩)]
    · rw [if_neg h1]
      by_cases h2 : a = i ∧ b = k
      · rw [if_pos h2, if_pos (Or.inl ⟨h2.1, by rw [h2.2]; exact Nat.lt_succ_self k⟩)]
      · rw [if_neg h2]
        have c : ((a = i ∧ b < k + 1) ∨ (b = i ∧ a < k + 1))
            ↔ ((a = i ∧ b < k) ∨ (b = i ∧ a < k)) := by
          constructor
          · rintro (⟨e1, e2⟩ | ⟨e1, e2⟩)
            · rcases Nat.lt_succ_iff_lt_or_eq.mp e2 with e3 | e3
              · exact Or.inl ⟨e1, e3⟩
              · exact absurd ⟨e1, e3⟩ h2
            · rcases Nat.lt_succ_iff_lt_or_eq.mp e2 with e3 | e3
              · exact Or.inr ⟨e1, e3⟩
              · exact absurd ⟨e3, e1⟩ h1
          · rintro (⟨e1, e2⟩ | ⟨e1, e2⟩)
            · exact Or.inl ⟨e1, Nat.lt_succ_of_lt e2⟩
            · exact Or.inr ⟨e1, Nat.lt_succ_of_lt e2⟩
        simp only [c]

/-- The matrix that `UpdateActiveSet` inverts the second time: `v` at the entry `(i, i)`,
0 elsewhere in row `i` and column `i`, and the entries of `H1` otherwise. -/
theorem modified_entries (n i : Nat) (hi : i < n) (H1 : Nat → K) (v : K) :
    ∀ a b, a < n → b < n →
      Function.update
          (forLoop n (fun j H =>
            Function.update (Function.update H (i * n + j) 0) (j * n + i) 0) H1)
          (i * n + i) v (a * n + b)
        = if a = i ∧ b = i then v else if a = i ∨ b = i then 0 else H1 (a * n + b) := by
  intro a b ha hb
  rw [update_flat n a b i i hb hi]
  by_cases h : a = i ∧ b = i
  · rw [if_pos h, if_pos h]
  · rw [if_neg h, if_neg h, zero_row_col n i hi H1 n (le_refl n) a b ha hb]
    by_cases h2 : a = i ∨ b = i
    · have h3 : (a = i ∧ b < n) ∨ (b = i ∧ a < n) := by
        rcases h2 with h2 | h2
        · exact Or.inl ⟨h2, hb⟩
        · exact Or.inr ⟨h2, ha⟩
      rw [if_pos h3, if_pos h2]
    · have h3 : ¬ ((a = i ∧ b < n) ∨ (b = i ∧ a < n)) := by
        rintro (h3 | h3)
        · exact h2 (Or.inl h3.1)
        · exact h2 (Or.inr h3.1)
      rw [if_neg h3, if_neg h2]

/-- A positive definite matrix has positive diagonal entries. -/
theorem posDef_diag_pos (n : Nat) (A : Nat → K) (hpd : posDefMat n A) (i : Nat) (hi : i < n) :
    0 < A (i * n + i) := by
  have h := hpd (fun a => if a = i then 1 else 0) ⟨i, hi, by simp⟩
  have e : quadForm n A (fun a => if a = i then 1 else 0) = A (i * n + i) := by
    unfold quadForm
    rw [Finset.sum_eq_single i]
    · rw [Finset.sum_eq_single i]
      · simp
      · intro b _ hb
        simp [hb]
      · intro h2
        exact absurd (Finset.mem_range.mpr hi) h2
    · intro a _ ha
      apply Finset.sum_eq_zero
      intro b _
      simp [ha]
    · intro h2
      exact absurd (Finset.mem_range.mpr hi) h2
  rw [e] at h
  exact h

/-- The inverse of a positive definite matrix is positive definite. -/
theorem posDef_inverse (n : Nat) (A B : Nat → K) (hpd : posDefMat n A)
    (hinv : isInverse n A B) : posDefMat n B := by
  intro w hw
  have hAB : ∀ a, a < n → matVec n A (matVec n B w) a = w a := by
    intro a ha
    unfold matVec
    simp only [Finset.mul_sum]
    rw [Finset.sum_comm]
    have e : ∀ b, b ∈ Finset.range n →
        ∑ c in Finset.range n, A (a * n + c) * (B (c * n + b) * w b)
          = (if a = b then 1 else 0) * w b := by
      intro b hb
      rw [← hinv a b ha (Finset.mem_range.mp hb), Finset.sum_mul]
      apply Finset.sum_congr rfl
      intro c _
      ring
    rw [Finset.sum_congr rfl e, Finset.sum_eq_single a]
    · simp
    · intro b _ hba
      rw [if_neg (fun h => hba h.symm), zero_mul]
    · intro h
      exact absurd (Finset.mem_range.mpr ha) h
  have hu : ∃ a, a < n ∧ matVec n B w a ≠ 0 := by
    by_contra hno
    have hz : ∀ a, a < n → matVec n B w a = 0 := by
      intro a ha
      by_contra hne
      exact hno ⟨a, ha, hne⟩
    obtain ⟨a, ha, hwa⟩ := hw
    apply hwa
    rw [← hAB a ha]
    unfold matVec
    apply Finset.sum_eq_zero
    intro b hb
    have := hz b (Finset.mem_range.mp hb)
    unfold matVec at this
    rw [this, mul_zero]
  have hq := hpd (matVec n B w) hu
  rw [quadForm_eq_dot] at hq
  have e : dotN n (matVec n B w) (matVec n A (matVec n B w)) = quadForm n B w := by
    rw [quadForm_eq_dot]
    unfold dotN
    apply Finset.sum_congr rfl
    intro a ha
    rw [hAB a (Finset.mem_range.mp ha), mul_comm]
  rw [e] at hq
  exact hq

/-- A matrix with a positive entry at `(i, i)`, zeros elsewhere in row `i` and column `i`,
and the entries of a positive definite matrix otherwise, is positive definite. -/
theorem posDef_modified (n i : Nat) (hi : i < n) (Hs H3 : Nat → K) (v0 : K) (hv0 : 0 < v0)
    (hpd : posDefMat n Hs)
    (hH3 : ∀ a b, a < n → b < n →
      H3 (a * n + b) = if a = i ∧ b = i then v0 else if a = i ∨ b = i then 0 else Hs (a * n + b)) :
    posDefMat n H3 := by
  intro v hv
  have e : quadForm n H3 v
      = v0 * (v i * v i) + quadForm n Hs (fun a => if a = i then 0 else v a) := by
    have term : ∀ a b, a < n → b < n →
        v a * H3 (a * n + b) * v b
          = (if a = i then (if b = i then v0 * (v i * v i) else 0) else 0)
            + (fun a => if a = i then 0 else v a) a * Hs (a * n + b)
              * (fun a => if a = i then 0 else v a) b := by
      intro a b ha hb
      rw [hH3 a b ha hb]
      by_cases h1 : a = i
      · by_cases h2 : b = i
        · subst h1
          subst h2
          simp only [and_self, if_true, zero_mul, add_zero]
          ring
        · simp only [h1, h2, and_false, if_false, true_or, if_true, mul_zero, zero_mul,
            add_zero]
      · by_cases h2 : b = i
        · simp only [h1, h2, false_and, if_false, or_true, if_true, mul_zero, zero_mul,
            add_zero]
        · simp only [h1, h2, false_and, if_false, or_self, zero_add]
    unfold quadForm
    have e1 : ∑ a in Finset.range n, ∑ b in Finset.range n, v a * H3 (a * n + b) * v b
        = ∑ a in Finset.range n, ∑ b in Finset.range n,
            ((if a = i then (if b = i then v0 * (v i * v i) else 0) else 0)
              + (fun a => if a = i then 0 else v a) a * Hs (a * n + b)
                * (fun a => if a = i then 0 else v a) b) := by
      apply Finset.sum_congr rfl
      intro a ha
      apply Finset.sum_congr rfl
      intro b hb
      exact term a b (Finset.mem_range.mp ha) (Finset.mem_range.mp hb)
    rw [e1]
    simp only [Finset.sum_add_distrib]
    congr 1
    rw [Finset.sum_eq_single i]
    · simp only [eq_self_iff_true, if_true, Finset.sum_ite_eq', Finset.mem_range, hi]
    · intro a _ ha
      simp only [ha, if_false, Finset.sum_const_zero]
    · intro h
      exact absurd (Finset.mem_range.mpr hi) h
  rw [e]
  have hsq : 0 ≤ v0 * (v i * v i) := mul_nonneg (le_of_lt hv0) (mul_self_nonneg _)
  by_cases hw : ∃ a, a < n ∧ (fun a => if a = i then 0 else v a) a ≠ 0
  · have := hpd _ hw
    linarith
  · have hvi : v i ≠ 0 := by
      obtain ⟨a, ha, hva⟩ := hv
      by_cases hai : a = i
      · rw [hai] at hva; exact hva
      · exfalso
        apply hw
        refine ⟨a, ha, ?_⟩
        simp only [hai, if_false]
        exact hva
    have hq : quadForm n Hs (fun a => if a = i then 0 else v a) = 0 := by
      unfold quadForm
      apply Finset.sum_eq_zero
      intro a ha
      apply Finset.sum_eq_zero
      intro b _
      have hz : (fun a => if a = i then 0 else v a) a = 0 := by
        by_contra hne
        exact hw ⟨a, Finset.mem_range.mp ha, hne⟩
      rw [hz, zero_mul, zero_mul]
    rw [hq, add_zero]
    exact mul_pos hv0 (mul_self_pos.mpr hvi)

/-- The inverse `R` of a matrix with `v0` at `(i, i)`, zeros elsewhere in row `i` and
column `i`, and the entries of `Hs` otherwise: `1 / v0` at `(i, i)`, zeros elsewhere in
row `i` and column `i`, and over the other indices the inverse of the block of `Hs`. -/
theorem inverse_of_modified (n i : Nat) (hi : i < n) (Hs H3 R : Nat → K) (v0 : K)
    (hv0 : v0 ≠ 0)
    (hH3 : ∀ a b, a < n → b < n →
      H3 (a * n + b) = if a = i ∧ b = i then v0 else if a = i ∨ b = i then 0 else Hs (a * n + b))
    (hinv : isInverse n H3 R) :
    (∀ b, b < n → R (i * n + b) = if i = b then 1 / v0 else 0) ∧
    (∀ a, a < n → R (a * n + i) = if a = i then 1 / v0 else 0) ∧
    (∀ a b, a < n → b < n → a ≠ i → b ≠ i →
      ∑ c in (Finset.range n).filter (fun c => c ≠ i), R (a * n + c) * Hs (c * n + b)
        = if a = b then 1 else 0) ∧
    (∀ a b, a < n → b < n → a ≠ i → b ≠ i →
      ∑ c in (Finset.range n).filter (fun c => c ≠ i), Hs (a * n + c) * R (c * n + b)
        = if a = b then 1 else 0) := by
  have hinv2 := isInverse_comm n H3 R hinv
  refine ⟨?_, ?_, ?_, ?_⟩
  · intro b hb
    have h := hinv i b hi hb
    rw [Finset.sum_eq_single i] at h
    · rw [hH3 i i hi hi, if_pos ⟨rfl, rfl⟩] at h
      by_cases hib : i = b
      · rw [if_pos hib] at h ⊢
        field_simp
        rw [mul_comm]
        exact h
      · rw [if_neg hib] at h ⊢
        rcases mul_eq_zero.mp h with h0 | h0
        · exact absurd h0 hv0
        · exact h0
    · intro c hc hci
      rw [hH3 i c hi (Finset.mem_range.mp hc), if_neg (fun h2 => hci h2.2),
        if_pos (Or.inl rfl), zero_mul]
    · intro h2
      exact absurd (Finset.mem_range.mpr hi) h2
  · intro a ha
    have h := hinv2 a i ha hi
    rw [Finset.sum_eq_single i] at h
    · rw [hH3 i i hi hi, if_pos ⟨rfl, rfl⟩] at h
      by_cases hai : a = i
      · rw [if_pos hai] at h ⊢
        field_simp
        exact h
      · rw [if_neg hai] at h ⊢
        rcases mul_eq_zero.mp h with h0 | h0
        · exact h0
        · exact absurd h0 hv0
    · intro c hc hci
      rw [hH3 c i (Finset.mem_range.mp hc) hi, if_neg (fun h2 => hci h2.1),
        if_pos (Or.inr rfl), mul_zero]
    · intro h2
      exact absurd (Finset.mem_range.mpr hi) h2
  · intro a b ha hb _ hbi
    rw [← hinv2 a b ha hb, Finset.sum_filter]
    apply Finset.sum_congr rfl
    intro c hc
    rw [hH3 c b (Finset.mem_range.mp hc) hb]
    by_cases hci : c = i
    · simp only [hci, hbi, and_false, if_false, true_or, if_true, mul_zero, ne_eq,
        not_true_eq_false]
    · simp only [hci, hbi, false_and, if_false, or_self, ne_eq, not_false_eq_true, if_true]
  · intro a b ha hb hai _
    rw [← hinv a b ha hb, Finset.sum_filter]
    apply Finset.sum_congr rfl
    intro c hc
    rw [hH3 a c ha (Finset.mem_range.mp hc)]
    by_cases hci : c = i
    · simp only [hci, hai, false_and, if_false, or_true, if_true, zero_mul, ne_eq,
        not_true_eq_false]
    · simp only [hci, hai, false_and, if_false, or_self, ne_eq, not_false_eq_true, if_true]

/-- In a call of `UpdateActiveSet` in which `i` is the only parameter that becomes
active, the inverse Hessian on return is the one at the call, modified for `i`. -/
theorem UpdateActiveSet_single (InvertMatrix : (Nat → K) → Nat → Nat → K)
    (x direct scale InvHess lb ub : Nat → K) (onbound : Nat → Bool) (n : Nat) (errn : Nat)
    (r : ACTIVESET K)
    (h : UpdateActiveSet InvertMatrix x direct scale InvHess lb ub onbound n errn = .ok r)
    (i : Nat) (hi : i < n) (hoff : onbound i = false)
    (hat : atBound x direct scale lb ub i)
    (hothers : ∀ j, j < n → j ≠ i → onbound j = true ∨ ¬ atBound x direct scale lb ub j) :
    r.InvHess = UpdateActiveSet_modify InvertMatrix InvHess n i := by
  unfold UpdateActiveSet at h
  have hn : 0 < n := lt_of_le_of_lt (Nat.zero_le i) hi
  simp only [hn, not_true_eq_false, if_false, Except.ok.injEq] at h
  have key : modifyInv InvertMatrix x direct scale InvHess lb ub onbound n i n r := by
    rw [← h]
    apply forLoop_induction (modifyInv InvertMatrix x direct scale InvHess lb ub onbound n i)
    · refine ⟨⟨fun i hi => absurd hi (Nat.not_lt_zero i), fun i _ => ⟨rfl, rfl⟩, ?_⟩, ?_⟩
      · simp
      · simp
    · intro k st hk hinv0
      obtain ⟨hinv, hH⟩ := hinv0
      have hdk := (hinv.2.1 k (le_refl k)).2
      have hok := (hinv.2.1 k (le_refl k)).1
      by_cases hc : atBound x direct scale lb ub k
      · have hc2 : (x k * scale k - lb k < BOUND_TOL ∧ st.direct k ≤ 0)
            ∨ (ub k - x k * scale k < BOUND_TOL ∧ st.direct k ≥ 0) := by
          rw [hdk]; exact hc
        simp only [hc2, if_true]
        constructor
        · apply activeSetInv_step x direct scale lb ub onbound k st _ hinv true
            (by simp [hc])
          · by_cases ho : st.onbound k = false <;> simp [ho]
          · by_cases ho : st.onbound k = false <;> simp [ho]
          · by_cases ho : st.onbound k = false <;> simp [ho]
        · by_cases ho : st.onbound k = false
          · have hki : k = i := by
              by_contra hne
              rcases hothers k hk hne with h1 | h1
              · rw [hok] at ho
                rw [h1] at ho
                cases ho
              · exact h1 hc
            subst hki
            simp only [ho, if_true, lt_irrefl, if_false, Nat.lt_succ_self] at hH ⊢
            rw [hH]
            rfl
          · have hki : k ≠ i := by
              intro hki
              apply ho
              rw [hok, hki]
              exact hoff
            have c : i < k + 1 ↔ i < k := by
              constructor
              · intro h1
                rcases Nat.lt_succ_iff_lt_or_eq.mp h1 with h2 | h2
                · exact h2
                · exact absurd h2.symm hki
              · exact Nat.lt_succ_of_lt
            simp only [ho, if_false, c]
            exact hH
      · have hc2 : ¬ ((x k * scale k - lb k < BOUND_TOL ∧ st.direct k ≤ 0)
            ∨ (ub k - x k * scale k < BOUND_TOL ∧ st.direct k ≥ 0)) := by
          rw [hdk]; exact hc
        simp only [hc2, if_false]
        constructor
        · exact activeSetInv_step x direct scale lb ub onbound k st _ hinv false
            (by simp [hc]) rfl (by simp) (by simp)
        · have hki : k ≠ i := by
            intro hki
            rw [hki] at hc
            exact hc hat
          have c : i < k + 1 ↔ i < k := by
            constructor
            · intro h1
              rcases Nat.lt_succ_iff_lt_or_eq.mp h1 with h2 | h2
              · exact h2
              · exact absurd h2.symm hki
            · exact Nat.lt_succ_of_lt
          simp only [c]
          exact hH
  have := key.2
  rw [if_pos hi] at this
  exact this

/-- C34: when `UpdateActiveSet` newly activates the parameter `i` of a positive definite
inverse Hessian, with `InvertMatrix` exact, the inverse Hessian it leaves has 0 at every
off-diagonal entry of row `i` and column `i` and `1 / |d|` at `(i, i)`, `d` being the
entry `(i, i)` before; over the other parameters it is the inverse of the block of the
Hessian before (the inverse of the inverse Hessian before); and it has an inverse.  This
is the matrix on return of a call in which `i` is the only parameter that becomes
active.  Symmetry of the matrix is not needed. -/
theorem UpdateActiveSet_modify_inverse (InvertMatrix : (Nat → K) → Nat → Nat → K)
    (InvHess : Nat → K) (n i : Nat) (hi : i < n) (hex : exactInversion InvertMatrix n)
    (hpd : posDefMat n InvHess) :
    (∀ j, j < n → j ≠ i →
      UpdateActiveSet_modify InvertMatrix InvHess n i (i * n + j) = 0 ∧
      UpdateActiveSet_modify InvertMatrix InvHess n i (j * n + i) = 0) ∧
    UpdateActiveSet_modify InvertMatrix InvHess n i (i * n + i) = 1 / |InvHess (i * n + i)| ∧
    (∃ Hs, isInverse n InvHess Hs ∧
      ∀ a b, a < n → b < n → a ≠ i → b ≠ i →
        ∑ c in (Finset.range n).filter (fun c => c ≠ i),
            UpdateActiveSet_modify InvertMatrix InvHess n i (a * n + c) * Hs (c * n + b)
          = (if a = b then 1 else 0) ∧
        ∑ c in (Finset.range n).filter (fun c => c ≠ i),
            Hs (a * n + c) * UpdateActiveSet_modify InvertMatrix InvHess n i (c * n + b)
          = (if a = b then 1 else 0)) ∧
    (∃ B, isInverse n (UpdateActiveSet_modify InvertMatrix InvHess n i) B) ∧
    (∀ (x direct scale lb ub : Nat → K) (onbound : Nat → Bool) (errn : Nat) (r : ACTIVESET K),
      UpdateActiveSet InvertMatrix x direct scale InvHess lb ub onbound n errn = .ok r →
      onbound i = false → atBound x direct scale lb ub i →
      (∀ j, j < n → j ≠ i → onbound j = true ∨ ¬ atBound x direct scale lb ub j) →
      r.InvHess = UpdateActiveSet_modify InvertMatrix InvHess n i) := by
  obtain ⟨Hs, hHs⟩ := posDef_has_inverse n InvHess hpd
  have hpdHs := posDef_inverse n InvHess Hs hpd hHs
  have hd := posDef_diag_pos n InvHess hpd i hi
  have habs : |InvHess (i * n + i)| = InvHess (i * n + i) := abs_of_pos hd
  have hH1 := hex InvHess Hs hHs
  have hH3 : ∀ a b, a < n → b < n →
      Function.update
          (forLoop n (fun j H =>
            Function.update (Function.update H (i * n + j) 0) (j * n + i) 0)
            (InvertMatrix InvHess n))
          (i * n + i) |InvHess (i * n + i)| (a * n + b)
        = if a = i ∧ b = i then |InvHess (i * n + i)|
          else if a = i ∨ b = i then 0 else Hs (a * n + b) := by
    intro a b ha hb
    rw [modified_entries n i hi (InvertMatrix InvHess n) _ a b ha hb, hH1 a b ha hb]
  have hv0 : (0 : K) < |InvHess (i * n + i)| := by rw [habs]; exact hd
  have hpd3 := posDef_modified n i hi Hs _ _ hv0 hpdHs hH3
  obtain ⟨R, hR⟩ := posDef_has_inverse n _ hpd3
  have hRe : ∀ a b, a < n → b < n →
      UpdateActiveSet_modify InvertMatrix InvHess n i (a * n + b) = R (a * n + b) :=
    hex _ R hR
  obtain ⟨s1, s2, s3, s4⟩ := inverse_of_modified n i hi Hs _ R _ (ne_of_gt hv0) hH3 hR
  refine ⟨?_, ?_, ⟨Hs, hHs, ?_⟩,
    ⟨Function.update
      (forLoop n (fun j H =>
        Function.update (Function.update H (i * n + j) 0) (j * n + i) 0)
        (InvertMatrix InvHess n))
      (i * n + i) |InvHess (i * n + i)|, ?_⟩, ?_⟩
  · intro j hj hji
    rw [hRe i j hi hj, hRe j i hj hi, s1 j hj, s2 j hj, if_neg (fun h => hji h.symm),
      if_neg hji]
    exact ⟨rfl, rfl⟩
  · rw [hRe i i hi hi, s1 i hi, if_pos rfl]
  · intro a b ha hb hai hbi
    constructor
    · rw [← s3 a b ha hb hai hbi]
      apply Finset.sum_congr rfl
      intro c hc
      rw [hRe a c ha (Finset.mem_range.mp (Finset.mem_filter.mp hc).1)]
    · rw [← s4 a b ha hb hai hbi]
      apply Finset.sum_congr rfl
      intro c hc
      rw [hRe c b (Finset.mem_range.mp (Finset.mem_filter.mp hc).1) hb]
  · intro a b ha hb
    rw [← isInverse_comm n _ R hR a b ha hb]
    apply Finset.sum_congr rfl
    intro c hc
    rw [hRe a c ha (Finset.mem_range.mp hc)]
  · intro x direct scale lb ub onbound errn r h hoff hat hothers
    exact UpdateActiveSet_single InvertMatrix x direct scale InvHess lb ub onbound n errn r h
      i hi hoff hat hothers

end inverse

section inverse_runs

/-- The formula with the determinant inverts every invertible 2 by 2 matrix. -/
theorem invertTwo_exact : exactInversion invertTwo 2 := by
  intro A B h a b ha hb
  have e1 := h 0 0 (by decide) (by decide)
  have e2 := h 0 1 (by decide) (by decide)
  have e3 := h 1 0 (by decide) (by decide)
  have e4 := h 1 1 (by decide) (by decide)
  simp only [Finset.sum_range_succ, Finset.sum_range_zero, zero_add] at e1 e2 e3 e4
  norm_num at e1 e2 e3 e4
  have hdet : (A 0 * A 3 - A 1 * A 2) * (B 0 * B 3 - B 1 * B 2) = 1 := by
    calc (A 0 * A 3 - A 1 * A 2) * (B 0 * B 3 - B 1 * B 2)
        = (A 0 * B 0 + A 1 * B 2) * (A 2 * B 1 + A 3 * B 3)
          - (A 0 * B 1 + A 1 * B 3) * (A 2 * B 0 + A 3 * B 2) := by ring
      _ = 1 := by rw [e1, e2, e3, e4]; ring
  have hne : A 0 * A 3 - A 1 * A 2 ≠ 0 := by
    intro h0
    rw [h0, zero_mul] at hdet
    exact zero_ne_one hdet
  have b0 : B 0 = A 3 / (A 0 * A 3 - A 1 * A 2) := by
    rw [eq_div_iff hne]
    calc B 0 * (A 0 * A 3 - A 1 * A 2)
        = A 3 * (A 0 * B 0 + A 1 * B 2) - A 1 * (A 2 * B 0 + A 3 * B 2) := by ring
      _ = A 3 := by rw [e1, e3]; ring
  have b1 : B 1 = -A 1 / (A 0 * A 3 - A 1 * A 2) := by
    rw [eq_div_iff hne]
    calc B 1 * (A 0 * A 3 - A 1 * A 2)
        = A 3 * (A 0 * B 1 + A 1 * B 3) - A 1 * (A 2 * B 1 + A 3 * B 3) := by ring
      _ = -A 1 := by rw [e2, e4]; ring
  have b2 : B 2 = -A 2 / (A 0 * A 3 - A 1 * A 2) := by
    rw [eq_div_iff hne]
    calc B 2 * (A 0 * A 3 - A 1 * A 2)
        = A 0 * (A 2 * B 0 + A 3 * B 2) - A 2 * (A 0 * B 0 + A 1 * B 2) := by ring
      _ = -A 2 := by rw [e3, e1]; ring
  have b3 : B 3 = A 0 / (A 0 * A 3 - A 1 * A 2) := by
    rw [eq_div_iff hne]
    calc B 3 * (A 0 * A 3 - A 1 * A 2)
        = A 0 * (A 2 * B 1 + A 3 * B 3) - A 2 * (A 0 * B 1 + A 1 * B 3) := by ring
      _ = A 0 := by rw [e4, e2]; ring
  interval_cases a <;> interval_cases b
  · show invertTwo A 2 0 = B 0
    rw [b0]; rfl
  · show invertTwo A 2 1 = B 1
    rw [b1]; rfl
  · show invertTwo A 2 2 = B 2
    rw [b2]; rfl
  · show invertTwo A 2 3 = B 3
    rw [b3]; rfl

/-- The matrix with rows `(2, 1)` and `(1, 2)` is positive definite. -/
theorem twoOneTwo_posDef : posDefMat 2 twoOneTwo := by
  intro v hv
  have e : quadForm 2 twoOneTwo v = v 0 * v 0 + v 1 * v 1 + (v 0 + v 1) * (v 0 + v 1) := by
    unfold quadForm twoOneTwo
    simp only [Finset.sum_range_succ, Finset.sum_range_zero, zero_add]
    norm_num
    ring
  rw [e]
  obtain ⟨a, ha, hva⟩ := hv
  have h0 := mul_self_nonneg (v 0)
  have h1 := mul_self_nonneg (v 1)
  have h2 := mul_self_nonneg (v 0 + v 1)
  interval_cases a
  · have := mul_self_pos.mpr hva
    linarith
  · have := mul_self_pos.mpr hva
    linarith

set_option maxRecDepth 1000000 in
/-- Witness for C34: with the exact inverse of 2 by 2 matrices, activating parameter 0 of
the inverse Hessian with rows `(2, 1)`, `(1, 2)` leaves the rows `(1/2, 0)`, `(0, 3/2)`:
`1/2 = 1/|2|`, and `3/2` is the inverse of the entry `2/3` of the Hessian before. -/
theorem UpdateActiveSet_modify_inverse_witness :
    exactInversion invertTwo 2 ∧ posDefMat 2 twoOneTwo ∧
    (List.range 4).map (invertTwo twoOneTwo 2) = [2 / 3, -1 / 3, -1 / 3, 2 / 3] ∧
    (List.range 4).map (UpdateActiveSet_modify invertTwo twoOneTwo 2 0) = [1 / 2, 0, 0, 3 / 2] ∧
    (∀ j, j < 2 → j ≠ 0 →
      UpdateActiveSet_modify invertTwo twoOneTwo 2 0 (0 * 2 + j) = 0 ∧
      UpdateActiveSet_modify invertTwo twoOneTwo 2 0 (j * 2 + 0) = 0) ∧
    UpdateActiveSet_modify invertTwo twoOneTwo 2 0 (0 * 2 + 0) = 1 / |twoOneTwo (0 * 2 + 0)| ∧
    (okValue noActiveSet.1 (UpdateActiveSet invertTwo edgeX edgeDirect unitScale twoOneTwo
      zeroLb oneUb noneActive 2 0)).InvHess 3 = 3 / 2 :=
  have h := UpdateActiveSet_modify_inverse invertTwo twoOneTwo 2 0 (by decide)
    invertTwo_exact twoOneTwo_posDef
  ⟨invertTwo_exact, twoOneTwo_posDef, by decide!, by decide!, h.1, h.2.1, by decide!⟩

end inverse_runs

end SLR
